import Mathlib

/-! Spreadsheet evaluation core (`src/main.cpp`): embedding and verification.

The development embeds the classes of `src/main.cpp` (`CPos`, the seventeen
`COperation` variants, `CCell`, `CSpreadsheet`, the binary codec) as Lean
definitions and proves properties of them.

Conventions of the embedding:

* `std::string` is a list of bytes, `int` is `Int` (signed overflow is undefined
  in C++ and is not given a meaning here), `size_t` is `Nat` written on 8 bytes.
* A `double` is its 64-bit pattern.  Comparison, negation and the constants
  `0.0` / `1.0` are computed on the pattern; the rounding arithmetic
  (`+ - * /`, `std::pow`) and `std::stod` are taken as parameters (`Platform`).
* `std::map<CPos, CCell>` is an association list; `find` is the first entry with
  an equal key, `operator[]`-assignment inserts in key order.
* The evaluator carries the sheet through every call, because
  `CCell::calculateCell` writes the `m_IsCalculated` flag of the cell, and it
  counts nested calls with a fuel argument; `CSpreadsheet.getValue` supplies
  `fuelBound sheet`, which is proved to be enough for every sheet.
-/

namespace Spreadsheet

/-! ## Bytes, doubles, values -/

abbrev Byte := Fin 256

abbrev Bytes := List Byte

/-- The bit pattern of an IEEE-754 binary64 value. -/
abbrev Double := Fin 18446744073709551616

namespace Double

def signBit : Nat := 9223372036854775808

def expMask : Nat := 9218868437227405312

/-- Magnitude bits (everything but the sign). -/
def mag (d : Double) : Nat := d.val % signBit

def isNeg (d : Double) : Bool := decide (signBit ≤ d.val)

def isNaN (d : Double) : Bool := decide (expMask < mag d)

/-- Position of a non-NaN value on the real line, up to a monotone map. -/
def key (d : Double) : Int := if isNeg d then - (mag d : Int) else (mag d : Int)

/-- C++ `a == b` on doubles. -/
def eq (a b : Double) : Bool := !isNaN a && !isNaN b && decide (key a = key b)

/-- C++ `a < b` on doubles. -/
def lt (a b : Double) : Bool := !isNaN a && !isNaN b && decide (key a < key b)

/-- C++ `a <= b` on doubles. -/
def le (a b : Double) : Bool := !isNaN a && !isNaN b && decide (key a ≤ key b)

/-- C++ unary minus: the sign bit is flipped. -/
def neg (d : Double) : Double :=
  ⟨(d.val + signBit) % 18446744073709551616, Nat.mod_lt _ (by decide)⟩

def zero : Double := ⟨0, by decide⟩

/-- The pattern of `1.0`. -/
def one : Double := ⟨4607182418800017408, by decide⟩

end Double

/-- What the program takes from its platform: the rounding arithmetic of
`double` and `std::stod` (`none` when it throws, otherwise the value and the
number of characters consumed). -/
structure Platform where
  add : Double → Double → Double
  sub : Double → Double → Double
  mul : Double → Double → Double
  div : Double → Double → Double
  pow : Double → Double → Double
  stod : Bytes → Option (Double × Nat)

/-- Embeds `CValue = std::variant<std::monostate, double, std::string>`. -/
inductive CValue where
  | undefined
  | number (d : Double)
  | text (s : Bytes)
  deriving DecidableEq, Repr

/-- Embeds `std::string::operator<`: lexicographic on unsigned bytes. -/
def strLt : Bytes → Bytes → Bool
  | [], [] => false
  | [], _ :: _ => true
  | _ :: _, [] => false
  | a :: as, b :: bs => if a < b then true else if b < a then false else strLt as bs

/-! ## Positions -/

/-- The class `CPos` (main.cpp 51-101). -/
structure CPos where
  m_Row : Int
  m_AbsRow : Bool := false
  m_Column : Int
  m_AbsColumn : Bool := false
  deriving DecidableEq, Repr

namespace CPos

/-- Embeds `operator<=>` returning `less`: lexicographic on `(m_Row, m_Column)`. -/
def less (a b : CPos) : Bool :=
  decide (a.m_Row < b.m_Row) || (decide (a.m_Row = b.m_Row) && decide (a.m_Column < b.m_Column))

/-- Embeds `operator<=>` returning `equal`: the key equivalence of the map. -/
def same (a b : CPos) : Bool :=
  decide (a.m_Row = b.m_Row) && decide (a.m_Column = b.m_Column)

end CPos

/-! ## Operations, cells, sheets -/

/-- The seventeen subclasses of `COperation`, with their payloads. -/
inductive COperation where
  | CAddition
  | CSubtraction
  | CMultiplication
  | CDivision
  | CPower
  | CNegation
  | CEqual
  | CNotEqual
  | CLessThan
  | CLessEqual
  | CGreaterThan
  | CGreaterEqual
  | CReference (m_Pos : CPos)
  | CNumber (m_Value : Double)
  | CString (m_Value : Bytes)
  | CValRange
  | CFuncCall
  deriving DecidableEq, Repr

/-- The class `CCell` (main.cpp 1136-1170). -/
structure CCell where
  m_Stack : List COperation := []
  m_IsCalculated : Bool := false
  deriving DecidableEq, Repr

/-- Embeds `std::map<CPos, CCell>`. -/
abbrev Sheet := List (CPos × CCell)

namespace Sheet

/-- Embeds `std::map::find`. -/
def find : Sheet → CPos → Option CCell
  | [], _ => none
  | (k, v) :: rest, pos => if k.same pos then some v else find rest pos

/-- Embeds `m_Sheet[pos] = cell`: the value of an existing key is replaced (the stored
key is kept), a new key is inserted in key order. -/
def assign : Sheet → CPos → CCell → Sheet
  | [], pos, cell => [(pos, cell)]
  | (k, v) :: rest, pos, cell =>
    if pos.less k then (pos, cell) :: (k, v) :: rest
    else if k.less pos then (k, v) :: assign rest pos cell
    else (k, cell) :: rest

/-- Writing `m_IsCalculated` of the cell that `find` returns. -/
def setFlag : Sheet → CPos → Bool → Sheet
  | [], _, _ => []
  | (k, v) :: rest, pos, b =>
    if k.same pos then (k, { v with m_IsCalculated := b }) :: rest
    else (k, v) :: setFlag rest pos b

/-- The keys are strictly increasing: the representation invariant of the map. -/
def Valid (s : Sheet) : Prop := s.Pairwise (fun a b => a.1.less b.1 = true)

end Sheet

/-! ## Evaluation -/

/-- Outcome of a run of the evaluator: a result, an index outside the program
(undefined behaviour of `stack[...]` in the source), or not enough fuel. -/
inductive Res (α : Type) where
  | ok (a : α)
  | outOfRange
  | outOfFuel
  deriving DecidableEq, Repr

/-- Result part of `CAddition::evaluate` (main.cpp 273-279). -/
def addValues (pf : Platform) (left right : CValue) : CValue :=
  match left, right with
  | .number l, .number r => .number (pf.add l r)
  | .text l, .text r => .text (l ++ r)
  | _, _ => .undefined

/-- Result part of `CSubtraction::evaluate`. -/
def subValues (pf : Platform) (left right : CValue) : CValue :=
  match left, right with
  | .number l, .number r => .number (pf.sub l r)
  | _, _ => .undefined

/-- Result part of `CMultiplication::evaluate`. -/
def mulValues (pf : Platform) (left right : CValue) : CValue :=
  match left, right with
  | .number l, .number r => .number (pf.mul l r)
  | _, _ => .undefined

/-- Result part of `CDivision::evaluate` (main.cpp 424-430). -/
def divValues (pf : Platform) (left right : CValue) : CValue :=
  match left, right with
  | .number l, .number r => if Double.eq r Double.zero then .undefined else .number (pf.div l r)
  | _, _ => .undefined

/-- Result part of `CPower::evaluate` (main.cpp 477-484). -/
def powValues (pf : Platform) (left right : CValue) : CValue :=
  match left, right with
  | .number l, .number r => if Double.eq r Double.zero then .number Double.one else .number (pf.pow l r)
  | _, _ => .undefined

/-- Result part of `CNegation::evaluate`. -/
def negValue (right : CValue) : CValue :=
  match right with
  | .number r => .number (Double.neg r)
  | _ => .undefined

/-- The `1.0` / `0.0` of the comparison nodes. -/
def truth (b : Bool) : CValue := if b then .number Double.one else .number Double.zero

/-- Result part of `CEqual::evaluate`. -/
def eqValues (left right : CValue) : CValue :=
  match left, right with
  | .number l, .number r => truth (Double.eq l r)
  | .text l, .text r => truth (decide (l = r))
  | _, _ => .undefined

/-- Result part of `CNotEqual::evaluate`. -/
def neValues (left right : CValue) : CValue :=
  match left, right with
  | .number l, .number r => truth (!Double.eq l r)
  | .text l, .text r => truth (!decide (l = r))
  | _, _ => .undefined

/-- Result part of `CLessThan::evaluate`. -/
def ltValues (left right : CValue) : CValue :=
  match left, right with
  | .number l, .number r => truth (Double.lt l r)
  | .text l, .text r => truth (strLt l r)
  | _, _ => .undefined

/-- Result part of `CLessEqual::evaluate`. -/
def leValues (left right : CValue) : CValue :=
  match left, right with
  | .number l, .number r => truth (Double.le l r)
  | .text l, .text r => truth (!strLt r l)
  | _, _ => .undefined

/-- Result part of `CGreaterThan::evaluate`. -/
def gtValues (left right : CValue) : CValue :=
  match left, right with
  | .number l, .number r => truth (Double.lt r l)
  | .text l, .text r => truth (strLt r l)
  | _, _ => .undefined

/-- Result part of `CGreaterEqual::evaluate`. -/
def geValues (left right : CValue) : CValue :=
  match left, right with
  | .number l, .number r => truth (Double.le r l)
  | .text l, .text r => truth (!strLt l r)
  | _, _ => .undefined

/-- What a node evaluation returns: the value, the sheet and the cursor. -/
abbrev EvalOut := Res (CValue × Sheet × Nat)

/-- The type of `COperation::evaluate` for a given fuel. -/
abbrev Evaluator := COperation → List COperation → Sheet → Nat → EvalOut

/-- The expression `stack[stack.size() - 1 - depth]->evaluate(stack, sheet, depth)`. -/
def operandWith (ev : Evaluator) (stack : List COperation) (sheet : Sheet) (depth : Nat) : EvalOut :=
  if depth < stack.length then
    match stack.get? (stack.length - 1 - depth) with
    | some op => ev op stack sheet depth
    | none => .outOfRange
  else .outOfRange

/-- Body shared by the eleven binary nodes after `depth++`: right operand, then
left operand, then the node's result. -/
def binaryWith (ev : Evaluator) (combine : CValue → CValue → CValue)
    (stack : List COperation) (sheet : Sheet) (depth : Nat) : EvalOut :=
  match operandWith ev stack sheet depth with
  | .ok (right_side, sheet1, depth1) =>
    match operandWith ev stack sheet1 depth1 with
    | .ok (left_side, sheet2, depth2) => .ok (combine left_side right_side, sheet2, depth2)
    | .outOfRange => .outOfRange
    | .outOfFuel => .outOfFuel
  | .outOfRange => .outOfRange
  | .outOfFuel => .outOfFuel

/-- Body of `CNegation::evaluate` after `depth++`. -/
def unaryWith (ev : Evaluator) (stack : List COperation) (sheet : Sheet) (depth : Nat) : EvalOut :=
  match operandWith ev stack sheet depth with
  | .ok (right_side, sheet1, depth1) => .ok (negValue right_side, sheet1, depth1)
  | .outOfRange => .outOfRange
  | .outOfFuel => .outOfFuel

/-- Embeds `CCell::calculateCell` (main.cpp 1174-1183) of the cell `cell` stored under `pos`, the nodes being
evaluated by `ev`.  Dereferencing `rbegin()` of an empty program is undefined
in the source. -/
def calculateWith (ev : Evaluator) (sheet : Sheet) (pos : CPos) (cell : CCell) : Res (CValue × Sheet) :=
  if cell.m_IsCalculated then .ok (.undefined, sheet)
  else
    match cell.m_Stack.getLast? with
    | none => .outOfRange
    | some root =>
      match ev root cell.m_Stack (sheet.setFlag pos true) 0 with
      | .ok (result, sheet1, _) => .ok (result, sheet1.setFlag pos false)
      | .outOfRange => .outOfRange
      | .outOfFuel => .outOfFuel

/-- Body of `CReference::evaluate` (main.cpp 1558-1569) after `depth++`. -/
def referenceWith (ev : Evaluator) (m_Pos : CPos) (sheet : Sheet) (depth : Nat) : EvalOut :=
  match sheet.find m_Pos with
  | some cell =>
    if cell.m_Stack.isEmpty then .ok (.undefined, sheet, depth)
    else
      match calculateWith ev sheet m_Pos cell with
      | .ok (result, sheet1) => .ok (result, sheet1, depth)
      | .outOfRange => .outOfRange
      | .outOfFuel => .outOfFuel
  | none => .ok (.undefined, sheet, depth)

/-- The virtual method `COperation::evaluate` of the node `op`; `fuel` bounds the
nesting of calls. -/
def evaluate (pf : Platform) : Nat → Evaluator
  | 0, _, _, _, _ => .outOfFuel
  | fuel + 1, op, stack, sheet, depth =>
    match op with
    | .CAddition => binaryWith (evaluate pf fuel) (addValues pf) stack sheet (depth + 1)
    | .CSubtraction => binaryWith (evaluate pf fuel) (subValues pf) stack sheet (depth + 1)
    | .CMultiplication => binaryWith (evaluate pf fuel) (mulValues pf) stack sheet (depth + 1)
    | .CDivision => binaryWith (evaluate pf fuel) (divValues pf) stack sheet (depth + 1)
    | .CPower => binaryWith (evaluate pf fuel) (powValues pf) stack sheet (depth + 1)
    | .CNegation => unaryWith (evaluate pf fuel) stack sheet (depth + 1)
    | .CEqual => binaryWith (evaluate pf fuel) eqValues stack sheet (depth + 1)
    | .CNotEqual => binaryWith (evaluate pf fuel) neValues stack sheet (depth + 1)
    | .CLessThan => binaryWith (evaluate pf fuel) ltValues stack sheet (depth + 1)
    | .CLessEqual => binaryWith (evaluate pf fuel) leValues stack sheet (depth + 1)
    | .CGreaterThan => binaryWith (evaluate pf fuel) gtValues stack sheet (depth + 1)
    | .CGreaterEqual => binaryWith (evaluate pf fuel) geValues stack sheet (depth + 1)
    | .CReference m_Pos => referenceWith (evaluate pf fuel) m_Pos sheet (depth + 1)
    | .CNumber m_Value => .ok (.number m_Value, sheet, depth + 1)
    | .CString m_Value => .ok (.text m_Value, sheet, depth + 1)
    | .CValRange => .ok (.undefined, sheet, depth)
    | .CFuncCall => .ok (.undefined, sheet, depth)

/-- Embeds `CCell::calculateCell` with nesting bounded by `fuel`. -/
def CCell.calculateCell (pf : Platform) (fuel : Nat) (sheet : Sheet) (pos : CPos) (cell : CCell) :
    Res (CValue × Sheet) :=
  calculateWith (evaluate pf fuel) sheet pos cell

/-- Fuel that suffices for every evaluation in `sheet`. -/
def fuelBound (sheet : Sheet) : Nat :=
  (sheet.map (fun e => e.2.m_Stack.length + 1)).sum + 1

/-- Embeds `CSpreadsheet::getValue` (main.cpp 1502-1512), returning the value and the sheet
afterwards. -/
def getValueFuel (pf : Platform) (fuel : Nat) (sheet : Sheet) (pos : CPos) : Res (CValue × Sheet) :=
  match sheet.find pos with
  | some cell =>
    if cell.m_Stack.isEmpty then .ok (.undefined, sheet)
    else CCell.calculateCell pf fuel sheet pos cell
  | none => .ok (.undefined, sheet)

/-- Embeds `CSpreadsheet::getValue` with the fuel of `fuelBound`. -/
def getValue (pf : Platform) (sheet : Sheet) (pos : CPos) : Res (CValue × Sheet) :=
  getValueFuel pf (fuelBound sheet) sheet pos

/-! ## Predicates on evaluators, expression trees -/

/-- The evaluator `ev` hands back the sheet it received and never moves the
cursor backwards. -/
def Restores (ev : Evaluator) : Prop :=
  ∀ op stack sheet depth v s d, ev op stack sheet depth = .ok (v, s, d) → s = sheet ∧ depth ≤ d

/-- Every finished run of `ev` is also a run of `ev2`. -/
def Extends (ev ev2 : Evaluator) : Prop :=
  ∀ op stack sheet depth, ev op stack sheet depth ≠ .outOfFuel →
    ev2 op stack sheet depth = ev op stack sheet depth

/-- Nodes (plus one per cell) of the cells whose flag is clear. -/
def weight (s : Sheet) : Nat :=
  (s.map (fun e => if e.2.m_IsCalculated then 0 else e.2.m_Stack.length + 1)).sum

/-- Fuel `n` is enough for `ev` on every in-range call whose measure is at most `n`. -/
def Funded (ev : Evaluator) (n : Nat) : Prop :=
  ∀ op stack sheet depth, depth < stack.length →
    weight sheet + (stack.length - depth) ≤ n → ev op stack sheet depth ≠ .outOfFuel

/-- The eleven binary nodes. -/
inductive BinOp where
  | add | sub | mul | div | pow | eq | ne | lt | le | gt | ge
  deriving DecidableEq, Repr

/-- The node class of a binary operator. -/
def BinOp.node : BinOp → COperation
  | .add => .CAddition
  | .sub => .CSubtraction
  | .mul => .CMultiplication
  | .div => .CDivision
  | .pow => .CPower
  | .eq => .CEqual
  | .ne => .CNotEqual
  | .lt => .CLessThan
  | .le => .CLessEqual
  | .gt => .CGreaterThan
  | .ge => .CGreaterEqual

/-- The result of a binary node on a left and a right value. -/
def BinOp.apply (pf : Platform) : BinOp → CValue → CValue → CValue
  | .add => addValues pf
  | .sub => subValues pf
  | .mul => mulValues pf
  | .div => divValues pf
  | .pow => powValues pf
  | .eq => eqValues
  | .ne => neValues
  | .lt => ltValues
  | .le => leValues
  | .gt => gtValues
  | .ge => geValues

/-- Expression trees.  A function call keeps the nodes pushed for its
arguments as they are: the `CFuncCall` node records no argument count. -/
inductive Expr where
  | num (d : Double)
  | str (s : Bytes)
  | ref (p : CPos)
  | range
  | func (args : List COperation)
  | neg (e : Expr)
  | bin (op : BinOp) (l r : Expr)
  deriving DecidableEq, Repr

namespace Expr

/-- Post-order serialisation: left operand, right operand, operator. -/
def program : Expr → List COperation
  | num d => [.CNumber d]
  | str s => [.CString s]
  | ref p => [.CReference p]
  | range => [.CValRange]
  | func args => args ++ [.CFuncCall]
  | neg e => program e ++ [.CNegation]
  | bin op l r => program l ++ program r ++ [op.node]

/-- Trees without `Range` and `Func` nodes. -/
def plain : Expr → Bool
  | num _ => true
  | str _ => true
  | ref _ => true
  | range => false
  | func _ => false
  | neg e => plain e
  | bin _ l r => plain l && plain r

/-- Positions of the `Ref` leaves. -/
def refs : Expr → List CPos
  | ref p => [p]
  | neg e => refs e
  | bin _ l r => refs l ++ refs r
  | _ => []

end Expr

/-- Recursive evaluation of a tree, as the specification words it: leaves
yield their literal, a `Ref` leaf looks its target up and delegates to the
evaluation of that cell, a binary node evaluates its right operand, then its
left operand, and applies the operator as (left op right). -/
def evalExpr (pf : Platform) (fuel : Nat) : Sheet → Expr → Res (CValue × Sheet)
  | sheet, .num d => .ok (.number d, sheet)
  | sheet, .str s => .ok (.text s, sheet)
  | sheet, .ref p => getValueFuel pf fuel sheet p
  | sheet, .range => .ok (.undefined, sheet)
  | sheet, .func _ => .ok (.undefined, sheet)
  | sheet, .neg e =>
    match evalExpr pf fuel sheet e with
    | .ok (v, sheet1) => .ok (negValue v, sheet1)
    | .outOfRange => .outOfRange
    | .outOfFuel => .outOfFuel
  | sheet, .bin op l r =>
    match evalExpr pf fuel sheet r with
    | .ok (rv, sheet1) =>
      match evalExpr pf fuel sheet1 l with
      | .ok (lv, sheet2) => .ok (op.apply pf lv rv, sheet2)
      | .outOfRange => .outOfRange
      | .outOfFuel => .outOfFuel
    | .outOfRange => .outOfRange
    | .outOfFuel => .outOfFuel

/-- Evaluation of the cell under `pos` when its program is read as the tree
`e`: the re-entry flag is tested, set around the evaluation of the tree, and
cleared. -/
def treeValue (pf : Platform) (sheet : Sheet) (pos : CPos) (e : Expr) : Res (CValue × Sheet) :=
  match sheet.find pos with
  | some cell =>
    if cell.m_IsCalculated then .ok (.undefined, sheet)
    else
      match evalExpr pf (fuelBound sheet) (sheet.setFlag pos true) e with
      | .ok (v, sheet1) => .ok (v, sheet1.setFlag pos false)
      | .outOfRange => .outOfRange
      | .outOfFuel => .outOfFuel
  | none => .ok (.undefined, sheet)

/-- Attach the cursor to the outcome of a tree evaluation. -/
def Res.withDepth (r : Res (CValue × Sheet)) (d : Nat) : EvalOut :=
  match r with
  | .ok (v, s) => .ok (v, s, d)
  | .outOfRange => .outOfRange
  | .outOfFuel => .outOfFuel

/-- Every flag of the sheet is clear. -/
def AllClear (s : Sheet) : Prop := ∀ e ∈ s, e.2.m_IsCalculated = false

/-- The cursor `d` points at a `CValRange` or `CFuncCall` node of `stack`: these
two nodes do not advance it. -/
def Stuck (stack : List COperation) (d : Nat) : Prop :=
  d < stack.length ∧
    (stack.get? (stack.length - 1 - d) = some .CValRange ∨
      stack.get? (stack.length - 1 - d) = some .CFuncCall)

/-- Every non-empty program of the sheet ends with the postfix form of an
expression tree (nodes left by earlier literals may precede it). -/
def WellFormed (s : Sheet) : Prop :=
  ∀ entry ∈ s, entry.2.m_Stack = [] ∨ ∃ pre e, entry.2.m_Stack = pre ++ Expr.program e

/-- Relation `RefEdge s a b`: the cell stored under `a` has a program ending with the
postfix form of a tree one of whose `Ref` leaves addresses `b`. -/
def RefEdge (s : Sheet) (a b : CPos) : Prop :=
  ∃ cell pre e q, s.find a = some cell ∧ cell.m_Stack = pre ++ Expr.program e ∧
    q ∈ e.refs ∧ q.same b = true

/-- The position lies on a reference cycle. -/
def OnCycle (s : Sheet) (p : CPos) : Prop := Relation.TransGen (RefEdge s) p p

/-- The position leads, through references, to a reference cycle. -/
def Doomed (s : Sheet) (a : CPos) : Prop :=
  ∃ c, Relation.ReflTransGen (RefEdge s) a c ∧ Relation.TransGen (RefEdge s) c c

/-- Relation `RefStep s a b`: the program stored under `a` has a `CReference` node that
addresses `b`. -/
def RefStep (s : Sheet) (a b : CPos) : Prop :=
  ∃ cell q, s.find a = some cell ∧ COperation.CReference q ∈ cell.m_Stack ∧ q.same b = true

/-- Position `q` is `p` or is reachable from `p` by following `Ref` nodes. -/
def Reach (s : Sheet) (p q : CPos) : Prop := Relation.ReflTransGen (RefStep s) p q

/-- The value part of an outcome of `getValue`. -/
def Res.value : Res (CValue × Sheet) → Res CValue
  | .ok (v, _) => .ok v
  | .outOfRange => .outOfRange
  | .outOfFuel => .outOfFuel

/-- The value and cursor of an outcome of a node evaluation. -/
def dropSheet : EvalOut → Res (CValue × Nat)
  | .ok (v, _, d) => .ok (v, d)
  | .outOfRange => .outOfRange
  | .outOfFuel => .outOfFuel

/-- The two sheets hold the same cell, or no cell, at every position of `R`. -/
def Agree (R : CPos → Prop) (s1 s2 : Sheet) : Prop := ∀ q, R q → s1.find q = s2.find q

/-- The positions addressed by the programs stored at positions of `R` are in `R`. -/
def Closed (R : CPos → Prop) (s : Sheet) : Prop :=
  ∀ a cell q, R a → s.find a = some cell → COperation.CReference q ∈ cell.m_Stack → R q

/-- On sheets that agree on `R`, `ev` computes the same value and cursor. -/
def Lock (R : CPos → Prop) (ev : Evaluator) : Prop :=
  ∀ op stack s1 s2 depth, Agree R s1 s2 → Closed R s1 →
    (∀ q, COperation.CReference q ∈ stack → R q) → (∀ q, op = COperation.CReference q → R q) →
    dropSheet (ev op stack s1 depth) = dropSheet (ev op stack s2 depth)

instance (s : Sheet) : Decidable (AllClear s) := by
  unfold AllClear
  infer_instance

/-! ## Position literals (`CPos::CPos(std::string_view)`) -/

/-- Embeds `std::isalpha` in the "C" locale. -/
def isAlpha (c : Byte) : Bool := (65 ≤ c.val && c.val ≤ 90) || (97 ≤ c.val && c.val ≤ 122)

/-- Embeds `std::isdigit`. -/
def isDigit (c : Byte) : Bool := 48 ≤ c.val && c.val ≤ 57

/-- Embeds `std::toupper` in the "C" locale, as an `int`. -/
def toUpper (c : Byte) : Int := if 97 ≤ c.val ∧ c.val ≤ 122 then (c.val : Int) - 32 else (c.val : Int)

/-- The value that a computation in the 32-bit type `int` leaves for the exact
result `i`: `i` itself when it lies in the range of `int`, and otherwise the
number of that range that differs from `i` by a multiple of `2 ^ 32` (the
two's complement result of an overflow). -/
def wrapInt (i : Int) : Int := (i + 2147483648) % 4294967296 - 2147483648

/-- The loop of `CPos::convertColumn` (main.cpp 156-165), started from `column`;
`column` is an `int`, so every assignment to it is taken through `wrapInt`. -/
def convertColumnFrom : Int → Bytes → Option Int
  | column, [] => some column
  | column, ch :: rest =>
    if isAlpha ch then convertColumnFrom (wrapInt (column * 26 + (toUpper ch - 65 + 1))) rest
    else none

/-- Embeds `CPos::convertColumn`, which computes in `int`; `none` when it throws. -/
def CPos.convertColumn (columnStr : Bytes) : Option Int :=
  (convertColumnFrom 0 columnStr).map (fun column => wrapInt (column - 1))

/-- Decimal value of a run of digits. -/
def decimalFrom : Nat → Bytes → Nat
  | acc, [] => acc
  | acc, ch :: rest => decimalFrom (acc * 10 + (ch.val - 48)) rest

/-- Embeds `std::stoi` on a non-empty run of digits; `none` when the value does not
fit an `int` (it throws `std::out_of_range`). -/
def stoiDigits (digits : Bytes) : Option Int :=
  if decimalFrom 0 digits ≤ 2147483647 then some (decimalFrom 0 digits : Int) else none

/-- The constructor `CPos::CPos(std::string_view)` (main.cpp 105-153); `none` when it
throws. -/
def CPos.parse (str : Bytes) : Option CPos :=
  let absColumn := str.head? = some 36
  let s1 := if absColumn then str.tail else str
  let letters := s1.takeWhile isAlpha
  let s2 := s1.dropWhile isAlpha
  if letters.isEmpty then none
  else
    match CPos.convertColumn letters with
    | none => none
    | some column =>
      let absRow := s2.head? = some 36
      let s3 := if absRow then s2.tail else s2
      let digits := s3.takeWhile isDigit
      let s4 := s3.dropWhile isDigit
      if digits.isEmpty then none
      else
        match stoiDigits digits with
        | none => none
        | some row =>
          if row < 0 then none
          else if s4.isEmpty then
            some { m_Row := row, m_AbsRow := decide absRow, m_Column := column,
                   m_AbsColumn := decide absColumn }
          else none

/-! ## The expression builder and `setCell` -/

/-- The calls an expression parser makes on a `CExprBuilder`. -/
inductive Callback where
  | opAdd | opSub | opMul | opDiv | opPow | opNeg
  | opEq | opNe | opLt | opLe | opGt | opGe
  | valNumber (val : Double)
  | valString (val : Bytes)
  | valReference (val : Bytes)
  | valRange (val : Bytes)
  | funcCall (fnName : Bytes) (paramCount : Int)
  deriving DecidableEq, Repr

/-- One callback of `CMyExpressionBuilder` (main.cpp 1312-1378) on its `m_Stack`; `none` when the
callback throws (the position literal of `valReference` is malformed). -/
def CMyExpressionBuilder.call (m_Stack : List COperation) : Callback → Option (List COperation)
  | .opAdd => some (m_Stack ++ [.CAddition])
  | .opSub => some (m_Stack ++ [.CSubtraction])
  | .opMul => some (m_Stack ++ [.CMultiplication])
  | .opDiv => some (m_Stack ++ [.CDivision])
  | .opPow => some (m_Stack ++ [.CPower])
  | .opNeg => some (m_Stack ++ [.CNegation])
  | .opEq => some (m_Stack ++ [.CEqual])
  | .opNe => some (m_Stack ++ [.CNotEqual])
  | .opLt => some (m_Stack ++ [.CLessThan])
  | .opLe => some (m_Stack ++ [.CLessEqual])
  | .opGt => some (m_Stack ++ [.CGreaterThan])
  | .opGe => some (m_Stack ++ [.CGreaterEqual])
  | .valNumber val => some (m_Stack ++ [.CNumber val])
  | .valString val => some (m_Stack ++ [.CString val])
  | .valReference val => (CPos.parse val).map (fun p => m_Stack ++ [.CReference p])
  | .valRange _ => some (m_Stack ++ [.CValRange])
  | .funcCall _ _ => some (m_Stack ++ [.CFuncCall])

/-- The builder driven through a sequence of callbacks. -/
def CMyExpressionBuilder.run : List COperation → List Callback → Option (List COperation)
  | m_Stack, [] => some m_Stack
  | m_Stack, c :: rest =>
    match CMyExpressionBuilder.call m_Stack c with
    | some next => CMyExpressionBuilder.run next rest
    | none => none

/-- The external `parseExpression`: the callbacks it makes on the builder for a
given text, and whether it then returns (`true`) or throws (`false`). -/
abbrev ExprParser := Bytes → List Callback × Bool

/-- Embeds `parseExpression(contents, builder)` followed by `builder.getStack()`;
`none` when an exception leaves `parseExpression`. -/
def parseProgram (parser : ExprParser) (contents : Bytes) : Option (List COperation) :=
  match CMyExpressionBuilder.run [] (parser contents).1 with
  | some stack => if (parser contents).2 then some stack else none
  | none => none

/-- The cell `m_Sheet[pos]` refers to: the stored one, or a fresh `CCell`. -/
def Sheet.slot (s : Sheet) (pos : CPos) : CCell := (s.find pos).getD {}

/-- Embeds `CSpreadsheet::setCell` (main.cpp 1471-1500): the returned flag and the sheet
afterwards. -/
def setCell (pf : Platform) (parser : ExprParser) (sheet : Sheet) (pos : CPos) (contents : Bytes) :
    Bool × Sheet :=
  if contents.head? = some 61 then
    match parseProgram parser contents with
    | some stack => (true, sheet.assign pos { sheet.slot pos with m_Stack := stack })
    | none => (false, sheet)
  else
    match pf.stod contents with
    | some (numericValue, idx) =>
      if idx = contents.length then
        (true, sheet.assign pos
          { sheet.slot pos with m_Stack := (sheet.slot pos).m_Stack ++ [.CNumber numericValue] })
      else
        (true, sheet.assign pos
          { sheet.slot pos with m_Stack := (sheet.slot pos).m_Stack ++ [.CString contents] })
    | none =>
      (true, sheet.assign pos
        { sheet.slot pos with m_Stack := (sheet.slot pos).m_Stack ++ [.CString contents] })

/-! ## `copyRect` -/

/-- Embeds `CReference::setCPos` (main.cpp 1575-1580) on the position of the node. -/
def CPos.shift (p : CPos) (rowOffset columnOffset : Int) : CPos :=
  { p with
    m_Row := if p.m_AbsRow then p.m_Row else p.m_Row + rowOffset
    m_Column := if p.m_AbsColumn then p.m_Column else p.m_Column + columnOffset }

/-- Embeds `clone()` of a node, followed by `setCPos` when the clone is a `CReference`. -/
def COperation.cloneShift (rowOffset columnOffset : Int) : COperation → COperation
  | .CReference m_Pos => .CReference (m_Pos.shift rowOffset columnOffset)
  | op => op

/-- One pass of the inner loop body of `copyRect` for the offsets `x`, `y`. -/
def copyStep (m_Sheet : Sheet) (dst src : CPos) (newSheet : Sheet) (x y : Nat) : Sheet :=
  let srcPos : CPos := { m_Row := src.m_Row + y, m_Column := src.m_Column + x }
  let dstPos : CPos := { m_Row := dst.m_Row + y, m_Column := dst.m_Column + x }
  match m_Sheet.find srcPos with
  | some cell =>
    newSheet.assign dstPos
      { newSheet.slot dstPos with
        m_Stack := cell.m_Stack.map
          (COperation.cloneShift (dst.m_Row - src.m_Row) (dst.m_Column - src.m_Column)) }
  | none => newSheet.assign dstPos { newSheet.slot dstPos with m_Stack := [] }

/-- The two nested loops of `copyRect` that fill `newSheet`. -/
def copyStage (m_Sheet : Sheet) (dst src : CPos) (w h : Int) : Sheet :=
  (List.range w.toNat).foldl
    (fun acc x => (List.range h.toNat).foldl (fun acc2 y => copyStep m_Sheet dst src acc2 x y) acc)
    []

/-- The final loop of `copyRect`: every staged cell is moved into the sheet. -/
def mergeInto (m_Sheet : Sheet) (newSheet : Sheet) : Sheet :=
  newSheet.foldl (fun acc e => acc.assign e.1 e.2) m_Sheet

/-- Embeds `CSpreadsheet::copyRect` (main.cpp 1514-1552). -/
def copyRect (m_Sheet : Sheet) (dst src : CPos) (w h : Int) : Sheet :=
  mergeInto m_Sheet (copyStage m_Sheet dst src w h)

/-! ## The binary codec -/

/-- The byte `n mod 256`. -/
def byteOf (n : Nat) : Byte := ⟨n % 256, Nat.mod_lt _ (by decide)⟩

/-- The `k` low bytes of `n`, least significant first. -/
def leBytes : Nat → Nat → Bytes
  | 0, _ => []
  | k + 1, n => byteOf n :: leBytes k (n / 256)

/-- The number whose little-endian bytes are given. -/
def ofLE : Bytes → Nat
  | [] => 0
  | b :: rest => b.val + 256 * ofLE rest

/-- The four bytes of an `int` (two's complement). -/
def intBytes (i : Int) : Bytes := leBytes 4 (i % 4294967296).toNat

/-- The `int` stored in four bytes. -/
def intOfBytes (bs : Bytes) : Int :=
  if ofLE bs < 2147483648 then (ofLE bs : Int) else (ofLE bs : Int) - 4294967296

/-- The eight bytes of a `double`. -/
def doubleBytes (d : Double) : Bytes := leBytes 8 d.val

/-- The `double` stored in eight bytes. -/
def doubleOfBytes (bs : Bytes) : Double :=
  ⟨ofLE bs % 18446744073709551616, Nat.mod_lt _ (by decide)⟩

/-- A `std::ostream`: the bytes written so far and `good()`. -/
structure OStream where
  data : Bytes := []
  good : Bool := true
  deriving DecidableEq, Repr

/-- Embeds `os.write(p, n)`: nothing is written once the stream is not good. -/
def OStream.write (os : OStream) (bs : Bytes) : OStream :=
  if os.good then { os with data := os.data ++ bs } else os

/-- A `std::istream`: the bytes not yet read and `good()`. -/
structure IStream where
  data : Bytes
  good : Bool := true
  deriving DecidableEq, Repr

/-- Embeds `is.read(p, n)` into a buffer that held `old`: the new content of the buffer
and the stream.  A short read stores the bytes that were left and sets
`eofbit | failbit`; on a stream that is not good nothing is stored. -/
def IStream.read (is : IStream) (n : Nat) (old : Bytes) : Bytes × IStream :=
  if is.good then
    if n ≤ is.data.length then (is.data.take n, { is with data := is.data.drop n })
    else ((is.data ++ old.drop is.data.length).take n, { data := [], good := false })
  else (old, is)

/-- The content of an uninitialised buffer of `n` bytes, cut from `junk`. -/
def junkBuf (junk : Bytes) (n : Nat) : Bytes := (junk ++ List.replicate n 0).take n

/-- Embeds `CPos::saveBinary` (main.cpp 171-179): the returned flag and the stream. -/
def CPos.saveBinary (p : CPos) (os : OStream) : Bool × OStream :=
  let os1 := os.write (intBytes p.m_Row)
  let os2 := os1.write (intBytes p.m_Column)
  let flags : Nat := (if p.m_AbsRow then 1 else 0) + 2 * (if p.m_AbsColumn then 1 else 0)
  let os3 := os2.write [byteOf flags]
  (os3.good, os3)

/-- Embeds `CPos::loadBinary` (main.cpp 181-189) on a `CPos` whose `int` fields and local `flags` hold
`junk`: the position read, the returned flag, the stream. -/
def CPos.loadBinary (junk : Bytes) (is : IStream) : CPos × Bool × IStream :=
  let r := is.read 4 (junkBuf junk 4)
  let c := r.2.read 4 (junkBuf junk 4)
  let f := c.2.read 1 (junkBuf junk 1)
  let flags : Nat := (f.1.headD 0).val
  ({ m_Row := intOfBytes r.1, m_AbsRow := decide (flags % 2 = 1),
     m_Column := intOfBytes c.1, m_AbsColumn := decide (flags / 2 % 2 = 1) },
   f.2.good, f.2)

/-- Embeds `getTypeId` of the node classes. -/
def COperation.getTypeId : COperation → Int
  | .CAddition => 1
  | .CSubtraction => 2
  | .CMultiplication => 3
  | .CDivision => 4
  | .CPower => 5
  | .CNegation => 6
  | .CEqual => 7
  | .CNotEqual => 8
  | .CLessThan => 9
  | .CLessEqual => 10
  | .CGreaterThan => 11
  | .CGreaterEqual => 12
  | .CReference _ => 13
  | .CNumber _ => 14
  | .CString _ => 15
  | .CValRange => 16
  | .CFuncCall => 17

/-- Embeds `saveBinary` of the node classes. -/
def COperation.saveBinary (op : COperation) (os : OStream) : Bool × OStream :=
  match op with
  | .CReference m_Pos => ((m_Pos.saveBinary os).2.good, (m_Pos.saveBinary os).2)
  | .CNumber m_Value => ((os.write (doubleBytes m_Value)).good, os.write (doubleBytes m_Value))
  | .CString m_Value =>
    (((os.write (leBytes 8 m_Value.length)).write m_Value).good,
     (os.write (leBytes 8 m_Value.length)).write m_Value)
  | _ => (os.good, os)

/-- The loop of `CCell::saveBinary` over the nodes. -/
def saveNodes : List COperation → OStream → Bool × OStream
  | [], os => (true, os)
  | op :: rest, os =>
    let os1 := os.write (intBytes op.getTypeId)
    if (op.saveBinary os1).1 then saveNodes rest (op.saveBinary os1).2
    else (false, (op.saveBinary os1).2)

/-- Embeds `CCell::saveBinary` (main.cpp 1185-1199).  The byte written for
`m_IsCalculated` is 1 for a set flag and 0 for a clear one, the two values of a
`bool`. -/
def CCell.saveBinary (cell : CCell) (os : OStream) : Bool × OStream :=
  let os1 := os.write (leBytes 8 cell.m_Stack.length)
  if (saveNodes cell.m_Stack os1).1 then
    (true, (saveNodes cell.m_Stack os1).2.write [byteOf (if cell.m_IsCalculated then 1 else 0)])
  else (false, (saveNodes cell.m_Stack os1).2)

/-- The loop of `CSpreadsheet::save` over the map. -/
def saveEntries : Sheet → OStream → Bool × OStream
  | [], os => (true, os)
  | (pos, cell) :: rest, os =>
    if (pos.saveBinary os).1 then
      if (cell.saveBinary (pos.saveBinary os).2).1 then
        saveEntries rest (cell.saveBinary (pos.saveBinary os).2).2
      else (false, (cell.saveBinary (pos.saveBinary os).2).2)
    else (false, (pos.saveBinary os).2)

/-- Embeds `CSpreadsheet::save` (main.cpp 1461-1469). -/
def save (m_Sheet : Sheet) (os : OStream) : Bool × OStream :=
  saveEntries m_Sheet (os.write (leBytes 8 m_Sheet.length))

/-- Embeds `COperation::createOperationFromType` (main.cpp 1601-1641); `none` is the null pointer.  The
payloads of the fresh nodes are default-constructed. -/
def COperation.createOperationFromType (junk : Bytes) (typeId : Int) : Option COperation :=
  if typeId = 1 then some .CAddition
  else if typeId = 2 then some .CSubtraction
  else if typeId = 3 then some .CMultiplication
  else if typeId = 4 then some .CDivision
  else if typeId = 5 then some .CPower
  else if typeId = 6 then some .CNegation
  else if typeId = 7 then some .CEqual
  else if typeId = 8 then some .CNotEqual
  else if typeId = 9 then some .CLessThan
  else if typeId = 10 then some .CLessEqual
  else if typeId = 11 then some .CGreaterThan
  else if typeId = 12 then some .CGreaterEqual
  else if typeId = 13 then
    some (.CReference { m_Row := intOfBytes (junkBuf junk 4), m_Column := intOfBytes (junkBuf junk 4) })
  else if typeId = 14 then some (.CNumber (doubleOfBytes (junkBuf junk 8)))
  else if typeId = 15 then some (.CString [])
  else if typeId = 16 then some .CValRange
  else if typeId = 17 then some .CFuncCall
  else none

/-- Embeds `loadBinary` of the node classes: the node afterwards, the returned flag,
the stream.  In `CString::loadBinary` the call `m_Value.resize(size)` is taken to
succeed: an announced size that exceeds the rest of the stream ends in a short
read.  (A size that the allocator refuses makes `resize` throw, and the
exception leaves `load`; that outcome is outside this embedding.) -/
def COperation.loadBinary (junk : Bytes) (op : COperation) (is : IStream) :
    COperation × Bool × IStream :=
  match op with
  | .CReference _ =>
    (.CReference (CPos.loadBinary junk is).1, (CPos.loadBinary junk is).2.1,
      (CPos.loadBinary junk is).2.2)
  | .CNumber m_Value =>
    let r := is.read 8 (doubleBytes m_Value)
    (.CNumber (doubleOfBytes r.1), r.2.good, r.2)
  | .CString _ =>
    let sz := is.read 8 (junkBuf junk 8)
    let size := ofLE sz.1
    let r := sz.2.read size (List.replicate size 0)
    (.CString r.1, r.2.good, r.2)
  | other => (other, is.good, is)

/-- The loop of `CCell::loadBinary` with `count` iterations left; `none` is
`return false`. -/
def loadNodes (junk : Bytes) : Nat → List COperation → IStream → Option (List COperation × IStream)
  | 0, m_Stack, is => some (m_Stack, is)
  | count + 1, m_Stack, is =>
    let t := is.read 4 (junkBuf junk 4)
    match COperation.createOperationFromType junk (intOfBytes t.1) with
    | none => none
    | some op =>
      if (op.loadBinary junk t.2).2.1 then
        loadNodes junk count (m_Stack ++ [(op.loadBinary junk t.2).1]) (op.loadBinary junk t.2).2.2
      else none

/-- Embeds `CCell::loadBinary` (main.cpp 1644-1662) on a fresh `CCell`; the local `stackSize` and `typeId`
hold `junk` before they are read.  `none` is `return false`.  The byte read into
the `bool` `m_IsCalculated` is kept as the truth value that `if (m_IsCalculated)`
tests, set for every byte other than 0; a byte other than 0 and 1 is not a value
of `bool`, and the embedding does not tell it from 1. -/
def CCell.loadBinary (junk : Bytes) (is : IStream) : Option (CCell × IStream) :=
  let sz := is.read 8 (junkBuf junk 8)
  match loadNodes junk (ofLE sz.1) [] sz.2 with
  | none => none
  | some (m_Stack, is1) =>
    let g := is1.read 1 [0]
    some ({ m_Stack := m_Stack, m_IsCalculated := decide ((g.1.headD 0).val ≠ 0) }, g.2)

/-- The loop of `CSpreadsheet::load` with `count` iterations left; `none` is
`return false`. -/
def loadEntries (junk : Bytes) : Nat → Sheet → IStream → Option Sheet
  | 0, newSheet, _ => some newSheet
  | count + 1, newSheet, is =>
    if (CPos.loadBinary junk is).2.1 then
      match CCell.loadBinary junk (CPos.loadBinary junk is).2.2 with
      | some (cell, is1) =>
        loadEntries junk count (newSheet.assign (CPos.loadBinary junk is).1 cell) is1
      | none => none
    else none

/-- Embeds `CSpreadsheet::load` (main.cpp 1447-1459): the returned flag and the sheet afterwards.  `junk` is
the content of the uninitialised locals the function reads into. -/
def load (junk : Bytes) (m_Sheet : Sheet) (is : IStream) : Bool × Sheet :=
  let sz := is.read 8 (junkBuf junk 8)
  if sz.2.good then
    match loadEntries junk (ofLE sz.1) [] sz.2 with
    | some newSheet => (true, newSheet)
    | none => (false, m_Sheet)
  else (false, m_Sheet)

/-! ## A platform for concrete examples -/

/-- Number of halvings that bring `n` below 2, at most `fuel`. -/
def log2Fuel : Nat → Nat → Nat
  | 0, _ => 0
  | fuel + 1, n => if n < 2 then 0 else log2Fuel fuel (n / 2) + 1

/-- The pattern of the double equal to the natural number `n`, for `n < 2^53`. -/
def Double.ofNat (n : Nat) : Double :=
  if n = 0 then Double.zero
  else
    ⟨((1023 + log2Fuel 64 n) * 4503599627370496
        + (n - 2 ^ log2Fuel 64 n) * 2 ^ (52 - log2Fuel 64 n)) % 18446744073709551616,
      Nat.mod_lt _ (by decide)⟩

/-- The natural number a pattern stands for, when it is one below `2^53`. -/
def Double.toNat? (d : Double) : Option Nat :=
  if d.val = 0 then some 0
  else if d.val / 4503599627370496 < 1023 ∨ 1075 < d.val / 4503599627370496 then none
  else if (4503599627370496 + d.val % 4503599627370496) % 2 ^ (1075 - d.val / 4503599627370496) = 0
  then some ((4503599627370496 + d.val % 4503599627370496) / 2 ^ (1075 - d.val / 4503599627370496))
  else none

/-- A quiet NaN. -/
def Double.nan : Double := ⟨9221120237041090560, by decide⟩

/-- An operation on naturals carried to patterns; NaN where the operands or
the result are not naturals below `2^53`. -/
def natArith (f : Nat → Nat → Option Nat) (a b : Double) : Double :=
  match a.toNat?, b.toNat? with
  | some x, some y =>
    match f x y with
    | some z => if z < 9007199254740992 then Double.ofNat z else Double.nan
    | none => Double.nan
  | _, _ => Double.nan

/-- A platform for evaluating examples.  Its arithmetic is exact on natural
numbers below `2^53` with such a result and gives NaN elsewhere; its `stod`
reads a non-empty run of decimal digits and throws on every other text. -/
def examplePlatform : Platform where
  add := natArith (fun x y => some (x + y))
  sub := natArith (fun x y => if y ≤ x then some (x - y) else none)
  mul := natArith (fun x y => some (x * y))
  div := natArith (fun x y => if y ≠ 0 ∧ x % y = 0 then some (x / y) else none)
  pow := natArith (fun x y => some (x ^ y))
  stod := fun s =>
    if s.all isDigit ∧ s ≠ [] ∧ decimalFrom 0 s < 9007199254740992
    then some (Double.ofNat (decimalFrom 0 s), s.length) else none

/-- A parser for examples that rejects every text. -/
def rejectingParser : ExprParser := fun _ => ([], false)

/-- No cell that `find` can return has its flag set. -/
def FlagsClear (s : Sheet) : Prop := ∀ q c, s.find q = some c → c.m_IsCalculated = false

/-- The cell `copyRect` stages for the destination position `q`: the shifted
clone of the program found at the corresponding source position, or an empty
program when there is no cell there. -/
def stagedAt (m_Sheet : Sheet) (dst src : CPos) (q : CPos) : CCell :=
  match m_Sheet.find { m_Row := src.m_Row + (q.m_Row - dst.m_Row),
                       m_Column := src.m_Column + (q.m_Column - dst.m_Column) } with
  | some cell =>
    { m_Stack := cell.m_Stack.map
        (COperation.cloneShift (dst.m_Row - src.m_Row) (dst.m_Column - src.m_Column)) }
  | none => { m_Stack := [] }

/-- The position lies in the destination rectangle of `copyRect`. -/
def inRect (dst : CPos) (w h : Int) (q : CPos) : Prop :=
  dst.m_Row ≤ q.m_Row ∧ q.m_Row < dst.m_Row + h ∧
    dst.m_Column ≤ q.m_Column ∧ q.m_Column < dst.m_Column + w

/-- The destination position `copyRect` computes for the offsets `x`, `y`. -/
def dstKey (dst : CPos) (x y : Nat) : CPos :=
  { m_Row := dst.m_Row + y, m_Column := dst.m_Column + x }

/-! ## What fits the C++ types, and the bytes `save` emits -/

/-- Row and column fit an `int`. -/
def CPos.InRange (p : CPos) : Prop :=
  -2147483648 ≤ p.m_Row ∧ p.m_Row < 2147483648 ∧
    -2147483648 ≤ p.m_Column ∧ p.m_Column < 2147483648

/-- The payload of the node fits its C++ type. -/
def COperation.Storable : COperation → Prop
  | .CReference m_Pos => m_Pos.InRange
  | .CString m_Value => m_Value.length < 18446744073709551616
  | _ => True

/-- The program of the cell fits a `std::deque` and its nodes are storable. -/
def CCell.Storable (c : CCell) : Prop :=
  c.m_Stack.length < 18446744073709551616 ∧ ∀ op ∈ c.m_Stack, op.Storable

/-- The sheet fits a `std::map<CPos, CCell>` in memory. -/
def Sheet.Storable (s : Sheet) : Prop :=
  s.length < 18446744073709551616 ∧ ∀ e ∈ s, e.1.InRange ∧ e.2.Storable

/-- Bytes of a position on the wire. -/
def posBytes (p : CPos) : Bytes :=
  intBytes p.m_Row ++ intBytes p.m_Column ++
    [byteOf ((if p.m_AbsRow then 1 else 0) + 2 * (if p.m_AbsColumn then 1 else 0))]

/-- Payload bytes of a node on the wire. -/
def payloadBytes : COperation → Bytes
  | .CReference m_Pos => posBytes m_Pos
  | .CNumber m_Value => doubleBytes m_Value
  | .CString m_Value => leBytes 8 m_Value.length ++ m_Value
  | _ => []

/-- Bytes of a program on the wire. -/
def nodesBytes : List COperation → Bytes
  | [] => []
  | op :: rest => intBytes op.getTypeId ++ payloadBytes op ++ nodesBytes rest

/-- Bytes of a cell on the wire. -/
def cellBytes (c : CCell) : Bytes :=
  leBytes 8 c.m_Stack.length ++ nodesBytes c.m_Stack ++
    [byteOf (if c.m_IsCalculated then 1 else 0)]

/-- Bytes of the entries of a sheet on the wire. -/
def entriesBytes : Sheet → Bytes
  | [] => []
  | (pos, cell) :: rest => posBytes pos ++ cellBytes cell ++ entriesBytes rest

/-- Bytes of a sheet on the wire. -/
def sheetBytes (s : Sheet) : Bytes := leBytes 8 s.length ++ entriesBytes s

instance (s : Sheet) : Decidable (Sheet.Valid s) := by
  unfold Sheet.Valid
  infer_instance

instance (p : CPos) : Decidable p.InRange := by
  unfold CPos.InRange
  infer_instance

instance (op : COperation) : Decidable op.Storable := by
  cases op <;> unfold COperation.Storable <;> infer_instance

instance (c : CCell) : Decidable c.Storable := by
  unfold CCell.Storable
  infer_instance

instance (s : Sheet) : Decidable (Sheet.Storable s) := by
  unfold Sheet.Storable
  infer_instance

/-! ## Sheets and texts used in concrete instances -/

def posA1 : CPos := { m_Row := 1, m_Column := 0 }

def posB1 : CPos := { m_Row := 1, m_Column := 1 }

def posC1 : CPos := { m_Row := 1, m_Column := 2 }

def posA2 : CPos := { m_Row := 2, m_Column := 0 }

def posB2 : CPos := { m_Row := 2, m_Column := 1 }

def posI4 : CPos := { m_Row := 4, m_Column := 8 }

def posH12 : CPos := { m_Row := 12, m_Column := 7 }

def posH13 : CPos := { m_Row := 13, m_Column := 7 }

def posH14 : CPos := { m_Row := 14, m_Column := 7 }

/-- The tree of `A1 + B2 * 3`. -/
def exprS1 : Expr := .bin .add (.ref posA1) (.bin .mul (.ref posB2) (.num (Double.ofNat 3)))

/-- The cell holding `=A1+B2*3`. -/
def cellI4 : CCell := { m_Stack := exprS1.program }

/-- Sheet `A1 = 2`, `B2 = 4`, `I4 = A1 + B2 * 3`. -/
def sheetS1 : Sheet :=
  [(posA1, { m_Stack := [.CNumber (Double.ofNat 2)] }),
   (posB2, { m_Stack := [.CNumber (Double.ofNat 4)] }),
   (posI4, cellI4)]

/-- Sheet `A1 = A2`, `A2 = A1`, `B1 = A1 + 1`, `C1 = 5`. -/
def sheetCycle : Sheet :=
  [(posA1, { m_Stack := [.CReference posA2] }),
   (posB1, { m_Stack := [.CReference posA1, .CNumber (Double.ofNat 1), .CAddition] }),
   (posC1, { m_Stack := [.CNumber (Double.ofNat 5)] }),
   (posA2, { m_Stack := [.CReference posA1] })]

/-- The sheet of `sheetCycle` with the cycle replaced by two numbers. -/
def sheetNoCycle : Sheet :=
  [(posA1, { m_Stack := [.CNumber (Double.ofNat 1)] }),
   (posB1, { m_Stack := [.CReference posA1, .CNumber (Double.ofNat 1), .CAddition] }),
   (posC1, { m_Stack := [.CNumber (Double.ofNat 5)] }),
   (posA2, { m_Stack := [.CNumber (Double.ofNat 2)] })]

/-- Sheet `H13 = H14 + 5` (relative reference), `H14 = 7`. -/
def sheetOverlap : Sheet :=
  [(posH13, { m_Stack := [.CReference posH14, .CNumber (Double.ofNat 5), .CAddition] }),
   (posH14, { m_Stack := [.CNumber (Double.ofNat 7)] })]

/-- A sheet with the single cell `A1 = 5` whose flag is set. -/
def sheetStuck : Sheet :=
  [(posA1, { m_Stack := [.CNumber (Double.ofNat 5)], m_IsCalculated := true })]

/-- A file of one cell at row 1, column 0, with the program `[Num 5.0]` and the
flag byte 1. -/
def stuckFile : Bytes :=
  [1, 0, 0, 0, 0, 0, 0, 0,
   1, 0, 0, 0, 0, 0, 0, 0, 0,
   1, 0, 0, 0, 0, 0, 0, 0,
   14, 0, 0, 0, 0, 0, 0, 0, 0, 0, 20, 64,
   1]

/-- The text `10`. -/
def text10 : Bytes := [49, 48]

/-- The text `x`. -/
def textX : Bytes := [120]

/-- A file that announces two cells and holds one. -/
def shortFile : Bytes :=
  [2, 0, 0, 0, 0, 0, 0, 0,
   1, 0, 0, 0, 0, 0, 0, 0, 0,
   1, 0, 0, 0, 0, 0, 0, 0,
   14, 0, 0, 0, 0, 0, 0, 0, 0, 0, 20, 64,
   0]

/-! ## Definitions for the claims on `setCell` and on the operator results -/

/-- The node pushed by the literal branch of `setCell` (main.cpp 1482-1498): `CNumber` when
`std::stod` consumes the whole text, `CString` when it stops early or throws. -/
def literalNode (pf : Platform) (contents : Bytes) : COperation :=
  match pf.stod contents with
  | some (numericValue, idx) =>
    if idx = contents.length then .CNumber numericValue else .CString contents
  | none => .CString contents

/-- Specification side: the node that the table of builder operations gives
for one callback; `none` for a reference literal that is not a position. -/
def Callback.node : Callback → Option COperation
  | .opAdd => some .CAddition
  | .opSub => some .CSubtraction
  | .opMul => some .CMultiplication
  | .opDiv => some .CDivision
  | .opPow => some .CPower
  | .opNeg => some .CNegation
  | .opEq => some .CEqual
  | .opNe => some .CNotEqual
  | .opLt => some .CLessThan
  | .opLe => some .CLessEqual
  | .opGt => some .CGreaterThan
  | .opGe => some .CGreaterEqual
  | .valNumber val => some (.CNumber val)
  | .valString val => some (.CString val)
  | .valReference val =>
    match CPos.parse val with
    | some p => some (.CReference p)
    | none => none
  | .valRange _ => some .CValRange
  | .funcCall _ _ => some .CFuncCall

/-- Specification side: `Yields v P` says that the value is `Number(1.0)` when
the relation `P` holds and `Number(0.0)` when it does not. -/
def Yields (v : CValue) (P : Prop) : Prop :=
  (P → v = .number Double.one) ∧ (¬ P → v = .number Double.zero)

/-- The text `2`. -/
def text2 : Bytes := [50]

/-- The text `12`. -/
def text12 : Bytes := [49, 50]

/-- The text `=A1+A2`. -/
def textA1plusA2 : Bytes := [61, 65, 49, 43, 65, 50]

/-- The text `=A1+A1`. -/
def textA1plusA1 : Bytes := [61, 65, 49, 43, 65, 49]

/-- The text `=1A+1`. -/
def textBadRef : Bytes := [61, 49, 65, 43, 49]

/-- A parser for examples: it knows the formulas `=A1+A2` and `=A1+A1`, reports
the reference literal `1A` of `=1A+1` to the builder, and rejects every other
text. -/
def exampleParser : ExprParser := fun contents =>
  if contents = textA1plusA2 then
    ([.valReference [65, 49], .valReference [65, 50], .opAdd], true)
  else if contents = textA1plusA1 then
    ([.valReference [65, 49], .valReference [65, 49], .opAdd], true)
  else if contents = textBadRef then
    ([.valReference [49, 65], .valNumber Double.one, .opAdd], true)
  else ([], false)

/-- Sheet with the single cell `A1 = 10`. -/
def sheetTen : Sheet := [(posA1, { m_Stack := [.CNumber (Double.ofNat 10)] })]

/-- The tree of `1 + f(2)`: the argument of the call precedes the `Func` node. -/
def exprCall : Expr := .bin .add (.num (Double.ofNat 1)) (.func [.CNumber (Double.ofNat 2)])

/-- Sheet `A1 = 1 + f(2)`, `B1 = A1`. -/
def sheetCall : Sheet :=
  [(posA1, { m_Stack := exprCall.program }),
   (posB1, { m_Stack := [.CReference posA1] })]

/-- Specification side: `Computes pf node combine` says that the binary node, once
its right operand and then its left operand have been evaluated, returns
`combine left right` with the sheet and the cursor the left operand left. -/
def Computes (pf : Platform) (node : COperation) (combine : CValue → CValue → CValue) : Prop :=
  ∀ (fuel : Nat) (stack : List COperation) (sheet s1 s2 : Sheet) (depth d1 d2 : Nat)
    (left right : CValue),
    operandWith (evaluate pf fuel) stack sheet (depth + 1) = .ok (right, s1, d1) →
    operandWith (evaluate pf fuel) stack s1 d1 = .ok (left, s2, d2) →
    evaluate pf (fuel + 1) node stack sheet depth = .ok (combine left right, s2, d2)

/-- The sheet after `setCell(A1, "x")` and `setCell(A2, "2")` on the empty sheet. -/
def sheetXTwo : Sheet :=
  (setCell examplePlatform exampleParser
    (setCell examplePlatform exampleParser [] posA1 textX).2 posA2 text2).2

/-! ## Definitions for the claims on references, `copyRect`, `load` and position literals -/

/-- The position `$A$1`: row 1, column 0, both absolute. -/
def posAbsA1 : CPos := { m_Row := 1, m_AbsRow := true, m_Column := 0, m_AbsColumn := true }

/-- Sheet `A1 = 10`, `A2 = $A$1`. -/
def sheetAbs : Sheet :=
  [(posA1, { m_Stack := [.CNumber (Double.ofNat 10)] }),
   (posA2, { m_Stack := [.CReference posAbsA1] })]

/-- Sheet `A1 = 2`, `B1 = A1`, `C1 = B1`. -/
def sheetChain : Sheet :=
  [(posA1, { m_Stack := [.CNumber (Double.ofNat 2)] }),
   (posB1, { m_Stack := [.CReference posA1] }),
   (posC1, { m_Stack := [.CReference posB1] })]

/-- Sheet condition `Guarded P Q s`: the cell at `Q` is under evaluation (its
flag is set), the program of the cell at `P` is a single `Ref` node that
addresses `Q`, and `P` is not `Q`. -/
def Guarded (P Q : CPos) (s : Sheet) : Prop :=
  (∃ cq, s.find Q = some cq ∧ cq.m_IsCalculated = true) ∧
    (∃ cp q, s.find P = some cp ∧ cp.m_Stack = [COperation.CReference q] ∧ q.same Q = true) ∧
    P.same Q = false

/-- On a guarded sheet, setting the flag of `P` does not change the value and
the cursor of a finished run of `ev`. -/
def Twin (P Q : CPos) (ev : Evaluator) : Prop :=
  ∀ op stack s depth, Guarded P Q s → ev op stack s depth ≠ .outOfFuel →
    dropSheet (ev op stack (s.setFlag P true) depth) = dropSheet (ev op stack s depth)

/-- The bytes `save` writes for `sheetTen`, with the tag `14` of the only node
replaced by `99`. -/
def badTagFile : Bytes :=
  [1, 0, 0, 0, 0, 0, 0, 0,
   1, 0, 0, 0, 0, 0, 0, 0, 0,
   1, 0, 0, 0, 0, 0, 0, 0,
   99, 0, 0, 0, 0, 0, 0, 0, 0, 0, 36, 64,
   0]

/-- The corruption applied by the test in `main` (main.cpp 1799-1800): each of the first
`min(length, 10)` bytes is XOR-ed with `0x5a`. -/
def corruptHeader (data : Bytes) : Bytes :=
  (data.take 10).map (fun b => b ^^^ 90) ++ data.drop 10

/-- An optional `$`. -/
def dollar (b : Bool) : Bytes := if b then [36] else []

/-- Specification side: the value `letter - 'A' + 1` of a letter, whatever its
case (`A` and `a` give 1, `Z` and `z` give 26). -/
def letterRank (c : Byte) : Int :=
  if 97 ≤ c.val then (c.val : Int) - 96 else (c.val : Int) - 64

/-- Specification side: the bijective base-26 value of a letter string, the sum
of `letterRank · 26^k` with `k` counted from the right. -/
def bijective26 : Bytes → Int
  | [] => 0
  | c :: rest => letterRank c * 26 ^ rest.length + bijective26 rest

/-- Specification side: the decimal value of a digit string, the sum of
`digit · 10^k` with `k` counted from the right. -/
def decimalValue : Bytes → Nat
  | [] => 0
  | c :: rest => (c.val - 48) * 10 ^ rest.length + decimalValue rest

/-! ## Definitions for the claims on the order of positions, evaluation runs and `load` -/

/-- A file of one cell at row 1, column 0, whose program is the single node
with tag 1 (`Add`), with the flag byte 0. -/
def addFile : Bytes :=
  [1, 0, 0, 0, 0, 0, 0, 0,
   1, 0, 0, 0, 0, 0, 0, 0, 0,
   1, 0, 0, 0, 0, 0, 0, 0,
   1, 0, 0, 0,
   0]

/-- The sheet with the single cell `A1` whose program is `[Add]`. -/
def sheetAdd : Sheet := [(posA1, { m_Stack := [.CAddition] })]

/-- Number of cells whose flag is clear. -/
def clearCount (s : Sheet) : Nat :=
  (s.filter (fun e => !e.2.m_IsCalculated)).length

/-- The tree whose postfix form is the clone that `copyRect` makes of the
postfix form of the given tree. -/
def Expr.cloneShift (rowOffset columnOffset : Int) : Expr → Expr
  | .num d => .num d
  | .str s => .str s
  | .ref p => .ref (p.shift rowOffset columnOffset)
  | .range => .range
  | .func args => .func (args.map (COperation.cloneShift rowOffset columnOffset))
  | .neg e => .neg (Expr.cloneShift rowOffset columnOffset e)
  | .bin op l r =>
    .bin op (Expr.cloneShift rowOffset columnOffset l) (Expr.cloneShift rowOffset columnOffset r)

/-- The contract of the external parser: the program its callbacks build for a
text it accepts is the postfix form of an expression tree (or empty). -/
def PostfixParser (parser : ExprParser) : Prop :=
  ∀ contents stack, parseProgram parser contents = some stack →
    stack = [] ∨ ∃ e, stack = Expr.program e

/-- The sheets built from the empty sheet by `setCell` and `copyRect`. -/
inductive Built (pf : Platform) (parser : ExprParser) : Sheet → Prop where
  | empty : Built pf parser []
  | bySetCell (s : Sheet) (pos : CPos) (contents : Bytes) :
      Built pf parser s → Built pf parser (setCell pf parser s pos contents).2
  | byCopyRect (s : Sheet) (dst src : CPos) (w h : Int) :
      Built pf parser s → Built pf parser (copyRect s dst src w h)

/-! ### The evaluator with a log of the cells it enters -/

/-- The log of a run: for every time `CCell::calculateCell` starts to evaluate
the program of a cell, the position the cell was looked up with and the
positions of the cells whose evaluation was in progress, innermost first. -/
abbrev Log := List (CPos × List CPos)

/-- Outcome of a node evaluation together with the log of the run. -/
abbrev TracedOut := EvalOut × Log

/-- The type of the logging evaluator for a given fuel and chain of cells in
progress. -/
abbrev TracedEvaluator := COperation → List COperation → Sheet → Nat → TracedOut

/-- The function `operandWith` with the log. -/
def operandTraced (ev : TracedEvaluator) (stack : List COperation) (sheet : Sheet) (depth : Nat) :
    TracedOut :=
  if depth < stack.length then
    match stack.get? (stack.length - 1 - depth) with
    | some op => ev op stack sheet depth
    | none => (.outOfRange, [])
  else (.outOfRange, [])

/-- The function `binaryWith` with the log: the entries of the right operand,
then those of the left operand. -/
def binaryTraced (ev : TracedEvaluator) (combine : CValue → CValue → CValue)
    (stack : List COperation) (sheet : Sheet) (depth : Nat) : TracedOut :=
  match operandTraced ev stack sheet depth with
  | (.ok (right_side, sheet1, depth1), log1) =>
    match operandTraced ev stack sheet1 depth1 with
    | (.ok (left_side, sheet2, depth2), log2) =>
      (.ok (combine left_side right_side, sheet2, depth2), log1 ++ log2)
    | (.outOfRange, log2) => (.outOfRange, log1 ++ log2)
    | (.outOfFuel, log2) => (.outOfFuel, log1 ++ log2)
  | (.outOfRange, log1) => (.outOfRange, log1)
  | (.outOfFuel, log1) => (.outOfFuel, log1)

/-- The function `unaryWith` with the log. -/
def unaryTraced (ev : TracedEvaluator) (stack : List COperation) (sheet : Sheet) (depth : Nat) :
    TracedOut :=
  match operandTraced ev stack sheet depth with
  | (.ok (right_side, sheet1, depth1), log1) => (.ok (negValue right_side, sheet1, depth1), log1)
  | (.outOfRange, log1) => (.outOfRange, log1)
  | (.outOfFuel, log1) => (.outOfFuel, log1)

/-- The function `calculateWith` with the log: when the flag is clear the cell
is entered, which is logged with the chain of cells in progress, and its
program is evaluated with the cell added to the chain. -/
def calculateTraced (ev : List CPos → TracedEvaluator) (chain : List CPos) (sheet : Sheet)
    (pos : CPos) (cell : CCell) : Res (CValue × Sheet) × Log :=
  if cell.m_IsCalculated then (.ok (.undefined, sheet), [])
  else
    match cell.m_Stack.getLast? with
    | none => (.outOfRange, [(pos, chain)])
    | some root =>
      match ev (pos :: chain) root cell.m_Stack (sheet.setFlag pos true) 0 with
      | (.ok (result, sheet1, _), log) =>
        (.ok (result, sheet1.setFlag pos false), (pos, chain) :: log)
      | (.outOfRange, log) => (.outOfRange, (pos, chain) :: log)
      | (.outOfFuel, log) => (.outOfFuel, (pos, chain) :: log)

/-- The function `referenceWith` with the log. -/
def referenceTraced (ev : List CPos → TracedEvaluator) (chain : List CPos) (m_Pos : CPos)
    (sheet : Sheet) (depth : Nat) : TracedOut :=
  match sheet.find m_Pos with
  | some cell =>
    if cell.m_Stack.isEmpty then (.ok (.undefined, sheet, depth), [])
    else
      match calculateTraced ev chain sheet m_Pos cell with
      | (.ok (result, sheet1), log) => (.ok (result, sheet1, depth), log)
      | (.outOfRange, log) => (.outOfRange, log)
      | (.outOfFuel, log) => (.outOfFuel, log)
  | none => (.ok (.undefined, sheet, depth), [])

/-- The function `evaluate` with the log of the cells entered; `chain` holds
the cells whose evaluation is in progress. -/
def evaluateTraced (pf : Platform) : Nat → List CPos → TracedEvaluator
  | 0, _, _, _, _, _ => (.outOfFuel, [])
  | fuel + 1, chain, op, stack, sheet, depth =>
    match op with
    | .CAddition => binaryTraced (evaluateTraced pf fuel chain) (addValues pf) stack sheet (depth + 1)
    | .CSubtraction =>
      binaryTraced (evaluateTraced pf fuel chain) (subValues pf) stack sheet (depth + 1)
    | .CMultiplication =>
      binaryTraced (evaluateTraced pf fuel chain) (mulValues pf) stack sheet (depth + 1)
    | .CDivision => binaryTraced (evaluateTraced pf fuel chain) (divValues pf) stack sheet (depth + 1)
    | .CPower => binaryTraced (evaluateTraced pf fuel chain) (powValues pf) stack sheet (depth + 1)
    | .CNegation => unaryTraced (evaluateTraced pf fuel chain) stack sheet (depth + 1)
    | .CEqual => binaryTraced (evaluateTraced pf fuel chain) eqValues stack sheet (depth + 1)
    | .CNotEqual => binaryTraced (evaluateTraced pf fuel chain) neValues stack sheet (depth + 1)
    | .CLessThan => binaryTraced (evaluateTraced pf fuel chain) ltValues stack sheet (depth + 1)
    | .CLessEqual => binaryTraced (evaluateTraced pf fuel chain) leValues stack sheet (depth + 1)
    | .CGreaterThan => binaryTraced (evaluateTraced pf fuel chain) gtValues stack sheet (depth + 1)
    | .CGreaterEqual => binaryTraced (evaluateTraced pf fuel chain) geValues stack sheet (depth + 1)
    | .CReference m_Pos => referenceTraced (evaluateTraced pf fuel) chain m_Pos sheet (depth + 1)
    | .CNumber m_Value => (.ok (.number m_Value, sheet, depth + 1), [])
    | .CString m_Value => (.ok (.text m_Value, sheet, depth + 1), [])
    | .CValRange => (.ok (.undefined, sheet, depth), [])
    | .CFuncCall => (.ok (.undefined, sheet, depth), [])

/-- The function `getValue` with the log of the cells entered. -/
def getValueTraced (pf : Platform) (sheet : Sheet) (pos : CPos) : Res (CValue × Sheet) × Log :=
  match sheet.find pos with
  | some cell =>
    if cell.m_Stack.isEmpty then (.ok (.undefined, sheet), [])
    else calculateTraced (evaluateTraced pf (fuelBound sheet)) [] sheet pos cell
  | none => (.ok (.undefined, sheet), [])

/-- Every cell of the chain is in the sheet with its flag set. -/
def Flagged (chain : List CPos) (sheet : Sheet) : Prop :=
  ∀ q ∈ chain, ∃ c, sheet.find q = some c ∧ c.m_IsCalculated = true

/-- No entry of the log enters a cell whose evaluation is in progress. -/
def NoReentry (log : Log) : Prop :=
  ∀ entry ∈ log, ∀ q ∈ entry.2, q.same entry.1 = false

/-- Sheet `A1 = B1 + B1`, `B1 = 1`. -/
def sheetTwice : Sheet :=
  [(posA1, { m_Stack := [.CReference posB1, .CReference posB1, .CAddition] }),
   (posB1, { m_Stack := [.CNumber (Double.ofNat 1)] })]

/-! ## Basic facts about the map -/

theorem CPos.same_symm (a b : CPos) : a.same b = b.same a := by
  simp only [CPos.same]
  by_cases h1 : a.m_Row = b.m_Row <;> by_cases h2 : a.m_Column = b.m_Column <;>
    simp [h1, h2, eq_comm]

theorem CPos.same_trans {a b c : CPos} (h1 : a.same b = true) (h2 : b.same c = true) :
    a.same c = true := by
  simp only [CPos.same, Bool.and_eq_true, decide_eq_true_eq] at *
  exact ⟨h1.1.trans h2.1, h1.2.trans h2.2⟩

theorem CPos.same_congr_right {a b c : CPos} (h : b.same c = true) : a.same b = a.same c := by
  simp only [CPos.same, Bool.and_eq_true, decide_eq_true_eq] at h
  simp only [CPos.same, h.1, h.2]

theorem Sheet.find_setFlag (s : Sheet) (pos q : CPos) (b : Bool) :
    Sheet.find (Sheet.setFlag s pos b) q =
      if pos.same q then (Sheet.find s q).map (fun c => { c with m_IsCalculated := b }) else Sheet.find s q := by
  induction s with
  | nil => simp [Sheet.setFlag, Sheet.find]
  | cons e rest ih =>
    obtain ⟨k, v⟩ := e
    by_cases hk : k.same pos = true
    · by_cases hq : k.same q = true
      · have : pos.same q = true := CPos.same_trans (by rw [CPos.same_symm]; exact hk) hq
        simp [Sheet.setFlag, Sheet.find, hk, hq, this]
      · have hpq : pos.same q = false := by
          cases h : pos.same q
          · rfl
          · exfalso; apply hq
            exact CPos.same_trans hk h
        simp [Sheet.setFlag, Sheet.find, hk, hq, hpq]
    · by_cases hq : k.same q = true
      · have hpq : pos.same q = false := by
          cases h : pos.same q
          · rfl
          · exfalso; apply hk
            rw [CPos.same_symm] at h
            exact CPos.same_trans hq h
        simp [Sheet.setFlag, Sheet.find, hk, hq, hpq]
      · simp [Sheet.setFlag, Sheet.find, hk, hq, ih]

theorem Sheet.setFlag_restore (s : Sheet) (pos : CPos) (cell : CCell)
    (hf : Sheet.find s pos = some cell) (b : Bool) :
    Sheet.setFlag (Sheet.setFlag s pos b) pos cell.m_IsCalculated = s := by
  induction s with
  | nil => simp [Sheet.find] at hf
  | cons e rest ih =>
    obtain ⟨k, v⟩ := e
    by_cases hk : k.same pos = true
    · simp only [Sheet.find, hk, if_true, Option.some.injEq] at hf
      subst hf
      simp [Sheet.setFlag, hk]
    · simp only [Sheet.find, hk] at hf
      simp [Sheet.setFlag, hk, ih hf]

/-! ## The evaluator returns the sheet it was given -/

theorem operandWith_restores {ev : Evaluator} (h : Restores ev) {stack : List COperation}
    {sheet : Sheet} {depth : Nat} {v : CValue} {s : Sheet} {d : Nat}
    (e : operandWith ev stack sheet depth = .ok (v, s, d)) : s = sheet ∧ depth ≤ d := by
  unfold operandWith at e
  split at e
  · split at e
    · exact h _ _ _ _ _ _ _ e
    · cases e
  · cases e

theorem binaryWith_restores {ev : Evaluator} (h : Restores ev) {f : CValue → CValue → CValue}
    {stack : List COperation} {sheet : Sheet} {depth : Nat} {v : CValue} {s : Sheet} {d : Nat}
    (e : binaryWith ev f stack sheet depth = .ok (v, s, d)) : s = sheet ∧ depth ≤ d := by
  unfold binaryWith at e
  split at e
  · rename_i r s1 d1 h1
    obtain ⟨hs1, hd1⟩ := operandWith_restores h h1
    split at e
    · rename_i l s2 d2 h2
      obtain ⟨hs2, hd2⟩ := operandWith_restores h h2
      cases e
      exact ⟨hs2.trans hs1, le_trans hd1 hd2⟩
    · cases e
    · cases e
  · cases e
  · cases e

theorem unaryWith_restores {ev : Evaluator} (h : Restores ev)
    {stack : List COperation} {sheet : Sheet} {depth : Nat} {v : CValue} {s : Sheet} {d : Nat}
    (e : unaryWith ev stack sheet depth = .ok (v, s, d)) : s = sheet ∧ depth ≤ d := by
  unfold unaryWith at e
  split at e
  · rename_i r s1 d1 h1
    obtain ⟨hs1, hd1⟩ := operandWith_restores h h1
    cases e
    exact ⟨hs1, hd1⟩
  · cases e
  · cases e

theorem calculateWith_restores {ev : Evaluator} (h : Restores ev) {sheet : Sheet} {pos : CPos}
    {cell : CCell} (hf : sheet.find pos = some cell) {v : CValue} {s : Sheet}
    (e : calculateWith ev sheet pos cell = .ok (v, s)) : s = sheet := by
  unfold calculateWith at e
  split at e
  · cases e; rfl
  · rename_i hg
    split at e
    · cases e
    · split at e
      · rename_i r s1 d1 h1
        obtain ⟨hs1, _⟩ := h _ _ _ _ _ _ _ h1
        cases e
        subst hs1
        have := Sheet.setFlag_restore sheet pos cell hf true
        simp only [Bool.not_eq_true] at hg
        rw [hg] at this
        exact this
      · cases e
      · cases e

theorem referenceWith_restores {ev : Evaluator} (h : Restores ev) {pos : CPos}
    {sheet : Sheet} {depth : Nat} {v : CValue} {s : Sheet} {d : Nat}
    (e : referenceWith ev pos sheet depth = .ok (v, s, d)) : s = sheet ∧ d = depth := by
  unfold referenceWith at e
  split at e
  · rename_i cell hf
    split at e
    · cases e; exact ⟨rfl, rfl⟩
    · split at e
      · rename_i r s1 h1
        cases e
        exact ⟨calculateWith_restores h hf h1, rfl⟩
      · cases e
      · cases e
  · cases e; exact ⟨rfl, rfl⟩

theorem evaluate_restores (pf : Platform) : ∀ fuel, Restores (evaluate pf fuel) := by
  intro fuel
  induction fuel with
  | zero => intro op stack sheet depth v s d e; simp [evaluate] at e
  | succ n ih =>
    intro op stack sheet depth v s d e
    cases op <;> simp only [evaluate] at e
    case CNegation =>
      obtain ⟨h1, h2⟩ := unaryWith_restores ih e
      exact ⟨h1, by omega⟩
    case CReference p =>
      obtain ⟨h1, h2⟩ := referenceWith_restores ih e
      exact ⟨h1, by omega⟩
    case CNumber x => cases e; exact ⟨rfl, by omega⟩
    case CString x => cases e; exact ⟨rfl, by omega⟩
    case CValRange => cases e; exact ⟨rfl, le_refl _⟩
    case CFuncCall => cases e; exact ⟨rfl, le_refl _⟩
    all_goals
      obtain ⟨h1, h2⟩ := binaryWith_restores ih e
      exact ⟨h1, by omega⟩

/-! ## More fuel never changes a finished run -/

theorem operandWith_extends {ev ev2 : Evaluator} (h : Extends ev ev2) (stack : List COperation)
    (sheet : Sheet) (depth : Nat) (hne : operandWith ev stack sheet depth ≠ .outOfFuel) :
    operandWith ev2 stack sheet depth = operandWith ev stack sheet depth := by
  unfold operandWith at hne ⊢
  split
  · split
    · rename_i op hop
      simp only [hop] at hne
      simp only [if_pos ‹depth < stack.length›] at hne
      exact h _ _ _ _ hne
    · rfl
  · rfl

theorem binaryWith_extends {ev ev2 : Evaluator} (h : Extends ev ev2) (f : CValue → CValue → CValue)
    (stack : List COperation) (sheet : Sheet) (depth : Nat)
    (hne : binaryWith ev f stack sheet depth ≠ .outOfFuel) :
    binaryWith ev2 f stack sheet depth = binaryWith ev f stack sheet depth := by
  unfold binaryWith at hne ⊢
  cases h1 : operandWith ev stack sheet depth with
  | outOfFuel => simp [h1] at hne
  | outOfRange =>
    rw [operandWith_extends h _ _ _ (by simp [h1]), h1]
  | ok a =>
    obtain ⟨r, s1, d1⟩ := a
    rw [operandWith_extends h _ _ _ (by simp [h1]), h1]
    simp only [h1] at hne
    dsimp only
    cases h2 : operandWith ev stack s1 d1 with
    | outOfFuel => simp [h2] at hne
    | outOfRange => rw [operandWith_extends h _ _ _ (by simp [h2]), h2]
    | ok b => rw [operandWith_extends h _ _ _ (by simp [h2]), h2]

theorem unaryWith_extends {ev ev2 : Evaluator} (h : Extends ev ev2)
    (stack : List COperation) (sheet : Sheet) (depth : Nat)
    (hne : unaryWith ev stack sheet depth ≠ .outOfFuel) :
    unaryWith ev2 stack sheet depth = unaryWith ev stack sheet depth := by
  unfold unaryWith at hne ⊢
  cases h1 : operandWith ev stack sheet depth with
  | outOfFuel => simp [h1] at hne
  | outOfRange => rw [operandWith_extends h _ _ _ (by simp [h1]), h1]
  | ok a => rw [operandWith_extends h _ _ _ (by simp [h1]), h1]

theorem calculateWith_extends {ev ev2 : Evaluator} (h : Extends ev ev2)
    (sheet : Sheet) (pos : CPos) (cell : CCell)
    (hne : calculateWith ev sheet pos cell ≠ .outOfFuel) :
    calculateWith ev2 sheet pos cell = calculateWith ev sheet pos cell := by
  unfold calculateWith at hne ⊢
  split
  · rfl
  · rename_i hg
    simp only [hg, if_false] at hne
    cases hl : cell.m_Stack.getLast? with
    | none => rfl
    | some root =>
      simp only [hl] at hne ⊢
      cases h1 : ev root cell.m_Stack (sheet.setFlag pos true) 0 with
      | outOfFuel => simp [h1] at hne
      | outOfRange => rw [h _ _ _ _ (by simp [h1]), h1]
      | ok a => rw [h _ _ _ _ (by simp [h1]), h1]

theorem referenceWith_extends {ev ev2 : Evaluator} (h : Extends ev ev2)
    (pos : CPos) (sheet : Sheet) (depth : Nat)
    (hne : referenceWith ev pos sheet depth ≠ .outOfFuel) :
    referenceWith ev2 pos sheet depth = referenceWith ev pos sheet depth := by
  unfold referenceWith at hne ⊢
  cases hf : sheet.find pos with
  | none => rfl
  | some cell =>
    simp only [hf] at hne ⊢
    split
    · rfl
    · rename_i he
      simp only [he] at hne
      cases h1 : calculateWith ev sheet pos cell with
      | outOfFuel => simp [h1] at hne
      | outOfRange => rw [calculateWith_extends h _ _ _ (by simp [h1]), h1]
      | ok a => rw [calculateWith_extends h _ _ _ (by simp [h1]), h1]

theorem evaluate_succ_extends (pf : Platform) :
    ∀ fuel, Extends (evaluate pf fuel) (evaluate pf (fuel + 1)) := by
  intro fuel
  induction fuel with
  | zero => intro op stack sheet depth hne; simp [evaluate] at hne
  | succ n ih =>
    intro op stack sheet depth hne
    cases op
    case CNegation =>
      simp only [evaluate] at hne
      rw [evaluate, evaluate]
      exact unaryWith_extends ih _ _ _ hne
    case CReference p =>
      simp only [evaluate] at hne
      rw [evaluate, evaluate]
      exact referenceWith_extends ih _ _ _ hne
    case CNumber x => simp only [evaluate]
    case CString x => simp only [evaluate]
    case CValRange => simp only [evaluate]
    case CFuncCall => simp only [evaluate]
    all_goals
      simp only [evaluate] at hne
      rw [evaluate, evaluate]
      exact binaryWith_extends ih _ _ _ _ hne

theorem evaluate_extends (pf : Platform) {n m : Nat} (hnm : n ≤ m) :
    Extends (evaluate pf n) (evaluate pf m) := by
  induction hnm with
  | refl => intro _ _ _ _ _; rfl
  | step _ ih =>
    intro op stack sheet depth hne
    have h1 := ih op stack sheet depth hne
    rw [← h1]
    exact evaluate_succ_extends pf _ op stack sheet depth (by rw [h1]; exact hne)

/-! ## `fuelBound` is enough -/

theorem weight_lt_fuelBound (s : Sheet) : weight s < fuelBound s := by
  unfold weight fuelBound
  induction s with
  | nil => simp
  | cons e rest ih =>
    simp only [List.map_cons, List.sum_cons]
    have hle : (if e.2.m_IsCalculated = true then 0 else e.2.m_Stack.length + 1)
        ≤ e.2.m_Stack.length + 1 := by
      split
      · exact Nat.zero_le _
      · exact le_refl _
    generalize (if e.2.m_IsCalculated = true then 0 else e.2.m_Stack.length + 1) = x at hle ⊢
    omega

theorem weight_setFlag_true (s : Sheet) (pos : CPos) (cell : CCell)
    (hf : s.find pos = some cell) (hg : cell.m_IsCalculated = false) :
    weight (s.setFlag pos true) + (cell.m_Stack.length + 1) = weight s := by
  induction s with
  | nil => simp [Sheet.find] at hf
  | cons e rest ih =>
    obtain ⟨k, v⟩ := e
    by_cases hk : k.same pos = true
    · simp only [Sheet.find, hk, if_true, Option.some.injEq] at hf
      subst hf
      simp [Sheet.setFlag, hk, weight, hg]
      omega
    · simp only [Sheet.find, hk] at hf
      have := ih hf
      simp only [weight] at this ⊢
      simp only [Sheet.setFlag, hk, List.map_cons, List.sum_cons]
      simp only [Bool.false_eq_true, if_false, List.map_cons, List.sum_cons]
      omega

theorem operandWith_funded {ev : Evaluator} {n : Nat} (h : Funded ev n) (stack : List COperation)
    (sheet : Sheet) (depth : Nat) (hw : weight sheet + (stack.length - depth) ≤ n) :
    operandWith ev stack sheet depth ≠ .outOfFuel := by
  unfold operandWith
  split
  · split
    · exact h _ _ _ _ ‹_› hw
    · simp
  · simp

theorem binaryWith_funded {ev : Evaluator} {n : Nat} (h : Funded ev n) (hr : Restores ev)
    (f : CValue → CValue → CValue) (stack : List COperation)
    (sheet : Sheet) (depth : Nat) (hw : weight sheet + (stack.length - depth) ≤ n) :
    binaryWith ev f stack sheet depth ≠ .outOfFuel := by
  unfold binaryWith
  cases h1 : operandWith ev stack sheet depth with
  | outOfFuel => exact absurd h1 (operandWith_funded h _ _ _ hw)
  | outOfRange => simp
  | ok a =>
    obtain ⟨r, s1, d1⟩ := a
    obtain ⟨hs, hd⟩ := operandWith_restores hr h1
    subst hs
    dsimp only
    cases h2 : operandWith ev stack s1 d1 with
    | outOfFuel => exact absurd h2 (operandWith_funded h _ _ _ (by omega))
    | outOfRange => simp
    | ok b => simp

theorem unaryWith_funded {ev : Evaluator} {n : Nat} (h : Funded ev n)
    (stack : List COperation)
    (sheet : Sheet) (depth : Nat) (hw : weight sheet + (stack.length - depth) ≤ n) :
    unaryWith ev stack sheet depth ≠ .outOfFuel := by
  unfold unaryWith
  cases h1 : operandWith ev stack sheet depth with
  | outOfFuel => exact absurd h1 (operandWith_funded h _ _ _ hw)
  | outOfRange => simp
  | ok a => simp

theorem calculateWith_funded {ev : Evaluator} {n : Nat} (h : Funded ev n)
    (sheet : Sheet) (pos : CPos) (cell : CCell) (hf : sheet.find pos = some cell)
    (hw : weight sheet ≤ n + 1) :
    calculateWith ev sheet pos cell ≠ .outOfFuel := by
  unfold calculateWith
  split
  · simp
  · rename_i hg
    simp only [Bool.not_eq_true] at hg
    cases hl : cell.m_Stack.getLast? with
    | none => simp
    | some root =>
      dsimp only
      have hlen : 0 < cell.m_Stack.length := by
        cases hc : cell.m_Stack with
        | nil => simp [hc] at hl
        | cons a b => simp
      have hwt := weight_setFlag_true sheet pos cell hf hg
      cases h1 : ev root cell.m_Stack (sheet.setFlag pos true) 0 with
      | outOfFuel => exact absurd h1 (h _ _ _ _ hlen (by omega))
      | outOfRange => simp
      | ok a => simp

theorem referenceWith_funded {ev : Evaluator} {n : Nat} (h : Funded ev n)
    (pos : CPos) (sheet : Sheet) (depth : Nat) (hw : weight sheet ≤ n + 1) :
    referenceWith ev pos sheet depth ≠ .outOfFuel := by
  unfold referenceWith
  cases hf : sheet.find pos with
  | none => simp
  | some cell =>
    dsimp only
    split
    · simp
    · cases h1 : calculateWith ev sheet pos cell with
      | outOfFuel => exact absurd h1 (calculateWith_funded h _ _ _ hf hw)
      | outOfRange => simp
      | ok a => simp

theorem evaluate_funded (pf : Platform) : ∀ n, Funded (evaluate pf n) n := by
  intro n
  induction n with
  | zero => intro op stack sheet depth hd hw; omega
  | succ n ih =>
    intro op stack sheet depth hd hw
    cases op
    case CNegation =>
      rw [evaluate]; exact unaryWith_funded ih _ _ _ (by omega)
    case CReference p =>
      rw [evaluate]; exact referenceWith_funded ih _ _ _ (by omega)
    case CNumber x => simp [evaluate]
    case CString x => simp [evaluate]
    case CValRange => simp [evaluate]
    case CFuncCall => simp [evaluate]
    all_goals
      rw [evaluate]
      exact binaryWith_funded ih (evaluate_restores pf n) _ _ _ _ (by omega)

/-- Totality: `CSpreadsheet::getValue` always finishes. -/
theorem getValue_ne_outOfFuel (pf : Platform) (sheet : Sheet) (pos : CPos) :
    getValue pf sheet pos ≠ .outOfFuel := by
  unfold getValue getValueFuel
  cases hf : sheet.find pos with
  | none => simp
  | some cell =>
    dsimp only
    split
    · simp
    · have := weight_lt_fuelBound sheet
      exact calculateWith_funded (evaluate_funded pf _) _ _ _ hf (by omega)

/-- Any fuel from `fuelBound` on gives the result of `getValue`. -/
theorem getValueFuel_eq_getValue (pf : Platform) (sheet : Sheet) (pos : CPos) (fuel : Nat)
    (h : fuelBound sheet ≤ fuel) : getValueFuel pf fuel sheet pos = getValue pf sheet pos := by
  have hne := getValue_ne_outOfFuel pf sheet pos
  unfold getValue getValueFuel at hne ⊢
  cases hf : sheet.find pos with
  | none => rfl
  | some cell =>
    simp only [hf] at hne ⊢
    split
    · rfl
    · rename_i he
      simp only [he] at hne
      exact calculateWith_extends (evaluate_extends pf h) _ _ _ hne

/-- The sheet after `getValue` is the sheet before. -/
theorem getValue_sheet (pf : Platform) (sheet : Sheet) (pos : CPos) (v : CValue) (s : Sheet)
    (h : getValue pf sheet pos = .ok (v, s)) : s = sheet := by
  unfold getValue getValueFuel at h
  cases hf : sheet.find pos with
  | none => simp only [hf] at h; cases h; rfl
  | some cell =>
    simp only [hf] at h
    split at h
    · cases h; rfl
    · exact calculateWith_restores (evaluate_restores pf _) hf h

/-! ## Expression trees and their postfix programs -/

theorem getValueFuel_extends (pf : Platform) {n m : Nat} (hnm : n ≤ m) (sheet : Sheet) (pos : CPos)
    (hne : getValueFuel pf n sheet pos ≠ .outOfFuel) :
    getValueFuel pf m sheet pos = getValueFuel pf n sheet pos := by
  unfold getValueFuel at hne ⊢
  cases hf : sheet.find pos with
  | none => rfl
  | some cell =>
    simp only [hf] at hne ⊢
    split
    · rfl
    · rename_i he
      simp only [he] at hne
      exact calculateWith_extends (evaluate_extends pf hnm) _ _ _ hne

theorem evalExpr_extends (pf : Platform) {n m : Nat} (hnm : n ≤ m) (e : Expr) :
    ∀ sheet, evalExpr pf n sheet e ≠ .outOfFuel → evalExpr pf m sheet e = evalExpr pf n sheet e := by
  induction e with
  | num d => intro sheet _; rfl
  | str s => intro sheet _; rfl
  | ref p => intro sheet hne; exact getValueFuel_extends pf hnm sheet p hne
  | range => intro sheet _; rfl
  | func a => intro sheet _; rfl
  | neg e ih =>
    intro sheet hne
    simp only [evalExpr] at hne ⊢
    cases h1 : evalExpr pf n sheet e with
    | outOfFuel => simp [h1] at hne
    | outOfRange => rw [ih sheet (by simp [h1]), h1]
    | ok a => rw [ih sheet (by simp [h1]), h1]
  | bin op l r ihl ihr =>
    intro sheet hne
    simp only [evalExpr] at hne ⊢
    cases h1 : evalExpr pf n sheet r with
    | outOfFuel => simp [h1] at hne
    | outOfRange => rw [ihr sheet (by simp [h1]), h1]
    | ok a =>
      obtain ⟨rv, s1⟩ := a
      rw [ihr sheet (by simp [h1]), h1]
      simp only [h1] at hne
      dsimp only
      cases h2 : evalExpr pf n s1 l with
      | outOfFuel => simp [h2] at hne
      | outOfRange => rw [ihl s1 (by simp [h2]), h2]
      | ok b => rw [ihl s1 (by simp [h2]), h2]

/-! ## The cursor evaluates a postfix program like the tree -/

theorem operandWith_at (ev : Evaluator) (a : List COperation) (x : COperation)
    (suf : List COperation) (sheet : Sheet) :
    operandWith ev (a ++ x :: suf) sheet suf.length = ev x (a ++ x :: suf) sheet suf.length := by
  unfold operandWith
  have hlen : suf.length < (a ++ x :: suf).length := by
    simp only [List.length_append, List.length_cons]; omega
  have hidx : (a ++ x :: suf).length - 1 - suf.length = a.length := by
    simp only [List.length_append, List.length_cons]; omega
  have hget : (a ++ x :: suf).get? a.length = some x := by
    rw [List.get?_eq_getElem?, List.getElem?_append_right (le_refl _)]
    simp
  rw [if_pos hlen, hidx, hget]

theorem referenceWith_eq (pf : Platform) (fuel : Nat) (p : CPos) (sheet : Sheet) (d : Nat) :
    referenceWith (evaluate pf fuel) p sheet d = (getValueFuel pf fuel sheet p).withDepth d := by
  unfold referenceWith getValueFuel CCell.calculateCell
  cases hf : sheet.find p with
  | none => rfl
  | some cell =>
    dsimp only
    split
    · rfl
    · cases calculateWith (evaluate pf fuel) sheet p cell with
      | ok a => rfl
      | outOfRange => rfl
      | outOfFuel => rfl

theorem withDepth_ne_outOfFuel {r : Res (CValue × Sheet)} {d : Nat}
    (h : r.withDepth d ≠ .outOfFuel) : r ≠ .outOfFuel := by
  intro hr; subst hr; exact h rfl

theorem operandWith_no_fuel (pf : Platform) (stack : List COperation) (sheet : Sheet) (d : Nat)
    (hd : d < stack.length) : operandWith (evaluate pf 0) stack sheet d = .outOfFuel := by
  unfold operandWith
  rw [if_pos hd]
  have hi : stack.length - 1 - d < stack.length := by omega
  rw [List.get?_eq_getElem?, List.getElem?_eq_getElem hi]
  rfl

theorem program_length_pos (e : Expr) : 0 < e.program.length := by
  cases e <;> simp [Expr.program]

/-- For a tree without `Range`/`Func`, the node fetched at the end of its
program, with fuel `fuel + 1`, computes what the recursive evaluation with
fuel `fuel` computes, and leaves the cursor before the program of the tree. -/
theorem operand_program (pf : Platform) (e : Expr) (he : e.plain = true) :
    ∀ (fuel : Nat) (pre suf : List COperation) (sheet : Sheet),
      operandWith (evaluate pf (fuel + 1)) (pre ++ e.program ++ suf) sheet suf.length ≠ .outOfFuel →
      operandWith (evaluate pf (fuel + 1)) (pre ++ e.program ++ suf) sheet suf.length
        = (evalExpr pf fuel sheet e).withDepth (suf.length + e.program.length) := by
  induction e with
  | num d =>
    intro fuel pre suf sheet _
    simp only [Expr.program, List.append_assoc, List.singleton_append]
    rw [operandWith_at]
    simp [evaluate, evalExpr, Res.withDepth]
  | str s =>
    intro fuel pre suf sheet _
    simp only [Expr.program, List.append_assoc, List.singleton_append]
    rw [operandWith_at]
    simp [evaluate, evalExpr, Res.withDepth]
  | ref p =>
    intro fuel pre suf sheet _
    simp only [Expr.program, List.append_assoc, List.singleton_append]
    rw [operandWith_at]
    simp only [evaluate, referenceWith_eq, evalExpr, List.length_singleton]
  | range => simp [Expr.plain] at he
  | func a => simp [Expr.plain] at he
  | neg e ih =>
    intro fuel pre suf sheet hne
    simp only [Expr.plain] at he
    have hst : pre ++ (Expr.neg e).program ++ suf
        = (pre ++ e.program) ++ COperation.CNegation :: suf := by
      simp [Expr.program, List.append_assoc]
    have hst2 : (pre ++ e.program) ++ COperation.CNegation :: suf
        = pre ++ e.program ++ (COperation.CNegation :: suf) := rfl
    rw [hst] at hne ⊢
    rw [operandWith_at] at hne ⊢
    simp only [evaluate, unaryWith] at hne ⊢
    have hlen : suf.length + 1 = (COperation.CNegation :: suf).length := rfl
    rw [hlen, hst2] at hne ⊢
    have hop : operandWith (evaluate pf fuel) (pre ++ e.program ++ COperation.CNegation :: suf) sheet
        (COperation.CNegation :: suf).length ≠ .outOfFuel := by
      intro h; rw [h] at hne; exact hne rfl
    cases fuel with
    | zero =>
      exfalso; apply hop
      apply operandWith_no_fuel
      have := program_length_pos e
      simp only [List.length_append, List.length_cons]; omega
    | succ f =>
      have h1 := ih he f pre (COperation.CNegation :: suf) sheet hop
      rw [h1] at hop ⊢
      have h2 := evalExpr_extends pf (Nat.le_succ f) e sheet (withDepth_ne_outOfFuel hop)
      simp only [evalExpr, h2]
      cases evalExpr pf f sheet e with
      | outOfFuel => rfl
      | outOfRange => rfl
      | ok a =>
        simp only [Res.withDepth, Expr.program, List.length_append, List.length_cons,
          List.length_singleton, List.length_nil]
        congr 3
        omega
  | bin op l r ihl ihr =>
    intro fuel pre suf sheet hne
    simp only [Expr.plain, Bool.and_eq_true] at he
    have hst : pre ++ (Expr.bin op l r).program ++ suf
        = (pre ++ l.program ++ r.program) ++ op.node :: suf := by
      simp [Expr.program, List.append_assoc]
    have hst2 : (pre ++ l.program ++ r.program) ++ op.node :: suf
        = (pre ++ l.program) ++ r.program ++ (op.node :: suf) := rfl
    have hst3 : (pre ++ l.program) ++ r.program ++ (op.node :: suf)
        = pre ++ l.program ++ (r.program ++ op.node :: suf) := by
      simp [List.append_assoc]
    rw [hst] at hne ⊢
    rw [operandWith_at] at hne ⊢
    have hev : ∀ d, evaluate pf (fuel + 1) op.node
        (pre ++ l.program ++ r.program ++ op.node :: suf) sheet d
        = binaryWith (evaluate pf fuel) (op.apply pf)
          (pre ++ l.program ++ r.program ++ op.node :: suf) sheet (d + 1) := by
      intro d; cases op <;> rfl
    rw [hev] at hne ⊢
    unfold binaryWith at hne ⊢
    have hlen : suf.length + 1 = (op.node :: suf).length := rfl
    rw [hlen, hst2] at hne ⊢
    have hop : operandWith (evaluate pf fuel) (pre ++ l.program ++ r.program ++ op.node :: suf) sheet
        (op.node :: suf).length ≠ .outOfFuel := by
      intro h; rw [h] at hne; exact hne rfl
    cases fuel with
    | zero =>
      exfalso; apply hop
      apply operandWith_no_fuel
      have := program_length_pos r
      simp only [List.length_append, List.length_cons]; omega
    | succ f =>
      have h1 := ihr he.2 f (pre ++ l.program) (op.node :: suf) sheet hop
      rw [h1] at hop hne ⊢
      have h2 := evalExpr_extends pf (Nat.le_succ f) r sheet (withDepth_ne_outOfFuel hop)
      simp only [evalExpr, h2]
      cases hr : evalExpr pf f sheet r with
      | outOfFuel => rfl
      | outOfRange => rfl
      | ok a =>
        obtain ⟨rv, s1⟩ := a
        simp only [hr, Res.withDepth] at hne ⊢
        have hlen2 : (op.node :: suf).length + r.program.length
            = (r.program ++ op.node :: suf).length := by
          simp; omega
        rw [hlen2, hst3] at hne ⊢
        have hop2 : operandWith (evaluate pf (f + 1))
            (pre ++ l.program ++ (r.program ++ op.node :: suf)) s1
            (r.program ++ op.node :: suf).length ≠ .outOfFuel := by
          intro h; rw [h] at hne; exact hne rfl
        have h3 := ihl he.1 f pre (r.program ++ op.node :: suf) s1 hop2
        rw [h3] at hop2 ⊢
        have h4 := evalExpr_extends pf (Nat.le_succ f) l s1 (withDepth_ne_outOfFuel hop2)
        rw [h4]
        cases evalExpr pf f s1 l with
        | outOfFuel => rfl
        | outOfRange => rfl
        | ok b =>
          simp only [Res.withDepth, Expr.program, List.length_append, List.length_cons,
            List.length_singleton, List.length_nil]
          congr 3
          omega

theorem operandWith_zero (ev : Evaluator) (stack : List COperation) (root : COperation)
    (sheet : Sheet) (h : stack.getLast? = some root) :
    operandWith ev stack sheet 0 = ev root stack sheet 0 := by
  obtain ⟨a, rfl⟩ : ∃ a, stack = a ++ [root] := by
    rw [List.getLast?_eq_some_iff] at h
    exact h
  exact operandWith_at ev a root [] sheet

theorem program_ne_nil (e : Expr) : e.program ≠ [] := by
  cases e <;> simp [Expr.program]

/-- The cell evaluation of `calculateWith`, phrased with the operand fetch at
cursor 0. -/
theorem calculateWith_eq_operand (ev : Evaluator) (sheet : Sheet) (pos : CPos) (cell : CCell)
    (hne : cell.m_Stack ≠ []) :
    calculateWith ev sheet pos cell =
      if cell.m_IsCalculated then .ok (.undefined, sheet)
      else
        match operandWith ev cell.m_Stack (sheet.setFlag pos true) 0 with
        | .ok (result, sheet1, _) => .ok (result, sheet1.setFlag pos false)
        | .outOfRange => .outOfRange
        | .outOfFuel => .outOfFuel := by
  unfold calculateWith
  split
  · rfl
  · cases hl : cell.m_Stack.getLast? with
    | none => simp [List.getLast?_eq_none_iff] at hl; exact absurd hl hne
    | some root => rw [operandWith_zero ev _ root _ hl]

theorem getValue_eq_treeValue (pf : Platform) (sheet : Sheet) (pos : CPos) (cell : CCell)
    (pre : List COperation) (e : Expr) (he : e.plain = true)
    (hf : sheet.find pos = some cell) (hp : cell.m_Stack = pre ++ e.program) :
    getValue pf sheet pos = treeValue pf sheet pos e := by
  have hnil : cell.m_Stack ≠ [] := by
    rw [hp]; simp [program_ne_nil e]
  have hemp : cell.m_Stack.isEmpty = false := by
    cases hc : cell.m_Stack with
    | nil => exact absurd hc hnil
    | cons a b => rfl
  have hne := getValue_ne_outOfFuel pf sheet pos
  unfold getValue getValueFuel CCell.calculateCell at hne ⊢
  unfold treeValue
  simp only [hf, hemp] at hne ⊢
  rw [calculateWith_eq_operand _ _ _ _ hnil] at hne ⊢
  by_cases hg : cell.m_IsCalculated = true
  · simp [hg]
  · simp only [hg, if_false, Bool.false_eq_true] at hne ⊢
    have hst : cell.m_Stack = pre ++ e.program ++ [] := by simp [hp]
    rw [hst] at hne ⊢
    obtain ⟨n, hn⟩ : ∃ n, fuelBound sheet = n + 1 := ⟨_, rfl⟩
    rw [hn] at hne ⊢
    have hop : operandWith (evaluate pf (n + 1)) (pre ++ e.program ++ [])
        (sheet.setFlag pos true) ([] : List COperation).length ≠ .outOfFuel := by
      intro h
      simp only [List.length_nil] at h
      rw [h] at hne; exact hne rfl
    have h1 := operand_program pf e he n pre [] (sheet.setFlag pos true) hop
    simp only [List.length_nil] at h1 hop
    rw [h1] at hop ⊢
    rw [evalExpr_extends pf (Nat.le_succ n) e _ (withDepth_ne_outOfFuel hop)]
    cases evalExpr pf n (sheet.setFlag pos true) e with
    | outOfFuel => rfl
    | outOfRange => rfl
    | ok a => rfl

/-! ## `Range` and `Func` nodes, undefined operands, index safety -/

theorem BinOp.apply_undefined_left (pf : Platform) (op : BinOp) (v : CValue) :
    op.apply pf .undefined v = .undefined := by
  cases op <;> cases v <;> rfl

theorem BinOp.apply_undefined_right (pf : Platform) (op : BinOp) (v : CValue) :
    op.apply pf v .undefined = .undefined := by
  cases op <;> cases v <;> rfl

theorem get?_at (a : List COperation) (x : COperation) (suf : List COperation) :
    suf.length < (a ++ x :: suf).length ∧
      (a ++ x :: suf).get? ((a ++ x :: suf).length - 1 - suf.length) = some x := by
  have hlen : suf.length < (a ++ x :: suf).length := by
    simp only [List.length_append, List.length_cons]; omega
  have hidx : (a ++ x :: suf).length - 1 - suf.length = a.length := by
    simp only [List.length_append, List.length_cons]; omega
  refine ⟨hlen, ?_⟩
  rw [hidx, List.get?_eq_getElem?, List.getElem?_append_right (le_refl _)]
  simp

theorem stuck_operand (pf : Platform) (fuel : Nat) (stack : List COperation) (sheet : Sheet)
    (d : Nat) (h : Stuck stack d) :
    operandWith (evaluate pf (fuel + 1)) stack sheet d = .ok (.undefined, sheet, d) := by
  obtain ⟨hd, hn⟩ := h
  unfold operandWith
  rw [if_pos hd]
  rcases hn with hn | hn <;> rw [hn] <;> rfl

theorem evaluate_binary (pf : Platform) (fuel : Nat) (op : BinOp) (stack : List COperation)
    (sheet : Sheet) (d : Nat) :
    evaluate pf (fuel + 1) op.node stack sheet d
      = binaryWith (evaluate pf fuel) (op.apply pf) stack sheet (d + 1) := by
  cases op <;> rfl

theorem operandWith_sheet (pf : Platform) (fuel : Nat) {stack : List COperation} {sheet : Sheet}
    {d : Nat} {v : CValue} {s : Sheet} {d2 : Nat}
    (h : operandWith (evaluate pf fuel) stack sheet d = .ok (v, s, d2)) : s = sheet :=
  (operandWith_restores (evaluate_restores pf fuel) h).1

/-- A tree with a `Range` or `Func` node: the run ends out of range, or yields
`undefined` with the cursor resting on such a node. -/
theorem operand_stuck (pf : Platform) (e : Expr) (he : e.plain = false) :
    ∀ (fuel : Nat) (pre suf : List COperation) (sheet : Sheet),
      operandWith (evaluate pf (fuel + 1)) (pre ++ e.program ++ suf) sheet suf.length ≠ .outOfFuel →
      operandWith (evaluate pf (fuel + 1)) (pre ++ e.program ++ suf) sheet suf.length = .outOfRange ∨
      ∃ d, operandWith (evaluate pf (fuel + 1)) (pre ++ e.program ++ suf) sheet suf.length
            = .ok (.undefined, sheet, d) ∧ Stuck (pre ++ e.program ++ suf) d := by
  induction e with
  | num d => simp [Expr.plain] at he
  | str s => simp [Expr.plain] at he
  | ref p => simp [Expr.plain] at he
  | range =>
    intro fuel pre suf sheet _
    right
    refine ⟨suf.length, ?_, ?_⟩
    · simp only [Expr.program, List.append_assoc, List.singleton_append]
      rw [operandWith_at]; rfl
    · simp only [Expr.program, List.append_assoc, List.singleton_append]
      exact ⟨(get?_at pre _ suf).1, Or.inl (get?_at pre _ suf).2⟩
  | func args =>
    intro fuel pre suf sheet _
    right
    have hst : pre ++ (Expr.func args).program ++ suf
        = (pre ++ args) ++ COperation.CFuncCall :: suf := by
      simp [Expr.program, List.append_assoc]
    rw [hst]
    refine ⟨suf.length, ?_, ?_⟩
    · rw [operandWith_at]; rfl
    · exact ⟨(get?_at _ _ suf).1, Or.inr (get?_at _ _ suf).2⟩
  | neg e ih =>
    intro fuel pre suf sheet hne
    simp only [Expr.plain] at he
    have hst : pre ++ (Expr.neg e).program ++ suf
        = (pre ++ e.program) ++ COperation.CNegation :: suf := by
      simp [Expr.program, List.append_assoc]
    have hst2 : (pre ++ e.program) ++ COperation.CNegation :: suf
        = pre ++ e.program ++ (COperation.CNegation :: suf) := rfl
    rw [hst] at hne ⊢
    rw [operandWith_at] at hne ⊢
    simp only [evaluate, unaryWith] at hne ⊢
    have hlen : suf.length + 1 = (COperation.CNegation :: suf).length := rfl
    rw [hlen, hst2] at hne ⊢
    have hop : operandWith (evaluate pf fuel) (pre ++ e.program ++ COperation.CNegation :: suf) sheet
        (COperation.CNegation :: suf).length ≠ .outOfFuel := by
      intro h; rw [h] at hne; exact hne rfl
    cases fuel with
    | zero =>
      exfalso; apply hop
      apply operandWith_no_fuel
      have := program_length_pos e
      simp only [List.length_append, List.length_cons]; omega
    | succ f =>
      rcases ih he f pre (COperation.CNegation :: suf) sheet hop with h1 | ⟨d, h1, hs⟩
      · left; rw [h1]
      · right; exact ⟨d, by rw [h1]; rfl, hs⟩
  | bin op l r ihl ihr =>
    intro fuel pre suf sheet hne
    have hst : pre ++ (Expr.bin op l r).program ++ suf
        = (pre ++ l.program ++ r.program) ++ op.node :: suf := by
      simp [Expr.program, List.append_assoc]
    have hst2 : (pre ++ l.program ++ r.program) ++ op.node :: suf
        = (pre ++ l.program) ++ r.program ++ (op.node :: suf) := rfl
    have hst3 : (pre ++ l.program) ++ r.program ++ (op.node :: suf)
        = pre ++ l.program ++ (r.program ++ op.node :: suf) := by
      simp [List.append_assoc]
    rw [hst] at hne ⊢
    rw [operandWith_at] at hne ⊢
    rw [evaluate_binary] at hne ⊢
    unfold binaryWith at hne ⊢
    have hlen : suf.length + 1 = (op.node :: suf).length := rfl
    rw [hlen, hst2] at hne ⊢
    have hop : operandWith (evaluate pf fuel) (pre ++ l.program ++ r.program ++ op.node :: suf) sheet
        (op.node :: suf).length ≠ .outOfFuel := by
      intro h; rw [h] at hne; exact hne rfl
    cases fuel with
    | zero =>
      exfalso; apply hop
      apply operandWith_no_fuel
      have := program_length_pos r
      simp only [List.length_append, List.length_cons]; omega
    | succ f =>
      by_cases hr : r.plain = true
      · have hl : l.plain = false := by
          simp only [Expr.plain, hr, Bool.and_true] at he; exact he
        have h1 := operand_program pf r hr f (pre ++ l.program) (op.node :: suf) sheet hop
        rw [h1] at hne ⊢
        cases hev : evalExpr pf f sheet r with
        | outOfFuel => rw [hev] at hne; exact absurd rfl hne
        | outOfRange => left; rfl
        | ok a =>
          obtain ⟨rv, s1⟩ := a
          have hs1 : s1 = sheet := by
            rw [hev] at h1
            exact operandWith_sheet pf _ h1
          subst hs1
          simp only [hev, Res.withDepth] at hne ⊢
          have hlen2 : (op.node :: suf).length + r.program.length
              = (r.program ++ op.node :: suf).length := by
            simp; omega
          rw [hlen2, hst3] at hne ⊢
          have hop2 : operandWith (evaluate pf (f + 1))
              (pre ++ l.program ++ (r.program ++ op.node :: suf)) s1
              (r.program ++ op.node :: suf).length ≠ .outOfFuel := by
            intro h; rw [h] at hne; exact hne rfl
          rcases ihl hl f pre (r.program ++ op.node :: suf) s1 hop2 with h3 | ⟨d, h3, hs⟩
          · left; rw [h3]
          · right
            refine ⟨d, ?_, hs⟩
            rw [h3]
            simp only [BinOp.apply_undefined_left]
      · simp only [Bool.not_eq_true] at hr
        rcases ihr hr f (pre ++ l.program) (op.node :: suf) sheet hop with h1 | ⟨d, h1, hs⟩
        · left; rw [h1]
        · right
          refine ⟨d, ?_, hs⟩
          rw [h1]
          simp only
          rw [stuck_operand pf f _ _ _ hs]
          simp only [BinOp.apply_undefined_left]

theorem withDepth_eq_outOfRange {r : Res (CValue × Sheet)} {d : Nat}
    (h : r.withDepth d = .outOfRange) : r = .outOfRange := by
  cases r with
  | ok a => simp [Res.withDepth] at h
  | outOfRange => rfl
  | outOfFuel => simp [Res.withDepth] at h

theorem getValueFuel_in_range_pred (pf : Platform) (f : Nat) (sheet : Sheet)
    (h : ∀ q, getValueFuel pf (f + 1) sheet q ≠ .outOfRange) :
    ∀ q, getValueFuel pf f sheet q ≠ .outOfRange := by
  intro q hq
  have h1 := getValueFuel_extends pf (Nat.le_succ f) sheet q (by rw [hq]; simp)
  rw [hq] at h1
  exact h q h1

/-- When no referenced cell runs out of range, neither does the program of any
tree. -/
theorem operand_in_range (pf : Platform) (e : Expr) :
    ∀ (fuel : Nat) (pre suf : List COperation) (sheet : Sheet),
      (∀ q, getValueFuel pf fuel sheet q ≠ .outOfRange) →
      operandWith (evaluate pf (fuel + 1)) (pre ++ e.program ++ suf) sheet suf.length
        ≠ .outOfRange := by
  induction e with
  | num d =>
    intro fuel pre suf sheet _
    simp only [Expr.program, List.append_assoc, List.singleton_append]
    rw [operandWith_at]; simp [evaluate]
  | str s =>
    intro fuel pre suf sheet _
    simp only [Expr.program, List.append_assoc, List.singleton_append]
    rw [operandWith_at]; simp [evaluate]
  | ref p =>
    intro fuel pre suf sheet hsafe
    simp only [Expr.program, List.append_assoc, List.singleton_append]
    rw [operandWith_at]
    simp only [evaluate, referenceWith_eq]
    intro h
    exact hsafe p (withDepth_eq_outOfRange h)
  | range =>
    intro fuel pre suf sheet _
    simp only [Expr.program, List.append_assoc, List.singleton_append]
    rw [operandWith_at]; simp [evaluate]
  | func args =>
    intro fuel pre suf sheet _
    have hst : pre ++ (Expr.func args).program ++ suf
        = (pre ++ args) ++ COperation.CFuncCall :: suf := by
      simp [Expr.program, List.append_assoc]
    rw [hst, operandWith_at]; simp [evaluate]
  | neg e ih =>
    intro fuel pre suf sheet hsafe
    have hst : pre ++ (Expr.neg e).program ++ suf
        = (pre ++ e.program) ++ COperation.CNegation :: suf := by
      simp [Expr.program, List.append_assoc]
    have hst2 : (pre ++ e.program) ++ COperation.CNegation :: suf
        = pre ++ e.program ++ (COperation.CNegation :: suf) := rfl
    rw [hst, operandWith_at]
    simp only [evaluate, unaryWith]
    have hlen : suf.length + 1 = (COperation.CNegation :: suf).length := rfl
    rw [hlen, hst2]
    cases fuel with
    | zero =>
      rw [operandWith_no_fuel]
      · simp
      · have := program_length_pos e
        simp only [List.length_append, List.length_cons]; omega
    | succ f =>
      have h1 := ih f pre (COperation.CNegation :: suf) sheet
        (getValueFuel_in_range_pred pf f sheet hsafe)
      cases h2 : operandWith (evaluate pf (f + 1)) (pre ++ e.program ++ COperation.CNegation :: suf)
          sheet (COperation.CNegation :: suf).length with
      | ok a => simp
      | outOfRange => exact absurd h2 h1
      | outOfFuel => simp
  | bin op l r ihl ihr =>
    intro fuel pre suf sheet hsafe
    have hst : pre ++ (Expr.bin op l r).program ++ suf
        = (pre ++ l.program ++ r.program) ++ op.node :: suf := by
      simp [Expr.program, List.append_assoc]
    have hst2 : (pre ++ l.program ++ r.program) ++ op.node :: suf
        = (pre ++ l.program) ++ r.program ++ (op.node :: suf) := rfl
    have hst3 : (pre ++ l.program) ++ r.program ++ (op.node :: suf)
        = pre ++ l.program ++ (r.program ++ op.node :: suf) := by
      simp [List.append_assoc]
    rw [hst, operandWith_at, evaluate_binary]
    unfold binaryWith
    have hlen : suf.length + 1 = (op.node :: suf).length := rfl
    rw [hlen, hst2]
    cases fuel with
    | zero =>
      rw [operandWith_no_fuel]
      · simp
      · have := program_length_pos r
        simp only [List.length_append, List.length_cons]; omega
    | succ f =>
      have hsafe2 := getValueFuel_in_range_pred pf f sheet hsafe
      have h1 := ihr f (pre ++ l.program) (op.node :: suf) sheet hsafe2
      cases h2 : operandWith (evaluate pf (f + 1)) (pre ++ l.program ++ r.program ++ op.node :: suf)
          sheet (op.node :: suf).length with
      | outOfRange => exact absurd h2 h1
      | outOfFuel => simp
      | ok a =>
        obtain ⟨rv, s1, d1⟩ := a
        have hs1 : s1 = sheet := operandWith_sheet pf _ h2
        subst hs1
        dsimp only
        have hleft : operandWith (evaluate pf (f + 1))
            (pre ++ l.program ++ r.program ++ op.node :: suf) s1 d1 ≠ .outOfRange := by
          by_cases hr : r.plain = true
          · have h3 := operand_program pf r hr f (pre ++ l.program) (op.node :: suf) s1
              (by rw [h2]; simp)
            rw [h2] at h3
            have hd1 : d1 = (r.program ++ op.node :: suf).length := by
              cases hev : evalExpr pf f s1 r with
              | ok b =>
                rw [hev] at h3
                simp only [Res.withDepth, Res.ok.injEq, Prod.mk.injEq] at h3
                rw [h3.2.2]; simp; omega
              | outOfRange => rw [hev] at h3; simp [Res.withDepth] at h3
              | outOfFuel => rw [hev] at h3; simp [Res.withDepth] at h3
            rw [hd1, hst3]
            exact ihl f pre (r.program ++ op.node :: suf) s1 hsafe2
          · simp only [Bool.not_eq_true] at hr
            rcases operand_stuck pf r hr f (pre ++ l.program) (op.node :: suf) s1
              (by rw [h2]; simp) with h3 | ⟨d, h3, hs⟩
            · rw [h2] at h3; simp at h3
            · rw [h2] at h3
              simp only [Res.ok.injEq, Prod.mk.injEq] at h3
              rw [h3.2.2, stuck_operand pf f _ _ _ hs]
              simp
        cases h4 : operandWith (evaluate pf (f + 1))
            (pre ++ l.program ++ r.program ++ op.node :: suf) s1 d1 with
        | outOfRange => exact absurd h4 hleft
        | outOfFuel => simp
        | ok b => simp

theorem Sheet.find_mem (s : Sheet) (q : CPos) (c : CCell) (h : Sheet.find s q = some c) :
    ∃ k, (k, c) ∈ s := by
  induction s with
  | nil => simp [Sheet.find] at h
  | cons e rest ih =>
    obtain ⟨k, v⟩ := e
    by_cases hk : k.same q = true
    · simp only [Sheet.find, hk, if_true, Option.some.injEq] at h
      subst h
      exact ⟨k, List.mem_cons_self _ _⟩
    · simp only [Sheet.find, hk] at h
      obtain ⟨k2, hk2⟩ := ih h
      exact ⟨k2, List.mem_cons_of_mem _ hk2⟩

theorem Sheet.mem_setFlag (s : Sheet) (pos : CPos) (b : Bool) (k : CPos) (c : CCell)
    (h : (k, c) ∈ Sheet.setFlag s pos b) : ∃ c0, (k, c0) ∈ s ∧ c.m_Stack = c0.m_Stack := by
  induction s with
  | nil => simp [Sheet.setFlag] at h
  | cons e rest ih =>
    obtain ⟨k1, v⟩ := e
    by_cases hk : k1.same pos = true
    · simp only [Sheet.setFlag, hk, if_true, List.mem_cons, Prod.mk.injEq] at h
      rcases h with ⟨h1, h2⟩ | h
      · subst h1 h2
        exact ⟨v, List.mem_cons_self _ _, rfl⟩
      · exact ⟨c, List.mem_cons_of_mem _ h, rfl⟩
    · simp only [Sheet.setFlag, hk, Bool.false_eq_true, if_false, List.mem_cons,
        Prod.mk.injEq] at h
      rcases h with ⟨h1, h2⟩ | h
      · rw [h1, h2]
        exact ⟨v, List.mem_cons_self _ _, rfl⟩
      · obtain ⟨c0, hc0, hst⟩ := ih h
        exact ⟨c0, List.mem_cons_of_mem _ hc0, hst⟩

theorem wellFormed_setFlag {s : Sheet} (h : WellFormed s) (pos : CPos) (b : Bool) :
    WellFormed (Sheet.setFlag s pos b) := by
  intro entry hmem
  obtain ⟨k, c⟩ := entry
  obtain ⟨c0, hc0, hst⟩ := Sheet.mem_setFlag s pos b k c hmem
  have := h (k, c0) hc0
  simp only [hst]
  exact this

/-- Index safety: in a well-formed sheet no evaluation leaves the program. -/
theorem getValueFuel_in_range (pf : Platform) :
    ∀ (fuel : Nat) (sheet : Sheet), WellFormed sheet →
      ∀ q, getValueFuel pf fuel sheet q ≠ .outOfRange := by
  intro fuel
  induction fuel with
  | zero =>
    intro sheet _ q
    unfold getValueFuel CCell.calculateCell
    cases hf : sheet.find q with
    | none => simp
    | some cell =>
      dsimp only
      split
      · simp
      · rename_i he
        have hnil : cell.m_Stack ≠ [] := by
          intro h; rw [h] at he; simp at he
        rw [calculateWith_eq_operand _ _ _ _ hnil]
        split
        · simp
        · rw [operandWith_no_fuel]
          · simp
          · exact List.length_pos.mpr hnil
  | succ n ih =>
    intro sheet hwf q
    unfold getValueFuel CCell.calculateCell
    cases hf : sheet.find q with
    | none => simp
    | some cell =>
      dsimp only
      split
      · simp
      · rename_i he
        have hnil : cell.m_Stack ≠ [] := by
          intro h; rw [h] at he; simp at he
        rw [calculateWith_eq_operand _ _ _ _ hnil]
        split
        · simp
        · obtain ⟨k, hk⟩ := Sheet.find_mem sheet q cell hf
          rcases hwf (k, cell) hk with h0 | ⟨pre, e, hpe⟩
          · exact absurd h0 hnil
          · have hst : cell.m_Stack = pre ++ e.program ++ [] := by
              simp only [List.append_nil]; exact hpe
            have h1 := operand_in_range pf e n pre [] (sheet.setFlag q true)
              (ih _ (wellFormed_setFlag hwf q true))
            simp only [List.length_nil] at h1
            rw [hst]
            cases h2 : operandWith (evaluate pf (n + 1)) (pre ++ e.program ++ [])
                (sheet.setFlag q true) 0 with
            | outOfRange => exact absurd h2 h1
            | outOfFuel => simp
            | ok a => simp

/-! ## An undefined `Ref` leaf makes the cell undefined -/

theorem getValueFuel_sheet (pf : Platform) (fuel : Nat) (sheet : Sheet) (pos : CPos) (v : CValue)
    (s : Sheet) (h : getValueFuel pf fuel sheet pos = .ok (v, s)) : s = sheet := by
  unfold getValueFuel at h
  cases hf : sheet.find pos with
  | none => simp only [hf] at h; cases h; rfl
  | some cell =>
    simp only [hf] at h
    split at h
    · cases h; rfl
    · exact calculateWith_restores (evaluate_restores pf _) hf h

theorem evalExpr_sheet (pf : Platform) (fuel : Nat) (e : Expr) :
    ∀ (sheet : Sheet) (v : CValue) (s : Sheet), evalExpr pf fuel sheet e = .ok (v, s) → s = sheet := by
  induction e with
  | num d => intro sheet v s h; simp only [evalExpr] at h; cases h; rfl
  | str x => intro sheet v s h; simp only [evalExpr] at h; cases h; rfl
  | ref p => intro sheet v s h; exact getValueFuel_sheet pf fuel sheet p v s h
  | range => intro sheet v s h; simp only [evalExpr] at h; cases h; rfl
  | func a => intro sheet v s h; simp only [evalExpr] at h; cases h; rfl
  | neg e ih =>
    intro sheet v s h
    simp only [evalExpr] at h
    cases h1 : evalExpr pf fuel sheet e with
    | ok a =>
      obtain ⟨v1, s1⟩ := a
      rw [h1] at h
      cases h
      exact ih sheet v1 _ h1
    | outOfRange => rw [h1] at h; cases h
    | outOfFuel => rw [h1] at h; cases h
  | bin op l r ihl ihr =>
    intro sheet v s h
    simp only [evalExpr] at h
    cases h1 : evalExpr pf fuel sheet r with
    | ok a =>
      obtain ⟨rv, s1⟩ := a
      rw [h1] at h
      dsimp only at h
      have hs1 := ihr sheet rv s1 h1
      cases h2 : evalExpr pf fuel s1 l with
      | ok b =>
        obtain ⟨lv, s2⟩ := b
        rw [h2] at h
        cases h
        exact (ihl s1 lv _ h2).trans hs1
      | outOfRange => rw [h2] at h; cases h
      | outOfFuel => rw [h2] at h; cases h
    | outOfRange => rw [h1] at h; cases h
    | outOfFuel => rw [h1] at h; cases h

theorem evalExpr_undefined_of_ref (pf : Platform) (fuel : Nat) (q : CPos) (e : Expr)
    (hq : q ∈ e.refs) :
    ∀ (sheet : Sheet), (∀ v s, getValueFuel pf fuel sheet q = .ok (v, s) → v = .undefined) →
      ∀ v s, evalExpr pf fuel sheet e = .ok (v, s) → v = .undefined := by
  induction e with
  | num d => simp [Expr.refs] at hq
  | str x => simp [Expr.refs] at hq
  | range => simp [Expr.refs] at hq
  | func a => simp [Expr.refs] at hq
  | ref p =>
    intro sheet hyp v s h
    simp only [Expr.refs, List.mem_singleton] at hq
    subst hq
    exact hyp v s h
  | neg e ih =>
    intro sheet hyp v s h
    simp only [Expr.refs] at hq
    simp only [evalExpr] at h
    cases h1 : evalExpr pf fuel sheet e with
    | ok a =>
      obtain ⟨v1, s1⟩ := a
      rw [h1] at h
      simp only [Res.ok.injEq, Prod.mk.injEq] at h
      rw [← h.1, ih hq sheet hyp v1 s1 h1]
      rfl
    | outOfRange => rw [h1] at h; cases h
    | outOfFuel => rw [h1] at h; cases h
  | bin op l r ihl ihr =>
    intro sheet hyp v s h
    simp only [Expr.refs, List.mem_append] at hq
    simp only [evalExpr] at h
    cases h1 : evalExpr pf fuel sheet r with
    | ok a =>
      obtain ⟨rv, s1⟩ := a
      rw [h1] at h
      dsimp only at h
      have hs1 := evalExpr_sheet pf fuel r sheet rv s1 h1
      subst hs1
      cases h2 : evalExpr pf fuel s1 l with
      | ok b =>
        obtain ⟨lv, s2⟩ := b
        rw [h2] at h
        simp only [Res.ok.injEq, Prod.mk.injEq] at h
        rw [← h.1]
        rcases hq with hq | hq
        · rw [ihl hq s1 hyp lv s2 h2]
          exact BinOp.apply_undefined_left pf op rv
        · rw [ihr hq s1 hyp rv s1 h1]
          exact BinOp.apply_undefined_right pf op lv
      | outOfRange => rw [h2] at h; cases h
      | outOfFuel => rw [h2] at h; cases h
    | outOfRange => rw [h1] at h; cases h
    | outOfFuel => rw [h1] at h; cases h

theorem operand_undefined_of_ref (pf : Platform) (fuel : Nat) (q : CPos) (e : Expr)
    (hq : q ∈ e.refs) (pre suf : List COperation) (sheet : Sheet)
    (hyp : ∀ v s, getValueFuel pf fuel sheet q = .ok (v, s) → v = .undefined)
    (v : CValue) (s : Sheet) (d : Nat)
    (h : operandWith (evaluate pf (fuel + 1)) (pre ++ e.program ++ suf) sheet suf.length
      = .ok (v, s, d)) : v = .undefined := by
  by_cases he : e.plain = true
  · have h1 := operand_program pf e he fuel pre suf sheet (by rw [h]; simp)
    rw [h] at h1
    cases hev : evalExpr pf fuel sheet e with
    | ok a =>
      obtain ⟨v1, s1⟩ := a
      rw [hev] at h1
      simp only [Res.withDepth, Res.ok.injEq, Prod.mk.injEq] at h1
      rw [h1.1]
      exact evalExpr_undefined_of_ref pf fuel q e hq sheet hyp v1 s1 hev
    | outOfRange => rw [hev] at h1; simp [Res.withDepth] at h1
    | outOfFuel => rw [hev] at h1; simp [Res.withDepth] at h1
  · simp only [Bool.not_eq_true] at he
    rcases operand_stuck pf e he fuel pre suf sheet (by rw [h]; simp) with h1 | ⟨d2, h1, _⟩
    · rw [h] at h1; simp at h1
    · rw [h] at h1
      simp only [Res.ok.injEq, Prod.mk.injEq] at h1
      exact h1.1

/-- A cell whose expression has a `Ref` leaf `q` that evaluates to `undefined`
(while the cell is being evaluated) evaluates to `undefined`. -/
theorem getValueFuel_undefined_of_ref (pf : Platform) (fuel : Nat) (sheet : Sheet) (pos : CPos)
    (cell : CCell) (pre : List COperation) (e : Expr) (q : CPos)
    (hf : sheet.find pos = some cell) (hp : cell.m_Stack = pre ++ e.program) (hq : q ∈ e.refs)
    (hyp : ∀ v s, getValueFuel pf fuel (sheet.setFlag pos true) q = .ok (v, s) → v = .undefined)
    (v : CValue) (s : Sheet) (h : getValueFuel pf (fuel + 1) sheet pos = .ok (v, s)) :
    v = .undefined := by
  have hnil : cell.m_Stack ≠ [] := by
    rw [hp]; simp [program_ne_nil e]
  have hemp : cell.m_Stack.isEmpty = false := by
    cases hc : cell.m_Stack with
    | nil => exact absurd hc hnil
    | cons a b => rfl
  unfold getValueFuel CCell.calculateCell at h
  simp only [hf, hemp] at h
  rw [calculateWith_eq_operand _ _ _ _ hnil] at h
  by_cases hg : cell.m_IsCalculated = true
  · simp only [hg, if_true, Bool.false_eq_true, if_false] at h
    cases h; rfl
  · simp only [hg, if_false, Bool.false_eq_true] at h
    have hst : cell.m_Stack = pre ++ e.program ++ [] := by
      simp only [List.append_nil]; exact hp
    rw [hst] at h
    cases h1 : operandWith (evaluate pf (fuel + 1)) (pre ++ e.program ++ [])
        (sheet.setFlag pos true) 0 with
    | ok a =>
      obtain ⟨v1, s1, d1⟩ := a
      rw [h1] at h
      simp only [Res.ok.injEq, Prod.mk.injEq] at h
      rw [← h.1]
      exact operand_undefined_of_ref pf fuel q e hq pre [] _ hyp v1 s1 d1 h1
    | outOfRange => rw [h1] at h; cases h
    | outOfFuel => rw [h1] at h; cases h

/-- In a well-formed sheet `getValue` returns a value and the unchanged sheet. -/
theorem getValue_ok (pf : Platform) (sheet : Sheet) (hwf : WellFormed sheet) (pos : CPos) :
    ∃ v, getValue pf sheet pos = .ok (v, sheet) := by
  cases h : getValue pf sheet pos with
  | ok a =>
    obtain ⟨v, s⟩ := a
    have := getValue_sheet pf sheet pos v s h
    subst this
    exact ⟨v, rfl⟩
  | outOfRange => exact absurd h (getValueFuel_in_range pf _ sheet hwf pos)
  | outOfFuel => exact absurd h (getValue_ne_outOfFuel pf sheet pos)

/-! ## Reference cycles -/

theorem Sheet.find_congr (s : Sheet) {q b : CPos} (h : q.same b = true) :
    Sheet.find s q = Sheet.find s b := by
  induction s with
  | nil => rfl
  | cons e rest ih =>
    obtain ⟨k, v⟩ := e
    simp only [Sheet.find, CPos.same_congr_right h, ih]

theorem Sheet.setFlag_congr (s : Sheet) {q b : CPos} (h : q.same b = true) (f : Bool) :
    Sheet.setFlag s q f = Sheet.setFlag s b f := by
  induction s with
  | nil => rfl
  | cons e rest ih =>
    obtain ⟨k, v⟩ := e
    simp only [Sheet.setFlag, CPos.same_congr_right h, ih]

theorem getValueFuel_congr (pf : Platform) (fuel : Nat) (s : Sheet) {q b : CPos}
    (h : q.same b = true) : getValueFuel pf fuel s q = getValueFuel pf fuel s b := by
  unfold getValueFuel CCell.calculateCell calculateWith
  simp only [Sheet.find_congr s h, Sheet.setFlag_congr _ h]

theorem refEdge_setFlag {s : Sheet} {a c : CPos} (h : RefEdge s a c) (pos : CPos) (b : Bool) :
    RefEdge (Sheet.setFlag s pos b) a c := by
  obtain ⟨cell, pre, e, q, hf, hp, hq, hs⟩ := h
  rw [RefEdge]
  by_cases hpa : pos.same a = true
  · refine ⟨{ cell with m_IsCalculated := b }, pre, e, q, ?_, hp, hq, hs⟩
    rw [Sheet.find_setFlag, if_pos hpa, hf]; rfl
  · refine ⟨cell, pre, e, q, ?_, hp, hq, hs⟩
    rw [Sheet.find_setFlag, if_neg hpa, hf]

theorem doomed_setFlag {s : Sheet} {a : CPos} (h : Doomed s a) (pos : CPos) (b : Bool) :
    Doomed (Sheet.setFlag s pos b) a := by
  obtain ⟨c, h1, h2⟩ := h
  exact ⟨c, Relation.ReflTransGen.mono (fun _ _ h => refEdge_setFlag h pos b) h1,
    Relation.TransGen.mono (fun _ _ h => refEdge_setFlag h pos b) h2⟩

theorem doomed_step {s : Sheet} {a : CPos} (h : Doomed s a) :
    ∃ b, RefEdge s a b ∧ Doomed s b := by
  obtain ⟨c, h1, h2⟩ := h
  rcases Relation.ReflTransGen.cases_head h1 with rfl | ⟨b, hab, hbc⟩
  · rcases Relation.TransGen.head'_iff.mp h2 with ⟨b, hab, hba⟩
    exact ⟨b, hab, a, hba, h2⟩
  · exact ⟨b, hab, c, hbc, h2⟩

/-- A cell that leads into a reference cycle never evaluates to a number or a
text. -/
theorem getValueFuel_doomed (pf : Platform) :
    ∀ (fuel : Nat) (sheet : Sheet) (a : CPos), Doomed sheet a →
      ∀ v s, getValueFuel pf fuel sheet a = .ok (v, s) → v = .undefined := by
  intro fuel
  induction fuel with
  | zero =>
    intro sheet a hd v s h
    obtain ⟨b, ⟨cell, pre, e, q, hf, hp, hq, hs⟩, _⟩ := doomed_step hd
    have hnil : cell.m_Stack ≠ [] := by
      rw [hp]; simp [program_ne_nil e]
    have hemp : cell.m_Stack.isEmpty = false := by
      cases hc : cell.m_Stack with
      | nil => exact absurd hc hnil
      | cons x y => rfl
    unfold getValueFuel CCell.calculateCell at h
    simp only [hf, hemp] at h
    rw [calculateWith_eq_operand _ _ _ _ hnil] at h
    by_cases hg : cell.m_IsCalculated = true
    · simp only [hg, if_true, Bool.false_eq_true, if_false] at h
      simp only [Res.ok.injEq, Prod.mk.injEq] at h
      exact h.1.symm
    · simp only [hg, if_false, Bool.false_eq_true] at h
      rw [operandWith_no_fuel pf _ _ _ (List.length_pos.mpr hnil)] at h
      cases h
  | succ n ih =>
    intro sheet a hd v s h
    obtain ⟨b, ⟨cell, pre, e, q, hf, hp, hq, hs⟩, hb⟩ := doomed_step hd
    refine getValueFuel_undefined_of_ref pf n sheet a cell pre e q hf hp hq ?_ v s h
    intro v2 s2 h2
    rw [getValueFuel_congr pf n _ hs] at h2
    exact ih _ b (doomed_setFlag hb a true) v2 s2 h2

theorem getValue_doomed (pf : Platform) (sheet : Sheet) (hwf : WellFormed sheet) (a : CPos)
    (hd : Doomed sheet a) : getValue pf sheet a = .ok (.undefined, sheet) := by
  obtain ⟨v, hv⟩ := getValue_ok pf sheet hwf a
  have := getValueFuel_doomed pf _ sheet a hd v sheet hv
  rw [hv, this]

/-! ## Cells outside the reachable part of the sheet do not matter -/

theorem agree_setFlag {R : CPos → Prop} {s1 s2 : Sheet} (h : Agree R s1 s2) (pos : CPos) (b : Bool) :
    Agree R (Sheet.setFlag s1 pos b) (Sheet.setFlag s2 pos b) := by
  intro q hq
  rw [Sheet.find_setFlag, Sheet.find_setFlag, h q hq]

theorem closed_setFlag {R : CPos → Prop} {s : Sheet} (h : Closed R s) (pos : CPos) (b : Bool) :
    Closed R (Sheet.setFlag s pos b) := by
  intro a cell q ha hf hmem
  rw [Sheet.find_setFlag] at hf
  split at hf
  · cases hf0 : Sheet.find s a with
    | none => rw [hf0] at hf; simp at hf
    | some c0 =>
      rw [hf0] at hf
      simp only [Option.map_some', Option.some.injEq] at hf
      subst hf
      exact h a c0 q ha hf0 hmem
  · exact h a cell q ha hf hmem

theorem dropSheet_ok {r : EvalOut} {v : CValue} {d : Nat} (h : dropSheet r = .ok (v, d)) :
    ∃ s, r = .ok (v, s, d) := by
  cases r with
  | ok a =>
    obtain ⟨v1, s1, d1⟩ := a
    simp only [dropSheet, Res.ok.injEq, Prod.mk.injEq] at h
    exact ⟨s1, by rw [h.1, h.2]⟩
  | outOfRange => simp [dropSheet] at h
  | outOfFuel => simp [dropSheet] at h

theorem operandWith_lock {R : CPos → Prop} {ev : Evaluator} (h : Lock R ev)
    (stack : List COperation) (s1 s2 : Sheet) (depth : Nat) (ha : Agree R s1 s2)
    (hc : Closed R s1) (hs : ∀ q, COperation.CReference q ∈ stack → R q) :
    dropSheet (operandWith ev stack s1 depth) = dropSheet (operandWith ev stack s2 depth) := by
  unfold operandWith
  split
  · cases hg : stack.get? (stack.length - 1 - depth) with
    | none => rfl
    | some op =>
      dsimp only
      refine h op stack s1 s2 depth ha hc hs ?_
      intro q hq
      subst hq
      exact hs q (List.get?_mem hg)
  · rfl

theorem binaryWith_lock {R : CPos → Prop} {ev : Evaluator} (h : Lock R ev) (hr : Restores ev)
    (f : CValue → CValue → CValue)
    (stack : List COperation) (s1 s2 : Sheet) (depth : Nat) (ha : Agree R s1 s2)
    (hc : Closed R s1) (hs : ∀ q, COperation.CReference q ∈ stack → R q) :
    dropSheet (binaryWith ev f stack s1 depth) = dropSheet (binaryWith ev f stack s2 depth) := by
  have h1 := operandWith_lock h stack s1 s2 depth ha hc hs
  unfold binaryWith
  cases e1 : operandWith ev stack s1 depth with
  | ok a =>
    obtain ⟨rv, t1, d1⟩ := a
    rw [e1] at h1
    obtain ⟨t2, e2⟩ := dropSheet_ok h1.symm
    rw [e2]
    dsimp only
    have ht1 := (operandWith_restores hr e1).1
    have ht2 := (operandWith_restores hr e2).1
    subst ht1 ht2
    have h2 := operandWith_lock h stack t1 t2 d1 ha hc hs
    cases e3 : operandWith ev stack t1 d1 with
    | ok b =>
      obtain ⟨lv, u1, d2⟩ := b
      rw [e3] at h2
      obtain ⟨u2, e4⟩ := dropSheet_ok h2.symm
      rw [e4]
      rfl
    | outOfRange =>
      rw [e3] at h2
      cases e4 : operandWith ev stack t2 d1 with
      | ok b => rw [e4] at h2; simp [dropSheet] at h2
      | outOfRange => rfl
      | outOfFuel => rw [e4] at h2; simp [dropSheet] at h2
    | outOfFuel =>
      rw [e3] at h2
      cases e4 : operandWith ev stack t2 d1 with
      | ok b => rw [e4] at h2; simp [dropSheet] at h2
      | outOfRange => rw [e4] at h2; simp [dropSheet] at h2
      | outOfFuel => rfl
  | outOfRange =>
    rw [e1] at h1
    cases e2 : operandWith ev stack s2 depth with
    | ok b => rw [e2] at h1; simp [dropSheet] at h1
    | outOfRange => rfl
    | outOfFuel => rw [e2] at h1; simp [dropSheet] at h1
  | outOfFuel =>
    rw [e1] at h1
    cases e2 : operandWith ev stack s2 depth with
    | ok b => rw [e2] at h1; simp [dropSheet] at h1
    | outOfRange => rw [e2] at h1; simp [dropSheet] at h1
    | outOfFuel => rfl

theorem unaryWith_lock {R : CPos → Prop} {ev : Evaluator} (h : Lock R ev)
    (stack : List COperation) (s1 s2 : Sheet) (depth : Nat) (ha : Agree R s1 s2)
    (hc : Closed R s1) (hs : ∀ q, COperation.CReference q ∈ stack → R q) :
    dropSheet (unaryWith ev stack s1 depth) = dropSheet (unaryWith ev stack s2 depth) := by
  have h1 := operandWith_lock h stack s1 s2 depth ha hc hs
  unfold unaryWith
  cases e1 : operandWith ev stack s1 depth with
  | ok a =>
    obtain ⟨rv, t1, d1⟩ := a
    rw [e1] at h1
    obtain ⟨t2, e2⟩ := dropSheet_ok h1.symm
    rw [e2]
    rfl
  | outOfRange =>
    rw [e1] at h1
    cases e2 : operandWith ev stack s2 depth with
    | ok b => rw [e2] at h1; simp [dropSheet] at h1
    | outOfRange => rfl
    | outOfFuel => rw [e2] at h1; simp [dropSheet] at h1
  | outOfFuel =>
    rw [e1] at h1
    cases e2 : operandWith ev stack s2 depth with
    | ok b => rw [e2] at h1; simp [dropSheet] at h1
    | outOfRange => rw [e2] at h1; simp [dropSheet] at h1
    | outOfFuel => rfl

theorem calculateWith_lock {R : CPos → Prop} {ev : Evaluator} (h : Lock R ev)
    (s1 s2 : Sheet) (pos : CPos) (cell : CCell) (ha : Agree R s1 s2) (hc : Closed R s1)
    (hp : R pos) (hf : s1.find pos = some cell) :
    (calculateWith ev s1 pos cell).value = (calculateWith ev s2 pos cell).value := by
  unfold calculateWith
  split
  · rfl
  · cases hl : cell.m_Stack.getLast? with
    | none => rfl
    | some root =>
      dsimp only
      have hmem : root ∈ cell.m_Stack := List.mem_of_getLast?_eq_some hl
      have h1 := h root cell.m_Stack (s1.setFlag pos true) (s2.setFlag pos true) 0
        (agree_setFlag ha pos true) (closed_setFlag hc pos true)
        (fun q hq => hc pos cell q hp hf hq)
        (fun q hq => hc pos cell q hp hf (by rw [← hq]; exact hmem))
      cases e1 : ev root cell.m_Stack (s1.setFlag pos true) 0 with
      | ok a =>
        obtain ⟨v, t1, d1⟩ := a
        rw [e1] at h1
        obtain ⟨t2, e2⟩ := dropSheet_ok h1.symm
        rw [e2]
        rfl
      | outOfRange =>
        rw [e1] at h1
        cases e2 : ev root cell.m_Stack (s2.setFlag pos true) 0 with
        | ok b => rw [e2] at h1; simp [dropSheet] at h1
        | outOfRange => rfl
        | outOfFuel => rw [e2] at h1; simp [dropSheet] at h1
      | outOfFuel =>
        rw [e1] at h1
        cases e2 : ev root cell.m_Stack (s2.setFlag pos true) 0 with
        | ok b => rw [e2] at h1; simp [dropSheet] at h1
        | outOfRange => rw [e2] at h1; simp [dropSheet] at h1
        | outOfFuel => rfl

theorem referenceWith_lock {R : CPos → Prop} {ev : Evaluator} (h : Lock R ev)
    (pos : CPos) (s1 s2 : Sheet) (depth : Nat) (ha : Agree R s1 s2) (hc : Closed R s1)
    (hp : R pos) :
    dropSheet (referenceWith ev pos s1 depth) = dropSheet (referenceWith ev pos s2 depth) := by
  unfold referenceWith
  rw [← ha pos hp]
  cases hf : s1.find pos with
  | none => rfl
  | some cell =>
    dsimp only
    split
    · rfl
    · have h1 := calculateWith_lock h s1 s2 pos cell ha hc hp hf
      cases e1 : calculateWith ev s1 pos cell with
      | ok a =>
        obtain ⟨v, t1⟩ := a
        rw [e1] at h1
        cases e2 : calculateWith ev s2 pos cell with
        | ok b =>
          obtain ⟨v2, t2⟩ := b
          rw [e2] at h1
          simp only [Res.value, Res.ok.injEq] at h1
          rw [h1]; rfl
        | outOfRange => rw [e2] at h1; simp [Res.value] at h1
        | outOfFuel => rw [e2] at h1; simp [Res.value] at h1
      | outOfRange =>
        rw [e1] at h1
        cases e2 : calculateWith ev s2 pos cell with
        | ok b => rw [e2] at h1; simp [Res.value] at h1
        | outOfRange => rfl
        | outOfFuel => rw [e2] at h1; simp [Res.value] at h1
      | outOfFuel =>
        rw [e1] at h1
        cases e2 : calculateWith ev s2 pos cell with
        | ok b => rw [e2] at h1; simp [Res.value] at h1
        | outOfRange => rw [e2] at h1; simp [Res.value] at h1
        | outOfFuel => rfl

theorem evaluate_lock (pf : Platform) (R : CPos → Prop) : ∀ fuel, Lock R (evaluate pf fuel) := by
  intro fuel
  induction fuel with
  | zero => intro op stack s1 s2 depth _ _ _ _; rfl
  | succ n ih =>
    intro op stack s1 s2 depth ha hc hs hop
    cases op
    case CNegation =>
      simp only [evaluate]; exact unaryWith_lock ih _ _ _ _ ha hc hs
    case CReference p =>
      simp only [evaluate]; exact referenceWith_lock ih _ _ _ _ ha hc (hop p rfl)
    case CNumber x => rfl
    case CString x => rfl
    case CValRange => rfl
    case CFuncCall => rfl
    all_goals
      simp only [evaluate]
      exact binaryWith_lock ih (evaluate_restores pf n) _ _ _ _ _ ha hc hs

theorem CPos.same_refl (a : CPos) : a.same a = true := by
  simp [CPos.same]

/-- Sheets that agree on every position reachable from `p` give `getValue p`
the same value. -/
theorem getValue_value_congr (pf : Platform) (s1 s2 : Sheet) (p : CPos)
    (h : ∀ q, Reach s1 p q → s1.find q = s2.find q) :
    (getValue pf s1 p).value = (getValue pf s2 p).value := by
  have ha : Agree (Reach s1 p) s1 s2 := h
  have hc : Closed (Reach s1 p) s1 := by
    intro a cell q hra hf hmem
    exact Relation.ReflTransGen.tail hra ⟨cell, q, hf, hmem, CPos.same_refl q⟩
  have hp : Reach s1 p p := Relation.ReflTransGen.refl
  rw [← getValueFuel_eq_getValue pf s1 p (max (fuelBound s1) (fuelBound s2)) (le_max_left _ _),
    ← getValueFuel_eq_getValue pf s2 p (max (fuelBound s1) (fuelBound s2)) (le_max_right _ _)]
  unfold getValueFuel CCell.calculateCell
  rw [← ha p hp]
  cases hf : s1.find p with
  | none => rfl
  | some cell =>
    dsimp only
    split
    · rfl
    · exact calculateWith_lock (evaluate_lock pf _ _) s1 s2 p cell ha hc hp hf

/-! ## Facts about `assign` and `copyRect` -/

theorem CPos.less_not_same {a b : CPos} (h : a.less b = true) : a.same b = false := by
  simp only [CPos.less, Bool.or_eq_true, Bool.and_eq_true, decide_eq_true_eq] at h
  simp only [CPos.same, Bool.and_eq_false_iff, decide_eq_false_iff_not]
  omega

theorem CPos.same_of_not_less {a b : CPos} (h1 : a.less b = false) (h2 : b.less a = false) :
    a.same b = true := by
  simp only [CPos.less, Bool.or_eq_false_iff, Bool.and_eq_false_iff, decide_eq_false_iff_not] at h1 h2
  simp only [CPos.same, Bool.and_eq_true, decide_eq_true_eq]
  omega

theorem CPos.less_trans {a b c : CPos} (h1 : a.less b = true) (h2 : b.less c = true) :
    a.less c = true := by
  simp only [CPos.less, Bool.or_eq_true, Bool.and_eq_true, decide_eq_true_eq] at *
  omega

theorem CPos.less_congr_left {a b c : CPos} (h : a.same b = true) : a.less c = b.less c := by
  simp only [CPos.same, Bool.and_eq_true, decide_eq_true_eq] at h
  simp only [CPos.less, h.1, h.2]

theorem CPos.less_congr_right {a b c : CPos} (h : b.same c = true) : a.less b = a.less c := by
  simp only [CPos.same, Bool.and_eq_true, decide_eq_true_eq] at h
  simp only [CPos.less, h.1, h.2]

theorem Sheet.find_assign (s : Sheet) (pos q : CPos) (c : CCell) :
    Sheet.find (Sheet.assign s pos c) q = if pos.same q then some c else Sheet.find s q := by
  induction s with
  | nil => simp [Sheet.assign, Sheet.find]
  | cons e rest ih =>
    obtain ⟨k, v⟩ := e
    by_cases h1 : pos.less k = true
    · simp [Sheet.assign, h1, Sheet.find]
    · by_cases h2 : k.less pos = true
      · simp only [Sheet.assign, h1, h2, if_true, if_false, Bool.false_eq_true, Sheet.find, ih]
        by_cases hq : pos.same q = true
        · have hk : k.same q = false := by
            rw [← CPos.same_congr_right hq]
            exact CPos.less_not_same h2
          simp [hq, hk]
        · simp [hq]
      · simp only [Bool.not_eq_true] at h1 h2
        have hs : k.same pos = true := CPos.same_of_not_less h2 h1
        simp only [Sheet.assign, h1, h2, if_false, Bool.false_eq_true, Sheet.find]
        have hkq : k.same q = pos.same q := by
          simp only [CPos.same, Bool.and_eq_true, decide_eq_true_eq] at hs
          simp only [CPos.same, hs.1, hs.2]
        rw [hkq]
        by_cases hq : pos.same q = true
        · simp [hq]
        · simp [hq]

theorem Sheet.find_mem_key (s : Sheet) (q : CPos) (c : CCell) (h : Sheet.find s q = some c) :
    ∃ k, (k, c) ∈ s ∧ k.same q = true := by
  induction s with
  | nil => simp [Sheet.find] at h
  | cons e rest ih =>
    obtain ⟨k, v⟩ := e
    by_cases hk : k.same q = true
    · simp only [Sheet.find, hk, if_true, Option.some.injEq] at h
      subst h
      exact ⟨k, List.mem_cons_self _ _, hk⟩
    · simp only [Sheet.find, hk] at h
      obtain ⟨k2, hk2, hs⟩ := ih h
      exact ⟨k2, List.mem_cons_of_mem _ hk2, hs⟩

theorem Sheet.mem_assign (s : Sheet) (pos : CPos) (c : CCell) (e : CPos × CCell)
    (h : e ∈ Sheet.assign s pos c) : e.1.same pos = true ∨ e ∈ s := by
  induction s with
  | nil =>
    simp only [Sheet.assign, List.mem_singleton] at h
    subst h
    exact Or.inl (CPos.same_refl _)
  | cons a rest ih =>
    obtain ⟨k, v⟩ := a
    by_cases h1 : pos.less k = true
    · simp only [Sheet.assign, h1, if_true, List.mem_cons] at h
      rcases h with h | h | h
      · subst h; exact Or.inl (CPos.same_refl _)
      · subst h; exact Or.inr (List.mem_cons_self _ _)
      · exact Or.inr (List.mem_cons_of_mem _ h)
    · by_cases h2 : k.less pos = true
      · simp only [Sheet.assign, h1, h2, if_true, if_false, Bool.false_eq_true, List.mem_cons] at h
        rcases h with h | h
        · subst h; exact Or.inr (List.mem_cons_self _ _)
        · rcases ih h with h3 | h3
          · exact Or.inl h3
          · exact Or.inr (List.mem_cons_of_mem _ h3)
      · simp only [Bool.not_eq_true] at h1 h2
        simp only [Sheet.assign, h1, h2, if_false, Bool.false_eq_true, List.mem_cons] at h
        rcases h with h | h
        · subst h; exact Or.inl (CPos.same_of_not_less h2 h1)
        · exact Or.inr (List.mem_cons_of_mem _ h)

theorem valid_assign {s : Sheet} (h : Sheet.Valid s) (pos : CPos) (c : CCell) :
    Sheet.Valid (Sheet.assign s pos c) := by
  induction s with
  | nil => simp [Sheet.assign, Sheet.Valid]
  | cons a rest ih =>
    obtain ⟨k, v⟩ := a
    simp only [Sheet.Valid, List.pairwise_cons] at h
    obtain ⟨hk, hrest⟩ := h
    by_cases h1 : pos.less k = true
    · simp only [Sheet.assign, h1, if_true, Sheet.Valid, List.pairwise_cons, List.mem_cons]
      refine ⟨?_, hk, hrest⟩
      intro e he
      rcases he with he | he
      · subst he; exact h1
      · exact CPos.less_trans h1 (hk e he)
    · by_cases h2 : k.less pos = true
      · simp only [Sheet.assign, h1, h2, if_true, if_false, Bool.false_eq_true, Sheet.Valid,
          List.pairwise_cons]
        refine ⟨?_, ih hrest⟩
        intro e he
        rcases Sheet.mem_assign rest pos c e he with h3 | h3
        · rw [CPos.less_congr_right h3]; exact h2
        · exact hk e h3
      · simp only [Bool.not_eq_true] at h1 h2
        simp only [Sheet.assign, h1, h2, if_false, Bool.false_eq_true, Sheet.Valid,
          List.pairwise_cons]
        exact ⟨hk, hrest⟩

theorem mergeInto_find (newSheet : Sheet) (hv : Sheet.Valid newSheet) :
    ∀ (m_Sheet : Sheet) (q : CPos),
      Sheet.find (mergeInto m_Sheet newSheet) q =
        match Sheet.find newSheet q with
        | some c => some c
        | none => Sheet.find m_Sheet q := by
  induction newSheet with
  | nil => intro m q; rfl
  | cons a rest ih =>
    obtain ⟨k, v⟩ := a
    simp only [Sheet.Valid, List.pairwise_cons] at hv
    obtain ⟨hk, hrest⟩ := hv
    intro m q
    have hstep : mergeInto m ((k, v) :: rest) = mergeInto (Sheet.assign m k v) rest := rfl
    rw [hstep, ih hrest, Sheet.find_assign]
    by_cases hq : k.same q = true
    · have hnone : Sheet.find rest q = none := by
        cases hf : Sheet.find rest q with
        | none => rfl
        | some c =>
          exfalso
          obtain ⟨k2, hmem, hs⟩ := Sheet.find_mem_key rest q c hf
          have hl := hk (k2, c) hmem
          have hs2 : k.same k2 = true := by
            rw [CPos.same_symm] at hs
            exact CPos.same_trans hq hs
          rw [CPos.less_not_same hl] at hs2
          cases hs2
      simp [Sheet.find, hq, hnone]
    · simp only [Sheet.find, hq, if_false, Bool.false_eq_true]

theorem flagsClear_slot {ns : Sheet} (h : FlagsClear ns) (q : CPos) :
    (ns.slot q).m_IsCalculated = false := by
  unfold Sheet.slot
  cases hf : Sheet.find ns q with
  | none => rfl
  | some c => exact h q c hf

theorem stagedAt_flag (m : Sheet) (dst src q : CPos) :
    (stagedAt m dst src q).m_IsCalculated = false := by
  unfold stagedAt
  split <;> rfl

theorem copyStep_find (m : Sheet) (dst src : CPos) (ns : Sheet) (hc : FlagsClear ns)
    (x y : Nat) (q : CPos) :
    Sheet.find (copyStep m dst src ns x y) q =
      if (dstKey dst x y).same q then some (stagedAt m dst src q) else Sheet.find ns q := by
  have hflag := flagsClear_slot hc (dstKey dst x y)
  by_cases hq : (dstKey dst x y).same q = true
  · rw [if_pos hq]
    have hkey : ({ m_Row := src.m_Row + (q.m_Row - dst.m_Row),
                   m_Column := src.m_Column + (q.m_Column - dst.m_Column) } : CPos)
        = { m_Row := src.m_Row + y, m_Column := src.m_Column + x } := by
      simp only [dstKey, CPos.same, Bool.and_eq_true, decide_eq_true_eq] at hq
      have h1 : q.m_Row - dst.m_Row = y := by omega
      have h2 : q.m_Column - dst.m_Column = x := by omega
      rw [h1, h2]
    unfold copyStep stagedAt
    rw [hkey]
    cases hf : Sheet.find m { m_Row := src.m_Row + y, m_Column := src.m_Column + x } with
    | none =>
      simp only [hf]
      rw [Sheet.find_assign]
      have hq2 : CPos.same { m_Row := dst.m_Row + ↑y, m_Column := dst.m_Column + ↑x } q = true := hq
      rw [if_pos hq2]
      have : (ns.slot { m_Row := dst.m_Row + ↑y, m_Column := dst.m_Column + ↑x }).m_IsCalculated
          = false := hflag
      rw [this]
    | some cell =>
      simp only [hf]
      rw [Sheet.find_assign]
      have hq2 : CPos.same { m_Row := dst.m_Row + ↑y, m_Column := dst.m_Column + ↑x } q = true := hq
      rw [if_pos hq2]
      have : (ns.slot { m_Row := dst.m_Row + ↑y, m_Column := dst.m_Column + ↑x }).m_IsCalculated
          = false := hflag
      rw [this]
  · rw [if_neg hq]
    have hq2 : ¬ CPos.same { m_Row := dst.m_Row + ↑y, m_Column := dst.m_Column + ↑x } q = true := hq
    unfold copyStep
    cases hf : Sheet.find m { m_Row := src.m_Row + y, m_Column := src.m_Column + x } with
    | none => simp only [hf]; rw [Sheet.find_assign, if_neg hq2]
    | some cell => simp only [hf]; rw [Sheet.find_assign, if_neg hq2]

theorem copyStep_clear (m : Sheet) (dst src : CPos) (ns : Sheet) (hc : FlagsClear ns)
    (x y : Nat) : FlagsClear (copyStep m dst src ns x y) := by
  intro q c hf
  rw [copyStep_find m dst src ns hc] at hf
  split at hf
  · simp only [Option.some.injEq] at hf
    rw [← hf]; exact stagedAt_flag _ _ _ _
  · exact hc q c hf

theorem copyStep_valid (m : Sheet) (dst src : CPos) (ns : Sheet) (hv : Sheet.Valid ns)
    (x y : Nat) : Sheet.Valid (copyStep m dst src ns x y) := by
  unfold copyStep
  dsimp only
  cases Sheet.find m { m_Row := src.m_Row + y, m_Column := src.m_Column + x } with
  | none => exact valid_assign hv _ _
  | some cell => exact valid_assign hv _ _

theorem copyRow_find (m : Sheet) (dst src : CPos) (x : Nat) :
    ∀ (ys : List Nat) (ns : Sheet), FlagsClear ns → Sheet.Valid ns →
      FlagsClear (ys.foldl (fun acc y => copyStep m dst src acc x y) ns) ∧
      Sheet.Valid (ys.foldl (fun acc y => copyStep m dst src acc x y) ns) ∧
      ∀ q, ((∃ y ∈ ys, (dstKey dst x y).same q = true) →
              Sheet.find (ys.foldl (fun acc y => copyStep m dst src acc x y) ns) q
                = some (stagedAt m dst src q)) ∧
           ((¬ ∃ y ∈ ys, (dstKey dst x y).same q = true) →
              Sheet.find (ys.foldl (fun acc y => copyStep m dst src acc x y) ns) q
                = Sheet.find ns q) := by
  intro ys
  induction ys with
  | nil =>
    intro ns hc hv
    refine ⟨hc, hv, fun q => ⟨?_, fun _ => rfl⟩⟩
    rintro ⟨y, hy, _⟩
    simp at hy
  | cons y rest ih =>
    intro ns hc hv
    simp only [List.foldl_cons]
    obtain ⟨h1, h2, h3⟩ := ih (copyStep m dst src ns x y) (copyStep_clear m dst src ns hc x y)
      (copyStep_valid m dst src ns hv x y)
    refine ⟨h1, h2, fun q => ?_⟩
    obtain ⟨h4, h5⟩ := h3 q
    by_cases hr : ∃ y2 ∈ rest, (dstKey dst x y2).same q = true
    · refine ⟨fun _ => h4 hr, ?_⟩
      intro hn
      exfalso; apply hn
      obtain ⟨y2, hy2, hs⟩ := hr
      exact ⟨y2, List.mem_cons_of_mem _ hy2, hs⟩
    · rw [h5 hr, copyStep_find m dst src ns hc]
      by_cases hy : (dstKey dst x y).same q = true
      · rw [if_pos hy]
        refine ⟨fun _ => rfl, ?_⟩
        intro hn
        exfalso; apply hn
        exact ⟨y, List.mem_cons_self _ _, hy⟩
      · rw [if_neg hy]
        refine ⟨?_, fun _ => rfl⟩
        rintro ⟨y2, hy2, hs⟩
        simp only [List.mem_cons] at hy2
        rcases hy2 with rfl | hy2
        · exact absurd hs hy
        · exact absurd ⟨y2, hy2, hs⟩ hr

theorem copyRows_find (m : Sheet) (dst src : CPos) (ys : List Nat) :
    ∀ (xs : List Nat) (ns : Sheet), FlagsClear ns → Sheet.Valid ns →
      FlagsClear (xs.foldl
        (fun acc x => ys.foldl (fun acc2 y => copyStep m dst src acc2 x y) acc) ns) ∧
      Sheet.Valid (xs.foldl
        (fun acc x => ys.foldl (fun acc2 y => copyStep m dst src acc2 x y) acc) ns) ∧
      ∀ q, ((∃ x ∈ xs, ∃ y ∈ ys, (dstKey dst x y).same q = true) →
              Sheet.find (xs.foldl
                (fun acc x => ys.foldl (fun acc2 y => copyStep m dst src acc2 x y) acc) ns) q
                = some (stagedAt m dst src q)) ∧
           ((¬ ∃ x ∈ xs, ∃ y ∈ ys, (dstKey dst x y).same q = true) →
              Sheet.find (xs.foldl
                (fun acc x => ys.foldl (fun acc2 y => copyStep m dst src acc2 x y) acc) ns) q
                = Sheet.find ns q) := by
  intro xs
  induction xs with
  | nil =>
    intro ns hc hv
    refine ⟨hc, hv, fun q => ⟨?_, fun _ => rfl⟩⟩
    rintro ⟨x, hx, _⟩
    simp at hx
  | cons x rest ih =>
    intro ns hc hv
    simp only [List.foldl_cons]
    obtain ⟨r1, r2, r3⟩ := copyRow_find m dst src x ys ns hc hv
    obtain ⟨h1, h2, h3⟩ := ih _ r1 r2
    refine ⟨h1, h2, fun q => ?_⟩
    obtain ⟨h4, h5⟩ := h3 q
    obtain ⟨r4, r5⟩ := r3 q
    by_cases hr : ∃ x2 ∈ rest, ∃ y ∈ ys, (dstKey dst x2 y).same q = true
    · refine ⟨fun _ => h4 hr, ?_⟩
      intro hn
      exfalso; apply hn
      obtain ⟨x2, hx2, hs⟩ := hr
      exact ⟨x2, List.mem_cons_of_mem _ hx2, hs⟩
    · rw [h5 hr]
      by_cases hy : ∃ y ∈ ys, (dstKey dst x y).same q = true
      · rw [r4 hy]
        refine ⟨fun _ => rfl, ?_⟩
        intro hn
        exfalso; apply hn
        exact ⟨x, List.mem_cons_self _ _, hy⟩
      · rw [r5 hy]
        refine ⟨?_, fun _ => rfl⟩
        rintro ⟨x2, hx2, hs⟩
        simp only [List.mem_cons] at hx2
        rcases hx2 with rfl | hx2
        · exact absurd hs hy
        · exact absurd ⟨x2, hx2, hs⟩ hr

theorem inRect_iff (dst : CPos) (w h : Int) (q : CPos) :
    inRect dst w h q ↔
      ∃ x ∈ List.range w.toNat, ∃ y ∈ List.range h.toNat, (dstKey dst x y).same q = true := by
  constructor
  · rintro ⟨h1, h2, h3, h4⟩
    refine ⟨(q.m_Column - dst.m_Column).toNat, ?_, (q.m_Row - dst.m_Row).toNat, ?_, ?_⟩
    · rw [List.mem_range]; omega
    · rw [List.mem_range]; omega
    · simp only [dstKey, CPos.same, Bool.and_eq_true, decide_eq_true_eq]
      constructor <;> omega
  · rintro ⟨x, hx, y, hy, hs⟩
    rw [List.mem_range] at hx hy
    simp only [dstKey, CPos.same, Bool.and_eq_true, decide_eq_true_eq] at hs
    unfold inRect
    omega

/-- What `copyRect` leaves under every position: inside the destination
rectangle the staged cell, outside it the cell (or absence) of before. -/
theorem copyRect_find (m : Sheet) (dst src : CPos) (w h : Int) (q : CPos) :
    (inRect dst w h q → Sheet.find (copyRect m dst src w h) q = some (stagedAt m dst src q)) ∧
    (¬ inRect dst w h q → Sheet.find (copyRect m dst src w h) q = Sheet.find m q) := by
  have hnil : FlagsClear ([] : Sheet) := by
    intro q c hf; simp [Sheet.find] at hf
  have hvnil : Sheet.Valid ([] : Sheet) := List.Pairwise.nil
  obtain ⟨_, hv, h3⟩ := copyRows_find m dst src (List.range h.toNat) (List.range w.toNat) [] hnil hvnil
  obtain ⟨h4, h5⟩ := h3 q
  have hm := mergeInto_find _ hv m q
  constructor
  · intro hin
    have := h4 ((inRect_iff dst w h q).mp hin)
    rw [this] at hm
    exact hm
  · intro hout
    have := h5 (fun hex => hout ((inRect_iff dst w h q).mpr hex))
    rw [this] at hm
    exact hm

/-! ## The codec: what `save` writes and `load` reads back -/

theorem leBytes_length (k n : Nat) : (leBytes k n).length = k := by
  induction k generalizing n with
  | zero => rfl
  | succ k ih => simp [leBytes, ih]

theorem ofLE_leBytes (k n : Nat) : ofLE (leBytes k n) = n % 256 ^ k := by
  induction k generalizing n with
  | zero => simp [leBytes, ofLE, Nat.mod_one]
  | succ k ih =>
    simp only [leBytes, ofLE, byteOf, ih]
    rw [pow_succ, Nat.mul_comm (256 ^ k) 256, Nat.mod_mul]

theorem intBytes_length (i : Int) : (intBytes i).length = 4 := leBytes_length 4 _

theorem intOfBytes_intBytes (i : Int) (h1 : -2147483648 ≤ i) (h2 : i < 2147483648) :
    intOfBytes (intBytes i) = i := by
  unfold intOfBytes intBytes
  rw [ofLE_leBytes]
  have hpow : (256 : Nat) ^ 4 = 4294967296 := by norm_num
  rw [hpow]
  have hlt : (i % 4294967296).toNat < 4294967296 := by omega
  rw [Nat.mod_eq_of_lt hlt]
  split <;> omega

theorem doubleOfBytes_doubleBytes (d : Double) : doubleOfBytes (doubleBytes d) = d := by
  unfold doubleOfBytes doubleBytes
  apply Fin.ext
  simp only [ofLE_leBytes]
  have hpow : (256 : Nat) ^ 8 = 18446744073709551616 := by norm_num
  rw [hpow, Nat.mod_mod, Nat.mod_eq_of_lt d.isLt]

theorem size_roundtrip (n : Nat) (h : n < 18446744073709551616) : ofLE (leBytes 8 n) = n := by
  rw [ofLE_leBytes]
  have hpow : (256 : Nat) ^ 8 = 18446744073709551616 := by norm_num
  rw [hpow, Nat.mod_eq_of_lt h]

theorem OStream.write_good (data bs : Bytes) :
    OStream.write { data := data, good := true } bs = { data := data ++ bs, good := true } := rfl

theorem IStream.read_append (bs rest old : Bytes) (n : Nat) (h : bs.length = n) :
    IStream.read { data := bs ++ rest, good := true } n old
      = (bs, { data := rest, good := true }) := by
  unfold IStream.read
  simp only [if_true]
  have hle : n ≤ (bs ++ rest).length := by simp [List.length_append, ← h]
  rw [if_pos hle]
  subst h
  simp

theorem pos_saveBinary_good (p : CPos) (data : Bytes) :
    p.saveBinary { data := data, good := true }
      = (true, { data := data ++ posBytes p, good := true }) := by
  simp [CPos.saveBinary, OStream.write_good, posBytes, List.append_assoc]

theorem op_saveBinary_good (op : COperation) (data : Bytes) :
    op.saveBinary { data := data, good := true }
      = (true, { data := data ++ payloadBytes op, good := true }) := by
  cases op <;>
    simp [COperation.saveBinary, OStream.write_good, payloadBytes, pos_saveBinary_good,
      List.append_assoc]

theorem saveNodes_good (ops : List COperation) :
    ∀ data, saveNodes ops { data := data, good := true }
      = (true, { data := data ++ nodesBytes ops, good := true }) := by
  induction ops with
  | nil => intro data; simp [saveNodes, nodesBytes]
  | cons op rest ih =>
    intro data
    simp only [saveNodes, OStream.write_good, op_saveBinary_good, if_true, ih, nodesBytes,
      List.append_assoc]

theorem cell_saveBinary_good (c : CCell) (data : Bytes) :
    c.saveBinary { data := data, good := true }
      = (true, { data := data ++ cellBytes c, good := true }) := by
  simp only [CCell.saveBinary, OStream.write_good, saveNodes_good, if_true, cellBytes,
    List.append_assoc]

theorem saveEntries_good (s : Sheet) :
    ∀ data, saveEntries s { data := data, good := true }
      = (true, { data := data ++ entriesBytes s, good := true }) := by
  induction s with
  | nil => intro data; simp [saveEntries, entriesBytes]
  | cons e rest ih =>
    intro data
    obtain ⟨pos, cell⟩ := e
    simp only [saveEntries, pos_saveBinary_good, cell_saveBinary_good, if_true, ih, entriesBytes,
      List.append_assoc]

/-- On a good stream `save` succeeds and appends the wire form of the sheet. -/
theorem save_good (s : Sheet) (data : Bytes) :
    save s { data := data, good := true }
      = (true, { data := data ++ sheetBytes s, good := true }) := by
  simp only [save, OStream.write_good, saveEntries_good, sheetBytes, List.append_assoc]

theorem CPos.loadBinary_posBytes (junk : Bytes) (p : CPos) (hp : p.InRange) (rest : Bytes) :
    CPos.loadBinary junk { data := posBytes p ++ rest, good := true }
      = (p, true, { data := rest, good := true }) := by
  obtain ⟨h1, h2, h3, h4⟩ := hp
  unfold CPos.loadBinary posBytes
  simp only [List.append_assoc]
  rw [IStream.read_append _ _ _ 4 (intBytes_length _)]
  simp only []
  rw [IStream.read_append _ _ _ 4 (intBytes_length _)]
  simp only []
  rw [IStream.read_append _ _ _ 1 (by rfl)]
  simp only [intOfBytes_intBytes _ h1 h2, intOfBytes_intBytes _ h3 h4, List.headD_cons]
  obtain ⟨r, ar, c, ac⟩ := p
  cases ar <;> cases ac <;> simp [byteOf]
  all_goals decide

theorem COperation.load_payload (junk : Bytes) (op : COperation) (hs : op.Storable) (rest : Bytes) :
    ∃ op0, COperation.createOperationFromType junk op.getTypeId = some op0 ∧
      op0.loadBinary junk { data := payloadBytes op ++ rest, good := true }
        = (op, true, { data := rest, good := true }) := by
  cases op
  case CReference p =>
    refine ⟨_, by simp [COperation.createOperationFromType, COperation.getTypeId]; rfl, ?_⟩
    simp only [COperation.loadBinary, payloadBytes]
    rw [CPos.loadBinary_posBytes junk p hs rest]
  case CNumber d =>
    refine ⟨_, by simp [COperation.createOperationFromType, COperation.getTypeId]; rfl, ?_⟩
    simp only [COperation.loadBinary, payloadBytes]
    rw [IStream.read_append (doubleBytes d) rest _ 8 (leBytes_length 8 _)]
    simp only [doubleOfBytes_doubleBytes]
  case CString s =>
    refine ⟨_, by simp [COperation.createOperationFromType, COperation.getTypeId]; rfl, ?_⟩
    simp only [COperation.loadBinary, payloadBytes, List.append_assoc]
    rw [IStream.read_append _ _ _ 8 (leBytes_length 8 _)]
    simp only [size_roundtrip _ hs]
    rw [IStream.read_append _ _ _ s.length rfl]
  all_goals
    exact ⟨_, by simp [COperation.createOperationFromType, COperation.getTypeId]; rfl,
      by simp [COperation.loadBinary, payloadBytes]⟩

theorem loadNodes_nodesBytes (junk : Bytes) (ops : List COperation) :
    ∀ (acc : List COperation) (rest : Bytes), (∀ op ∈ ops, op.Storable) →
      loadNodes junk ops.length acc { data := nodesBytes ops ++ rest, good := true }
        = some (acc ++ ops, { data := rest, good := true }) := by
  induction ops with
  | nil => intro acc rest _; simp [loadNodes, nodesBytes]
  | cons op tail ih =>
    intro acc rest hs
    have hop : op.Storable := hs op (List.mem_cons_self _ _)
    have hid : -2147483648 ≤ op.getTypeId ∧ op.getTypeId < 2147483648 := by
      cases op <;> simp [COperation.getTypeId]
    obtain ⟨op0, hc, hl⟩ := COperation.load_payload junk op hop (nodesBytes tail ++ rest)
    simp only [List.length_cons, loadNodes, nodesBytes, List.append_assoc]
    rw [IStream.read_append _ _ _ 4 (intBytes_length _)]
    simp only [intOfBytes_intBytes _ hid.1 hid.2, hc, hl, if_true]
    rw [ih (acc ++ [op]) rest (fun o ho => hs o (List.mem_cons_of_mem _ ho))]
    simp

theorem CCell.loadBinary_cellBytes (junk : Bytes) (c : CCell) (hs : c.Storable) (rest : Bytes) :
    CCell.loadBinary junk { data := cellBytes c ++ rest, good := true }
      = some (c, { data := rest, good := true }) := by
  obtain ⟨hlen, hops⟩ := hs
  unfold CCell.loadBinary cellBytes
  simp only [List.append_assoc]
  rw [IStream.read_append _ _ _ 8 (leBytes_length 8 _)]
  simp only [size_roundtrip _ hlen]
  rw [loadNodes_nodesBytes junk c.m_Stack [] _ hops]
  simp only [List.nil_append]
  rw [IStream.read_append [byteOf (if c.m_IsCalculated = true then 1 else 0)] rest [0] 1 rfl]
  obtain ⟨st, g⟩ := c
  cases g <;> simp [byteOf]

theorem loadEntries_entriesBytes (junk : Bytes) (s : Sheet) :
    ∀ (acc : Sheet) (rest : Bytes), (∀ e ∈ s, e.1.InRange ∧ e.2.Storable) →
      loadEntries junk s.length acc { data := entriesBytes s ++ rest, good := true }
        = some (s.foldl (fun a e => a.assign e.1 e.2) acc) := by
  induction s with
  | nil => intro acc rest _; simp [loadEntries]
  | cons e tail ih =>
    intro acc rest hs
    obtain ⟨pos, cell⟩ := e
    obtain ⟨hp, hc⟩ := hs (pos, cell) (List.mem_cons_self _ _)
    have hb : entriesBytes ((pos, cell) :: tail) ++ rest
        = posBytes pos ++ (cellBytes cell ++ (entriesBytes tail ++ rest)) := by
      simp only [entriesBytes, List.append_assoc]
    rw [hb, List.length_cons, loadEntries, CPos.loadBinary_posBytes junk pos hp]
    simp only [if_true]
    rw [CCell.loadBinary_cellBytes junk cell hc]
    simp only [List.foldl_cons]
    exact ih _ rest (fun e he => hs e (List.mem_cons_of_mem _ he))

theorem Sheet.assign_append (acc : Sheet) (pos : CPos) (c : CCell)
    (h : ∀ e ∈ acc, e.1.less pos = true) : Sheet.assign acc pos c = acc ++ [(pos, c)] := by
  induction acc with
  | nil => rfl
  | cons a rest ih =>
    obtain ⟨k, v⟩ := a
    have hk : k.less pos = true := h (k, v) (List.mem_cons_self _ _)
    have hnot : pos.less k = false := by
      simp only [CPos.less, Bool.or_eq_true, Bool.and_eq_true, decide_eq_true_eq] at hk
      simp only [CPos.less, Bool.or_eq_false_iff, Bool.and_eq_false_iff, decide_eq_false_iff_not]
      omega
    simp only [Sheet.assign, hnot, hk, if_true, if_false, Bool.false_eq_true, List.cons_append]
    rw [ih (fun e he => h e (List.mem_cons_of_mem _ he))]

theorem foldl_assign_valid (s : Sheet) :
    ∀ (acc : Sheet), Sheet.Valid (acc ++ s) →
      s.foldl (fun a e => a.assign e.1 e.2) acc = acc ++ s := by
  induction s with
  | nil => intro acc _; simp
  | cons e tail ih =>
    intro acc hv
    obtain ⟨pos, cell⟩ := e
    simp only [List.foldl_cons]
    have hless : ∀ a ∈ acc, a.1.less pos = true := by
      intro a ha
      have := List.pairwise_append.mp hv
      exact this.2.2 a ha (pos, cell) (List.mem_cons_self _ _)
    rw [Sheet.assign_append acc pos cell hless]
    have hv2 : Sheet.Valid ((acc ++ [(pos, cell)]) ++ tail) := by
      simpa [List.append_assoc] using hv
    rw [ih _ hv2]
    simp [List.append_assoc]


/-- Loading the bytes `save` produces for a valid, storable sheet succeeds and
installs that sheet. -/
theorem load_sheetBytes (junk : Bytes) (m_Sheet s : Sheet) (hv : Sheet.Valid s)
    (hs : Sheet.Storable s) :
    load junk m_Sheet { data := sheetBytes s, good := true } = (true, s) := by
  have hlen := hs.1
  have hent := hs.2
  have h1 := loadEntries_entriesBytes junk s [] [] hent
  simp only [List.append_nil] at h1
  rw [foldl_assign_valid s [] (by simpa using hv)] at h1
  simp only [List.nil_append] at h1
  have h2 : IStream.read { data := sheetBytes s, good := true } 8 (junkBuf junk 8)
      = (leBytes 8 s.length, { data := entriesBytes s, good := true }) :=
    IStream.read_append _ _ _ 8 (leBytes_length 8 _)
  have h3 := size_roundtrip _ hlen
  unfold load
  simp only [h2, if_true, h3, h1]

/-! ## C1: the cursor and the tree -/

/-- C1. For every expression tree built from Add, Sub, Mul, Div, Pow, Neg, the
six comparisons and Num/Str/Ref leaves, and every sheet whose flags are all
clear, a cell whose program is the post-order serialisation of the tree
(left operand, right operand, operator) gets from `getValue`, that is from the
right-to-left cursor of `CCell::calculateCell`, exactly the outcome of the
recursive evaluation of the tree, in which the right operand is evaluated
first and each binary operator is applied as (left op right).  The evaluation
finishes, and it returns a value when the programs of the sheet are
well-formed. -/
theorem C1_cursor_evaluates_like_tree (pf : Platform) (sheet : Sheet) (pos : CPos) (cell : CCell)
    (e : Expr) (he : e.plain = true) (_hclear : AllClear sheet)
    (hf : sheet.find pos = some cell) (hp : cell.m_Stack = e.program) :
    getValue pf sheet pos = treeValue pf sheet pos e ∧
      getValue pf sheet pos ≠ .outOfFuel ∧
      (WellFormed sheet → ∃ v, getValue pf sheet pos = .ok (v, sheet)) :=
  ⟨getValue_eq_treeValue pf sheet pos cell [] e he hf (by rw [hp]; rfl),
    getValue_ne_outOfFuel pf sheet pos, fun hwf => getValue_ok pf sheet hwf pos⟩

/-- C1 at `I4 = A1 + B2 * 3` with `A1 = 2`, `B2 = 4`. -/
theorem C1_cursor_evaluates_like_tree_witness :
    exprS1.plain = true ∧ AllClear sheetS1 ∧ sheetS1.find posI4 = some cellI4 ∧
      cellI4.m_Stack = exprS1.program ∧
      (getValue examplePlatform sheetS1 posI4 = treeValue examplePlatform sheetS1 posI4 exprS1 ∧
        getValue examplePlatform sheetS1 posI4 ≠ .outOfFuel ∧
        (WellFormed sheetS1 → ∃ v, getValue examplePlatform sheetS1 posI4 = .ok (v, sheetS1))) :=
  ⟨by decide, by decide, by decide, by decide,
    C1_cursor_evaluates_like_tree examplePlatform sheetS1 posI4 cellI4 exprS1
      (by decide) (by decide) (by decide) (by decide)⟩

/-! ## C2: reference cycles -/

/-- C2. In a sheet whose flags are all clear and whose programs are well-formed
postfix programs, a cell that lies on a reference cycle evaluates to
`undefined`, and so does every cell whose expression references such a cell;
`getValue` returns and leaves the sheet as it was. -/
theorem C2_cycle_is_undefined (pf : Platform) (sheet : Sheet) (_hclear : AllClear sheet)
    (hwf : WellFormed sheet) (p : CPos) (hc : OnCycle sheet p) :
    getValue pf sheet p = .ok (.undefined, sheet) ∧
      ∀ r, RefEdge sheet r p → getValue pf sheet r = .ok (.undefined, sheet) :=
  ⟨getValue_doomed pf sheet hwf p ⟨p, Relation.ReflTransGen.refl, hc⟩,
    fun r hr => getValue_doomed pf sheet hwf r ⟨p, Relation.ReflTransGen.single hr, hc⟩⟩

theorem sheetCycle_wellFormed : WellFormed sheetCycle := by
  intro entry hmem
  simp only [sheetCycle, List.mem_cons, List.mem_singleton, List.not_mem_nil, or_false] at hmem
  rcases hmem with rfl | rfl | rfl | rfl
  · exact Or.inr ⟨[], .ref posA2, rfl⟩
  · exact Or.inr ⟨[], .bin .add (.ref posA1) (.num (Double.ofNat 1)), rfl⟩
  · exact Or.inr ⟨[], .num (Double.ofNat 5), rfl⟩
  · exact Or.inr ⟨[], .ref posA1, rfl⟩

theorem sheetCycle_onCycle : OnCycle sheetCycle posA1 := by
  have h12 : RefEdge sheetCycle posA1 posA2 :=
    ⟨{ m_Stack := [.CReference posA2] }, [], .ref posA2, posA2, by decide, rfl,
      by simp [Expr.refs], by decide⟩
  have h21 : RefEdge sheetCycle posA2 posA1 :=
    ⟨{ m_Stack := [.CReference posA1] }, [], .ref posA1, posA1, by decide, rfl,
      by simp [Expr.refs], by decide⟩
  exact Relation.TransGen.tail (Relation.TransGen.single h12) h21

/-- C2 at `A1 = A2`, `A2 = A1`, `B1 = A1 + 1`. -/
theorem C2_cycle_is_undefined_witness :
    AllClear sheetCycle ∧ WellFormed sheetCycle ∧ OnCycle sheetCycle posA1 ∧
      (getValue examplePlatform sheetCycle posA1 = .ok (.undefined, sheetCycle) ∧
        ∀ r, RefEdge sheetCycle r posA1 →
          getValue examplePlatform sheetCycle r = .ok (.undefined, sheetCycle)) :=
  ⟨by decide, sheetCycle_wellFormed, sheetCycle_onCycle,
    C2_cycle_is_undefined examplePlatform sheetCycle (by decide) sheetCycle_wellFormed posA1
      sheetCycle_onCycle⟩

/-! ## C3: cells a position does not depend on -/

/-- C3. For every position `p` and every two sheets (flags clear, well-formed
programs) that hold the same cell, or the same absence of a cell, at `p` and
at every position reachable from `p` by following `Ref` nodes, `getValue p`
returns the same value in both sheets. -/
theorem C3_unreachable_cells_do_not_matter (pf : Platform) (s1 s2 : Sheet) (p : CPos)
    (_hclear1 : AllClear s1) (_hclear2 : AllClear s2) (hwf1 : WellFormed s1) (hwf2 : WellFormed s2)
    (hagree : ∀ q, Reach s1 p q → s1.find q = s2.find q) :
    ∃ v, getValue pf s1 p = .ok (v, s1) ∧ getValue pf s2 p = .ok (v, s2) := by
  obtain ⟨v1, h1⟩ := getValue_ok pf s1 hwf1 p
  obtain ⟨v2, h2⟩ := getValue_ok pf s2 hwf2 p
  have h := getValue_value_congr pf s1 s2 p hagree
  rw [h1, h2] at h
  simp only [Res.value, Res.ok.injEq] at h
  subst h
  exact ⟨v1, h1, h2⟩

theorem sheetNoCycle_wellFormed : WellFormed sheetNoCycle := by
  intro entry hmem
  simp only [sheetNoCycle, List.mem_cons, List.mem_singleton, List.not_mem_nil, or_false] at hmem
  rcases hmem with rfl | rfl | rfl | rfl
  · exact Or.inr ⟨[], .num (Double.ofNat 1), rfl⟩
  · exact Or.inr ⟨[], .bin .add (.ref posA1) (.num (Double.ofNat 1)), rfl⟩
  · exact Or.inr ⟨[], .num (Double.ofNat 5), rfl⟩
  · exact Or.inr ⟨[], .num (Double.ofNat 2), rfl⟩

theorem sheetCycle_agree_C1 :
    ∀ q, Reach sheetCycle posC1 q → sheetCycle.find q = sheetNoCycle.find q := by
  intro q hq
  rcases Relation.ReflTransGen.cases_head hq with rfl | ⟨b, ⟨cell, r, hf, hmem, _⟩, _⟩
  · decide
  · have hc : sheetCycle.find posC1 = some { m_Stack := [.CNumber (Double.ofNat 5)] } := by decide
    rw [hc] at hf
    simp only [Option.some.injEq] at hf
    subst hf
    simp at hmem

/-- C3 at `C1 = 5`, in the sheet with the cycle `A1 = A2`, `A2 = A1` and in the
sheet where `A1` and `A2` hold numbers. -/
theorem C3_unreachable_cells_do_not_matter_witness :
    AllClear sheetCycle ∧ AllClear sheetNoCycle ∧ WellFormed sheetCycle ∧ WellFormed sheetNoCycle ∧
      (∀ q, Reach sheetCycle posC1 q → sheetCycle.find q = sheetNoCycle.find q) ∧
      ∃ v, getValue examplePlatform sheetCycle posC1 = .ok (v, sheetCycle) ∧
        getValue examplePlatform sheetNoCycle posC1 = .ok (v, sheetNoCycle) :=
  ⟨by decide, by decide, sheetCycle_wellFormed, sheetNoCycle_wellFormed, sheetCycle_agree_C1,
    C3_unreachable_cells_do_not_matter examplePlatform sheetCycle sheetNoCycle posC1
      (by decide) (by decide) sheetCycle_wellFormed sheetNoCycle_wellFormed sheetCycle_agree_C1⟩

/-! ## C4 and C5: `copyRect` -/

theorem copyRect_copies (m : Sheet) (dst src : CPos) (w h dx dy : Int)
    (hx : 0 ≤ dx ∧ dx < w) (hy : 0 ≤ dy ∧ dy < h) (cell : CCell)
    (hsrc : m.find { m_Row := src.m_Row + dy, m_Column := src.m_Column + dx } = some cell) :
    (copyRect m dst src w h).find { m_Row := dst.m_Row + dy, m_Column := dst.m_Column + dx }
      = some { m_Stack := cell.m_Stack.map
                (COperation.cloneShift (dst.m_Row - src.m_Row) (dst.m_Column - src.m_Column)) } := by
  have hin : inRect dst w h { m_Row := dst.m_Row + dy, m_Column := dst.m_Column + dx } := by
    unfold inRect
    simp only
    omega
  rw [(copyRect_find m dst src w h _).1 hin]
  unfold stagedAt
  have hkey : ({ m_Row := src.m_Row + (dst.m_Row + dy - dst.m_Row),
                 m_Column := src.m_Column + (dst.m_Column + dx - dst.m_Column) } : CPos)
      = { m_Row := src.m_Row + dy, m_Column := src.m_Column + dx } := by
    have h1 : dst.m_Row + dy - dst.m_Row = dy := by omega
    have h2 : dst.m_Column + dx - dst.m_Column = dx := by omega
    rw [h1, h2]
  simp only [hkey, hsrc]

/-- C5. `copyRect` reads the pre-copy sheet: for every sheet, dst, src, w, h and
every 0 <= dx < w, 0 <= dy < h, if the sheet before the call has a cell at
(src.row+dy, src.col+dx), then after the call the cell at
(dst.row+dy, dst.col+dx) holds the translated clone of that pre-call source
program (with a clear flag), whether or not the rectangles overlap. -/
theorem C5_copy_reads_the_sheet_before (m : Sheet) (dst src : CPos) (w h dx dy : Int)
    (hx : 0 ≤ dx ∧ dx < w) (hy : 0 ≤ dy ∧ dy < h) (cell : CCell)
    (hsrc : m.find { m_Row := src.m_Row + dy, m_Column := src.m_Column + dx } = some cell) :
    (copyRect m dst src w h).find { m_Row := dst.m_Row + dy, m_Column := dst.m_Column + dx }
      = some { m_Stack := cell.m_Stack.map
                (COperation.cloneShift (dst.m_Row - src.m_Row) (dst.m_Column - src.m_Column)),
               m_IsCalculated := false } :=
  copyRect_copies m dst src w h dx dy hx hy cell hsrc

/-- C5 at the overlapping `copyRect(H12, H13, 1, 2)`: `H13` receives the
pre-call program of `H14` although `H13` itself is a source. -/
theorem C5_copy_reads_the_sheet_before_witness :
    ((0 : Int) ≤ 0 ∧ (0 : Int) < 1) ∧ ((0 : Int) ≤ 1 ∧ (1 : Int) < 2) ∧
      sheetOverlap.find { m_Row := posH13.m_Row + 1, m_Column := posH13.m_Column + 0 }
        = some { m_Stack := [.CNumber (Double.ofNat 7)] } ∧
      (copyRect sheetOverlap posH12 posH13 1 2).find
          { m_Row := posH12.m_Row + 1, m_Column := posH12.m_Column + 0 }
        = some { m_Stack := ([.CNumber (Double.ofNat 7)] : List COperation).map
                  (COperation.cloneShift (posH12.m_Row - posH13.m_Row)
                    (posH12.m_Column - posH13.m_Column)),
                 m_IsCalculated := false } :=
  ⟨by decide, by decide, by decide,
    C5_copy_reads_the_sheet_before sheetOverlap posH12 posH13 1 2 0 1 (by decide) (by decide)
      { m_Stack := [.CNumber (Double.ofNat 7)] } (by decide)⟩

/-! ## C6 and C7: `save` and `load` -/

/-- C6. Save/load round trip: for every sheet `S` whose flags are all clear
(a `std::map` whose numbers fit their C++ types), `save` to a fresh stream
succeeds, and `load` of the produced bytes into any sheet returns true and
leaves that sheet equal to `S`, position for position and node for node, so
that `getValue` agrees with `S` everywhere. -/
theorem C6_save_load_round_trip (pf : Platform) (S : Sheet) (_hclear : AllClear S)
    (hvalid : Sheet.Valid S) (hfit : Sheet.Storable S) (junk : Bytes) (T : Sheet) :
    (save S {}).1 = true ∧
      load junk T { data := (save S {}).2.data } = (true, S) ∧
      ∀ p, getValue pf (load junk T { data := (save S {}).2.data }).2 p = getValue pf S p := by
  have hs : save S {} = (true, { data := [] ++ sheetBytes S, good := true }) := save_good S []
  have hl : load junk T { data := (save S {}).2.data } = (true, S) := by
    rw [hs]
    exact load_sheetBytes junk T S hvalid hfit
  refine ⟨by rw [hs], hl, ?_⟩
  intro p
  rw [hl]

/-- C6 at the sheet `A1 = 2`, `B2 = 4`, `I4 = A1 + B2 * 3`, loaded over the
sheet with the cycle. -/
theorem C6_save_load_round_trip_witness :
    AllClear sheetS1 ∧ Sheet.Valid sheetS1 ∧ Sheet.Storable sheetS1 ∧
      ((save sheetS1 {}).1 = true ∧
        load [] sheetCycle { data := (save sheetS1 {}).2.data } = (true, sheetS1) ∧
        ∀ p, getValue examplePlatform
            (load [] sheetCycle { data := (save sheetS1 {}).2.data }).2 p
          = getValue examplePlatform sheetS1 p) :=
  ⟨by decide, by decide, by decide,
    C6_save_load_round_trip examplePlatform sheetS1 (by decide) (by decide) (by decide) []
      sheetCycle⟩

/-- C7. `load` is atomic on failure: for every sheet and every input, if `load`
returns false then the sheet is exactly as it was before the call. -/
theorem C7_load_failure_keeps_sheet (junk : Bytes) (sheet : Sheet) (is : IStream)
    (h : (load junk sheet is).1 = false) : (load junk sheet is).2 = sheet := by
  unfold load at h ⊢
  dsimp only at h ⊢
  split
  · rename_i hg
    rw [if_pos hg] at h
    split
    · rename_i ns hns
      rw [hns] at h
      simp at h
    · rfl
  · rfl

/-- C7 at a file that ends after the first of its two announced cells, loaded
over the sheet with the cycle. -/
theorem C7_load_failure_keeps_sheet_witness :
    (load [] sheetCycle { data := shortFile }).1 = false ∧
      (load [] sheetCycle { data := shortFile }).2 = sheetCycle :=
  ⟨by decide, C7_load_failure_keeps_sheet [] sheetCycle { data := shortFile } (by decide)⟩

/-! ## C8, C9, C10: literals and missing cells -/

theorem getValue_flag_set (pf : Platform) (s : Sheet) (pos : CPos) (cell : CCell)
    (hf : s.find pos = some cell) (hg : cell.m_IsCalculated = true) :
    getValue pf s pos = .ok (.undefined, s) := by
  unfold getValue getValueFuel CCell.calculateCell calculateWith
  simp only [hf, hg, if_true]
  split <;> rfl

theorem getValue_number_root (pf : Platform) (s : Sheet) (pos : CPos) (cell : CCell)
    (st : List COperation) (d : Double)
    (hf : s.find pos = some cell) (hg : cell.m_IsCalculated = false)
    (hst : cell.m_Stack = st ++ [.CNumber d]) :
    getValue pf s pos = .ok (.number d, s) := by
  have hnil : cell.m_Stack ≠ [] := by rw [hst]; simp
  have hemp : cell.m_Stack.isEmpty = false := by rw [hst]; simp
  unfold getValue getValueFuel CCell.calculateCell
  simp only [hf, hemp]
  rw [calculateWith_eq_operand _ _ _ _ hnil]
  simp only [hg, Bool.false_eq_true, if_false]
  have h1 := operandWith_at (evaluate pf (fuelBound s)) st (.CNumber d) [] (s.setFlag pos true)
  simp only [List.length_nil] at h1
  rw [hst, h1]
  have hfb : fuelBound s = (s.map (fun e => e.2.m_Stack.length + 1)).sum + 1 := rfl
  rw [hfb]
  simp only [evaluate]
  have := Sheet.setFlag_restore s pos cell hf true
  rw [hg] at this
  rw [this]

theorem getValue_string_root (pf : Platform) (s : Sheet) (pos : CPos) (cell : CCell)
    (st : List COperation) (t : Bytes)
    (hf : s.find pos = some cell) (hg : cell.m_IsCalculated = false)
    (hst : cell.m_Stack = st ++ [.CString t]) :
    getValue pf s pos = .ok (.text t, s) := by
  have hnil : cell.m_Stack ≠ [] := by rw [hst]; simp
  have hemp : cell.m_Stack.isEmpty = false := by rw [hst]; simp
  unfold getValue getValueFuel CCell.calculateCell
  simp only [hf, hemp]
  rw [calculateWith_eq_operand _ _ _ _ hnil]
  simp only [hg, Bool.false_eq_true, if_false]
  have h1 := operandWith_at (evaluate pf (fuelBound s)) st (.CString t) [] (s.setFlag pos true)
  simp only [List.length_nil] at h1
  rw [hst, h1]
  have hfb : fuelBound s = (s.map (fun e => e.2.m_Stack.length + 1)).sum + 1 := rfl
  rw [hfb]
  simp only [evaluate]
  have := Sheet.setFlag_restore s pos cell hf true
  rw [hg] at this
  rw [this]

theorem slot_flag_clear (sheet : Sheet) (pos : CPos)
    (hflag : ∀ cell, sheet.find pos = some cell → cell.m_IsCalculated = false) :
    (sheet.slot pos).m_IsCalculated = false := by
  unfold Sheet.slot
  cases hf : sheet.find pos with
  | none => rfl
  | some c => exact hflag c hf

/-- C8, amended. For every sheet in which the cell at `pos`, if there is one,
has its flag clear, and every text that does not start with `=` and that
`stod` parses in full as the double `d`: `setCell` returns true and afterwards
`getValue(pos)` returns `Number(d)`. -/
theorem C8_number_literal_reads_back (pf : Platform) (parser : ExprParser) (sheet : Sheet)
    (pos : CPos) (N : Bytes) (d : Double)
    (hN : N.head? ≠ some 61) (hd : pf.stod N = some (d, N.length))
    (hflag : ∀ cell, sheet.find pos = some cell → cell.m_IsCalculated = false) :
    (setCell pf parser sheet pos N).1 = true ∧
      getValue pf (setCell pf parser sheet pos N).2 pos
        = .ok (.number d, (setCell pf parser sheet pos N).2) := by
  have hset : setCell pf parser sheet pos N
      = (true, sheet.assign pos
          { sheet.slot pos with m_Stack := (sheet.slot pos).m_Stack ++ [.CNumber d] }) := by
    unfold setCell
    rw [if_neg hN, hd]
    simp
  rw [hset]
  refine ⟨rfl, ?_⟩
  refine getValue_number_root pf _ pos
    { sheet.slot pos with m_Stack := (sheet.slot pos).m_Stack ++ [.CNumber d] }
    (sheet.slot pos).m_Stack d ?_ ?_ rfl
  · rw [Sheet.find_assign, if_pos (CPos.same_refl pos)]
  · exact slot_flag_clear sheet pos hflag

/-- C8 at the empty sheet and the text `10`. -/
theorem C8_number_literal_reads_back_witness :
    text10.head? ≠ some 61 ∧
      examplePlatform.stod text10 = some (Double.ofNat 10, text10.length) ∧
      (∀ cell, Sheet.find [] posA1 = some cell → cell.m_IsCalculated = false) ∧
      ((setCell examplePlatform rejectingParser [] posA1 text10).1 = true ∧
        getValue examplePlatform (setCell examplePlatform rejectingParser [] posA1 text10).2 posA1
          = .ok (.number (Double.ofNat 10),
              (setCell examplePlatform rejectingParser [] posA1 text10).2)) :=
  ⟨by decide, by decide, by intro cell h; simp [Sheet.find] at h,
    C8_number_literal_reads_back examplePlatform rejectingParser [] posA1 text10 (Double.ofNat 10)
      (by decide) (by decide) (by intro cell h; simp [Sheet.find] at h)⟩

/-- C8 as stated fails on a sheet that `load` can install: the file `stuckFile`
loads as the sheet whose cell `A1` has its flag set; `setCell(A1, "10")`
returns true, and `getValue(A1)` is `undefined`, not `Number(10)`. -/
theorem C8_counterexample :
    load [] [] { data := stuckFile } = (true, sheetStuck) ∧
      text10.head? ≠ some 61 ∧
      examplePlatform.stod text10 = some (Double.ofNat 10, text10.length) ∧
      (setCell examplePlatform rejectingParser sheetStuck posA1 text10).1 = true ∧
      (getValue examplePlatform
          (setCell examplePlatform rejectingParser sheetStuck posA1 text10).2 posA1).value
        = .ok .undefined := by
  refine ⟨by decide, by decide, by decide, by decide, by decide⟩

/-- C9, amended. For every sheet in which the cell at `pos`, if there is one,
has its flag clear, and every text `T` that does not start with `=` and that
`stod` does not parse in full as a double (it throws, or stops before the end
of the text; the empty text and texts with a numeric beginning included):
`setCell` returns true and afterwards `getValue(pos)` returns `Text(T)`. -/
theorem C9_text_literal_reads_back (pf : Platform) (parser : ExprParser) (sheet : Sheet)
    (pos : CPos) (T : Bytes)
    (hT : T.head? ≠ some 61) (hd : ∀ d, pf.stod T ≠ some (d, T.length))
    (hflag : ∀ cell, sheet.find pos = some cell → cell.m_IsCalculated = false) :
    (setCell pf parser sheet pos T).1 = true ∧
      getValue pf (setCell pf parser sheet pos T).2 pos
        = .ok (.text T, (setCell pf parser sheet pos T).2) := by
  have hset : setCell pf parser sheet pos T
      = (true, sheet.assign pos
          { sheet.slot pos with m_Stack := (sheet.slot pos).m_Stack ++ [.CString T] }) := by
    unfold setCell
    rw [if_neg hT]
    cases hs : pf.stod T with
    | none => rfl
    | some r =>
      obtain ⟨d, idx⟩ := r
      have hne : idx ≠ T.length := by
        intro h
        exact hd d (by rw [hs, h])
      simp only [hne, if_false]
  rw [hset]
  refine ⟨rfl, ?_⟩
  refine getValue_string_root pf _ pos
    { sheet.slot pos with m_Stack := (sheet.slot pos).m_Stack ++ [.CString T] }
    (sheet.slot pos).m_Stack T ?_ ?_ rfl
  · rw [Sheet.find_assign, if_pos (CPos.same_refl pos)]
  · exact slot_flag_clear sheet pos hflag

theorem examplePlatform_stod_empty :
    ∀ d, examplePlatform.stod [] ≠ some (d, ([] : Bytes).length) := by
  intro d h
  have hn : examplePlatform.stod [] = none := by decide
  rw [hn] at h
  cases h

theorem sheetS1_A1_clear :
    ∀ cell, sheetS1.find posA1 = some cell → cell.m_IsCalculated = false := by
  intro cell h
  have hf : sheetS1.find posA1 = some { m_Stack := [.CNumber (Double.ofNat 2)] } := by decide
  rw [hf] at h
  simp only [Option.some.injEq] at h
  rw [← h]

/-- C9 at the empty text, written over the cell `A1 = 2`. -/
theorem C9_text_literal_reads_back_witness :
    ([] : Bytes).head? ≠ some 61 ∧
      (∀ d, examplePlatform.stod [] ≠ some (d, ([] : Bytes).length)) ∧
      (∀ cell, sheetS1.find posA1 = some cell → cell.m_IsCalculated = false) ∧
      ((setCell examplePlatform rejectingParser sheetS1 posA1 []).1 = true ∧
        getValue examplePlatform (setCell examplePlatform rejectingParser sheetS1 posA1 []).2 posA1
          = .ok (.text [], (setCell examplePlatform rejectingParser sheetS1 posA1 []).2)) :=
  ⟨by decide, examplePlatform_stod_empty, sheetS1_A1_clear,
    C9_text_literal_reads_back examplePlatform rejectingParser sheetS1 posA1 []
      (by decide) examplePlatform_stod_empty sheetS1_A1_clear⟩

/-- C9 as stated fails on a sheet that `load` can install: the file `stuckFile`
loads as the sheet whose cell `A1` has its flag set; `setCell(A1, "x")`
returns true, and `getValue(A1)` is `undefined`, not `Text("x")`. -/
theorem C9_counterexample :
    load [] [] { data := stuckFile } = (true, sheetStuck) ∧
      textX.head? ≠ some 61 ∧
      examplePlatform.stod textX = none ∧
      (setCell examplePlatform rejectingParser sheetStuck posA1 textX).1 = true ∧
      (getValue examplePlatform
          (setCell examplePlatform rejectingParser sheetStuck posA1 textX).2 posA1).value
        = .ok .undefined := by
  refine ⟨by decide, by decide, by decide, by decide, by decide⟩

theorem getValueFuel_missing (pf : Platform) (fuel : Nat) (sheet : Sheet) (p : CPos)
    (hmiss : sheet.find p = none ∨ ∃ cell, sheet.find p = some cell ∧ cell.m_Stack = []) :
    getValueFuel pf fuel sheet p = .ok (.undefined, sheet) := by
  unfold getValueFuel
  rcases hmiss with h | ⟨cell, h, hst⟩
  · rw [h]
  · rw [h]
    simp [hst]

theorem missing_setFlag (sheet : Sheet) (p : CPos) (pos : CPos) (b : Bool)
    (hmiss : sheet.find p = none ∨ ∃ cell, sheet.find p = some cell ∧ cell.m_Stack = []) :
    (sheet.setFlag pos b).find p = none ∨
      ∃ cell, (sheet.setFlag pos b).find p = some cell ∧ cell.m_Stack = [] := by
  rw [Sheet.find_setFlag]
  rcases hmiss with h | ⟨cell, h, hst⟩
  · left; rw [h]; split <;> rfl
  · right
    rw [h]
    split
    · exact ⟨_, rfl, hst⟩
    · exact ⟨cell, rfl, hst⟩

/-- C10. Missing cells read as `undefined`: for every sheet and every position
`p` that is absent from the sheet or whose cell has an empty program,
`getValue(p)` returns `undefined`; a `Ref` node that addresses `p` evaluates to
`undefined` (and advances the cursor by one); and a cell whose expression has
such a `Ref` operand evaluates to `undefined`: its evaluation cannot yield
another value, and it does yield `undefined` whenever the programs of the
sheet are well-formed (else an index of another cell may leave its program). -/
theorem C10_missing_cells_read_undefined (pf : Platform) (sheet : Sheet) (p : CPos)
    (hmiss : sheet.find p = none ∨ ∃ cell, sheet.find p = some cell ∧ cell.m_Stack = []) :
    getValue pf sheet p = .ok (.undefined, sheet) ∧
      (∀ q fuel stack depth, q.same p = true →
        evaluate pf (fuel + 1) (.CReference q) stack sheet depth
          = .ok (.undefined, sheet, depth + 1)) ∧
      (∀ pos cell pre e q, sheet.find pos = some cell → cell.m_Stack = pre ++ Expr.program e →
        q ∈ e.refs → q.same p = true →
        (getValue pf sheet pos = .ok (.undefined, sheet) ∨ getValue pf sheet pos = .outOfRange) ∧
        (WellFormed sheet → getValue pf sheet pos = .ok (.undefined, sheet))) := by
  refine ⟨getValueFuel_missing pf _ sheet p hmiss, ?_, ?_⟩
  · intro q fuel stack depth hq
    simp only [evaluate, referenceWith_eq]
    rw [getValueFuel_congr pf fuel sheet hq, getValueFuel_missing pf fuel sheet p hmiss]
    rfl
  · intro pos cell pre e q hf hp hq hs
    have hval : ∀ v s, getValue pf sheet pos = .ok (v, s) → v = .undefined := by
      intro v s h
      have hfb : fuelBound sheet = (sheet.map (fun e => e.2.m_Stack.length + 1)).sum + 1 := rfl
      unfold getValue at h
      rw [hfb] at h
      refine getValueFuel_undefined_of_ref pf _ sheet pos cell pre e q hf hp hq ?_ v s h
      intro v2 s2 h2
      rw [getValueFuel_congr pf _ _ hs,
        getValueFuel_missing pf _ _ p (missing_setFlag sheet p pos true hmiss)] at h2
      simp only [Res.ok.injEq, Prod.mk.injEq] at h2
      exact h2.1.symm
    constructor
    · cases h : getValue pf sheet pos with
      | ok a =>
        obtain ⟨v, s⟩ := a
        left
        rw [hval v s h, getValue_sheet pf sheet pos v s h]
      | outOfRange => right; rfl
      | outOfFuel => exact absurd h (getValue_ne_outOfFuel pf sheet pos)
    · intro hwf
      obtain ⟨v, hv⟩ := getValue_ok pf sheet hwf pos
      rw [hv, hval v sheet hv]

/-- C10 at the sheet with the cycle and the unset position `B2`. -/
theorem C10_missing_cells_read_undefined_witness :
    (sheetCycle.find posB2 = none ∨
        ∃ cell, sheetCycle.find posB2 = some cell ∧ cell.m_Stack = []) ∧
      (getValue examplePlatform sheetCycle posB2 = .ok (.undefined, sheetCycle) ∧
      (∀ q fuel stack depth, q.same posB2 = true →
        evaluate examplePlatform (fuel + 1) (.CReference q) stack sheetCycle depth
          = .ok (.undefined, sheetCycle, depth + 1)) ∧
      (∀ pos cell pre e q, sheetCycle.find pos = some cell →
        cell.m_Stack = pre ++ Expr.program e → q ∈ e.refs → q.same posB2 = true →
        (getValue examplePlatform sheetCycle pos = .ok (.undefined, sheetCycle) ∨
          getValue examplePlatform sheetCycle pos = .outOfRange) ∧
        (WellFormed sheetCycle →
          getValue examplePlatform sheetCycle pos = .ok (.undefined, sheetCycle)))) :=
  ⟨Or.inl (by decide),
    C10_missing_cells_read_undefined examplePlatform sheetCycle posB2 (Or.inl (by decide))⟩

/-! ## C11 to C14: `setCell` -/

theorem CPos.less_irrefl (a : CPos) : a.less a = false := by
  simp only [CPos.less, Bool.or_eq_false_iff, Bool.and_eq_false_iff, decide_eq_false_iff_not]
  omega

theorem CPos.less_asymm {a b : CPos} (h : a.less b = true) : b.less a = false := by
  simp only [CPos.less, Bool.or_eq_true, Bool.and_eq_true, decide_eq_true_eq] at h
  simp only [CPos.less, Bool.or_eq_false_iff, Bool.and_eq_false_iff, decide_eq_false_iff_not]
  omega

/-- Assigning twice under the same position is assigning the second cell. -/
theorem Sheet.assign_assign (s : Sheet) (pos : CPos) (c1 c2 : CCell) :
    Sheet.assign (Sheet.assign s pos c1) pos c2 = Sheet.assign s pos c2 := by
  induction s with
  | nil => simp [Sheet.assign, CPos.less_irrefl]
  | cons e rest ih =>
    obtain ⟨k, v⟩ := e
    by_cases h1 : pos.less k = true
    · simp [Sheet.assign, h1, CPos.less_irrefl]
    · by_cases h2 : k.less pos = true
      · simp [Sheet.assign, h1, h2, ih]
      · simp [Sheet.assign, h1, h2]

theorem slot_assign (s : Sheet) (pos : CPos) (c : CCell) :
    (Sheet.assign s pos c).slot pos = c := by
  unfold Sheet.slot
  rw [Sheet.find_assign, if_pos (CPos.same_refl pos)]
  rfl

theorem setCell_formula (pf : Platform) (parser : ExprParser) (sheet : Sheet) (pos : CPos)
    (contents : Bytes) (stack : List COperation)
    (hc : contents.head? = some 61) (hp : parseProgram parser contents = some stack) :
    setCell pf parser sheet pos contents
      = (true, sheet.assign pos { sheet.slot pos with m_Stack := stack }) := by
  unfold setCell
  rw [if_pos hc, hp]

theorem setCell_rejected (pf : Platform) (parser : ExprParser) (sheet : Sheet) (pos : CPos)
    (contents : Bytes)
    (hc : contents.head? = some 61) (hp : parseProgram parser contents = none) :
    setCell pf parser sheet pos contents = (false, sheet) := by
  unfold setCell
  rw [if_pos hc, hp]

theorem setCell_literal (pf : Platform) (parser : ExprParser) (sheet : Sheet) (pos : CPos)
    (contents : Bytes) (hc : contents.head? ≠ some 61) :
    setCell pf parser sheet pos contents
      = (true, sheet.assign pos
          { sheet.slot pos with
            m_Stack := (sheet.slot pos).m_Stack ++ [literalNode pf contents] }) := by
  unfold setCell literalNode
  rw [if_neg hc]
  cases hs : pf.stod contents with
  | none => rfl
  | some r =>
    obtain ⟨d, idx⟩ := r
    dsimp only
    split <;> rfl

theorem literalNode_leaf (pf : Platform) (contents : Bytes) :
    (∃ d, literalNode pf contents = .CNumber d) ∨ ∃ t, literalNode pf contents = .CString t := by
  unfold literalNode
  cases hs : pf.stod contents with
  | none => exact Or.inr ⟨_, rfl⟩
  | some r =>
    obtain ⟨d, idx⟩ := r
    dsimp only
    split
    · exact Or.inl ⟨_, rfl⟩
    · exact Or.inr ⟨_, rfl⟩

/-- The flag of the cell at the position is the same before and after `setCell`. -/
theorem setCell_slot_flag (pf : Platform) (parser : ExprParser) (sheet : Sheet) (pos : CPos)
    (contents : Bytes) :
    ((setCell pf parser sheet pos contents).2.slot pos).m_IsCalculated
      = (sheet.slot pos).m_IsCalculated := by
  by_cases hc : contents.head? = some 61
  · cases hp : parseProgram parser contents with
    | none => rw [setCell_rejected pf parser sheet pos contents hc hp]
    | some stack =>
      rw [setCell_formula pf parser sheet pos contents stack hc hp]
      dsimp only
      rw [slot_assign]
  · rw [setCell_literal pf parser sheet pos contents hc]
    dsimp only
    rw [slot_assign]

/-- Two cells whose programs end with the same literal leaf and whose flags
agree read as the same value. -/
theorem getValue_leaf_root_congr (pf : Platform) (s1 s2 : Sheet) (pos : CPos) (c1 c2 : CCell)
    (st1 st2 : List COperation) (node : COperation)
    (h1 : s1.find pos = some c1) (h2 : s2.find pos = some c2)
    (hs1 : c1.m_Stack = st1 ++ [node]) (hs2 : c2.m_Stack = st2 ++ [node])
    (hflag : c1.m_IsCalculated = c2.m_IsCalculated)
    (hnode : (∃ d, node = .CNumber d) ∨ ∃ t, node = .CString t) :
    (getValue pf s1 pos).value = (getValue pf s2 pos).value := by
  cases hg : c2.m_IsCalculated with
  | true =>
    rw [getValue_flag_set pf s1 pos c1 h1 (hflag.trans hg), getValue_flag_set pf s2 pos c2 h2 hg]
    rfl
  | false =>
    rcases hnode with ⟨d, hd⟩ | ⟨t, ht⟩
    · subst hd
      rw [getValue_number_root pf s1 pos c1 st1 d h1 (hflag.trans hg) hs1,
        getValue_number_root pf s2 pos c2 st2 d h2 hg hs2]
      rfl
    · subst ht
      rw [getValue_string_root pf s1 pos c1 st1 t h1 (hflag.trans hg) hs1,
        getValue_string_root pf s2 pos c2 st2 t h2 hg hs2]
      rfl

/-- C11. Overwrite: for every sheet, position and texts `x`, `y` for which both
calls of `setCell` return true, the value of `getValue` at the position after
`setCell(pos, x); setCell(pos, y)` is the value of `getValue` at the position
after `setCell(pos, y)` alone on the same sheet. -/
theorem C11_overwrite_reads_as_second (pf : Platform) (parser : ExprParser) (sheet : Sheet)
    (pos : CPos) (x y : Bytes)
    (_hx : (setCell pf parser sheet pos x).1 = true)
    (_hy : (setCell pf parser (setCell pf parser sheet pos x).2 pos y).1 = true) :
    (getValue pf (setCell pf parser (setCell pf parser sheet pos x).2 pos y).2 pos).value
      = (getValue pf (setCell pf parser sheet pos y).2 pos).value := by
  have hflag := setCell_slot_flag pf parser sheet pos x
  by_cases hc : y.head? = some 61
  · cases hp : parseProgram parser y with
    | none =>
      rw [setCell_rejected pf parser _ pos y hc hp] at _hy
      cases _hy
    | some stack =>
      rw [setCell_formula pf parser _ pos y stack hc hp,
        setCell_formula pf parser sheet pos y stack hc hp]
      dsimp only
      rw [hflag]
      by_cases hcx : x.head? = some 61
      · cases hpx : parseProgram parser x with
        | none => rw [setCell_rejected pf parser sheet pos x hcx hpx]
        | some stx =>
          rw [setCell_formula pf parser sheet pos x stx hcx hpx]
          dsimp only
          rw [Sheet.assign_assign]
      · rw [setCell_literal pf parser sheet pos x hcx]
        dsimp only
        rw [Sheet.assign_assign]
  · rw [setCell_literal pf parser _ pos y hc, setCell_literal pf parser sheet pos y hc]
    dsimp only
    refine getValue_leaf_root_congr pf _ _ pos
      { (setCell pf parser sheet pos x).2.slot pos with
        m_Stack := ((setCell pf parser sheet pos x).2.slot pos).m_Stack ++ [literalNode pf y] }
      { sheet.slot pos with m_Stack := (sheet.slot pos).m_Stack ++ [literalNode pf y] }
      ((setCell pf parser sheet pos x).2.slot pos).m_Stack (sheet.slot pos).m_Stack
      (literalNode pf y) ?_ ?_ rfl rfl ?_ (literalNode_leaf pf y)
    · rw [Sheet.find_assign, if_pos (CPos.same_refl pos)]
    · rw [Sheet.find_assign, if_pos (CPos.same_refl pos)]
    · exact hflag

/-- C11 at the sheet `A1 = "x"`, `A2 = "2"`, the position `B1`, the formula
`=A1+A2` and then the literal `12`. -/
theorem C11_overwrite_reads_as_second_witness :
    (setCell examplePlatform exampleParser sheetXTwo posB1 textA1plusA2).1 = true ∧
      (setCell examplePlatform exampleParser
        (setCell examplePlatform exampleParser sheetXTwo posB1 textA1plusA2).2 posB1 text12).1
        = true ∧
      (getValue examplePlatform (setCell examplePlatform exampleParser
          (setCell examplePlatform exampleParser sheetXTwo posB1 textA1plusA2).2 posB1 text12).2
          posB1).value
        = (getValue examplePlatform
            (setCell examplePlatform exampleParser sheetXTwo posB1 text12).2 posB1).value :=
  ⟨by decide, by decide,
    C11_overwrite_reads_as_second examplePlatform exampleParser sheetXTwo posB1 textA1plusA2
      text12 (by decide) (by decide)⟩

theorem call_eq_node (acc : List COperation) (c : Callback) :
    CMyExpressionBuilder.call acc c = (c.node).map (fun n => acc ++ [n]) := by
  cases c <;> try rfl
  case valReference val =>
    simp only [CMyExpressionBuilder.call, Callback.node]
    cases CPos.parse val <;> rfl

theorem node_eq_none_iff (c : Callback) :
    c.node = none ↔ ∃ s, c = .valReference s ∧ CPos.parse s = none := by
  cases c <;> simp only [Callback.node, reduceCtorEq, false_and, exists_false]
  case valReference val =>
    cases h : CPos.parse val <;> simp [h]

/-- The builder pushes one node per callback, in callback order. -/
theorem run_of_nodes (cbs : List Callback) :
    ∀ (acc nodes : List COperation),
      List.Forall₂ (fun c n => Callback.node c = some n) cbs nodes →
      CMyExpressionBuilder.run acc cbs = some (acc ++ nodes) := by
  induction cbs with
  | nil =>
    intro acc nodes h
    cases h
    simp [CMyExpressionBuilder.run]
  | cons c rest ih =>
    intro acc nodes h
    cases h with
    | cons hc hrest =>
      rename_i n ns
      simp only [CMyExpressionBuilder.run, call_eq_node, hc, Option.map_some']
      rw [ih _ _ hrest]
      simp

/-- The builder throws exactly when some reference literal is not a position. -/
theorem run_eq_none_iff (cbs : List Callback) :
    ∀ (acc : List COperation),
      CMyExpressionBuilder.run acc cbs = none ↔
        ∃ s, Callback.valReference s ∈ cbs ∧ CPos.parse s = none := by
  induction cbs with
  | nil =>
    intro acc
    simp [CMyExpressionBuilder.run]
  | cons c rest ih =>
    intro acc
    simp only [CMyExpressionBuilder.run, call_eq_node]
    cases hn : c.node with
    | none =>
      obtain ⟨s, hs, hp⟩ := (node_eq_none_iff c).mp hn
      simp only [Option.map_none', true_iff]
      exact ⟨s, by rw [hs]; exact List.mem_cons_self _ _, hp⟩
    | some n =>
      simp only [Option.map_some']
      rw [ih]
      constructor
      · rintro ⟨s, hs, hp⟩
        exact ⟨s, List.mem_cons_of_mem _ hs, hp⟩
      · rintro ⟨s, hs, hp⟩
        rcases List.mem_cons.mp hs with h | h
        · rw [← h] at hn
          simp [Callback.node, hp] at hn
        · exact ⟨s, h, hp⟩

theorem parseProgram_eq_none_iff (parser : ExprParser) (contents : Bytes) :
    parseProgram parser contents = none ↔
      ((parser contents).2 = false ∨
        ∃ s, Callback.valReference s ∈ (parser contents).1 ∧ CPos.parse s = none) := by
  unfold parseProgram
  cases hr : CMyExpressionBuilder.run [] (parser contents).1 with
  | none =>
    simp only [true_iff]
    exact Or.inr ((run_eq_none_iff _ _).mp hr)
  | some stack =>
    have hno : ¬ ∃ s, Callback.valReference s ∈ (parser contents).1 ∧ CPos.parse s = none := by
      intro h
      rw [(run_eq_none_iff _ _).mpr h] at hr
      cases hr
    cases hb : (parser contents).2 <;> simp [hno]

/-- C12. For every text that starts with `=` and that the parser accepts (it
returns, and every reference literal it reports is a position, so that each
callback has its node: `opAdd` gives `Add`, ..., `opGe` gives `Ge`,
`valNumber(d)` gives `Num(d)`, `valString(s)` gives `Str(s)`,
`valReference(s)` gives `Ref(parse s)`, `valRange` gives `Range`, `funcCall`
gives `Func`): `setCell` returns true, and the program of the cell at the
position is afterwards exactly the list `nodes` of these nodes, one per
callback and in callback order, whatever the program was before; the flag of
the cell and every other cell stay as they were. -/
theorem C12_formula_program_is_callback_nodes (pf : Platform) (parser : ExprParser)
    (sheet : Sheet) (pos : CPos) (contents : Bytes) (nodes : List COperation)
    (hc : contents.head? = some 61) (hacc : (parser contents).2 = true)
    (hn : List.Forall₂ (fun c n => Callback.node c = some n) (parser contents).1 nodes) :
    (setCell pf parser sheet pos contents).1 = true ∧
      (setCell pf parser sheet pos contents).2.find pos
        = some { m_Stack := nodes, m_IsCalculated := (sheet.slot pos).m_IsCalculated } ∧
      (∀ q, pos.same q = false →
        (setCell pf parser sheet pos contents).2.find q = sheet.find q) := by
  have hp : parseProgram parser contents = some nodes := by
    unfold parseProgram
    rw [run_of_nodes _ [] nodes hn, hacc]
    rfl
  rw [setCell_formula pf parser sheet pos contents nodes hc hp]
  refine ⟨rfl, ?_, ?_⟩
  · dsimp only
    rw [Sheet.find_assign, if_pos (CPos.same_refl pos)]
  · intro q hq
    dsimp only
    rw [Sheet.find_assign, hq]
    rfl

/-- C12 at the sheet `A1 = 10` and the text `=A1+A2` put into `A1`: the
program `[Num 10]` is replaced by `[Ref A1, Ref A2, Add]`. -/
theorem C12_formula_program_is_callback_nodes_witness :
    textA1plusA2.head? = some 61 ∧ (exampleParser textA1plusA2).2 = true ∧
      List.Forall₂ (fun c n => Callback.node c = some n) (exampleParser textA1plusA2).1
        [.CReference posA1, .CReference posA2, .CAddition] ∧
      (setCell examplePlatform exampleParser sheetTen posA1 textA1plusA2).1 = true ∧
      (setCell examplePlatform exampleParser sheetTen posA1 textA1plusA2).2.find posA1
        = some { m_Stack := [.CReference posA1, .CReference posA2, .CAddition],
                 m_IsCalculated := (sheetTen.slot posA1).m_IsCalculated } ∧
      (∀ q, posA1.same q = false →
        (setCell examplePlatform exampleParser sheetTen posA1 textA1plusA2).2.find q
          = sheetTen.find q) :=
  ⟨by decide, by decide, .cons (by decide) (.cons (by decide) (.cons rfl .nil)),
    C12_formula_program_is_callback_nodes examplePlatform exampleParser sheetTen posA1
      textA1plusA2 [.CReference posA1, .CReference posA2, .CAddition] (by decide) (by decide)
      (.cons (by decide) (.cons (by decide) (.cons rfl .nil)))⟩

/-- C13. `setCell` returns false exactly when the text starts with `=` and the
parser rejects it or reports a reference literal that is not a position; the
sheet is then the sheet before the call.  For every text that does not start
with `=` it returns true.  Two instances: the parser rejects `=A1+A2`, and the
literal `1A` of `=1A+1` is not a position. -/
theorem C13_setCell_false_iff_formula_rejected (pf : Platform) (parser : ExprParser)
    (sheet : Sheet) (pos : CPos) (contents : Bytes) :
    ((setCell pf parser sheet pos contents).1 = false ↔
        (contents.head? = some 61 ∧
          ((parser contents).2 = false ∨
            ∃ s, Callback.valReference s ∈ (parser contents).1 ∧ CPos.parse s = none))) ∧
      ((setCell pf parser sheet pos contents).1 = false →
        (setCell pf parser sheet pos contents).2 = sheet) ∧
      (contents.head? ≠ some 61 → (setCell pf parser sheet pos contents).1 = true) ∧
      setCell examplePlatform rejectingParser sheetTen posB1 textA1plusA2 = (false, sheetTen) ∧
      setCell examplePlatform exampleParser sheetTen posB1 textBadRef = (false, sheetTen) := by
  have hlit : contents.head? ≠ some 61 → (setCell pf parser sheet pos contents).1 = true := by
    intro hc
    rw [setCell_literal pf parser sheet pos contents hc]
  have hfalse : (setCell pf parser sheet pos contents).1 = false →
      contents.head? = some 61 ∧ parseProgram parser contents = none := by
    intro h
    by_cases hc : contents.head? = some 61
    · refine ⟨hc, ?_⟩
      cases hp : parseProgram parser contents with
      | none => rfl
      | some stack =>
        rw [setCell_formula pf parser sheet pos contents stack hc hp] at h
        cases h
    · rw [hlit hc] at h
      cases h
  refine ⟨⟨?_, ?_⟩, ?_, hlit, by decide, by decide⟩
  · intro h
    obtain ⟨hc, hp⟩ := hfalse h
    exact ⟨hc, (parseProgram_eq_none_iff parser contents).mp hp⟩
  · rintro ⟨hc, hp⟩
    rw [setCell_rejected pf parser sheet pos contents hc
      ((parseProgram_eq_none_iff parser contents).mpr hp)]
  · intro h
    obtain ⟨hc, hp⟩ := hfalse h
    rw [setCell_rejected pf parser sheet pos contents hc hp]

/-- C14, the code on literals: for every sheet and every text that does not
start with `=`, the program of the cell after `setCell` is the program the
cell had before followed by the node of the literal, so it is a single node
only when the cell was absent or its program was empty.  On the sheet that
`setCell(A1, "10")` builds from the empty sheet, `setCell(A1, "12")` leaves the
program `[Num 10, Num 12]`; `getValue(A1)` is `Number(12)`, and `save` writes
twelve bytes more than for the sheet that holds the program `[Num 12]`. -/
theorem C14_literal_is_appended :
    (∀ (pf : Platform) (parser : ExprParser) (sheet : Sheet) (pos : CPos) (contents : Bytes),
        contents.head? ≠ some 61 →
        (setCell pf parser sheet pos contents).2.find pos
          = some { m_Stack := (sheet.slot pos).m_Stack ++ [literalNode pf contents],
                   m_IsCalculated := (sheet.slot pos).m_IsCalculated }) ∧
    (setCell examplePlatform rejectingParser [] posA1 text10).2 = sheetTen ∧
    text12.head? ≠ some 61 ∧
    examplePlatform.stod text12 = some (Double.ofNat 12, text12.length) ∧
    setCell examplePlatform rejectingParser sheetTen posA1 text12
      = (true, [(posA1,
          { m_Stack := [.CNumber (Double.ofNat 10), .CNumber (Double.ofNat 12)] })]) ∧
    (getValue examplePlatform
        (setCell examplePlatform rejectingParser sheetTen posA1 text12).2 posA1).value
      = .ok (.number (Double.ofNat 12)) ∧
    (save (setCell examplePlatform rejectingParser sheetTen posA1 text12).2 {}).2.data.length
      = (save [(posA1, { m_Stack := [.CNumber (Double.ofNat 12)] })] {}).2.data.length + 12 := by
  refine ⟨?_, by decide, by decide, by decide, by decide, by decide, by decide⟩
  intro pf parser sheet pos contents hc
  rw [setCell_literal pf parser sheet pos contents hc]
  dsimp only
  rw [Sheet.find_assign, if_pos (CPos.same_refl pos)]

/-! ## C15 to C19: the results of the operator nodes -/

theorem strLt_irrefl (a : Bytes) : strLt a a = false := by
  induction a with
  | nil => rfl
  | cons x xs ih => simp [strLt, ih]

theorem strLt_asymm : ∀ (a b : Bytes), strLt a b = true → strLt b a = false := by
  intro a
  induction a with
  | nil => intro b _; cases b <;> rfl
  | cons x xs ih =>
    intro b h
    cases b with
    | nil => simp [strLt] at h
    | cons y ys =>
      simp only [strLt] at h ⊢
      by_cases hxy : x < y
      · have hyx : ¬ y < x := not_lt.mpr (le_of_lt hxy)
        simp [hxy, hyx]
      · by_cases hyx : y < x
        · simp [hxy, hyx] at h
        · simp only [hxy, hyx, if_false] at h ⊢
          exact ih ys h

theorem strLt_total : ∀ (a b : Bytes), strLt a b = false → strLt b a = false → a = b := by
  intro a
  induction a with
  | nil =>
    intro b h _
    cases b with
    | nil => rfl
    | cons y ys => simp [strLt] at h
  | cons x xs ih =>
    intro b h1 h2
    cases b with
    | nil => simp [strLt] at h2
    | cons y ys =>
      simp only [strLt] at h1 h2
      by_cases hxy : x < y
      · simp [hxy] at h1
      · by_cases hyx : y < x
        · simp [hyx] at h2
        · simp only [hxy, hyx, if_false] at h1 h2
          have hx : x = y := le_antisymm (not_lt.mp hyx) (not_lt.mp hxy)
          rw [hx, ih ys h1 h2]

/-- The order of `strLt` is the lexicographic order of the byte sequences. -/
theorem strLt_iff_lex : ∀ (a b : Bytes),
    strLt a b = true ↔ List.Lex (fun x y : Byte => x < y) a b := by
  intro a
  induction a with
  | nil =>
    intro b
    cases b with
    | nil => simp [strLt]
    | cons y ys => simp [strLt, List.Lex.nil]
  | cons x xs ih =>
    intro b
    cases b with
    | nil => simp [strLt]
    | cons y ys =>
      simp only [strLt]
      constructor
      · intro h
        by_cases hxy : x < y
        · exact List.Lex.rel hxy
        · by_cases hyx : y < x
          · simp [hxy, hyx] at h
          · simp only [hxy, hyx, if_false] at h
            have hx : x = y := le_antisymm (not_lt.mp hyx) (not_lt.mp hxy)
            subst hx
            exact List.Lex.cons ((ih ys).mp h)
      · intro h
        cases h with
        | cons h1 => simp [(ih ys).mpr h1]
        | rel h1 => simp [h1]

/-- C15. An operator node on the values of its operands: a binary node returns
`op.apply` of the left and the right value, `Neg` returns `negValue` of its
operand.  These results are `undefined` whenever an operand is `undefined`,
whenever one operand is a number and the other a text, and whenever `Sub`,
`Mul`, `Div`, `Pow` or `Neg` receives a text; a result other than `undefined`
requires two numbers, or two texts for `Add` and the six comparisons, and a
number for `Neg`. -/
theorem C15_undefined_absorbs_and_mismatch (pf : Platform) :
    (∀ (fuel : Nat) (op : BinOp) (stack : List COperation) (sheet s1 s2 : Sheet)
        (depth d1 d2 : Nat) (left right : CValue),
        operandWith (evaluate pf fuel) stack sheet (depth + 1) = .ok (right, s1, d1) →
        operandWith (evaluate pf fuel) stack s1 d1 = .ok (left, s2, d2) →
        evaluate pf (fuel + 1) op.node stack sheet depth
          = .ok (op.apply pf left right, s2, d2)) ∧
    (∀ (fuel : Nat) (stack : List COperation) (sheet s1 : Sheet) (depth d1 : Nat)
        (right : CValue),
        operandWith (evaluate pf fuel) stack sheet (depth + 1) = .ok (right, s1, d1) →
        evaluate pf (fuel + 1) .CNegation stack sheet depth = .ok (negValue right, s1, d1)) ∧
    (∀ (op : BinOp) (v : CValue),
        op.apply pf .undefined v = .undefined ∧ op.apply pf v .undefined = .undefined) ∧
    negValue .undefined = .undefined ∧
    (∀ (op : BinOp) (a : Double) (b : Bytes),
        op.apply pf (.number a) (.text b) = .undefined ∧
        op.apply pf (.text b) (.number a) = .undefined) ∧
    (∀ (op : BinOp), op = .sub ∨ op = .mul ∨ op = .div ∨ op = .pow →
        ∀ (t : Bytes) (v : CValue),
          op.apply pf (.text t) v = .undefined ∧ op.apply pf v (.text t) = .undefined) ∧
    (∀ (t : Bytes), negValue (.text t) = .undefined) ∧
    (∀ (op : BinOp) (left right : CValue), op.apply pf left right ≠ .undefined →
        (∃ a b, left = .number a ∧ right = .number b) ∨
        ((op = .add ∨ op = .eq ∨ op = .ne ∨ op = .lt ∨ op = .le ∨ op = .gt ∨ op = .ge) ∧
          ∃ a b, left = .text a ∧ right = .text b)) ∧
    (∀ (v : CValue), negValue v ≠ .undefined → ∃ a, v = .number a) := by
  refine ⟨?_, ?_, ?_, rfl, ?_, ?_, ?_, ?_, ?_⟩
  · intro fuel op stack sheet s1 s2 depth d1 d2 left right h1 h2
    rw [evaluate_binary]
    unfold binaryWith
    simp only [h1, h2]
  · intro fuel stack sheet s1 depth d1 right h1
    simp only [evaluate]
    unfold unaryWith
    simp only [h1]
  · intro op v
    exact ⟨BinOp.apply_undefined_left pf op v, BinOp.apply_undefined_right pf op v⟩
  · intro op a b
    cases op <;> exact ⟨rfl, rfl⟩
  · intro op hop t v
    rcases hop with h | h | h | h <;> subst h <;> cases v <;> exact ⟨rfl, rfl⟩
  · intro t; rfl
  · intro op left right h
    cases left with
    | undefined => exact absurd (BinOp.apply_undefined_left pf op right) h
    | number a =>
      cases right with
      | undefined => exact absurd (BinOp.apply_undefined_right pf op _) h
      | number b => exact Or.inl ⟨a, b, rfl, rfl⟩
      | text b => cases op <;> exact absurd rfl h
    | text a =>
      cases right with
      | undefined => exact absurd (BinOp.apply_undefined_right pf op _) h
      | number b => cases op <;> exact absurd rfl h
      | text b =>
        right
        refine ⟨?_, a, b, rfl, rfl⟩
        cases op
        case sub => exact absurd rfl h
        case mul => exact absurd rfl h
        case div => exact absurd rfl h
        case pow => exact absurd rfl h
        all_goals simp
  · intro v h
    cases v with
    | undefined => exact absurd rfl h
    | number a => exact ⟨a, rfl⟩
    | text t => exact absurd rfl h

theorem computes_node (pf : Platform) (op : BinOp) : Computes pf op.node (op.apply pf) := by
  intro fuel stack sheet s1 s2 depth d1 d2 left right h1 h2
  rw [evaluate_binary]
  unfold binaryWith
  simp only [h1, h2]

/-- C16. The `Add` node returns `addValues` of its operand values: the
platform's sum of two numbers, the left text followed by the right text for
two texts, and `undefined` for every other pair.  With `A1 = "x"` and
`A2 = "2"` set by `setCell`, the formula `=A1+A2` in `B1` evaluates to
`undefined` and the formula `=A1+A1` to the text `xx`. -/
theorem C16_add_sums_or_concatenates (pf : Platform) :
    Computes pf .CAddition (addValues pf) ∧
    (∀ (l r : Double), addValues pf (.number l) (.number r) = .number (pf.add l r)) ∧
    (∀ (l r : Bytes), addValues pf (.text l) (.text r) = .text (l ++ r)) ∧
    (∀ (left right : CValue),
        (¬ ∃ l r, left = .number l ∧ right = .number r) →
        (¬ ∃ l r, left = .text l ∧ right = .text r) →
        addValues pf left right = .undefined) ∧
    (setCell examplePlatform exampleParser sheetXTwo posB1 textA1plusA2).1 = true ∧
    (getValue examplePlatform
        (setCell examplePlatform exampleParser sheetXTwo posB1 textA1plusA2).2 posB1).value
      = .ok .undefined ∧
    (setCell examplePlatform exampleParser sheetXTwo posB1 textA1plusA1).1 = true ∧
    (getValue examplePlatform
        (setCell examplePlatform exampleParser sheetXTwo posB1 textA1plusA1).2 posB1).value
      = .ok (.text [120, 120]) := by
  refine ⟨computes_node pf .add, fun _ _ => rfl, fun _ _ => rfl, ?_, by decide, by decide,
    by decide, by decide⟩
  intro left right hn ht
  cases left with
  | undefined => cases right <;> rfl
  | number a =>
    cases right with
    | undefined => rfl
    | number b => exact absurd ⟨a, b, rfl, rfl⟩ hn
    | text b => rfl
  | text a =>
    cases right with
    | undefined => rfl
    | number b => rfl
    | text b => exact absurd ⟨a, b, rfl, rfl⟩ ht

/-- The doubles that compare equal to zero are the two signed zeros. -/
theorem double_eq_zero_iff (r : Double) :
    Double.eq r Double.zero = true ↔ r.val = 0 ∨ r.val = Double.signBit := by
  have hr := r.isLt
  unfold Double.eq Double.isNaN Double.key Double.isNeg Double.mag Double.zero Double.signBit
    Double.expMask
  simp only [Bool.and_eq_true, Bool.not_eq_true', decide_eq_false_iff_not, decide_eq_true_eq,
    Nat.zero_mod, not_lt, Nat.zero_le, true_and, and_true]
  constructor
  · rintro ⟨_, h⟩
    split at h <;> split at h <;> omega
  · intro h
    rcases h with h | h <;> rw [h] <;> decide

/-- C17. The `Div` node returns `divValues` of its operand values: `undefined`
whenever the right operand is a number that compares equal to zero (one of the
two signed zeros), whatever the left operand is, and whenever an operand is
not a number; the platform's quotient `left / right` for a number on the left
and a number that does not compare equal to zero on the right. -/
theorem C17_div_by_zero_is_undefined (pf : Platform) :
    Computes pf .CDivision (divValues pf) ∧
    (∀ (left : CValue) (r : Double), Double.eq r Double.zero = true →
        divValues pf left (.number r) = .undefined) ∧
    divValues pf (.number Double.zero) (.number Double.zero) = .undefined ∧
    (∀ (left right : CValue), (¬ ∃ l, left = .number l) ∨ (¬ ∃ r, right = .number r) →
        divValues pf left right = .undefined) ∧
    (∀ (l r : Double), Double.eq r Double.zero = false →
        divValues pf (.number l) (.number r) = .number (pf.div l r)) ∧
    (∀ (r : Double), Double.eq r Double.zero = true ↔ r.val = 0 ∨ r.val = Double.signBit) := by
  have hz : Double.eq Double.zero Double.zero = true := by decide
  refine ⟨computes_node pf .div, ?_, by simp [divValues, hz], ?_, ?_, double_eq_zero_iff⟩
  · intro left r h
    cases left with
    | undefined => rfl
    | number l => simp [divValues, h]
    | text t => rfl
  · intro left right h
    cases left with
    | undefined => cases right <;> rfl
    | text t => cases right <;> rfl
    | number l =>
      cases right with
      | undefined => rfl
      | text t => rfl
      | number r =>
        rcases h with h | h
        · exact absurd ⟨l, rfl⟩ h
        · exact absurd ⟨r, rfl⟩ h
  · intro l r h
    simp [divValues, h]

/-- C18. The `Pow` node returns `powValues` of its operand values: `Number(1.0)`
for every numeric base, zero included, when the exponent is a number that
compares equal to zero, and `undefined` when an operand is a text or
`undefined`, also for the exponent zero. -/
theorem C18_pow_zero_exponent_is_one (pf : Platform) :
    Computes pf .CPower (powValues pf) ∧
    (∀ (l r : Double), Double.eq r Double.zero = true →
        powValues pf (.number l) (.number r) = .number Double.one) ∧
    powValues pf (.number Double.zero) (.number Double.zero) = .number Double.one ∧
    (∀ (left right : CValue), (¬ ∃ l, left = .number l) ∨ (¬ ∃ r, right = .number r) →
        powValues pf left right = .undefined) ∧
    (∀ (t : Bytes), powValues pf (.text t) (.number Double.zero) = .undefined) ∧
    powValues pf .undefined (.number Double.zero) = .undefined := by
  have hz : Double.eq Double.zero Double.zero = true := by decide
  refine ⟨computes_node pf .pow, ?_, by simp [powValues, hz], ?_, fun _ => rfl, rfl⟩
  · intro l r h
    simp [powValues, h]
  · intro left right h
    cases left with
    | undefined => cases right <;> rfl
    | text t => cases right <;> rfl
    | number l =>
      cases right with
      | undefined => rfl
      | text t => rfl
      | number r =>
        rcases h with h | h
        · exact absurd ⟨l, rfl⟩ h
        · exact absurd ⟨r, rfl⟩ h

theorem truth_yields (b : Bool) (P : Prop) (h : b = true ↔ P) : Yields (truth b) P := by
  constructor
  · intro hp
    rw [h.mpr hp]; rfl
  · intro hp
    cases b with
    | false => rfl
    | true => exact absurd (h.mp rfl) hp

theorem truth_eq_one (b : Bool) : truth b = .number Double.one ↔ b = true := by
  cases b
  · simp only [truth, Bool.false_eq_true, if_false, CValue.number.injEq, iff_false]
    decide
  · simp [truth]

theorem truth_eq_zero (b : Bool) : truth b = .number Double.zero ↔ b = false := by
  cases b
  · simp [truth]
  · simp only [truth, if_true, CValue.number.injEq, iff_false]
    decide

/-- C19. Each comparison node returns the result of its value function.  On
two numbers and on two texts this is `Number(1.0)` when the relation between
the left and the right operand holds and `Number(0.0)` when it does not:
the relations of `double` on numbers, and on texts equality and the
lexicographic order of the byte sequences.  For every two texts exactly one
of `Lt`, `Eq`, `Gt` yields `1.0`, `Ne` yields `1.0` exactly when `Eq` yields
`0.0`, `Le` yields `1.0` exactly when `Gt` yields `0.0`, and `Ge` yields `1.0`
exactly when `Lt` yields `0.0`. -/
theorem C19_comparisons_yield_one_or_zero (pf : Platform) (l r : Double) (a b : Bytes) :
    (Computes pf .CEqual eqValues ∧ Computes pf .CNotEqual neValues ∧
      Computes pf .CLessThan ltValues ∧ Computes pf .CLessEqual leValues ∧
      Computes pf .CGreaterThan gtValues ∧ Computes pf .CGreaterEqual geValues) ∧
    (Yields (eqValues (.number l) (.number r)) (Double.eq l r = true) ∧
      Yields (neValues (.number l) (.number r)) (Double.eq l r = false) ∧
      Yields (ltValues (.number l) (.number r)) (Double.lt l r = true) ∧
      Yields (leValues (.number l) (.number r)) (Double.le l r = true) ∧
      Yields (gtValues (.number l) (.number r)) (Double.lt r l = true) ∧
      Yields (geValues (.number l) (.number r)) (Double.le r l = true)) ∧
    (Yields (eqValues (.text a) (.text b)) (a = b) ∧
      Yields (neValues (.text a) (.text b)) (a ≠ b) ∧
      Yields (ltValues (.text a) (.text b)) (List.Lex (fun x y : Byte => x < y) a b) ∧
      Yields (leValues (.text a) (.text b)) (List.Lex (fun x y : Byte => x < y) a b ∨ a = b) ∧
      Yields (gtValues (.text a) (.text b)) (List.Lex (fun x y : Byte => x < y) b a) ∧
      Yields (geValues (.text a) (.text b)) (List.Lex (fun x y : Byte => x < y) b a ∨ a = b)) ∧
    ((ltValues (.text a) (.text b) = .number Double.one ∧
          eqValues (.text a) (.text b) ≠ .number Double.one ∧
          gtValues (.text a) (.text b) ≠ .number Double.one) ∨
      (ltValues (.text a) (.text b) ≠ .number Double.one ∧
          eqValues (.text a) (.text b) = .number Double.one ∧
          gtValues (.text a) (.text b) ≠ .number Double.one) ∨
      (ltValues (.text a) (.text b) ≠ .number Double.one ∧
          eqValues (.text a) (.text b) ≠ .number Double.one ∧
          gtValues (.text a) (.text b) = .number Double.one)) ∧
    (neValues (.text a) (.text b) = .number Double.one ↔
      eqValues (.text a) (.text b) = .number Double.zero) ∧
    (leValues (.text a) (.text b) = .number Double.one ↔
      gtValues (.text a) (.text b) = .number Double.zero) ∧
    (geValues (.text a) (.text b) = .number Double.one ↔
      ltValues (.text a) (.text b) = .number Double.zero) := by
  have hle : ∀ (x y : Bytes), (!strLt y x) = true ↔
      (List.Lex (fun x y : Byte => x < y) x y ∨ x = y) := by
    intro x y
    rw [← strLt_iff_lex]
    constructor
    · intro h
      have h1 : strLt y x = false := by simpa using h
      cases h2 : strLt x y with
      | true => exact Or.inl rfl
      | false => exact Or.inr (strLt_total x y h2 h1)
    · intro h
      rcases h with h | h
      · rw [strLt_asymm x y h]; rfl
      · rw [h, strLt_irrefl]; rfl
  refine ⟨⟨computes_node pf .eq, computes_node pf .ne, computes_node pf .lt,
    computes_node pf .le, computes_node pf .gt, computes_node pf .ge⟩, ⟨?_, ?_, ?_, ?_, ?_, ?_⟩,
    ⟨?_, ?_, ?_, ?_, ?_, ?_⟩, ?_, ?_, ?_, ?_⟩
  · exact truth_yields _ _ Iff.rfl
  · exact truth_yields _ _ (by simp)
  · exact truth_yields _ _ Iff.rfl
  · exact truth_yields _ _ Iff.rfl
  · exact truth_yields _ _ Iff.rfl
  · exact truth_yields _ _ Iff.rfl
  · exact truth_yields _ _ (by simp)
  · exact truth_yields _ _ (by simp)
  · exact truth_yields _ _ (strLt_iff_lex a b)
  · exact truth_yields _ _ (hle a b)
  · exact truth_yields _ _ (strLt_iff_lex b a)
  · refine truth_yields _ _ ((hle b a).trans ?_)
    constructor
    · rintro (h | h)
      · exact Or.inl h
      · exact Or.inr h.symm
    · rintro (h | h)
      · exact Or.inl h
      · exact Or.inr h.symm
  · simp only [ltValues, eqValues, gtValues, truth_eq_one, ne_eq, decide_eq_true_eq]
    by_cases hab : a = b
    · subst hab
      simp [strLt_irrefl]
    · cases h1 : strLt a b with
      | true => simp [strLt_asymm a b h1, hab]
      | false =>
        cases h2 : strLt b a with
        | true => simp [hab]
        | false => exact absurd (strLt_total a b h1 h2) hab
  · simp only [neValues, eqValues, truth_eq_one, truth_eq_zero]
    simp
  · simp only [leValues, gtValues, truth_eq_one, truth_eq_zero]
    simp
  · simp only [geValues, ltValues, truth_eq_one, truth_eq_zero]
    simp

/-! ## C20: `Range` and `Func` nodes -/

theorem getValueFuel_undefined_of_stuck (pf : Platform) (fuel : Nat) (sheet : Sheet) (pos : CPos)
    (cell : CCell) (pre : List COperation) (e : Expr)
    (hf : sheet.find pos = some cell) (hp : cell.m_Stack = pre ++ e.program)
    (he : e.plain = false)
    (v : CValue) (s : Sheet) (h : getValueFuel pf (fuel + 1) sheet pos = .ok (v, s)) :
    v = .undefined := by
  have hnil : cell.m_Stack ≠ [] := by
    rw [hp]; simp [program_ne_nil e]
  have hemp : cell.m_Stack.isEmpty = false := by
    cases hc : cell.m_Stack with
    | nil => exact absurd hc hnil
    | cons a b => rfl
  unfold getValueFuel CCell.calculateCell at h
  simp only [hf, hemp] at h
  rw [calculateWith_eq_operand _ _ _ _ hnil] at h
  by_cases hg : cell.m_IsCalculated = true
  · simp only [hg, if_true, Bool.false_eq_true, if_false] at h
    cases h; rfl
  · simp only [hg, if_false, Bool.false_eq_true] at h
    have hst : cell.m_Stack = pre ++ e.program ++ [] := by
      simp only [List.append_nil]; exact hp
    rw [hst] at h
    cases h1 : operandWith (evaluate pf (fuel + 1)) (pre ++ e.program ++ [])
        (sheet.setFlag pos true) 0 with
    | ok a =>
      obtain ⟨v1, s1, d1⟩ := a
      rw [h1] at h
      simp only [Res.ok.injEq, Prod.mk.injEq] at h
      rw [← h.1]
      have h2 := operand_stuck pf e he fuel pre [] (sheet.setFlag pos true)
        (by simp only [List.length_nil]; rw [h1]; simp)
      simp only [List.length_nil] at h2
      rw [h1] at h2
      rcases h2 with h2 | ⟨d, h2, _⟩
      · cases h2
      · simp only [Res.ok.injEq, Prod.mk.injEq] at h2
        exact h2.1
    | outOfRange => rw [h1] at h; cases h
    | outOfFuel => rw [h1] at h; cases h

/-- C20. A `Range` node and a `Func` node evaluate to `undefined` and leave the
cursor where it is.  For every sheet and every cell whose program ends with
the postfix form of an expression tree that has a `Range` or `Func` node
somewhere (as root or below any operators; the nodes of a call's arguments
precede the `Func` node): `getValue` of the cell cannot return a value other
than `undefined`, and it does return `undefined` whenever the programs of the
sheet are well-formed (else an index of a referenced cell may leave its
program before a `Range` or `Func` node is reached). -/
theorem C20_range_and_func_are_undefined (pf : Platform) (sheet : Sheet) (pos : CPos)
    (cell : CCell) (pre : List COperation) (e : Expr)
    (hf : sheet.find pos = some cell) (hp : cell.m_Stack = pre ++ e.program)
    (he : e.plain = false) :
    (∀ (fuel : Nat) (stack : List COperation) (s : Sheet) (depth : Nat),
        evaluate pf (fuel + 1) .CValRange stack s depth = .ok (.undefined, s, depth) ∧
        evaluate pf (fuel + 1) .CFuncCall stack s depth = .ok (.undefined, s, depth)) ∧
    (getValue pf sheet pos = .ok (.undefined, sheet) ∨ getValue pf sheet pos = .outOfRange) ∧
    (WellFormed sheet → getValue pf sheet pos = .ok (.undefined, sheet)) := by
  have hval : ∀ v s, getValue pf sheet pos = .ok (v, s) → v = .undefined := by
    intro v s h
    have hfb : fuelBound sheet = (sheet.map (fun e => e.2.m_Stack.length + 1)).sum + 1 := rfl
    unfold getValue at h
    rw [hfb] at h
    exact getValueFuel_undefined_of_stuck pf _ sheet pos cell pre e hf hp he v s h
  refine ⟨fun _ _ _ _ => ⟨rfl, rfl⟩, ?_, ?_⟩
  · cases h : getValue pf sheet pos with
    | ok a =>
      obtain ⟨v, s⟩ := a
      have h1 := getValue_sheet pf sheet pos v s h
      have h2 := hval v s h
      left; rw [h1, h2]
    | outOfRange => right; rfl
    | outOfFuel => exact absurd h (getValue_ne_outOfFuel pf sheet pos)
  · intro hwf
    obtain ⟨v, h⟩ := getValue_ok pf sheet hwf pos
    rw [h, hval v sheet h]

/-- C20 at the cell `A1 = 1 + f(2)` of `sheetCall`; the cell `B1 = A1` reads
`undefined` as well. -/
theorem C20_range_and_func_are_undefined_witness :
    sheetCall.find posA1 = some { m_Stack := exprCall.program } ∧
      exprCall.plain = false ∧
      ((∀ (fuel : Nat) (stack : List COperation) (s : Sheet) (depth : Nat),
          evaluate examplePlatform (fuel + 1) .CValRange stack s depth
            = .ok (.undefined, s, depth) ∧
          evaluate examplePlatform (fuel + 1) .CFuncCall stack s depth
            = .ok (.undefined, s, depth)) ∧
        (getValue examplePlatform sheetCall posA1 = .ok (.undefined, sheetCall) ∨
          getValue examplePlatform sheetCall posA1 = .outOfRange) ∧
        (WellFormed sheetCall →
          getValue examplePlatform sheetCall posA1 = .ok (.undefined, sheetCall))) ∧
      getValue examplePlatform sheetCall posA1 = .ok (.undefined, sheetCall) ∧
      getValue examplePlatform sheetCall posB1 = .ok (.undefined, sheetCall) :=
  ⟨by decide, by decide,
    C20_range_and_func_are_undefined examplePlatform sheetCall posA1
      { m_Stack := exprCall.program } [] exprCall (by decide) rfl (by decide),
    by decide, by decide⟩

/-! ## C21: a cell that is a single reference -/

theorem dropSheet_outOfRange {r : EvalOut} (h : dropSheet r = .outOfRange) : r = .outOfRange := by
  cases r with
  | ok a => simp [dropSheet] at h
  | outOfRange => rfl
  | outOfFuel => simp [dropSheet] at h

theorem Sheet.setFlag_comm (s : Sheet) (a b : CPos) (x y : Bool) (h : a.same b = false) :
    Sheet.setFlag (Sheet.setFlag s a x) b y = Sheet.setFlag (Sheet.setFlag s b y) a x := by
  induction s with
  | nil => rfl
  | cons e rest ih =>
    obtain ⟨k, v⟩ := e
    by_cases hka : k.same a = true
    · have hkb : k.same b = false := by
        cases hkb : k.same b with
        | false => rfl
        | true =>
          rw [CPos.same_symm] at hka
          rw [CPos.same_trans hka hkb] at h
          cases h
      simp [Sheet.setFlag, hka, hkb]
    · by_cases hkb : k.same b = true
      · simp [Sheet.setFlag, hka, hkb]
      · simp [Sheet.setFlag, hka, hkb, ih]

theorem guarded_setFlag {P Q : CPos} {s : Sheet} (h : Guarded P Q s) (X : CPos) :
    Guarded P Q (Sheet.setFlag s X true) := by
  obtain ⟨⟨cq, hq, hqf⟩, ⟨cp, q, hp, hst, hsame⟩, hPQ⟩ := h
  refine ⟨?_, ?_, hPQ⟩
  · rw [Sheet.find_setFlag, hq]
    split
    · exact ⟨_, rfl, rfl⟩
    · exact ⟨cq, rfl, hqf⟩
  · rw [Sheet.find_setFlag, hp]
    split
    · exact ⟨_, q, rfl, hst, hsame⟩
    · exact ⟨cp, q, rfl, hst, hsame⟩

theorem operandWith_twin {P Q : CPos} {ev : Evaluator} (h : Twin P Q ev)
    (stack : List COperation) (s : Sheet) (depth : Nat) (hg : Guarded P Q s)
    (hne : operandWith ev stack s depth ≠ .outOfFuel) :
    dropSheet (operandWith ev stack (s.setFlag P true) depth)
      = dropSheet (operandWith ev stack s depth) := by
  unfold operandWith at hne ⊢
  by_cases hd : depth < stack.length
  · simp only [hd, if_true] at hne ⊢
    cases hget : stack.get? (stack.length - 1 - depth) with
    | none => rfl
    | some op =>
      simp only [hget] at hne ⊢
      exact h op stack s depth hg hne
  · simp only [hd, if_false]

theorem binaryWith_twin {P Q : CPos} {ev : Evaluator} (h : Twin P Q ev) (hr : Restores ev)
    (f : CValue → CValue → CValue) (stack : List COperation) (s : Sheet) (depth : Nat)
    (hg : Guarded P Q s) (hne : binaryWith ev f stack s depth ≠ .outOfFuel) :
    dropSheet (binaryWith ev f stack (s.setFlag P true) depth)
      = dropSheet (binaryWith ev f stack s depth) := by
  unfold binaryWith at hne ⊢
  cases e1 : operandWith ev stack s depth with
  | ok a =>
    obtain ⟨rv, t1, d1⟩ := a
    have h1 := operandWith_twin h stack s depth hg (by rw [e1]; simp)
    rw [e1] at h1 hne
    obtain ⟨t2, e2⟩ := dropSheet_ok h1
    rw [e2]
    dsimp only at hne ⊢
    have ht1 := (operandWith_restores hr e1).1
    have ht2 := (operandWith_restores hr e2).1
    subst ht1 ht2
    cases e3 : operandWith ev stack t1 d1 with
    | ok b =>
      obtain ⟨lv, u1, d2⟩ := b
      have h2 := operandWith_twin h stack t1 d1 hg (by rw [e3]; simp)
      rw [e3] at h2
      obtain ⟨u2, e4⟩ := dropSheet_ok h2
      rw [e4]
      rfl
    | outOfRange =>
      have h2 := operandWith_twin h stack t1 d1 hg (by rw [e3]; simp)
      rw [e3] at h2
      rw [dropSheet_outOfRange h2]
    | outOfFuel =>
      rw [e3] at hne
      exact absurd rfl hne
  | outOfRange =>
    have h1 := operandWith_twin h stack s depth hg (by rw [e1]; simp)
    rw [e1] at h1
    rw [dropSheet_outOfRange h1]
  | outOfFuel =>
    rw [e1] at hne
    exact absurd rfl hne

theorem unaryWith_twin {P Q : CPos} {ev : Evaluator} (h : Twin P Q ev)
    (stack : List COperation) (s : Sheet) (depth : Nat)
    (hg : Guarded P Q s) (hne : unaryWith ev stack s depth ≠ .outOfFuel) :
    dropSheet (unaryWith ev stack (s.setFlag P true) depth)
      = dropSheet (unaryWith ev stack s depth) := by
  unfold unaryWith at hne ⊢
  cases e1 : operandWith ev stack s depth with
  | ok a =>
    obtain ⟨rv, t1, d1⟩ := a
    have h1 := operandWith_twin h stack s depth hg (by rw [e1]; simp)
    rw [e1] at h1
    obtain ⟨t2, e2⟩ := dropSheet_ok h1
    rw [e2]
    rfl
  | outOfRange =>
    have h1 := operandWith_twin h stack s depth hg (by rw [e1]; simp)
    rw [e1] at h1
    rw [dropSheet_outOfRange h1]
  | outOfFuel =>
    rw [e1] at hne
    exact absurd rfl hne

theorem reference_twin (pf : Platform) (P Q : CPos) (n : Nat) (ih : Twin P Q (evaluate pf n))
    (m_Pos : CPos) (s : Sheet) (depth : Nat) (hg : Guarded P Q s)
    (hne : referenceWith (evaluate pf n) m_Pos s depth ≠ .outOfFuel) :
    dropSheet (referenceWith (evaluate pf n) m_Pos (s.setFlag P true) depth)
      = dropSheet (referenceWith (evaluate pf n) m_Pos s depth) := by
  obtain ⟨⟨cq, hq, hqf⟩, ⟨cp, q, hp, hst, hsame⟩, hPQ⟩ := hg
  have hg : Guarded P Q s := ⟨⟨cq, hq, hqf⟩, ⟨cp, q, hp, hst, hsame⟩, hPQ⟩
  unfold referenceWith at hne ⊢
  rw [Sheet.find_setFlag]
  by_cases hPm : P.same m_Pos = true
  · have hfm : s.find m_Pos = some cp := by rw [← Sheet.find_congr s hPm]; exact hp
    have hemp : cp.m_Stack.isEmpty = false := by rw [hst]; rfl
    simp only [hPm, if_true, hfm, Option.map_some', hemp, Bool.false_eq_true, if_false] at hne ⊢
    have hl : calculateWith (evaluate pf n) (s.setFlag P true) m_Pos
        { cp with m_IsCalculated := true } = .ok (.undefined, s.setFlag P true) := by
      unfold calculateWith
      simp
    rw [hl]
    dsimp only
    by_cases hcf : cp.m_IsCalculated = true
    · have hr : calculateWith (evaluate pf n) s m_Pos cp = .ok (.undefined, s) := by
        unfold calculateWith
        simp [hcf]
      rw [hr]
      rfl
    · have hmq : m_Pos.same q = false := by
        cases hmq : m_Pos.same q with
        | false => rfl
        | true =>
          rw [CPos.same_trans (CPos.same_trans hPm hmq) hsame] at hPQ
          cases hPQ
      have hfq : (s.setFlag m_Pos true).find q = some cq := by
        rw [Sheet.find_setFlag, hmq, Sheet.find_congr s hsame]
        simpa using hq
      cases n with
      | zero =>
        exfalso
        apply hne
        unfold calculateWith
        simp [hcf, hst, evaluate]
      | succ k =>
        have hev : evaluate pf (k + 1) (.CReference q) [.CReference q] (s.setFlag m_Pos true) 0
            = .ok (.undefined, s.setFlag m_Pos true, 1) := by
          simp only [evaluate]
          unfold referenceWith
          rw [hfq]
          dsimp only
          split
          · rfl
          · unfold calculateWith
            simp [hqf]
        have hr : calculateWith (evaluate pf (k + 1)) s m_Pos cp
            = .ok (.undefined, (s.setFlag m_Pos true).setFlag m_Pos false) := by
          unfold calculateWith
          simp only [hcf, Bool.false_eq_true, if_false, hst, List.getLast?_singleton, hev]
        rw [hr]
        rfl
  · have hPm2 : P.same m_Pos = false := by simpa using hPm
    simp only [hPm2, Bool.false_eq_true, if_false] at hne ⊢
    cases hf : s.find m_Pos with
    | none => rfl
    | some cell =>
      simp only [hf] at hne ⊢
      by_cases hemp : cell.m_Stack.isEmpty = true
      · simp only [hemp, if_true]
        rfl
      · simp only [hemp, if_false, Bool.false_eq_true] at hne ⊢
        unfold calculateWith at hne ⊢
        by_cases hcf : cell.m_IsCalculated = true
        · simp only [hcf, if_true]
          rfl
        · simp only [hcf, if_false, Bool.false_eq_true] at hne ⊢
          cases hl : cell.m_Stack.getLast? with
          | none => rfl
          | some root =>
            simp only [hl] at hne ⊢
            rw [Sheet.setFlag_comm s P m_Pos true true hPm2]
            cases e1 : evaluate pf n root cell.m_Stack (s.setFlag m_Pos true) 0 with
            | ok a =>
              obtain ⟨v, t1, d1⟩ := a
              have h1 := ih root cell.m_Stack (s.setFlag m_Pos true) 0
                (guarded_setFlag hg m_Pos) (by rw [e1]; simp)
              rw [e1] at h1
              obtain ⟨t2, e2⟩ := dropSheet_ok h1
              rw [e2]
              rfl
            | outOfRange =>
              have h1 := ih root cell.m_Stack (s.setFlag m_Pos true) 0
                (guarded_setFlag hg m_Pos) (by rw [e1]; simp)
              rw [e1] at h1
              rw [dropSheet_outOfRange h1]
            | outOfFuel =>
              rw [e1] at hne
              exact absurd rfl hne

theorem evaluate_twin (pf : Platform) (P Q : CPos) : ∀ fuel, Twin P Q (evaluate pf fuel) := by
  intro fuel
  induction fuel with
  | zero =>
    intro op stack s depth _ hne
    exact absurd rfl hne
  | succ n ih =>
    intro op stack s depth hg hne
    cases op
    case CNegation =>
      simp only [evaluate] at hne ⊢
      exact unaryWith_twin ih _ _ _ hg hne
    case CReference p =>
      simp only [evaluate] at hne ⊢
      exact reference_twin pf P Q n ih p s (depth + 1) hg hne
    case CNumber x => rfl
    case CString x => rfl
    case CValRange => rfl
    case CFuncCall => rfl
    all_goals
      simp only [evaluate] at hne ⊢
      exact binaryWith_twin ih (evaluate_restores pf n) _ _ _ _ hg hne

/-- Setting the flag of a cell that only refers to `Q` does not change the
value read at `Q`. -/
theorem getValueFuel_twin (pf : Platform) (fuel : Nat) (sheet : Sheet) (P Q : CPos) (cell : CCell)
    (hP : sheet.find P = some cell) (hst : cell.m_Stack = [.CReference Q])
    (hPQ : P.same Q = false) (hne : getValueFuel pf fuel sheet Q ≠ .outOfFuel) :
    (getValueFuel pf fuel (sheet.setFlag P true) Q).value
      = (getValueFuel pf fuel sheet Q).value := by
  unfold getValueFuel CCell.calculateCell at hne ⊢
  rw [Sheet.find_setFlag]
  simp only [hPQ, Bool.false_eq_true, if_false]
  cases hf : sheet.find Q with
  | none => rfl
  | some cq =>
    simp only [hf] at hne ⊢
    by_cases hemp : cq.m_Stack.isEmpty = true
    · simp only [hemp, if_true]
      rfl
    · simp only [hemp, if_false, Bool.false_eq_true] at hne ⊢
      unfold calculateWith at hne ⊢
      by_cases hcf : cq.m_IsCalculated = true
      · simp only [hcf, if_true]
        rfl
      · simp only [hcf, if_false, Bool.false_eq_true] at hne ⊢
        cases hl : cq.m_Stack.getLast? with
        | none => rfl
        | some root =>
          simp only [hl] at hne ⊢
          rw [Sheet.setFlag_comm sheet P Q true true hPQ]
          have hQP : Q.same P = false := by rw [CPos.same_symm]; exact hPQ
          have hg : Guarded P Q (sheet.setFlag Q true) := by
            refine ⟨?_, ?_, hPQ⟩
            · rw [Sheet.find_setFlag, if_pos (CPos.same_refl Q), hf]
              exact ⟨_, rfl, rfl⟩
            · rw [Sheet.find_setFlag, hQP, hP]
              exact ⟨cell, Q, by simp, hst, CPos.same_refl Q⟩
          cases e1 : evaluate pf fuel root cq.m_Stack (sheet.setFlag Q true) 0 with
          | ok a =>
            obtain ⟨v, t1, d1⟩ := a
            have h1 := evaluate_twin pf P Q fuel root cq.m_Stack (sheet.setFlag Q true) 0 hg
              (by rw [e1]; simp)
            rw [e1] at h1
            obtain ⟨t2, e2⟩ := dropSheet_ok h1
            rw [e2]
            rfl
          | outOfRange =>
            have h1 := evaluate_twin pf P Q fuel root cq.m_Stack (sheet.setFlag Q true) 0 hg
              (by rw [e1]; simp)
            rw [e1] at h1
            rw [dropSheet_outOfRange h1]
          | outOfFuel =>
            rw [e1] at hne
            exact absurd rfl hne

/-- A cell with a clear flag whose program is the single node `Ref(Q)` reads as
the cell at `Q` does. -/
theorem getValue_single_ref (pf : Platform) (sheet : Sheet) (P Q : CPos) (cell : CCell)
    (hP : sheet.find P = some cell) (hst : cell.m_Stack = [.CReference Q])
    (hflag : cell.m_IsCalculated = false) :
    (getValue pf sheet P).value = (getValue pf sheet Q).value := by
  by_cases hPQ : P.same Q = true
  · unfold getValue
    rw [getValueFuel_congr pf _ sheet hPQ]
  · have hPQ2 : P.same Q = false := by simpa using hPQ
    have hfb : fuelBound sheet = (sheet.map (fun e => e.2.m_Stack.length + 1)).sum + 1 := rfl
    have hneP := getValue_ne_outOfFuel pf sheet P
    have hPv : (getValue pf sheet P).value
        = (getValueFuel pf ((sheet.map (fun e => e.2.m_Stack.length + 1)).sum)
            (sheet.setFlag P true) Q).value := by
      have h0 : getValue pf sheet P
          = calculateWith (evaluate pf ((sheet.map (fun e => e.2.m_Stack.length + 1)).sum + 1))
              sheet P cell := by
        unfold getValue getValueFuel CCell.calculateCell
        rw [hfb]
        simp only [hP, hst, List.isEmpty_cons, Bool.false_eq_true, if_false]
      rw [h0]
      unfold calculateWith
      simp only [hflag, Bool.false_eq_true, if_false, hst, List.getLast?_singleton, evaluate]
      rw [referenceWith_eq]
      generalize getValueFuel pf ((sheet.map (fun e => e.2.m_Stack.length + 1)).sum)
        (sheet.setFlag P true) Q = r
      cases r with
      | ok a => obtain ⟨v, s1⟩ := a; rfl
      | outOfRange => rfl
      | outOfFuel => rfl
    have hne1 : getValueFuel pf ((sheet.map (fun e => e.2.m_Stack.length + 1)).sum)
        (sheet.setFlag P true) Q ≠ .outOfFuel := by
      intro h
      rw [h] at hPv
      cases hg : getValue pf sheet P with
      | ok a => rw [hg] at hPv; simp [Res.value] at hPv
      | outOfRange => rw [hg] at hPv; simp [Res.value] at hPv
      | outOfFuel => exact hneP hg
    have hext := getValueFuel_extends pf
      (Nat.le_succ ((sheet.map (fun e => e.2.m_Stack.length + 1)).sum)) (sheet.setFlag P true) Q
      hne1
    have hneQ := getValue_ne_outOfFuel pf sheet Q
    unfold getValue at hneQ
    rw [hfb] at hneQ
    have htw := getValueFuel_twin pf _ sheet P Q cell hP hst hPQ2 hneQ
    rw [hPv, ← hext, htw]
    unfold getValue
    rw [hfb]

/-- C21. For every sheet with all flags clear and well-formed programs, a cell
at `P` whose program is the single node `Ref(Q)`, whatever the absolute flags
of `Q` are, reads as the cell at `Q`: `getValue(P)` and `getValue(Q)` return
the same.  Both return `undefined` when there is no cell at `Q`, when `Q` is
`P` itself, and when a chain of references leads from `Q` to `P`. -/
theorem C21_reference_evaluates_target (pf : Platform) (sheet : Sheet) (P Q : CPos)
    (cell : CCell) (hclear : AllClear sheet) (hwf : WellFormed sheet)
    (hP : sheet.find P = some cell) (hst : cell.m_Stack = [.CReference Q]) :
    getValue pf sheet P = getValue pf sheet Q ∧
      (sheet.find Q = none ∨ P.same Q = true ∨ Relation.ReflTransGen (RefEdge sheet) Q P →
        getValue pf sheet P = .ok (.undefined, sheet) ∧
          getValue pf sheet Q = .ok (.undefined, sheet)) := by
  have hflag : cell.m_IsCalculated = false := by
    obtain ⟨k, hk⟩ := Sheet.find_mem sheet P cell hP
    exact hclear (k, cell) hk
  have hval := getValue_single_ref pf sheet P Q cell hP hst hflag
  obtain ⟨v1, h1⟩ := getValue_ok pf sheet hwf P
  obtain ⟨v2, h2⟩ := getValue_ok pf sheet hwf Q
  have heq : getValue pf sheet P = getValue pf sheet Q := by
    rw [h1, h2] at hval ⊢
    simp only [Res.value, Res.ok.injEq] at hval
    rw [hval]
  refine ⟨heq, ?_⟩
  have hedge : RefEdge sheet P Q :=
    ⟨cell, [], .ref Q, Q, hP, by rw [hst]; rfl, by simp [Expr.refs], CPos.same_refl Q⟩
  intro h
  rcases h with h | h | h
  · have hq : getValue pf sheet Q = .ok (.undefined, sheet) :=
      getValueFuel_missing pf _ sheet Q (Or.inl h)
    exact ⟨heq.trans hq, hq⟩
  · have hPP : RefEdge sheet P P :=
      ⟨cell, [], .ref Q, Q, hP, by rw [hst]; rfl, by simp [Expr.refs],
        by rw [CPos.same_symm]; exact h⟩
    have hp : getValue pf sheet P = .ok (.undefined, sheet) :=
      getValue_doomed pf sheet hwf P ⟨P, Relation.ReflTransGen.refl, Relation.TransGen.single hPP⟩
    exact ⟨hp, heq.symm.trans hp⟩
  · have hcyc : Relation.TransGen (RefEdge sheet) P P :=
      Relation.TransGen.head' hedge h
    have hp : getValue pf sheet P = .ok (.undefined, sheet) :=
      getValue_doomed pf sheet hwf P ⟨P, Relation.ReflTransGen.refl, hcyc⟩
    exact ⟨hp, heq.symm.trans hp⟩

theorem sheetChain_wellFormed : WellFormed sheetChain := by
  intro entry hmem
  simp only [sheetChain, List.mem_cons, List.mem_singleton, List.not_mem_nil, or_false] at hmem
  rcases hmem with rfl | rfl | rfl
  · exact Or.inr ⟨[], .num (Double.ofNat 2), rfl⟩
  · exact Or.inr ⟨[], .ref posA1, rfl⟩
  · exact Or.inr ⟨[], .ref posB1, rfl⟩

/-- C21 on `sheetChain` at `C1 = B1`, with `B1 = A1` and `A1 = 2`: both read `2`. -/
theorem C21_reference_evaluates_target_witness :
    AllClear sheetChain ∧ WellFormed sheetChain ∧
      sheetChain.find posC1 = some { m_Stack := [.CReference posB1] } ∧
      (getValue examplePlatform sheetChain posC1 = getValue examplePlatform sheetChain posB1 ∧
        (sheetChain.find posB1 = none ∨ posC1.same posB1 = true ∨
            Relation.ReflTransGen (RefEdge sheetChain) posB1 posC1 →
          getValue examplePlatform sheetChain posC1 = .ok (.undefined, sheetChain) ∧
            getValue examplePlatform sheetChain posB1 = .ok (.undefined, sheetChain))) ∧
      getValue examplePlatform sheetChain posB1
        = .ok (.number (Double.ofNat 2), sheetChain) :=
  ⟨by decide, sheetChain_wellFormed, by decide,
    C21_reference_evaluates_target examplePlatform sheetChain posC1 posB1
      { m_Stack := [.CReference posB1] } (by decide) sheetChain_wellFormed (by decide) rfl,
    by decide⟩

/-! ## C22, C23, C24: `copyRect` -/

/-- C22. `copyRect` clears the destination slots that have no source: for
every offset `0 ≤ dx < w`, `0 ≤ dy < h` such that the sheet before the call
has no cell at `(src.row + dy, src.col + dx)`, the sheet after the call has at
`(dst.row + dy, dst.col + dx)` a cell with an empty program and a clear flag,
whatever the sheet held there before, and `getValue` there returns
`undefined`. -/
theorem C22_copy_clears_slots_without_source (pf : Platform) (m : Sheet) (dst src : CPos)
    (w h dx dy : Int) (hx : 0 ≤ dx ∧ dx < w) (hy : 0 ≤ dy ∧ dy < h)
    (hsrc : m.find { m_Row := src.m_Row + dy, m_Column := src.m_Column + dx } = none) :
    (copyRect m dst src w h).find { m_Row := dst.m_Row + dy, m_Column := dst.m_Column + dx }
        = some { m_Stack := [], m_IsCalculated := false } ∧
      getValue pf (copyRect m dst src w h)
          { m_Row := dst.m_Row + dy, m_Column := dst.m_Column + dx }
        = .ok (.undefined, copyRect m dst src w h) := by
  have hin : inRect dst w h { m_Row := dst.m_Row + dy, m_Column := dst.m_Column + dx } := by
    unfold inRect
    simp only
    omega
  have hfind : (copyRect m dst src w h).find
      { m_Row := dst.m_Row + dy, m_Column := dst.m_Column + dx }
      = some { m_Stack := [], m_IsCalculated := false } := by
    rw [(copyRect_find m dst src w h _).1 hin]
    unfold stagedAt
    have hkey : ({ m_Row := src.m_Row + (dst.m_Row + dy - dst.m_Row),
                   m_Column := src.m_Column + (dst.m_Column + dx - dst.m_Column) } : CPos)
        = { m_Row := src.m_Row + dy, m_Column := src.m_Column + dx } := by
      have h1 : dst.m_Row + dy - dst.m_Row = dy := by omega
      have h2 : dst.m_Column + dx - dst.m_Column = dx := by omega
      rw [h1, h2]
    simp only [hkey, hsrc]
  refine ⟨hfind, ?_⟩
  exact getValueFuel_missing pf _ _ _ (Or.inr ⟨_, hfind, rfl⟩)

/-- C22 at `copyRect(H13, H14, 1, 2)` on `sheetOverlap`: there is no cell at
`H15`, the source of the offset `dy = 1`, so the destination `H14`, which held
`7`, is cleared. -/
theorem C22_copy_clears_slots_without_source_witness :
    ((0 : Int) ≤ 0 ∧ (0 : Int) < 1) ∧ ((0 : Int) ≤ 1 ∧ (1 : Int) < 2) ∧
      sheetOverlap.find { m_Row := posH14.m_Row + 1, m_Column := posH14.m_Column + 0 } = none ∧
      sheetOverlap.find posH14 = some { m_Stack := [.CNumber (Double.ofNat 7)] } ∧
      ((copyRect sheetOverlap posH13 posH14 1 2).find
            { m_Row := posH13.m_Row + 1, m_Column := posH13.m_Column + 0 }
          = some { m_Stack := [], m_IsCalculated := false } ∧
        getValue examplePlatform (copyRect sheetOverlap posH13 posH14 1 2)
            { m_Row := posH13.m_Row + 1, m_Column := posH13.m_Column + 0 }
          = .ok (.undefined, copyRect sheetOverlap posH13 posH14 1 2)) :=
  ⟨by decide, by decide, by decide, by decide,
    C22_copy_clears_slots_without_source examplePlatform sheetOverlap posH13 posH14 1 2 0 1
      (by decide) (by decide) (by decide)⟩

/-- C23. Frame of `copyRect`: for every sheet, `dst`, `src`, `w`, `h` and every
position outside the destination rectangle (rows `dst.row .. dst.row + h - 1`,
columns `dst.col .. dst.col + w - 1`), `find` returns after the call the cell,
or the absence of a cell, it returned before; this covers the source cells
outside the destination rectangle. -/
theorem C23_copy_frame (m : Sheet) (dst src : CPos) (w h : Int) (q : CPos)
    (hout : ¬ (dst.m_Row ≤ q.m_Row ∧ q.m_Row < dst.m_Row + h ∧
      dst.m_Column ≤ q.m_Column ∧ q.m_Column < dst.m_Column + w)) :
    (copyRect m dst src w h).find q = m.find q :=
  (copyRect_find m dst src w h q).2 hout

/-- C23 at `copyRect(H12, H13, 1, 2)` on `sheetOverlap`: the source cell `H14`
lies outside the destination rectangle `H12..H13` and keeps its cell. -/
theorem C23_copy_frame_witness :
    (¬ (posH12.m_Row ≤ posH14.m_Row ∧ posH14.m_Row < posH12.m_Row + 2 ∧
        posH12.m_Column ≤ posH14.m_Column ∧ posH14.m_Column < posH12.m_Column + 1)) ∧
      (copyRect sheetOverlap posH12 posH13 1 2).find posH14 = sheetOverlap.find posH14 ∧
      sheetOverlap.find posH14 = some { m_Stack := [.CNumber (Double.ofNat 7)] } :=
  ⟨by decide, C23_copy_frame sheetOverlap posH12 posH13 1 2 posH14 (by decide), by decide⟩

/-- Cells at other positions are the same before and after `setCell`. -/
theorem setCell_find_other (pf : Platform) (parser : ExprParser) (sheet : Sheet) (pos : CPos)
    (contents : Bytes) (q : CPos) (hq : pos.same q = false) :
    (setCell pf parser sheet pos contents).2.find q = sheet.find q := by
  by_cases hc : contents.head? = some 61
  · cases hp : parseProgram parser contents with
    | none => rw [setCell_rejected pf parser sheet pos contents hc hp]
    | some stack =>
      rw [setCell_formula pf parser sheet pos contents stack hc hp]
      dsimp only
      rw [Sheet.find_assign, hq]
      rfl
  · rw [setCell_literal pf parser sheet pos contents hc]
    dsimp only
    rw [Sheet.find_assign, hq]
    rfl

/-- C24, amended. After `copyRect(dst, src, w, h)`, a later `setCell` at a
position `S` outside the destination rectangle (a source cell, for one)
leaves every destination cell `D` with the shifted clone of the program its
source held when the copy was made, and it does not change the value that
`getValue(D)` returns provided that no chain of references leads from `D` to
`S` in the sheet after the copy. -/
theorem C24_copy_independent_of_source (pf : Platform) (parser : ExprParser) (m : Sheet)
    (dst src : CPos) (w h : Int) (S D : CPos) (contents : Bytes)
    (hD : inRect dst w h D) (hS : ¬ inRect dst w h S)
    (hreach : ∀ q, Reach (copyRect m dst src w h) D q → q.same S = false) :
    (setCell pf parser (copyRect m dst src w h) S contents).2.find D
        = some (stagedAt m dst src D) ∧
      (getValue pf (setCell pf parser (copyRect m dst src w h) S contents).2 D).value
        = (getValue pf (copyRect m dst src w h) D).value := by
  have hSD : S.same D = false := by
    cases hsd : S.same D with
    | false => rfl
    | true =>
      exfalso
      apply hS
      simp only [CPos.same, Bool.and_eq_true, decide_eq_true_eq] at hsd
      unfold inRect at hD ⊢
      rw [hsd.1, hsd.2]
      exact hD
  constructor
  · rw [setCell_find_other pf parser _ S contents D hSD]
    exact (copyRect_find m dst src w h D).1 hD
  · symm
    apply getValue_value_congr
    intro q hq
    have h1 := hreach q hq
    rw [CPos.same_symm] at h1
    rw [setCell_find_other pf parser _ S contents q h1]

/-- C24 on `sheetChain` with `copyRect(B2, B1, 1, 1)`: the clone `B2 = A2` does not
lead to the source `B1`, which is then set to `12`. -/
theorem C24_copy_independent_of_source_witness :
    inRect posB2 1 1 posB2 ∧ ¬ inRect posB2 1 1 posB1 ∧
      (∀ q, Reach (copyRect sheetChain posB2 posB1 1 1) posB2 q → q.same posB1 = false) ∧
      ((setCell examplePlatform rejectingParser (copyRect sheetChain posB2 posB1 1 1)
            posB1 text12).2.find posB2 = some (stagedAt sheetChain posB2 posB1 posB2) ∧
        (getValue examplePlatform (setCell examplePlatform rejectingParser
            (copyRect sheetChain posB2 posB1 1 1) posB1 text12).2 posB2).value
          = (getValue examplePlatform (copyRect sheetChain posB2 posB1 1 1) posB2).value) := by
  have hin : inRect posB2 1 1 posB2 := by unfold inRect; decide
  have hout : ¬ inRect posB2 1 1 posB1 := by unfold inRect; decide
  have hcopy : copyRect sheetChain posB2 posB1 1 1
      = [(posA1, { m_Stack := [.CNumber (Double.ofNat 2)] }),
         (posB1, { m_Stack := [.CReference posA1] }),
         (posC1, { m_Stack := [.CReference posB1] }),
         (posB2, { m_Stack := [.CReference posA2] })] := by decide
  have hr : ∀ q, Reach (copyRect sheetChain posB2 posB1 1 1) posB2 q → q.same posB1 = false := by
    intro q hq
    rw [hcopy] at hq
    have hall : ∀ a, a.same posB2 = true ∨ a.same posA2 = true → ∀ b,
        RefStep [(posA1, { m_Stack := [.CNumber (Double.ofNat 2)] }),
         (posB1, { m_Stack := [.CReference posA1] }),
         (posC1, { m_Stack := [.CReference posB1] }),
         (posB2, { m_Stack := [.CReference posA2] })] a b →
        b.same posB2 = true ∨ b.same posA2 = true := by
      intro a ha b hab
      obtain ⟨cell, r, hf, hmem, hs⟩ := hab
      rcases ha with ha | ha
      · rw [Sheet.find_congr _ ha] at hf
        have hc : cell = { m_Stack := [.CReference posA2] } := by
          have : Sheet.find [(posA1, ({ m_Stack := [.CNumber (Double.ofNat 2)] } : CCell)),
            (posB1, { m_Stack := [.CReference posA1] }),
            (posC1, { m_Stack := [.CReference posB1] }),
            (posB2, { m_Stack := [.CReference posA2] })] posB2
              = some { m_Stack := [.CReference posA2] } := by decide
          rw [this] at hf
          exact (Option.some.inj hf).symm
        subst hc
        simp only [List.mem_singleton, COperation.CReference.injEq] at hmem
        subst hmem
        right
        rw [CPos.same_symm]
        exact hs
      · rw [Sheet.find_congr _ ha] at hf
        have : Sheet.find [(posA1, ({ m_Stack := [.CNumber (Double.ofNat 2)] } : CCell)),
            (posB1, { m_Stack := [.CReference posA1] }),
            (posC1, { m_Stack := [.CReference posB1] }),
            (posB2, { m_Stack := [.CReference posA2] })] posA2 = none := by decide
        rw [this] at hf
        cases hf
    have hinv : q.same posB2 = true ∨ q.same posA2 = true := by
      induction hq with
      | refl => left; rfl
      | tail _ hstep ih => exact hall _ ih _ hstep
    rcases hinv with h1 | h1
    · simp only [CPos.same, Bool.and_eq_true, decide_eq_true_eq] at h1
      simp only [CPos.same, Bool.and_eq_false_iff, decide_eq_false_iff_not]
      left
      rw [h1.1]
      decide
    · simp only [CPos.same, Bool.and_eq_true, decide_eq_true_eq] at h1
      simp only [CPos.same, Bool.and_eq_false_iff, decide_eq_false_iff_not]
      left
      rw [h1.1]
      decide
  exact ⟨hin, hout, hr,
    C24_copy_independent_of_source examplePlatform rejectingParser sheetChain posB2 posB1 1 1
      posB1 posB2 text12 hin hout hr⟩

/-- C24 as stated fails when a destination program refers to the source cell:
on `sheetAbs` (`A1 = 10`, `A2 = $A$1`), `copyRect(B1, A1, 1, 2)` stores
`B2 = $A$1`; the source cell `A1` lies outside the destination rectangle
`B1..B2`; `getValue(B2)` is `10` after the copy and `12` after the later
`setCell(A1, "12")`. -/
theorem C24_counterexample :
    (copyRect sheetAbs posB1 posA1 1 2).find posB2
        = some { m_Stack := [.CReference posAbsA1] } ∧
      ¬ (posB1.m_Row ≤ posA1.m_Row ∧ posA1.m_Row < posB1.m_Row + 2 ∧
          posB1.m_Column ≤ posA1.m_Column ∧ posA1.m_Column < posB1.m_Column + 1) ∧
      (getValue examplePlatform (copyRect sheetAbs posB1 posA1 1 2) posB2).value
        = .ok (.number (Double.ofNat 10)) ∧
      (setCell examplePlatform rejectingParser (copyRect sheetAbs posB1 posA1 1 2)
          posA1 text12).1 = true ∧
      (getValue examplePlatform (setCell examplePlatform rejectingParser
          (copyRect sheetAbs posB1 posA1 1 2) posA1 text12).2 posB2).value
        = .ok (.number (Double.ofNat 12)) := by
  refine ⟨by decide, by decide, by decide, by decide, by decide⟩

/-! ## C25 to C28: the binary format -/

theorem loadNodes_append (junk : Bytes) (ops : List COperation) :
    ∀ (acc : List COperation) (rest : Bytes) (c : Nat), (∀ op ∈ ops, op.Storable) →
      loadNodes junk (ops.length + c) acc { data := nodesBytes ops ++ rest, good := true }
        = loadNodes junk c (acc ++ ops) { data := rest, good := true } := by
  induction ops with
  | nil => intro acc rest c _; simp [nodesBytes]
  | cons op tail ih =>
    intro acc rest c hs
    have hop : op.Storable := hs op (List.mem_cons_self _ _)
    have hid : -2147483648 ≤ op.getTypeId ∧ op.getTypeId < 2147483648 := by
      cases op <;> simp [COperation.getTypeId]
    obtain ⟨op0, hc, hl⟩ := COperation.load_payload junk op hop (nodesBytes tail ++ rest)
    have hcount : (op :: tail).length + c = (tail.length + c) + 1 := by
      simp only [List.length_cons]; omega
    rw [hcount]
    simp only [loadNodes, nodesBytes, List.append_assoc]
    rw [IStream.read_append _ _ _ 4 (intBytes_length _)]
    simp only [intOfBytes_intBytes _ hid.1 hid.2, hc, hl, if_true]
    rw [ih (acc ++ [op]) rest c (fun o ho => hs o (List.mem_cons_of_mem _ ho))]
    simp

theorem loadEntries_append (junk : Bytes) (s : Sheet) :
    ∀ (acc : Sheet) (rest : Bytes) (c : Nat), (∀ e ∈ s, e.1.InRange ∧ e.2.Storable) →
      loadEntries junk (s.length + c) acc { data := entriesBytes s ++ rest, good := true }
        = loadEntries junk c (s.foldl (fun a e => a.assign e.1 e.2) acc)
            { data := rest, good := true } := by
  induction s with
  | nil => intro acc rest c _; simp [entriesBytes]
  | cons e tail ih =>
    intro acc rest c hs
    obtain ⟨pos, cell⟩ := e
    obtain ⟨hp, hc⟩ := hs (pos, cell) (List.mem_cons_self _ _)
    have hb : entriesBytes ((pos, cell) :: tail) ++ rest
        = posBytes pos ++ (cellBytes cell ++ (entriesBytes tail ++ rest)) := by
      simp only [entriesBytes, List.append_assoc]
    have hcount : ((pos, cell) :: tail).length + c = (tail.length + c) + 1 := by
      simp only [List.length_cons]; omega
    rw [hb, hcount, loadEntries, CPos.loadBinary_posBytes junk pos hp]
    simp only [if_true]
    rw [CCell.loadBinary_cellBytes junk cell hc]
    simp only [List.foldl_cons]
    exact ih _ rest c (fun e he => hs e (List.mem_cons_of_mem _ he))

theorem createOperationFromType_none (junk : Bytes) (t : Int) (h : t < 1 ∨ 17 < t) :
    COperation.createOperationFromType junk t = none := by
  unfold COperation.createOperationFromType
  have h1 : ¬ t = 1 := by omega
  have h2 : ¬ t = 2 := by omega
  have h3 : ¬ t = 3 := by omega
  have h4 : ¬ t = 4 := by omega
  have h5 : ¬ t = 5 := by omega
  have h6 : ¬ t = 6 := by omega
  have h7 : ¬ t = 7 := by omega
  have h8 : ¬ t = 8 := by omega
  have h9 : ¬ t = 9 := by omega
  have h10 : ¬ t = 10 := by omega
  have h11 : ¬ t = 11 := by omega
  have h12 : ¬ t = 12 := by omega
  have h13 : ¬ t = 13 := by omega
  have h14 : ¬ t = 14 := by omega
  have h15 : ¬ t = 15 := by omega
  have h16 : ¬ t = 16 := by omega
  have h17 : ¬ t = 17 := by omega
  simp only [h1, h2, h3, h4, h5, h6, h7, h8, h9, h10, h11, h12, h13, h14, h15, h16, h17,
    if_false]

/-- C25. A file that is well-framed up to a node whose 4-byte tag decodes to a
`TypeId` outside `1..17` is rejected: the file announces `n` cells, holds the
wire form of fewer complete cells `S0`, then a position and a program length
`k`, the wire form of fewer than `k` nodes, and the bad tag, followed by any
bytes.  `load` returns false and the sheet is the sheet before the call. -/
theorem C25_load_rejects_unknown_tag (junk : Bytes) (m_Sheet : Sheet) (n : Nat) (S0 : Sheet)
    (p : CPos) (k : Nat) (ops : List COperation) (tag rest : Bytes)
    (hn : n < 18446744073709551616) (hS0 : ∀ e ∈ S0, e.1.InRange ∧ e.2.Storable)
    (hcount : S0.length < n) (hp : p.InRange)
    (hk : k < 18446744073709551616) (hops : ∀ op ∈ ops, op.Storable) (hlen : ops.length < k)
    (htag : tag.length = 4) (hbad : intOfBytes tag < 1 ∨ 17 < intOfBytes tag) :
    load junk m_Sheet
        { data := leBytes 8 n ++ entriesBytes S0 ++ posBytes p ++ leBytes 8 k ++ nodesBytes ops
            ++ tag ++ rest }
      = (false, m_Sheet) := by
  obtain ⟨c, hc⟩ : ∃ c, n = S0.length + (c + 1) := ⟨n - S0.length - 1, by omega⟩
  obtain ⟨c2, hc2⟩ : ∃ c2, k = ops.length + (c2 + 1) := ⟨k - ops.length - 1, by omega⟩
  have hnodes : loadNodes junk k [] { data := nodesBytes ops ++ (tag ++ rest), good := true }
      = none := by
    rw [hc2, loadNodes_append junk ops [] (tag ++ rest) (c2 + 1) hops]
    simp only [loadNodes]
    rw [IStream.read_append tag rest _ 4 htag]
    simp only [createOperationFromType_none junk _ hbad]
  have hcell : CCell.loadBinary junk
      { data := leBytes 8 k ++ (nodesBytes ops ++ (tag ++ rest)), good := true } = none := by
    unfold CCell.loadBinary
    rw [IStream.read_append _ _ _ 8 (leBytes_length 8 _)]
    simp only [size_roundtrip _ hk, hnodes]
  have hent : loadEntries junk n []
      { data := entriesBytes S0 ++ (posBytes p ++ (leBytes 8 k ++ (nodesBytes ops
          ++ (tag ++ rest)))), good := true } = none := by
    rw [hc, loadEntries_append junk S0 [] _ (c + 1) hS0]
    rw [loadEntries, CPos.loadBinary_posBytes junk p hp]
    simp only [if_true, hcell]
  have h2 : IStream.read
      { data := leBytes 8 n ++ (entriesBytes S0 ++ (posBytes p ++ (leBytes 8 k ++ (nodesBytes ops
          ++ (tag ++ rest))))), good := true } 8 (junkBuf junk 8)
      = (leBytes 8 n, { data := entriesBytes S0 ++ (posBytes p ++ (leBytes 8 k ++ (nodesBytes ops
          ++ (tag ++ rest)))), good := true }) :=
    IStream.read_append _ _ _ 8 (leBytes_length 8 _)
  have h3 := size_roundtrip _ hn
  unfold load
  simp only [List.append_assoc, h2, if_true, h3, hent]

/-- C25 at the file `save` writes for `sheetTen` with the tag of its only node
replaced by `99`, loaded over `sheetCycle`. -/
theorem C25_load_rejects_unknown_tag_witness :
    (1 : Nat) < 18446744073709551616 ∧ (∀ e ∈ ([] : Sheet), e.1.InRange ∧ e.2.Storable) ∧
      ([] : Sheet).length < 1 ∧ posA1.InRange ∧
      (∀ op ∈ ([] : List COperation), op.Storable) ∧ ([] : List COperation).length < 1 ∧
      ([99, 0, 0, 0] : Bytes).length = 4 ∧
      (intOfBytes [99, 0, 0, 0] < 1 ∨ 17 < intOfBytes [99, 0, 0, 0]) ∧
      (sheetBytes sheetTen).take 25 ++ [99, 0, 0, 0] ++ (sheetBytes sheetTen).drop 29
        = badTagFile ∧
      leBytes 8 1 ++ entriesBytes [] ++ posBytes posA1 ++ leBytes 8 1 ++ nodesBytes []
          ++ [99, 0, 0, 0] ++ [0, 0, 0, 0, 0, 0, 36, 64, 0] = badTagFile ∧
      load [] sheetCycle
          { data := leBytes 8 1 ++ entriesBytes [] ++ posBytes posA1 ++ leBytes 8 1 ++ nodesBytes []
              ++ [99, 0, 0, 0] ++ [0, 0, 0, 0, 0, 0, 36, 64, 0] }
        = (false, sheetCycle) :=
  ⟨by decide, by simp, by decide, by decide, by simp, by decide, by decide, by decide, by decide,
    by decide,
    C25_load_rejects_unknown_tag [] sheetCycle 1 [] posA1 1 [] [99, 0, 0, 0]
      [0, 0, 0, 0, 0, 0, 36, 64, 0] (by decide) (by simp) (by decide) (by decide) (by decide)
      (by simp) (by decide) (by decide) (by decide)⟩

theorem entriesBytes_append (s t : Sheet) :
    entriesBytes (s ++ t) = entriesBytes s ++ entriesBytes t := by
  induction s with
  | nil => rfl
  | cons e rest ih =>
    obtain ⟨pos, cell⟩ := e
    have h : ((pos, cell) :: rest) ++ t = (pos, cell) :: (rest ++ t) := rfl
    rw [h]
    simp only [entriesBytes, ih, List.append_assoc]

/-- C26, the code on a file cut by its last byte: for every valid, storable
sheet whose last cell is `(p, c)`, `load` of the bytes that `save` writes,
without the last one, returns true and installs the sheet (the flag of the
last cell reads as clear); `CCell::loadBinary` does not test the stream after
reading the flag byte.  For `sheetTen` the cut file loads as `sheetTen` over
`sheetCycle`. -/
theorem C26_file_cut_by_last_byte_loads :
    (∀ (junk : Bytes) (m_Sheet S0 : Sheet) (p : CPos) (c : CCell),
        Sheet.Valid (S0 ++ [(p, c)]) → Sheet.Storable (S0 ++ [(p, c)]) →
        (save (S0 ++ [(p, c)]) {}).2.data = sheetBytes (S0 ++ [(p, c)]) ∧
        load junk m_Sheet { data := (sheetBytes (S0 ++ [(p, c)])).dropLast }
          = (true, S0 ++ [(p, { c with m_IsCalculated := false })])) ∧
    (save sheetTen {}).2.data = sheetBytes sheetTen ∧
    (sheetBytes sheetTen).dropLast ≠ sheetBytes sheetTen ∧
    load [] sheetCycle { data := (sheetBytes sheetTen).dropLast } = (true, sheetTen) := by
  refine ⟨?_, by decide, by decide, by decide⟩
  intro junk m_Sheet S0 p c hv hs
  have hsave : (save (S0 ++ [(p, c)]) {}).2.data = sheetBytes (S0 ++ [(p, c)]) := by
    have := save_good (S0 ++ [(p, c)]) []
    have h0 : ({} : OStream) = { data := [], good := true } := rfl
    rw [h0, this]
    simp
  refine ⟨hsave, ?_⟩
  obtain ⟨hlen, hent⟩ := hs
  have hS0 : ∀ e ∈ S0, e.1.InRange ∧ e.2.Storable :=
    fun e he => hent e (List.mem_append_left _ he)
  obtain ⟨hp, hcl, hcops⟩ := hent (p, c) (List.mem_append_right _ (List.mem_singleton_self _))
  have hbytes : (sheetBytes (S0 ++ [(p, c)])).dropLast
      = leBytes 8 (S0 ++ [(p, c)]).length ++ (entriesBytes S0 ++ (posBytes p
          ++ (leBytes 8 c.m_Stack.length ++ (nodesBytes c.m_Stack ++ [])))) := by
    have : sheetBytes (S0 ++ [(p, c)])
        = (leBytes 8 (S0 ++ [(p, c)]).length ++ (entriesBytes S0 ++ (posBytes p
          ++ (leBytes 8 c.m_Stack.length ++ nodesBytes c.m_Stack))))
          ++ [byteOf (if c.m_IsCalculated then 1 else 0)] := by
      simp only [sheetBytes, entriesBytes_append, entriesBytes, cellBytes, List.append_assoc,
        List.append_nil]
    rw [this, List.dropLast_concat]
    simp only [List.append_nil]
  have hcell : CCell.loadBinary junk
      { data := leBytes 8 c.m_Stack.length ++ (nodesBytes c.m_Stack ++ []), good := true }
      = some ({ c with m_IsCalculated := false }, { data := [], good := false }) := by
    unfold CCell.loadBinary
    rw [IStream.read_append _ _ _ 8 (leBytes_length 8 _)]
    simp only [size_roundtrip _ hcl]
    rw [loadNodes_nodesBytes junk c.m_Stack [] [] hcops]
    simp [IStream.read]
  have hentries : loadEntries junk (S0 ++ [(p, c)]).length []
      { data := entriesBytes S0 ++ (posBytes p
          ++ (leBytes 8 c.m_Stack.length ++ (nodesBytes c.m_Stack ++ []))), good := true }
      = some (S0 ++ [(p, { c with m_IsCalculated := false })]) := by
    have hl : (S0 ++ [(p, c)]).length = S0.length + 1 := by simp
    rw [hl, loadEntries_append junk S0 [] _ 1 hS0]
    rw [loadEntries, CPos.loadBinary_posBytes junk p hp]
    simp only [if_true, hcell, loadEntries]
    have hv2 : Sheet.Valid ([] ++ (S0 ++ [(p, { c with m_IsCalculated := false })])) := by
      simp only [List.nil_append]
      unfold Sheet.Valid at hv ⊢
      rw [List.pairwise_append] at hv ⊢
      refine ⟨hv.1, List.pairwise_singleton _ _, ?_⟩
      intro a ha b hb
      rw [List.mem_singleton] at hb
      rw [hb]
      exact hv.2.2 a ha (p, c) (List.mem_singleton_self _)
    have hf := foldl_assign_valid (S0 ++ [(p, { c with m_IsCalculated := false })]) [] hv2
    rw [List.foldl_append] at hf
    simp only [List.foldl_cons, List.foldl_nil, List.nil_append] at hf
    rw [hf]
  have h2 : IStream.read
      { data := leBytes 8 (S0 ++ [(p, c)]).length ++ (entriesBytes S0 ++ (posBytes p
          ++ (leBytes 8 c.m_Stack.length ++ (nodesBytes c.m_Stack ++ [])))), good := true }
      8 (junkBuf junk 8)
      = (leBytes 8 (S0 ++ [(p, c)]).length, { data := entriesBytes S0 ++ (posBytes p
          ++ (leBytes 8 c.m_Stack.length ++ (nodesBytes c.m_Stack ++ []))), good := true }) :=
    IStream.read_append _ _ _ 8 (leBytes_length 8 _)
  have h3 := size_roundtrip _ hlen
  unfold load
  simp only [hbytes, h2, if_true, h3, hentries]

theorem loadEntries_empty (junk : Bytes) (c : Nat) (acc : Sheet) :
    loadEntries junk (c + 1) acc { data := [], good := true } = none := by
  simp [loadEntries, CPos.loadBinary, IStream.read]

theorem CPos.loadBinary_raw (junk : Bytes) (rb cb : Bytes) (fb : Byte) (rest : Bytes)
    (hr : rb.length = 4) (hc : cb.length = 4) :
    ∃ q, CPos.loadBinary junk { data := rb ++ (cb ++ (fb :: rest)), good := true }
      = (q, true, { data := rest, good := true }) := by
  unfold CPos.loadBinary
  rw [IStream.read_append _ _ _ 4 hr]
  simp only []
  rw [IStream.read_append _ _ _ 4 hc]
  simp only []
  have h1 : IStream.read { data := fb :: rest, good := true } 1 (junkBuf junk 1)
      = ([fb], { data := rest, good := true }) :=
    IStream.read_append [fb] rest _ 1 rfl
  rw [h1]
  exact ⟨_, rfl⟩

set_option maxRecDepth 20000 in
theorem xor_top_byte : ∀ b : Byte, b.val < 64 → 64 ≤ (b ^^^ 90).val := by
  decide

theorem save_data (s : Sheet) : (save s {}).2.data = sheetBytes s := by
  have h0 : ({} : OStream) = { data := [], good := true } := rfl
  rw [h0, save_good s []]
  simp

/-- C27. Header corruption is rejected: for every storable sheet with fewer
than `2^62` cells, `load` of the bytes `save` writes, with each of the first
`min(length, 10)` bytes XOR-ed with `0x5a`, returns false and leaves the sheet
as it was.  (The corrupted cell count is at least `2^62`, more cells than the
file holds.) -/
theorem C27_corrupted_header_is_rejected (junk : Bytes) (m_Sheet S : Sheet)
    (hs : Sheet.Storable S) (hsmall : S.length < 4611686018427387904) :
    load junk m_Sheet { data := corruptHeader (save S {}).2.data } = (false, m_Sheet) := by
  rw [save_data]
  cases S with
  | nil =>
    have hd : corruptHeader (sheetBytes []) = [90, 90, 90, 90, 90, 90, 90, 90] ++ [] := by decide
    have h2 : IStream.read { data := [90, 90, 90, 90, 90, 90, 90, 90] ++ [], good := true } 8
        (junkBuf junk 8) = ([90, 90, 90, 90, 90, 90, 90, 90], { data := [], good := true }) :=
      IStream.read_append _ _ _ 8 rfl
    have h3 : ofLE ([90, 90, 90, 90, 90, 90, 90, 90] : Bytes) = 6510615555426900569 + 1 := by
      decide
    unfold load
    simp only [hd, h2, if_true, h3, loadEntries_empty]
  | cons e rest =>
    obtain ⟨p, c⟩ := e
    obtain ⟨_, hent⟩ := hs
    obtain ⟨_, hc⟩ := hent (p, c) (List.mem_cons_self _ _)
    have hrest : ∀ e ∈ rest, e.1.InRange ∧ e.2.Storable :=
      fun e he => hent e (List.mem_cons_of_mem _ he)
    have hn : rest.length + 1 < 4611686018427387904 := by
      simpa using hsmall
    obtain ⟨b0, b1, b2, b3, hrow⟩ : ∃ b0 b1 b2 b3, intBytes p.m_Row = [b0, b1, b2, b3] :=
      ⟨_, _, _, _, rfl⟩
    have hcnt : leBytes 8 (rest.length + 1)
        = [byteOf (rest.length + 1), byteOf ((rest.length + 1) / 256),
           byteOf ((rest.length + 1) / 256 / 256), byteOf ((rest.length + 1) / 256 / 256 / 256),
           byteOf ((rest.length + 1) / 256 / 256 / 256 / 256),
           byteOf ((rest.length + 1) / 256 / 256 / 256 / 256 / 256),
           byteOf ((rest.length + 1) / 256 / 256 / 256 / 256 / 256 / 256),
           byteOf ((rest.length + 1) / 256 / 256 / 256 / 256 / 256 / 256 / 256)] := by
      simp only [leBytes]
    have hd : corruptHeader (sheetBytes ((p, c) :: rest))
        = [byteOf (rest.length + 1) ^^^ 90, byteOf ((rest.length + 1) / 256) ^^^ 90,
           byteOf ((rest.length + 1) / 256 / 256) ^^^ 90,
           byteOf ((rest.length + 1) / 256 / 256 / 256) ^^^ 90,
           byteOf ((rest.length + 1) / 256 / 256 / 256 / 256) ^^^ 90,
           byteOf ((rest.length + 1) / 256 / 256 / 256 / 256 / 256) ^^^ 90,
           byteOf ((rest.length + 1) / 256 / 256 / 256 / 256 / 256 / 256) ^^^ 90,
           byteOf ((rest.length + 1) / 256 / 256 / 256 / 256 / 256 / 256 / 256) ^^^ 90]
          ++ ([b0 ^^^ 90, b1 ^^^ 90, b2, b3] ++ (intBytes p.m_Column
            ++ (byteOf ((if p.m_AbsRow then 1 else 0) + 2 * (if p.m_AbsColumn then 1 else 0))
              :: (cellBytes c ++ (entriesBytes rest ++ []))))) := by
      simp only [sheetBytes, entriesBytes, posBytes, List.length_cons, hcnt, hrow, corruptHeader,
        List.append_assoc, List.cons_append, List.nil_append, List.take_succ_cons, List.take_zero,
        List.drop_succ_cons, List.drop_zero, List.map_cons, List.map_nil, List.append_nil]
    have htop : 64 ≤ (byteOf ((rest.length + 1) / 256 / 256 / 256 / 256 / 256 / 256 / 256)
        ^^^ 90).val := by
      apply xor_top_byte
      simp only [byteOf]
      omega
    generalize hN : ofLE [byteOf (rest.length + 1) ^^^ 90, byteOf ((rest.length + 1) / 256) ^^^ 90,
           byteOf ((rest.length + 1) / 256 / 256) ^^^ 90,
           byteOf ((rest.length + 1) / 256 / 256 / 256) ^^^ 90,
           byteOf ((rest.length + 1) / 256 / 256 / 256 / 256) ^^^ 90,
           byteOf ((rest.length + 1) / 256 / 256 / 256 / 256 / 256) ^^^ 90,
           byteOf ((rest.length + 1) / 256 / 256 / 256 / 256 / 256 / 256) ^^^ 90,
           byteOf ((rest.length + 1) / 256 / 256 / 256 / 256 / 256 / 256 / 256) ^^^ 90] = N
    have hbig : rest.length + 2 ≤ N := by
      rw [← hN]
      simp only [ofLE]
      omega
    obtain ⟨k, hk⟩ : ∃ k, N = (rest.length + (k + 1)) + 1 := ⟨N - rest.length - 2, by omega⟩
    obtain ⟨q, hq⟩ := CPos.loadBinary_raw junk [b0 ^^^ 90, b1 ^^^ 90, b2, b3] (intBytes p.m_Column)
      (byteOf ((if p.m_AbsRow then 1 else 0) + 2 * (if p.m_AbsColumn then 1 else 0)))
      (cellBytes c ++ (entriesBytes rest ++ [])) rfl (intBytes_length _)
    have hload : loadEntries junk N []
        { data := [b0 ^^^ 90, b1 ^^^ 90, b2, b3] ++ (intBytes p.m_Column
            ++ (byteOf ((if p.m_AbsRow then 1 else 0) + 2 * (if p.m_AbsColumn then 1 else 0))
              :: (cellBytes c ++ (entriesBytes rest ++ [])))), good := true } = none := by
      rw [hk, loadEntries, hq]
      simp only [if_true]
      rw [CCell.loadBinary_cellBytes junk c hc]
      simp only []
      rw [loadEntries_append junk rest _ [] (k + 1) hrest, loadEntries_empty]
    have h2 := IStream.read_append
      [byteOf (rest.length + 1) ^^^ 90, byteOf ((rest.length + 1) / 256) ^^^ 90,
           byteOf ((rest.length + 1) / 256 / 256) ^^^ 90,
           byteOf ((rest.length + 1) / 256 / 256 / 256) ^^^ 90,
           byteOf ((rest.length + 1) / 256 / 256 / 256 / 256) ^^^ 90,
           byteOf ((rest.length + 1) / 256 / 256 / 256 / 256 / 256) ^^^ 90,
           byteOf ((rest.length + 1) / 256 / 256 / 256 / 256 / 256 / 256) ^^^ 90,
           byteOf ((rest.length + 1) / 256 / 256 / 256 / 256 / 256 / 256 / 256) ^^^ 90]
      ([b0 ^^^ 90, b1 ^^^ 90, b2, b3] ++ (intBytes p.m_Column
            ++ (byteOf ((if p.m_AbsRow then 1 else 0) + 2 * (if p.m_AbsColumn then 1 else 0))
              :: (cellBytes c ++ (entriesBytes rest ++ [])))))
      (junkBuf junk 8) 8 rfl
    unfold load
    simp only [hd, h2, if_true, hN, hload]

/-- C27 at `sheetTen`, loaded over `sheetCycle`. -/
theorem C27_corrupted_header_is_rejected_witness :
    Sheet.Storable sheetTen ∧ sheetTen.length < 4611686018427387904 ∧
      load [] sheetCycle { data := corruptHeader (save sheetTen {}).2.data }
        = (false, sheetCycle) :=
  ⟨by decide, by decide,
    C27_corrupted_header_is_rejected [] sheetCycle sheetTen (by decide) (by decide)⟩

theorem leBytes_getElem (k : Nat) :
    ∀ (n i : Nat), i < k → (leBytes k n)[i]? = some (byteOf (n / 256 ^ i)) := by
  induction k with
  | zero => intro n i h; omega
  | succ k ih =>
    intro n i h
    cases i with
    | zero => simp [leBytes]
    | succ j =>
      simp only [leBytes, List.getElem?_cons_succ]
      rw [ih (n / 256) j (by omega), Nat.div_div_eq_div_mul, pow_succ, Nat.mul_comm]

theorem nodesBytes_flatten (ops : List COperation) :
    nodesBytes ops = (ops.map (fun op => intBytes op.getTypeId ++ payloadBytes op)).flatten := by
  induction ops with
  | nil => rfl
  | cons op rest ih =>
    simp only [nodesBytes, List.map_cons, List.flatten_cons, ih, List.append_assoc]

theorem entriesBytes_flatten (s : Sheet) :
    entriesBytes s = (s.map (fun e => posBytes e.1 ++ cellBytes e.2)).flatten := by
  induction s with
  | nil => rfl
  | cons e rest ih =>
    obtain ⟨pos, cell⟩ := e
    simp only [entriesBytes, List.map_cons, List.flatten_cons, ih, List.append_assoc]

/-- C28. On a good stream `save` succeeds and appends `sheetBytes` of the sheet,
which is the documented layout: the cell count on eight bytes, then the
entries in the order of the map, ascending in (row, column); an entry is the
position (row and column on four bytes each, one flags byte equal to
`absRow + 2 * absCol`), the program length on eight bytes, each node as the
four bytes of its `TypeId` (`Add` = 1 up to `Func` = 17) followed by its
payload (`Num`: the eight bytes of the double; `Str`: the length on eight
bytes, then the bytes; `Ref`: a position; nothing for the others), and one
byte for the flag of the cell, which is 0 when the flag is clear (1 when it
is set).  Integers are little-endian, `int` in two's complement. -/
theorem C28_save_wire_layout :
    (∀ (s : Sheet) (data : Bytes),
        save s { data := data, good := true }
          = (true, { data := data ++ sheetBytes s, good := true })) ∧
    (∀ (s : Sheet),
        sheetBytes s
          = leBytes 8 s.length ++ (s.map (fun e => posBytes e.1 ++ cellBytes e.2)).flatten) ∧
    (∀ (s : Sheet), Sheet.Valid s →
        s.Pairwise (fun a b => a.1.m_Row < b.1.m_Row ∨
          (a.1.m_Row = b.1.m_Row ∧ a.1.m_Column < b.1.m_Column))) ∧
    (∀ (p : CPos),
        posBytes p = intBytes p.m_Row ++ intBytes p.m_Column ++
          [byteOf ((if p.m_AbsRow then 1 else 0) + 2 * (if p.m_AbsColumn then 1 else 0))]) ∧
    (∀ (c : CCell),
        cellBytes c = leBytes 8 c.m_Stack.length ++
          (c.m_Stack.map (fun op => intBytes op.getTypeId ++ payloadBytes op)).flatten ++
          [if c.m_IsCalculated then 1 else 0]) ∧
    (COperation.CAddition.getTypeId = 1 ∧ COperation.CSubtraction.getTypeId = 2 ∧
      COperation.CMultiplication.getTypeId = 3 ∧ COperation.CDivision.getTypeId = 4 ∧
      COperation.CPower.getTypeId = 5 ∧ COperation.CNegation.getTypeId = 6 ∧
      COperation.CEqual.getTypeId = 7 ∧ COperation.CNotEqual.getTypeId = 8 ∧
      COperation.CLessThan.getTypeId = 9 ∧ COperation.CLessEqual.getTypeId = 10 ∧
      COperation.CGreaterThan.getTypeId = 11 ∧ COperation.CGreaterEqual.getTypeId = 12 ∧
      (∀ p, (COperation.CReference p).getTypeId = 13) ∧
      (∀ d, (COperation.CNumber d).getTypeId = 14) ∧
      (∀ t, (COperation.CString t).getTypeId = 15) ∧
      COperation.CValRange.getTypeId = 16 ∧ COperation.CFuncCall.getTypeId = 17) ∧
    ((∀ d, payloadBytes (.CNumber d) = leBytes 8 d.val) ∧
      (∀ t, payloadBytes (.CString t) = leBytes 8 t.length ++ t) ∧
      (∀ p, payloadBytes (.CReference p) = posBytes p) ∧
      (∀ op, (∀ d, op ≠ .CNumber d) → (∀ t, op ≠ .CString t) → (∀ p, op ≠ .CReference p) →
        payloadBytes op = [])) ∧
    (∀ (i : Int), intBytes i = leBytes 4 (i % 4294967296).toNat) ∧
    (∀ (k n i : Nat), i < k → (leBytes k n)[i]? = some (byteOf (n / 256 ^ i))) ∧
    (save sheetTen {}).2.data
      = [1, 0, 0, 0, 0, 0, 0, 0,
         1, 0, 0, 0, 0, 0, 0, 0, 0,
         1, 0, 0, 0, 0, 0, 0, 0,
         14, 0, 0, 0, 0, 0, 0, 0, 0, 0, 36, 64,
         0] := by
  refine ⟨save_good, ?_, ?_, fun _ => rfl, ?_, ?_, ⟨fun _ => rfl, fun _ => rfl, fun _ => rfl, ?_⟩,
    fun _ => rfl, leBytes_getElem, by decide⟩
  · intro s
    rw [sheetBytes, entriesBytes_flatten]
  · intro s hv
    unfold Sheet.Valid at hv
    refine hv.imp ?_
    intro a b hab
    simpa [CPos.less] using hab
  · intro c
    rw [cellBytes, nodesBytes_flatten]
    cases c.m_IsCalculated <;> rfl
  · exact ⟨rfl, rfl, rfl, rfl, rfl, rfl, rfl, rfl, rfl, rfl, rfl, rfl, fun _ => rfl,
      fun _ => rfl, fun _ => rfl, rfl, rfl⟩
  · intro op h1 h2 h3
    cases op
    case CNumber d => exact absurd rfl (h1 d)
    case CString t => exact absurd rfl (h2 t)
    case CReference p => exact absurd rfl (h3 p)
    all_goals rfl

/-! ## C29, C30: position literals -/

theorem takeWhile_stop (p : Byte → Bool) :
    ∀ (l r : Bytes), l.all p = true → (∀ c, r.head? = some c → p c = false) →
      (l ++ r).takeWhile p = l ∧ (l ++ r).dropWhile p = r := by
  intro l
  induction l with
  | nil =>
    intro r _ hr
    cases r with
    | nil => exact ⟨rfl, rfl⟩
    | cons c t =>
      have := hr c rfl
      simp [List.takeWhile, List.dropWhile, this]
  | cons x xs ih =>
    intro r hl hr
    simp only [List.all_cons, Bool.and_eq_true] at hl
    obtain ⟨h1, h2⟩ := ih r hl.2 hr
    simp [List.takeWhile, List.dropWhile, hl.1, h1, h2]

theorem letterRank_range (c : Byte) (h : isAlpha c = true) :
    1 ≤ letterRank c ∧ letterRank c ≤ 26 := by
  unfold isAlpha at h
  simp only [Bool.or_eq_true, Bool.and_eq_true, decide_eq_true_eq] at h
  unfold letterRank
  split <;> omega

theorem bijective26_nonneg (l : Bytes) (h : l.all isAlpha = true) : 0 ≤ bijective26 l := by
  induction l with
  | nil => simp [bijective26]
  | cons x xs ih =>
    simp only [List.all_cons, Bool.and_eq_true] at h
    have h1 := (letterRank_range x h.1).1
    have h2 := ih h.2
    have h3 : (0 : Int) ≤ 26 ^ xs.length := by positivity
    have h4 : 0 ≤ letterRank x * 26 ^ xs.length := mul_nonneg (by omega) h3
    simp only [bijective26]
    omega

theorem wrapInt_eq (i : Int) (h1 : -2147483648 ≤ i) (h2 : i ≤ 2147483647) : wrapInt i = i := by
  unfold wrapInt
  omega

theorem toUpper_rank (c : Byte) (h : isAlpha c = true) : toUpper c - 65 + 1 = letterRank c := by
  unfold isAlpha at h
  simp only [Bool.or_eq_true, Bool.and_eq_true, decide_eq_true_eq] at h
  unfold toUpper letterRank
  split <;> split <;> omega

/-- The loop of `convertColumn` does not throw on a run of letters. -/
theorem convertColumnFrom_some :
    ∀ (letters : Bytes) (acc : Int), letters.all isAlpha = true →
      ∃ col : Int, convertColumnFrom acc letters = some col := by
  intro letters
  induction letters with
  | nil => intro acc _; exact ⟨acc, rfl⟩
  | cons c rest ih =>
    intro acc h
    simp only [List.all_cons, Bool.and_eq_true] at h
    simp only [convertColumnFrom, h.1, if_true]
    exact ih _ h.2

/-- While the value of the letters fits an `int`, the loop of `convertColumn`
computes it exactly. -/
theorem convertColumnFrom_eq :
    ∀ (letters : Bytes) (acc : Int), letters.all isAlpha = true → 0 ≤ acc →
      acc * 26 ^ letters.length + bijective26 letters ≤ 2147483647 →
      convertColumnFrom acc letters = some (acc * 26 ^ letters.length + bijective26 letters) := by
  intro letters
  induction letters with
  | nil => intro acc _ _ _; simp [convertColumnFrom, bijective26]
  | cons c rest ih =>
    intro acc h hacc hfit
    simp only [List.all_cons, Bool.and_eq_true] at h
    have hr := toUpper_rank c h.1
    have hrank := letterRank_range c h.1
    have hrest := bijective26_nonneg rest h.2
    have hpow : (1 : Int) ≤ 26 ^ rest.length := one_le_pow₀ (by norm_num)
    have hsplit : acc * 26 ^ (c :: rest).length + bijective26 (c :: rest)
        = (acc * 26 + letterRank c) * 26 ^ rest.length + bijective26 rest := by
      simp only [bijective26, List.length_cons, pow_succ]
      ring
    rw [hsplit] at hfit ⊢
    have hnext : 0 ≤ acc * 26 + letterRank c := by omega
    have hmul : (acc * 26 + letterRank c) * 1 ≤ (acc * 26 + letterRank c) * 26 ^ rest.length :=
      mul_le_mul_of_nonneg_left hpow hnext
    have hwrap : wrapInt (acc * 26 + letterRank c) = acc * 26 + letterRank c :=
      wrapInt_eq _ (by omega) (by omega)
    simp only [convertColumnFrom, h.1, if_true, hr, hwrap]
    exact ih _ h.2 hnext hfit

/-- On a run of letters whose value fits an `int`, `convertColumn` gives the
bijective base-26 value of the letters minus one. -/
theorem convertColumn_eq (letters : Bytes) (h : letters.all isAlpha = true)
    (hfit : bijective26 letters ≤ 2147483647) :
    CPos.convertColumn letters = some (bijective26 letters - 1) := by
  have hv := bijective26_nonneg letters h
  unfold CPos.convertColumn
  rw [convertColumnFrom_eq letters 0 h (le_refl 0) (by simpa using hfit)]
  simp only [zero_mul, zero_add, Option.map_some']
  rw [wrapInt_eq _ (by omega) (by omega)]

/-- The function `convertColumn` does not throw on a run of letters. -/
theorem convertColumn_some (letters : Bytes) (h : letters.all isAlpha = true) :
    ∃ col : Int, CPos.convertColumn letters = some col := by
  obtain ⟨col, hcol⟩ := convertColumnFrom_some letters 0 h
  exact ⟨wrapInt (col - 1), by unfold CPos.convertColumn; rw [hcol]; rfl⟩

theorem decimalFrom_eq :
    ∀ (digits : Bytes) (acc : Nat),
      decimalFrom acc digits = acc * 10 ^ digits.length + decimalValue digits := by
  intro digits
  induction digits with
  | nil =>
    intro acc
    show acc = acc * 10 ^ 0 + 0
    omega
  | cons c rest ih =>
    intro acc
    have h1 : decimalFrom acc (c :: rest) = decimalFrom (acc * 10 + (c.val - 48)) rest := rfl
    have h2 : decimalValue (c :: rest) = (c.val - 48) * 10 ^ rest.length + decimalValue rest := rfl
    rw [h1, h2, ih, List.length_cons, pow_succ]
    generalize c.val - 48 = d
    generalize (10 : Nat) ^ rest.length = t
    generalize decimalValue rest = v
    ring

theorem decimalFrom_zero (digits : Bytes) : decimalFrom 0 digits = decimalValue digits := by
  rw [decimalFrom_eq]; simp

theorem digit_not_alpha (c : Byte) (h : isDigit c = true) : isAlpha c = false := by
  unfold isDigit at h
  unfold isAlpha
  simp only [Bool.and_eq_true, decide_eq_true_eq] at h
  simp only [Bool.or_eq_false_iff, Bool.and_eq_false_iff, decide_eq_false_iff_not]
  omega

theorem alpha_not_dollar (c : Byte) (h : isAlpha c = true) : c ≠ 36 := by
  intro hc
  rw [hc] at h
  revert h
  decide

theorem digit_not_dollar (c : Byte) (h : isDigit c = true) : c ≠ 36 := by
  intro hc
  rw [hc] at h
  revert h
  decide

/-- The constructor on a text that consists of an optional `$`, a non-empty run
of letters, an optional `$`, a run of digits and a rest that does not continue
any of these runs. -/
theorem parse_shape (a b : Bool) (letters digits rest : Bytes)
    (hl : letters.all isAlpha = true) (hl0 : letters ≠ [])
    (hd : digits.all isDigit = true)
    (hb : b = false → digits = [] → ∀ c, rest.head? = some c → isAlpha c = false ∧ c ≠ 36)
    (hr : ∀ c, rest.head? = some c → isDigit c = false)
    (col : Int) (hcol : CPos.convertColumn letters = some col) :
    CPos.parse (dollar a ++ (letters ++ (dollar b ++ (digits ++ rest))))
      = if digits = [] then none
        else if 2147483647 < decimalValue digits then none
        else if rest = [] then
          some { m_Row := (decimalValue digits : Int), m_AbsRow := b,
                 m_Column := col, m_AbsColumn := a }
        else none := by
  have hX : ∀ c, (dollar b ++ (digits ++ rest)).head? = some c → isAlpha c = false := by
    intro c hc
    cases b with
    | true =>
      simp only [dollar, if_true, List.cons_append, List.head?_cons, Option.some.injEq] at hc
      rw [← hc]; decide
    | false =>
      simp only [dollar, Bool.false_eq_true, if_false, List.nil_append] at hc
      cases digits with
      | nil => exact (hb rfl rfl c hc).1
      | cons d ds =>
        simp only [List.cons_append, List.head?_cons, Option.some.injEq] at hc
        simp only [List.all_cons, Bool.and_eq_true] at hd
        rw [← hc]
        exact digit_not_alpha d hd.1
  have hB : decide ((dollar b ++ (digits ++ rest)).head? = some 36) = b := by
    cases b with
    | true => simp [dollar]
    | false =>
      simp only [dollar, Bool.false_eq_true, if_false, List.nil_append, decide_eq_false_iff_not]
      intro hc
      cases digits with
      | nil => exact (hb rfl rfl 36 hc).2 rfl
      | cons d ds =>
        simp only [List.cons_append, List.head?_cons, Option.some.injEq] at hc
        simp only [List.all_cons, Bool.and_eq_true] at hd
        exact digit_not_dollar d hd.1 hc
  have hs3 : (if (dollar b ++ (digits ++ rest)).head? = some 36
      then (dollar b ++ (digits ++ rest)).tail else dollar b ++ (digits ++ rest))
      = digits ++ rest := by
    cases b with
    | true => simp [dollar]
    | false =>
      have := of_decide_eq_false hB
      rw [if_neg this]
      simp [dollar]
  have hA : decide ((dollar a ++ (letters ++ (dollar b ++ (digits ++ rest)))).head? = some 36)
      = a := by
    cases a with
    | true => simp [dollar]
    | false =>
      simp only [dollar, Bool.false_eq_true, if_false, List.nil_append, decide_eq_false_iff_not]
      intro hc
      cases letters with
      | nil => exact hl0 rfl
      | cons l ls =>
        simp only [List.cons_append, List.head?_cons, Option.some.injEq] at hc
        simp only [List.all_cons, Bool.and_eq_true] at hl
        exact alpha_not_dollar l hl.1 hc
  have hs1 : (if (dollar a ++ (letters ++ (dollar b ++ (digits ++ rest)))).head? = some 36
      then (dollar a ++ (letters ++ (dollar b ++ (digits ++ rest)))).tail
      else dollar a ++ (letters ++ (dollar b ++ (digits ++ rest))))
      = letters ++ (dollar b ++ (digits ++ rest)) := by
    cases a with
    | true => simp [dollar]
    | false =>
      have := of_decide_eq_false hA
      rw [if_neg this]
      simp [dollar]
  obtain ⟨ht1, ht2⟩ := takeWhile_stop isAlpha letters (dollar b ++ (digits ++ rest)) hl hX
  obtain ⟨ht3, ht4⟩ := takeWhile_stop isDigit digits rest hd hr
  have hle : letters.isEmpty = false := by
    cases letters with
    | nil => exact absurd rfl hl0
    | cons l ls => rfl
  unfold CPos.parse
  simp only [hs1, ht1, ht2, hle, Bool.false_eq_true, if_false, hcol, hs3,
    ht3, ht4, hA, hB, stoiDigits, decimalFrom_zero]
  cases digits with
  | nil => simp
  | cons d ds =>
    simp only [List.isEmpty_cons, Bool.false_eq_true, if_false, reduceCtorEq]
    by_cases hbig : decimalValue (d :: ds) ≤ 2147483647
    · have hnb : ¬ 2147483647 < decimalValue (d :: ds) := by omega
      have hpos : ¬ ((decimalValue (d :: ds) : Nat) : Int) < 0 := by omega
      simp only [hbig, if_true, hnb, if_false, hpos]
      cases rest with
      | nil => simp
      | cons r rs => simp
    · have hnb : 2147483647 < decimalValue (d :: ds) := by omega
      simp only [hbig, if_false, hnb, if_true]

theorem dollar_split (s : Bytes) :
    s = dollar (decide (s.head? = some 36)) ++ (if s.head? = some 36 then s.tail else s) := by
  cases s with
  | nil => simp [dollar]
  | cons c t =>
    by_cases hc : c = 36
    · simp [dollar, hc]
    · simp [dollar, hc]

/-- A text the constructor accepts has the form `[$]letters[$]digits`. -/
theorem parse_inv (str : Bytes) (p : CPos) (h : CPos.parse str = some p) :
    ∃ (a b : Bool) (letters digits : Bytes),
      str = dollar a ++ (letters ++ (dollar b ++ digits)) ∧
      letters ≠ [] ∧ letters.all isAlpha = true ∧
      digits ≠ [] ∧ digits.all isDigit = true ∧ decimalValue digits ≤ 2147483647 := by
  unfold CPos.parse at h
  dsimp only at h
  have h1 := dollar_split str
  generalize hs1 : (if str.head? = some 36 then str.tail else str) = s1 at h h1
  have h2 := dollar_split (s1.dropWhile isAlpha)
  generalize hs3 : (if (s1.dropWhile isAlpha).head? = some 36 then (s1.dropWhile isAlpha).tail
    else s1.dropWhile isAlpha) = s3 at h h2
  have hall : (s1.takeWhile isAlpha).all isAlpha = true := List.all_takeWhile
  have hdall : (s3.takeWhile isDigit).all isDigit = true := List.all_takeWhile
  by_cases hle : (s1.takeWhile isAlpha).isEmpty = true
  · simp [hle] at h
  · obtain ⟨col, hcol⟩ := convertColumn_some _ hall
    simp only [hle, Bool.false_eq_true, if_false, hcol] at h
    by_cases hde : (s3.takeWhile isDigit).isEmpty = true
    · simp [hde] at h
    · simp only [hde, Bool.false_eq_true, if_false, stoiDigits, decimalFrom_zero] at h
      by_cases hbig : decimalValue (s3.takeWhile isDigit) ≤ 2147483647
      · simp only [hbig, if_true] at h
        by_cases hs4 : (s3.dropWhile isDigit).isEmpty = true
        · refine ⟨decide (str.head? = some 36), decide ((s1.dropWhile isAlpha).head? = some 36),
            s1.takeWhile isAlpha, s3.takeWhile isDigit, ?_, ?_, hall, ?_, hdall, hbig⟩
          · have h3 : s3 = s3.takeWhile isDigit := by
              have := List.takeWhile_append_dropWhile isDigit s3
              rw [List.isEmpty_iff.mp hs4, List.append_nil] at this
              exact this.symm
            have h4 : s1 = s1.takeWhile isAlpha ++ s1.dropWhile isAlpha :=
              (List.takeWhile_append_dropWhile isAlpha s1).symm
            rw [← h3, ← h2, ← h4]
            exact h1
          · intro hn
            rw [hn] at hle
            exact hle rfl
          · intro hn
            rw [hn] at hde
            exact hde rfl
        · simp [hs4] at h
      · simp [hbig] at h

theorem parse_no_letters (a : Bool) (rest : Bytes)
    (h : ∀ c, rest.head? = some c → isAlpha c = false ∧ (a = false → c ≠ 36)) :
    CPos.parse (dollar a ++ rest) = none := by
  have htw : rest.takeWhile isAlpha = [] := by
    cases rest with
    | nil => rfl
    | cons c t => simp [List.takeWhile, (h c rfl).1]
  unfold CPos.parse
  cases a with
  | true => simp [dollar, htw]
  | false =>
    have hne : ¬ rest.head? = some 36 := fun hc => (h 36 hc).2 rfl rfl
    simp [dollar, hne, htw]

/-- C29. The constructor of a position from a text succeeds exactly on the
texts that consist of an optional `$`, one or more ASCII letters, an optional
`$` and one or more decimal digits whose value fits an `int`, and nothing
else.  It throws when no letter follows the optional leading `$`, when no
digit follows the letters and the optional `$` (for one, when a sign stands
there), when a character other than a digit follows the digits, and when the
value of the digits exceeds the `int` range.  So `$A$1` is accepted, and `1A`,
`A`, `A-1` and `A1x` are not. -/
theorem C29_position_literal_grammar :
    (∀ (str : Bytes),
        (CPos.parse str).isSome = true ↔
          ∃ (a b : Bool) (letters digits : Bytes),
            str = dollar a ++ (letters ++ (dollar b ++ digits)) ∧
            letters ≠ [] ∧ letters.all isAlpha = true ∧
            digits ≠ [] ∧ digits.all isDigit = true ∧ decimalValue digits ≤ 2147483647) ∧
    (∀ (a : Bool) (rest : Bytes),
        (∀ c, rest.head? = some c → isAlpha c = false ∧ (a = false → c ≠ 36)) →
        CPos.parse (dollar a ++ rest) = none) ∧
    (∀ (a b : Bool) (letters rest : Bytes), letters ≠ [] → letters.all isAlpha = true →
        (∀ c, rest.head? = some c →
          isDigit c = false ∧ (b = false → isAlpha c = false ∧ c ≠ 36)) →
        CPos.parse (dollar a ++ (letters ++ (dollar b ++ rest))) = none) ∧
    (∀ (a b : Bool) (letters rest : Bytes) (sign : Byte), letters ≠ [] →
        letters.all isAlpha = true → sign = 43 ∨ sign = 45 →
        CPos.parse (dollar a ++ (letters ++ (dollar b ++ sign :: rest))) = none) ∧
    (∀ (a b : Bool) (letters digits rest : Bytes) (c : Byte), letters ≠ [] →
        letters.all isAlpha = true → digits ≠ [] → digits.all isDigit = true →
        isDigit c = false →
        CPos.parse (dollar a ++ (letters ++ (dollar b ++ (digits ++ c :: rest)))) = none) ∧
    (∀ (a b : Bool) (letters digits : Bytes), letters ≠ [] → letters.all isAlpha = true →
        digits.all isDigit = true → 2147483647 < decimalValue digits →
        CPos.parse (dollar a ++ (letters ++ (dollar b ++ digits))) = none) ∧
    (CPos.parse [36, 65, 36, 49] = some posAbsA1 ∧ CPos.parse [49, 65] = none ∧
      CPos.parse [65] = none ∧ CPos.parse [65, 45, 49] = none ∧
      CPos.parse [65, 49, 120] = none) := by
  have hempty : ∀ (a b : Bool) (letters rest : Bytes), letters ≠ [] →
      letters.all isAlpha = true →
      (∀ c, rest.head? = some c →
        isDigit c = false ∧ (b = false → isAlpha c = false ∧ c ≠ 36)) →
      CPos.parse (dollar a ++ (letters ++ (dollar b ++ rest))) = none := by
    intro a b letters rest hl0 hl hrest
    obtain ⟨col, hcol⟩ := convertColumn_some letters hl
    have := parse_shape a b letters [] rest hl hl0 rfl
      (fun hb _ c hc => (hrest c hc).2 hb) (fun c hc => (hrest c hc).1) col hcol
    simpa using this
  refine ⟨?_, parse_no_letters, hempty, ?_, ?_, ?_,
    ⟨by decide, by decide, by decide, by decide, by decide⟩⟩
  · intro str
    constructor
    · intro h
      obtain ⟨p, hp⟩ := Option.isSome_iff_exists.mp h
      exact parse_inv str p hp
    · rintro ⟨a, b, letters, digits, hstr, hl0, hl, hd0, hd, hfit⟩
      obtain ⟨col, hcol⟩ := convertColumn_some letters hl
      have := parse_shape a b letters digits [] hl hl0 hd (fun _ hd1 => absurd hd1 hd0)
        (fun c hc => by simp at hc) col hcol
      rw [List.append_nil] at this
      rw [hstr, this, if_neg hd0, if_neg (by omega), if_pos rfl]
      rfl
  · intro a b letters rest sign hl0 hl hsign
    apply hempty a b letters (sign :: rest) hl0 hl
    intro c hc
    simp only [List.head?_cons, Option.some.injEq] at hc
    rw [← hc]
    rcases hsign with h | h
    · rw [h]
      exact ⟨by decide, fun _ => ⟨by decide, by decide⟩⟩
    · rw [h]
      exact ⟨by decide, fun _ => ⟨by decide, by decide⟩⟩
  · intro a b letters digits rest c hl0 hl hd0 hd hc
    obtain ⟨col, hcol⟩ := convertColumn_some letters hl
    have := parse_shape a b letters digits (c :: rest) hl hl0 hd (fun _ hd1 => absurd hd1 hd0)
      (fun x hx => by
        simp only [List.head?_cons, Option.some.injEq] at hx
        rw [← hx]; exact hc) col hcol
    rw [this, if_neg hd0]
    split
    · rfl
    · simp
  · intro a b letters digits hl0 hl hd hbig
    obtain ⟨col, hcol⟩ := convertColumn_some letters hl
    have := parse_shape a b letters digits [] hl hl0 hd
      (fun _ hd1 => by rw [hd1] at hbig; simp [decimalValue] at hbig)
      (fun c hc => by simp at hc) col hcol
    rw [List.append_nil] at this
    rw [this]
    by_cases hd0 : digits = []
    · rw [if_pos hd0]
    · rw [if_neg hd0, if_pos hbig]

theorem letterRank_upper (c d : Byte) (h : toUpper d = toUpper c) :
    letterRank d = letterRank c := by
  have hc1 := c.isLt
  have hd1 := d.isLt
  unfold toUpper at h
  unfold letterRank
  split at h <;> split at h <;> split <;> split <;> omega

theorem bijective26_upper :
    ∀ (letters other : Bytes),
      other.map toUpper = letters.map toUpper → bijective26 other = bijective26 letters := by
  intro letters
  induction letters with
  | nil =>
    intro other h
    simp only [List.map_nil, List.map_eq_nil_iff] at h
    rw [h]
  | cons c rest ih =>
    intro other h
    cases other with
    | nil => simp at h
    | cons d ds =>
      simp only [List.map_cons, List.cons.injEq] at h
      have hlen : ds.length = rest.length := by
        have := congrArg List.length h.2
        simpa using this
      simp only [bijective26, letterRank_upper c d h.1, ih ds h.2, hlen]

/-- C30, amended. On a text `[$]letters[$]digits` that the constructor accepts
and whose letters have a bijective base-26 value that fits an `int`, the
position has `absCol` true exactly when the text starts with `$`, `absRow`
true exactly when a `$` stands between the letters and the digits, the
decimal value of the digits as row, and as column the bijective base-26
value of the letters minus one, which does not depend on the case of the
letters (`A` gives 0, `Z` 25, `AA` 26, `AAAA` 18278; `a1` and `A1` give the
same position). -/
theorem C30_position_literal_value (a b : Bool) (letters digits : Bytes)
    (hl0 : letters ≠ []) (hl : letters.all isAlpha = true)
    (hd0 : digits ≠ []) (hd : digits.all isDigit = true)
    (hfit : decimalValue digits ≤ 2147483647)
    (hcolumn : bijective26 letters ≤ 2147483647) :
    CPos.parse (dollar a ++ (letters ++ (dollar b ++ digits)))
        = some { m_Row := (decimalValue digits : Int), m_AbsRow := b,
                 m_Column := bijective26 letters - 1, m_AbsColumn := a } ∧
      ((dollar a ++ (letters ++ (dollar b ++ digits))).head? = some 36 ↔ a = true) ∧
      (∀ (other : Bytes), other.map toUpper = letters.map toUpper →
        CPos.parse (dollar a ++ (other ++ (dollar b ++ digits)))
          = CPos.parse (dollar a ++ (letters ++ (dollar b ++ digits)))) ∧
      (bijective26 [65] - 1 = 0 ∧ bijective26 [90] - 1 = 25 ∧ bijective26 [65, 65] - 1 = 26 ∧
        bijective26 [65, 65, 65, 65] - 1 = 18278) ∧
      CPos.parse [97, 49] = CPos.parse [65, 49] ∧
      CPos.parse [65, 49] = some { m_Row := 1, m_Column := 0 } := by
  have hshape : ∀ (ls : Bytes), ls ≠ [] → ls.all isAlpha = true →
      bijective26 ls ≤ 2147483647 →
      CPos.parse (dollar a ++ (ls ++ (dollar b ++ digits)))
        = some { m_Row := (decimalValue digits : Int), m_AbsRow := b,
                 m_Column := bijective26 ls - 1, m_AbsColumn := a } := by
    intro ls hls0 hls hlsfit
    have := parse_shape a b ls digits [] hls hls0 hd (fun _ hd1 => absurd hd1 hd0)
      (fun c hc => by simp at hc) (bijective26 ls - 1) (convertColumn_eq ls hls hlsfit)
    rw [List.append_nil] at this
    rw [this, if_neg hd0, if_neg (by omega), if_pos rfl]
  refine ⟨hshape letters hl0 hl hcolumn, ?_, ?_, by decide, by decide, by decide⟩
  · cases a with
    | true => simp [dollar]
    | false =>
      simp only [dollar, Bool.false_eq_true, if_false, List.nil_append, iff_false]
      intro hc
      cases letters with
      | nil => exact hl0 rfl
      | cons l ls =>
        simp only [List.cons_append, List.head?_cons, Option.some.injEq] at hc
        simp only [List.all_cons, Bool.and_eq_true] at hl
        exact alpha_not_dollar l hl.1 hc
  · intro other hother
    have hlen : other.length = letters.length := by
      have := congrArg List.length hother
      simpa using this
    have ho0 : other ≠ [] := by
      intro hn
      rw [hn] at hlen
      exact hl0 (List.length_eq_zero.mp hlen.symm)
    have hoall : other.all isAlpha = true := by
      rw [List.all_eq_true]
      intro x hx
      obtain ⟨i, hi, hxi⟩ := List.getElem_of_mem hx
      have hi2 : i < letters.length := by omega
      have hmap : toUpper other[i] = toUpper letters[i] := by
        have h1 : (other.map toUpper)[i]? = (letters.map toUpper)[i]? := by rw [hother]
        simp only [List.getElem?_map, List.getElem?_eq_getElem hi, List.getElem?_eq_getElem hi2,
          Option.map_some', Option.some.injEq] at h1
        exact h1
      have hla : isAlpha letters[i] = true :=
        (List.all_eq_true.mp hl) _ (List.getElem_mem hi2)
      rw [← hxi]
      have hx1 := (other[i]).isLt
      have hl1 := (letters[i]).isLt
      revert hmap hla
      generalize other[i] = y
      generalize letters[i] = z
      intro hmap hla
      have hy1 := y.isLt
      unfold isAlpha at hla ⊢
      simp only [Bool.or_eq_true, Bool.and_eq_true, decide_eq_true_eq] at hla ⊢
      unfold toUpper at hmap
      split at hmap <;> split at hmap <;> omega
    have hsame := bijective26_upper letters other hother
    rw [hshape other ho0 hoall (by omega), hshape letters hl0 hl hcolumn, hsame]

/-- C30 at the text `$AB12`: row 12, column 27, absolute column. -/
theorem C30_position_literal_value_witness :
    ([65, 66] : Bytes) ≠ [] ∧ ([65, 66] : Bytes).all isAlpha = true ∧
      ([49, 50] : Bytes) ≠ [] ∧ ([49, 50] : Bytes).all isDigit = true ∧
      decimalValue [49, 50] ≤ 2147483647 ∧ bijective26 [65, 66] ≤ 2147483647 ∧
      CPos.parse (dollar true ++ ([65, 66] ++ (dollar false ++ [49, 50])))
        = some { m_Row := (decimalValue [49, 50] : Int), m_AbsRow := false,
                 m_Column := bijective26 [65, 66] - 1, m_AbsColumn := true } ∧
      CPos.parse [36, 65, 66, 49, 50]
        = some { m_Row := 12, m_AbsRow := false, m_Column := 27, m_AbsColumn := true } :=
  ⟨by decide, by decide, by decide, by decide, by decide, by decide,
    (C30_position_literal_value true false [65, 66] [49, 50] (by decide) (by decide) (by decide)
      (by decide) (by decide) (by decide)).1,
    by decide⟩

/-- C30 fails on the text `AAAAAAAA1`, which the constructor accepts: the
bijective base-26 value of the eight letters is 8353082583, more than an `int`
holds, and the column of the position is -236852010, not 8353082582.  The
same happens with the lower-case letters. -/
theorem C30_counterexample :
    CPos.parse (dollar false ++ ([65, 65, 65, 65, 65, 65, 65, 65] ++ (dollar false ++ [49])))
        = some { m_Row := 1, m_AbsRow := false, m_Column := -236852010, m_AbsColumn := false } ∧
      decimalValue [49] = 1 ∧
      bijective26 [65, 65, 65, 65, 65, 65, 65, 65] - 1 = 8353082582 ∧
      CPos.parse (dollar false ++ ([65, 65, 65, 65, 65, 65, 65, 65] ++ (dollar false ++ [49])))
        ≠ some { m_Row := (decimalValue [49] : Int), m_AbsRow := false,
                 m_Column := bijective26 [65, 65, 65, 65, 65, 65, 65, 65] - 1,
                 m_AbsColumn := false } ∧
      CPos.parse [97, 97, 97, 97, 97, 97, 97, 97, 49]
        = some { m_Row := 1, m_Column := -236852010 } := by
  decide

/-! ## C31: column numbering -/

theorem toUpper_of_letterRank (c d : Byte) (hd : isAlpha d = true)
    (h : letterRank c = letterRank d) : toUpper c = toUpper d := by
  unfold isAlpha at hd
  simp only [Bool.or_eq_true, Bool.and_eq_true, decide_eq_true_eq] at hd
  unfold letterRank at h
  unfold toUpper
  split at h <;> split at h <;> split <;> split <;> omega

theorem bijective26_snoc (l : Bytes) (c : Byte) :
    bijective26 (l ++ [c]) = 26 * bijective26 l + letterRank c := by
  induction l with
  | nil => simp [bijective26]
  | cons x xs ih =>
    have h1 : bijective26 ((x :: xs) ++ [c])
        = letterRank x * 26 ^ (xs ++ [c]).length + bijective26 (xs ++ [c]) := rfl
    have h2 : bijective26 (x :: xs) = letterRank x * 26 ^ xs.length + bijective26 xs := rfl
    rw [h1, h2, ih, List.length_append, List.length_singleton, pow_succ]
    ring

theorem bijective26_reverse_inj :
    ∀ (r1 r2 : Bytes), r1.all isAlpha = true → r2.all isAlpha = true →
      bijective26 r1.reverse = bijective26 r2.reverse → r1.map toUpper = r2.map toUpper := by
  intro r1
  induction r1 with
  | nil =>
    intro r2 _ h2 h
    cases r2 with
    | nil => rfl
    | cons d ds =>
      exfalso
      simp only [List.all_cons, Bool.and_eq_true] at h2
      rw [List.reverse_cons, bijective26_snoc] at h
      have := bijective26_nonneg ds.reverse (by simpa using h2.2)
      have := (letterRank_range d h2.1).1
      simp only [List.reverse_nil, bijective26] at h
      omega
  | cons c cs ih =>
    intro r2 h1 h2 h
    simp only [List.all_cons, Bool.and_eq_true] at h1
    have hc := letterRank_range c h1.1
    have hcs := bijective26_nonneg cs.reverse (by simpa using h1.2)
    cases r2 with
    | nil =>
      exfalso
      rw [List.reverse_cons, bijective26_snoc] at h
      simp only [List.reverse_nil, bijective26] at h
      omega
    | cons d ds =>
      simp only [List.all_cons, Bool.and_eq_true] at h2
      have hd := letterRank_range d h2.1
      rw [List.reverse_cons, bijective26_snoc, List.reverse_cons, bijective26_snoc] at h
      have hr : letterRank c = letterRank d := by omega
      have hv : bijective26 cs.reverse = bijective26 ds.reverse := by omega
      simp only [List.map_cons, toUpper_of_letterRank c d h2.1 hr, ih ds h1.2 h2.2 hv]

theorem bijective26_inj (l1 l2 : Bytes) (h1 : l1.all isAlpha = true) (h2 : l2.all isAlpha = true)
    (h : bijective26 l1 = bijective26 l2) : l1.map toUpper = l2.map toUpper := by
  have := bijective26_reverse_inj l1.reverse l2.reverse (by simpa using h1) (by simpa using h2)
    (by simpa using h)
  simp only [List.map_reverse] at this
  exact List.reverse_injective this

theorem bijective26_surj : ∀ (v : Nat), 1 ≤ v →
    ∃ letters : Bytes, letters ≠ [] ∧ letters.all isAlpha = true ∧
      bijective26 letters = (v : Int) := by
  intro v
  induction v using Nat.strong_induction_on with
  | _ v ih =>
    intro hv
    have hr : 64 + ((v - 1) % 26 + 1) < 256 := by omega
    have hrank : letterRank (⟨64 + ((v - 1) % 26 + 1), hr⟩ : Byte)
        = (((v - 1) % 26 + 1 : Nat) : Int) := by
      unfold letterRank
      simp only
      split <;> omega
    have halpha : isAlpha (⟨64 + ((v - 1) % 26 + 1), hr⟩ : Byte) = true := by
      unfold isAlpha
      simp only [Bool.or_eq_true, Bool.and_eq_true, decide_eq_true_eq]
      omega
    by_cases hq : (v - 1) / 26 = 0
    · refine ⟨[⟨64 + ((v - 1) % 26 + 1), hr⟩], by simp, by simp [halpha], ?_⟩
      simp only [bijective26, List.length_nil, pow_zero, mul_one, add_zero, hrank]
      omega
    · obtain ⟨l, hl0, hl, hlv⟩ := ih ((v - 1) / 26) (by omega) (by omega)
      refine ⟨l ++ [⟨64 + ((v - 1) % 26 + 1), hr⟩], by simp, by simp [hl, halpha], ?_⟩
      rw [bijective26_snoc, hlv, hrank]
      omega

/-- The index of a non-empty run of letters whose value fits an `int` lies
between 0 and 2147483646. -/
theorem convertColumn_range (letters : Bytes) (h0 : letters ≠ [])
    (h : letters.all isAlpha = true) (hfit : bijective26 letters ≤ 2147483647) :
    0 ≤ bijective26 letters - 1 ∧ bijective26 letters - 1 ≤ 2147483646 := by
  cases letters with
  | nil => exact absurd rfl h0
  | cons x xs =>
    simp only [List.all_cons, Bool.and_eq_true] at h
    have h1 := (letterRank_range x h.1).1
    have h2 := bijective26_nonneg xs h.2
    have h3 : (1 : Int) ≤ 26 ^ xs.length := one_le_pow₀ (by norm_num)
    have h4 : letterRank x * 1 ≤ letterRank x * 26 ^ xs.length :=
      mul_le_mul_of_nonneg_left h3 (by omega)
    simp only [bijective26] at hfit ⊢
    omega

/-- C31, amended. On non-empty strings of letters whose bijective base-26 value
fits an `int`, `convertColumn` gives two strings the same column index exactly
when they are equal up to the case of the letters; the index of such a string
lies between 0 and 2147483646; and every index from 0 to 2147483646 is the
index of such a string.  The condition on the value is needed: `MWLQKWW`,
whose value is `2 ^ 32 + 1`, gets the index 0 of `A`. -/
theorem C31_column_numbering_is_bijective :
    (∀ (l1 l2 : Bytes), l1 ≠ [] → l2 ≠ [] → l1.all isAlpha = true → l2.all isAlpha = true →
        bijective26 l1 ≤ 2147483647 → bijective26 l2 ≤ 2147483647 →
        (CPos.convertColumn l1 = CPos.convertColumn l2 ↔ l1.map toUpper = l2.map toUpper)) ∧
    (∀ (letters : Bytes), letters ≠ [] → letters.all isAlpha = true →
        bijective26 letters ≤ 2147483647 →
        ∃ n : Int, 0 ≤ n ∧ n ≤ 2147483646 ∧ CPos.convertColumn letters = some n) ∧
    (∀ (n : Int), 0 ≤ n → n ≤ 2147483646 →
        ∃ letters : Bytes, letters ≠ [] ∧ letters.all isAlpha = true ∧
          bijective26 letters ≤ 2147483647 ∧ CPos.convertColumn letters = some n) ∧
    (CPos.convertColumn [65] = some 0 ∧ CPos.convertColumn [122] = some 25 ∧
      CPos.convertColumn [65, 97] = some 26 ∧ CPos.convertColumn [97, 65] = some 26 ∧
      CPos.convertColumn [65, 66] = some 27 ∧
      CPos.convertColumn [70, 88, 83, 72, 82, 88, 87] = some 2147483646) ∧
    (bijective26 [77, 87, 76, 81, 75, 87, 87] = 4294967297 ∧
      CPos.convertColumn [77, 87, 76, 81, 75, 87, 87] = CPos.convertColumn [65]) := by
  refine ⟨?_, ?_, ?_, ⟨by decide, by decide, by decide, by decide, by decide, by decide⟩,
    ⟨by decide, by decide⟩⟩
  · intro l1 l2 _ _ h1 h2 hf1 hf2
    rw [convertColumn_eq l1 h1 hf1, convertColumn_eq l2 h2 hf2]
    constructor
    · intro h
      simp only [Option.some.injEq] at h
      exact bijective26_inj l1 l2 h1 h2 (by omega)
    · intro h
      rw [bijective26_upper l2 l1 h]
  · intro letters h0 h hfit
    obtain ⟨hlo, hhi⟩ := convertColumn_range letters h0 h hfit
    exact ⟨bijective26 letters - 1, hlo, hhi, convertColumn_eq letters h hfit⟩
  · intro n hn hmax
    obtain ⟨letters, h0, h, hv⟩ := bijective26_surj (n.toNat + 1) (by omega)
    have hfit : bijective26 letters ≤ 2147483647 := by rw [hv]; omega
    refine ⟨letters, h0, h, hfit, ?_⟩
    rw [convertColumn_eq letters h hfit, hv]
    congr 1
    omega

/-- C31 fails at the column index 2147483647, the largest value of an `int`:
no non-empty string of letters whose value fits an `int` has this index, since
a string with this index has the value 2147483648.  The string `FXSHRXX` has
that value; on it the computation in `int` overflows, to -2147483648 in the
loop and once more in `column - 1`. -/
theorem C31_counterexample :
    ((0 : Int) ≤ 2147483647 ∧ wrapInt 2147483647 = 2147483647) ∧
    (∀ (letters : Bytes), letters ≠ [] → letters.all isAlpha = true →
        bijective26 letters ≤ 2147483647 →
        CPos.convertColumn letters ≠ some 2147483647) ∧
    (∀ (letters : Bytes), bijective26 letters - 1 = 2147483647 →
        ¬ bijective26 letters ≤ 2147483647) ∧
    (bijective26 [70, 88, 83, 72, 82, 88, 88] = 2147483648 ∧
      convertColumnFrom 0 [70, 88, 83, 72, 82, 88, 88] = some (-2147483648) ∧
      wrapInt (-2147483648 - 1) = 2147483647) := by
  refine ⟨⟨by decide, by decide⟩, ?_, ?_, ⟨by decide, by decide, by decide⟩⟩
  · intro letters h0 h hfit
    obtain ⟨_, hhi⟩ := convertColumn_range letters h0 h hfit
    rw [convertColumn_eq letters h hfit]
    intro hc
    simp only [Option.some.injEq] at hc
    omega
  · intro letters hv
    omega

/-! ## C32: the order of positions -/

theorem CPos.same_congr_left {a b : CPos} (h : a.same b = true) (q : CPos) :
    a.same q = b.same q := by
  rw [CPos.same_symm a q, CPos.same_symm b q]
  exact CPos.same_congr_right h

theorem setCell_congr (pf : Platform) (parser : ExprParser) (sheet : Sheet) {a b : CPos}
    (h : a.same b = true) (contents : Bytes) :
    (setCell pf parser sheet a contents).1 = (setCell pf parser sheet b contents).1 ∧
      ∀ q, (setCell pf parser sheet a contents).2.find q
        = (setCell pf parser sheet b contents).2.find q := by
  have hslot : sheet.slot a = sheet.slot b := by
    unfold Sheet.slot
    rw [Sheet.find_congr sheet h]
  by_cases hc : contents.head? = some 61
  · cases hp : parseProgram parser contents with
    | none =>
      rw [setCell_rejected pf parser sheet a contents hc hp,
        setCell_rejected pf parser sheet b contents hc hp]
      exact ⟨rfl, fun _ => rfl⟩
    | some stack =>
      rw [setCell_formula pf parser sheet a contents stack hc hp,
        setCell_formula pf parser sheet b contents stack hc hp]
      refine ⟨rfl, fun q => ?_⟩
      dsimp only
      rw [Sheet.find_assign, Sheet.find_assign, hslot, CPos.same_congr_left h q]
  · rw [setCell_literal pf parser sheet a contents hc,
      setCell_literal pf parser sheet b contents hc]
    refine ⟨rfl, fun q => ?_⟩
    dsimp only
    rw [Sheet.find_assign, Sheet.find_assign, hslot, CPos.same_congr_left h q]

theorem reference_congr (pf : Platform) (fuel : Nat) {a b : CPos} (h : a.same b = true)
    (stack : List COperation) (sheet : Sheet) (depth : Nat) :
    evaluate pf fuel (.CReference a) stack sheet depth
      = evaluate pf fuel (.CReference b) stack sheet depth := by
  cases fuel with
  | zero => rfl
  | succ n =>
    simp only [evaluate]
    unfold referenceWith calculateWith
    simp only [Sheet.find_congr sheet h, Sheet.setFlag_congr _ h]

/-- C32. The order of positions is the lexicographic order on (row, column),
and two positions are the same key exactly when their rows and their columns
are equal, whatever their absolute flags; exactly one of `a < b`, same key,
`b < a` holds.  Positions that are the same key address the same cell: `find`
and `getValue` return the same, `setCell` returns the same flag and leaves
sheets in which `find` returns the same at every position, and a `Ref` node
evaluates to the same.  The literals `$A$1`, `$A1`, `A$1` and `A1` are the
same key. -/
theorem C32_position_order_ignores_flags (a b : CPos) :
    (a.less b = true ↔
        a.m_Row < b.m_Row ∨ (a.m_Row = b.m_Row ∧ a.m_Column < b.m_Column)) ∧
      (a.same b = true ↔ a.m_Row = b.m_Row ∧ a.m_Column = b.m_Column) ∧
      ((a.less b = true ∧ a.same b = false ∧ b.less a = false) ∨
        (a.less b = false ∧ a.same b = true ∧ b.less a = false) ∨
        (a.less b = false ∧ a.same b = false ∧ b.less a = true)) ∧
      (a.same b = true →
        ∀ (pf : Platform) (parser : ExprParser) (sheet : Sheet) (contents : Bytes) (fuel : Nat)
          (stack : List COperation) (depth : Nat),
          sheet.find a = sheet.find b ∧
          getValue pf sheet a = getValue pf sheet b ∧
          (setCell pf parser sheet a contents).1 = (setCell pf parser sheet b contents).1 ∧
          (∀ q, (setCell pf parser sheet a contents).2.find q
            = (setCell pf parser sheet b contents).2.find q) ∧
          evaluate pf fuel (.CReference a) stack sheet depth
            = evaluate pf fuel (.CReference b) stack sheet depth) ∧
      ((CPos.parse [36, 65, 36, 49]).map (fun p => p.same posA1) = some true ∧
        (CPos.parse [36, 65, 49]).map (fun p => p.same posA1) = some true ∧
        (CPos.parse [65, 36, 49]).map (fun p => p.same posA1) = some true ∧
        (CPos.parse [65, 49]).map (fun p => p.same posA1) = some true ∧
        CPos.parse [36, 65, 36, 49] ≠ CPos.parse [65, 49]) := by
  refine ⟨?_, ?_, ?_, ?_, by decide, by decide, by decide, by decide, by decide⟩
  · simp only [CPos.less, Bool.or_eq_true, Bool.and_eq_true, decide_eq_true_eq]
  · simp only [CPos.same, Bool.and_eq_true, decide_eq_true_eq]
  · simp only [CPos.less, CPos.same, Bool.or_eq_true, Bool.and_eq_true, decide_eq_true_eq,
      Bool.or_eq_false_iff, Bool.and_eq_false_iff, decide_eq_false_iff_not]
    omega
  · intro h pf parser sheet contents fuel stack depth
    refine ⟨Sheet.find_congr sheet h, ?_, (setCell_congr pf parser sheet h contents).1,
      (setCell_congr pf parser sheet h contents).2, reference_congr pf fuel h stack sheet depth⟩
    unfold getValue
    exact getValueFuel_congr pf _ sheet h

/-! ## C33, C34: `getValue` preserves the sheet and terminates -/

/-- C33. For every sheet whose flags are all clear and whose programs are
well-formed, and every position, `getValue` returns a value together with the
sheet it was given: the same positions, the same programs, and every flag
clear again.  So a second `getValue` at the position, made on the sheet the
first one left, returns the same value.  (Whenever `getValue` returns a value,
on any sheet, the sheet afterwards is the sheet before.) -/
theorem C33_getValue_preserves_sheet (pf : Platform) (sheet : Sheet) (pos : CPos)
    (hclear : AllClear sheet) (hwf : WellFormed sheet) :
    ∃ v after,
      getValue pf sheet pos = .ok (v, after) ∧ after = sheet ∧ AllClear after ∧
      after.map (fun e => e.1) = sheet.map (fun e => e.1) ∧
      after.map (fun e => e.2.m_Stack) = sheet.map (fun e => e.2.m_Stack) ∧
      getValue pf after pos = .ok (v, after) ∧
      (∀ (s s2 : Sheet) (q : CPos) (w : CValue), getValue pf s q = .ok (w, s2) → s2 = s) := by
  obtain ⟨v, hv⟩ := getValue_ok pf sheet hwf pos
  exact ⟨v, sheet, hv, rfl, hclear, rfl, rfl, hv,
    fun s s2 q w h => getValue_sheet pf s q w s2 h⟩

theorem sheetS1_wellFormed : WellFormed sheetS1 := by
  intro entry hmem
  simp only [sheetS1, List.mem_cons, List.mem_singleton, List.not_mem_nil, or_false] at hmem
  rcases hmem with rfl | rfl | rfl
  · exact Or.inr ⟨[], .num (Double.ofNat 2), rfl⟩
  · exact Or.inr ⟨[], .num (Double.ofNat 4), rfl⟩
  · exact Or.inr ⟨[], exprS1, rfl⟩

/-- C33 on `sheetS1` at `I4 = A1 + B2 * 3`. -/
theorem C33_getValue_preserves_sheet_witness :
    AllClear sheetS1 ∧ WellFormed sheetS1 ∧
      (∃ v after,
        getValue examplePlatform sheetS1 posI4 = .ok (v, after) ∧ after = sheetS1 ∧
        AllClear after ∧
        after.map (fun e => e.1) = sheetS1.map (fun e => e.1) ∧
        after.map (fun e => e.2.m_Stack) = sheetS1.map (fun e => e.2.m_Stack) ∧
        getValue examplePlatform after posI4 = .ok (v, after) ∧
        (∀ (s s2 : Sheet) (q : CPos) (w : CValue),
          getValue examplePlatform s q = .ok (w, s2) → s2 = s)) ∧
      getValue examplePlatform sheetS1 posI4 = .ok (.number (Double.ofNat 14), sheetS1) :=
  ⟨by decide, sheetS1_wellFormed,
    C33_getValue_preserves_sheet examplePlatform sheetS1 posI4 (by decide) sheetS1_wellFormed,
    by decide⟩

theorem clearCount_setFlag_true (s : Sheet) (pos : CPos) (cell : CCell)
    (hf : s.find pos = some cell) (hg : cell.m_IsCalculated = false) :
    clearCount (s.setFlag pos true) + 1 = clearCount s := by
  induction s with
  | nil => simp [Sheet.find] at hf
  | cons e rest ih =>
    obtain ⟨k, v⟩ := e
    by_cases hk : k.same pos = true
    · simp only [Sheet.find, hk, if_true, Option.some.injEq] at hf
      subst hf
      simp [Sheet.setFlag, hk, clearCount, List.filter_cons, hg]
    · simp only [Sheet.find, hk, if_false, Bool.false_eq_true] at hf
      have := ih hf
      unfold clearCount at this ⊢
      simp only [Sheet.setFlag, hk, if_false, Bool.false_eq_true, List.filter_cons]
      split
      · simp only [List.length_cons]; omega
      · exact this

/-- C34. For every sheet, cyclic or not, and every position the evaluation
started by `getValue` ends: nesting deeper than `fuelBound sheet` calls does
not occur, so that every larger bound gives the same outcome; on a sheet with
well-formed programs the outcome is a value and the sheet.  When the program
of a cell is entered, the flag of the cell was clear and is set for the nested
evaluations, which leaves one cell less with a clear flag.  On `sheetCycle`
(`A1 = A2`, `A2 = A1`, `B1 = A1 + 1`) the cells of the cycle and `B1` read
`undefined`. -/
theorem C34_evaluation_terminates (pf : Platform) (sheet : Sheet) (pos : CPos) :
    getValue pf sheet pos ≠ .outOfFuel ∧
      (∀ fuel, fuelBound sheet ≤ fuel →
        getValueFuel pf fuel sheet pos = getValue pf sheet pos) ∧
      (WellFormed sheet → ∃ v, getValue pf sheet pos = .ok (v, sheet)) ∧
      (∀ (ev : Evaluator) (cell : CCell) (root : COperation), sheet.find pos = some cell →
        cell.m_IsCalculated = false → cell.m_Stack.getLast? = some root →
        clearCount (sheet.setFlag pos true) + 1 = clearCount sheet ∧
        calculateWith ev sheet pos cell
          = match ev root cell.m_Stack (sheet.setFlag pos true) 0 with
            | .ok (result, sheet1, _) => .ok (result, sheet1.setFlag pos false)
            | .outOfRange => .outOfRange
            | .outOfFuel => .outOfFuel) ∧
      (getValue examplePlatform sheetCycle posA1 = .ok (.undefined, sheetCycle) ∧
        getValue examplePlatform sheetCycle posA2 = .ok (.undefined, sheetCycle) ∧
        getValue examplePlatform sheetCycle posB1 = .ok (.undefined, sheetCycle)) := by
  refine ⟨getValue_ne_outOfFuel pf sheet pos,
    fun fuel h => getValueFuel_eq_getValue pf sheet pos fuel h,
    fun hwf => getValue_ok pf sheet hwf pos, ?_, by decide, by decide, by decide⟩
  intro ev cell root hf hg hl
  refine ⟨clearCount_setFlag_true sheet pos cell hf hg, ?_⟩
  unfold calculateWith
  simp only [hg, Bool.false_eq_true, if_false, hl]

/-! ## C35: how often a cell is entered -/

theorem operandTraced_fst {evT : TracedEvaluator} {ev : Evaluator}
    (h : ∀ op st s d, (evT op st s d).1 = ev op st s d)
    (stack : List COperation) (sheet : Sheet) (depth : Nat) :
    (operandTraced evT stack sheet depth).1 = operandWith ev stack sheet depth := by
  unfold operandTraced operandWith
  split
  · cases stack.get? (stack.length - 1 - depth) with
    | none => rfl
    | some op => exact h op stack sheet depth
  · rfl

theorem binaryTraced_fst {evT : TracedEvaluator} {ev : Evaluator}
    (h : ∀ op st s d, (evT op st s d).1 = ev op st s d) (f : CValue → CValue → CValue)
    (stack : List COperation) (sheet : Sheet) (depth : Nat) :
    (binaryTraced evT f stack sheet depth).1 = binaryWith ev f stack sheet depth := by
  unfold binaryTraced binaryWith
  have h1 := operandTraced_fst h stack sheet depth
  cases hr : operandTraced evT stack sheet depth with
  | mk r log1 =>
    rw [hr] at h1
    simp only at h1
    rw [← h1]
    cases r with
    | ok a =>
      obtain ⟨rv, s1, d1⟩ := a
      dsimp only
      have h2 := operandTraced_fst h stack s1 d1
      cases hl : operandTraced evT stack s1 d1 with
      | mk l log2 =>
        rw [hl] at h2
        simp only at h2
        rw [← h2]
        cases l with
        | ok b => obtain ⟨lv, s2, d2⟩ := b; rfl
        | outOfRange => rfl
        | outOfFuel => rfl
    | outOfRange => rfl
    | outOfFuel => rfl

theorem unaryTraced_fst {evT : TracedEvaluator} {ev : Evaluator}
    (h : ∀ op st s d, (evT op st s d).1 = ev op st s d)
    (stack : List COperation) (sheet : Sheet) (depth : Nat) :
    (unaryTraced evT stack sheet depth).1 = unaryWith ev stack sheet depth := by
  unfold unaryTraced unaryWith
  have h1 := operandTraced_fst h stack sheet depth
  cases hr : operandTraced evT stack sheet depth with
  | mk r log1 =>
    rw [hr] at h1
    simp only at h1
    rw [← h1]
    cases r with
    | ok a => obtain ⟨rv, s1, d1⟩ := a; rfl
    | outOfRange => rfl
    | outOfFuel => rfl

theorem calculateTraced_fst {evT : List CPos → TracedEvaluator} {ev : Evaluator}
    (h : ∀ chain op st s d, (evT chain op st s d).1 = ev op st s d)
    (chain : List CPos) (sheet : Sheet) (pos : CPos) (cell : CCell) :
    (calculateTraced evT chain sheet pos cell).1 = calculateWith ev sheet pos cell := by
  unfold calculateTraced calculateWith
  split
  · rfl
  · cases cell.m_Stack.getLast? with
    | none => rfl
    | some root =>
      dsimp only
      have h1 := h (pos :: chain) root cell.m_Stack (sheet.setFlag pos true) 0
      cases hr : evT (pos :: chain) root cell.m_Stack (sheet.setFlag pos true) 0 with
      | mk r log =>
        rw [hr] at h1
        simp only at h1
        rw [← h1]
        cases r with
        | ok a => obtain ⟨v, s1, d1⟩ := a; rfl
        | outOfRange => rfl
        | outOfFuel => rfl

theorem referenceTraced_fst {evT : List CPos → TracedEvaluator} {ev : Evaluator}
    (h : ∀ chain op st s d, (evT chain op st s d).1 = ev op st s d)
    (chain : List CPos) (m_Pos : CPos) (sheet : Sheet) (depth : Nat) :
    (referenceTraced evT chain m_Pos sheet depth).1 = referenceWith ev m_Pos sheet depth := by
  unfold referenceTraced referenceWith
  cases sheet.find m_Pos with
  | none => rfl
  | some cell =>
    dsimp only
    split
    · rfl
    · have h1 := calculateTraced_fst h chain sheet m_Pos cell
      cases hr : calculateTraced evT chain sheet m_Pos cell with
      | mk r log =>
        rw [hr] at h1
        simp only at h1
        rw [← h1]
        cases r with
        | ok a => obtain ⟨v, s1⟩ := a; rfl
        | outOfRange => rfl
        | outOfFuel => rfl

/-- The logging evaluator computes what `evaluate` computes. -/
theorem evaluateTraced_fst (pf : Platform) :
    ∀ (fuel : Nat) (chain : List CPos) (op : COperation) (stack : List COperation)
      (sheet : Sheet) (depth : Nat),
      (evaluateTraced pf fuel chain op stack sheet depth).1
        = evaluate pf fuel op stack sheet depth := by
  intro fuel
  induction fuel with
  | zero => intro chain op stack sheet depth; rfl
  | succ n ih =>
    intro chain op stack sheet depth
    cases op
    case CNegation =>
      simp only [evaluateTraced, evaluate]
      exact unaryTraced_fst (ih chain) _ _ _
    case CReference p =>
      simp only [evaluateTraced, evaluate]
      exact referenceTraced_fst ih chain p sheet (depth + 1)
    case CNumber x => rfl
    case CString x => rfl
    case CValRange => rfl
    case CFuncCall => rfl
    all_goals
      simp only [evaluateTraced, evaluate]
      exact binaryTraced_fst (ih chain) _ _ _ _

theorem getValueTraced_fst (pf : Platform) (sheet : Sheet) (pos : CPos) :
    (getValueTraced pf sheet pos).1 = getValue pf sheet pos := by
  unfold getValueTraced getValue getValueFuel CCell.calculateCell
  cases sheet.find pos with
  | none => rfl
  | some cell =>
    dsimp only
    split
    · rfl
    · exact calculateTraced_fst (evaluateTraced_fst pf (fuelBound sheet)) [] sheet pos cell

theorem noReentry_append {a b : Log} (ha : NoReentry a) (hb : NoReentry b) :
    NoReentry (a ++ b) := by
  intro entry hmem
  rcases List.mem_append.mp hmem with h | h
  · exact ha entry h
  · exact hb entry h

theorem noReentry_nil : NoReentry [] := by
  intro entry hmem
  simp at hmem

theorem operandTraced_good {chain : List CPos} {evT : TracedEvaluator}
    (hgood : ∀ op st s d, Flagged chain s → NoReentry (evT op st s d).2)
    (stack : List COperation) (sheet : Sheet) (depth : Nat) (hf : Flagged chain sheet) :
    NoReentry (operandTraced evT stack sheet depth).2 := by
  unfold operandTraced
  split
  · cases stack.get? (stack.length - 1 - depth) with
    | none => exact noReentry_nil
    | some op => exact hgood op stack sheet depth hf
  · exact noReentry_nil

theorem operandTraced_sheet {evT : TracedEvaluator} {ev : Evaluator}
    (h : ∀ op st s d, (evT op st s d).1 = ev op st s d) (hr : Restores ev)
    {stack : List COperation} {sheet : Sheet} {depth : Nat} {v : CValue} {s1 : Sheet} {d1 : Nat}
    {log : Log} (e : operandTraced evT stack sheet depth = (.ok (v, s1, d1), log)) :
    s1 = sheet := by
  have h1 := operandTraced_fst h stack sheet depth
  rw [e] at h1
  exact (operandWith_restores hr h1.symm).1

theorem binaryTraced_good {chain : List CPos} {evT : TracedEvaluator} {ev : Evaluator}
    (h : ∀ op st s d, (evT op st s d).1 = ev op st s d) (hr : Restores ev)
    (hgood : ∀ op st s d, Flagged chain s → NoReentry (evT op st s d).2)
    (f : CValue → CValue → CValue)
    (stack : List COperation) (sheet : Sheet) (depth : Nat) (hf : Flagged chain sheet) :
    NoReentry (binaryTraced evT f stack sheet depth).2 := by
  unfold binaryTraced
  have h1 := operandTraced_good hgood stack sheet depth hf
  cases e1 : operandTraced evT stack sheet depth with
  | mk r log1 =>
    rw [e1] at h1
    cases r with
    | ok a =>
      obtain ⟨rv, s1, d1⟩ := a
      dsimp only
      have hs := operandTraced_sheet h hr e1
      subst hs
      have h2 := operandTraced_good hgood stack s1 d1 hf
      cases e2 : operandTraced evT stack s1 d1 with
      | mk l log2 =>
        rw [e2] at h2
        cases l with
        | ok b => obtain ⟨lv, s2, d2⟩ := b; exact noReentry_append h1 h2
        | outOfRange => exact noReentry_append h1 h2
        | outOfFuel => exact noReentry_append h1 h2
    | outOfRange => exact h1
    | outOfFuel => exact h1

theorem unaryTraced_good {chain : List CPos} {evT : TracedEvaluator}
    (hgood : ∀ op st s d, Flagged chain s → NoReentry (evT op st s d).2)
    (stack : List COperation) (sheet : Sheet) (depth : Nat) (hf : Flagged chain sheet) :
    NoReentry (unaryTraced evT stack sheet depth).2 := by
  unfold unaryTraced
  have h1 := operandTraced_good hgood stack sheet depth hf
  cases e1 : operandTraced evT stack sheet depth with
  | mk r log1 =>
    rw [e1] at h1
    cases r with
    | ok a => obtain ⟨rv, s1, d1⟩ := a; exact h1
    | outOfRange => exact h1
    | outOfFuel => exact h1

theorem flagged_enter {chain : List CPos} {sheet : Sheet} (hf : Flagged chain sheet)
    (pos : CPos) (cell : CCell) (hp : sheet.find pos = some cell) :
    Flagged (pos :: chain) (sheet.setFlag pos true) := by
  intro q hq
  rw [Sheet.find_setFlag]
  rcases List.mem_cons.mp hq with h | h
  · rw [h, if_pos (CPos.same_refl pos), hp]
    exact ⟨_, rfl, rfl⟩
  · obtain ⟨c, hc, hcf⟩ := hf q h
    rw [hc]
    split
    · exact ⟨_, rfl, rfl⟩
    · exact ⟨c, rfl, hcf⟩

theorem flagged_not_same {chain : List CPos} {sheet : Sheet} (hf : Flagged chain sheet)
    (pos : CPos) (cell : CCell) (hp : sheet.find pos = some cell)
    (hclear : cell.m_IsCalculated = false) : ∀ q ∈ chain, q.same pos = false := by
  intro q hq
  obtain ⟨c, hc, hcf⟩ := hf q hq
  cases hs : q.same pos with
  | false => rfl
  | true =>
    rw [Sheet.find_congr sheet hs, hp] at hc
    cases hc
    rw [hclear] at hcf
    cases hcf

theorem calculateTraced_good (pf : Platform) (n : Nat)
    (ih : ∀ chain op st s d, Flagged chain s → NoReentry (evaluateTraced pf n chain op st s d).2)
    (chain : List CPos) (sheet : Sheet) (pos : CPos) (cell : CCell)
    (hp : sheet.find pos = some cell) (hf : Flagged chain sheet) :
    NoReentry (calculateTraced (evaluateTraced pf n) chain sheet pos cell).2 := by
  unfold calculateTraced
  by_cases hg : cell.m_IsCalculated = true
  · simp only [hg, if_true]
    exact noReentry_nil
  · have hg2 : cell.m_IsCalculated = false := by simpa using hg
    simp only [hg2, Bool.false_eq_true, if_false]
    have hhead : NoReentry [(pos, chain)] := by
      intro entry hmem
      rw [List.mem_singleton] at hmem
      rw [hmem]
      exact flagged_not_same hf pos cell hp hg2
    cases cell.m_Stack.getLast? with
    | none => exact hhead
    | some root =>
      dsimp only
      have h1 := ih (pos :: chain) root cell.m_Stack (sheet.setFlag pos true) 0
        (flagged_enter hf pos cell hp)
      cases e1 : evaluateTraced pf n (pos :: chain) root cell.m_Stack (sheet.setFlag pos true) 0 with
      | mk r log =>
        rw [e1] at h1
        have hall : NoReentry ((pos, chain) :: log) := noReentry_append hhead h1
        cases r with
        | ok a => obtain ⟨v, s1, d1⟩ := a; exact hall
        | outOfRange => exact hall
        | outOfFuel => exact hall

theorem evaluateTraced_good (pf : Platform) :
    ∀ (fuel : Nat) (chain : List CPos) (op : COperation) (stack : List COperation)
      (sheet : Sheet) (depth : Nat), Flagged chain sheet →
      NoReentry (evaluateTraced pf fuel chain op stack sheet depth).2 := by
  intro fuel
  induction fuel with
  | zero => intro chain op stack sheet depth _; exact noReentry_nil
  | succ n ih =>
    intro chain op stack sheet depth hf
    cases op
    case CNegation =>
      simp only [evaluateTraced]
      exact unaryTraced_good (ih chain) _ _ _ hf
    case CReference p =>
      simp only [evaluateTraced]
      unfold referenceTraced
      cases hp : sheet.find p with
      | none => exact noReentry_nil
      | some cell =>
        dsimp only
        split
        · exact noReentry_nil
        · have h1 := calculateTraced_good pf n ih chain sheet p cell hp hf
          cases e1 : calculateTraced (evaluateTraced pf n) chain sheet p cell with
          | mk r log =>
            rw [e1] at h1
            cases r with
            | ok a => obtain ⟨v, s1⟩ := a; exact h1
            | outOfRange => exact h1
            | outOfFuel => exact h1
    case CNumber x => exact noReentry_nil
    case CString x => exact noReentry_nil
    case CValRange => exact noReentry_nil
    case CFuncCall => exact noReentry_nil
    all_goals
      simp only [evaluateTraced]
      exact binaryTraced_good (evaluateTraced_fst pf n chain) (evaluate_restores pf n) (ih chain)
        _ _ _ _ hf

/-- C35, amended. Within a single outer `getValue` call no cell is entered
while an evaluation of that cell is in progress: in the log of the run, which
computes what `getValue` computes, every entry enters a cell that is none of
the cells in the chain of evaluations in progress at that time.  So a chain
of nested cell evaluations enters each cell at most once; a cell that is
reached through several references is entered once for each of them. -/
theorem C35_no_cell_is_reentered (pf : Platform) (sheet : Sheet) (pos : CPos) :
    (getValueTraced pf sheet pos).1 = getValue pf sheet pos ∧
      (∀ entry ∈ (getValueTraced pf sheet pos).2, ∀ q ∈ entry.2, q.same entry.1 = false) := by
  refine ⟨getValueTraced_fst pf sheet pos, ?_⟩
  have hf : Flagged [] sheet := by
    intro q hq
    simp at hq
  unfold getValueTraced
  cases hp : sheet.find pos with
  | none => exact noReentry_nil
  | some cell =>
    dsimp only
    split
    · exact noReentry_nil
    · exact calculateTraced_good pf (fuelBound sheet) (evaluateTraced_good pf (fuelBound sheet))
        [] sheet pos cell hp hf

/-- C35 as stated fails on `sheetTwice` (`A1 = B1 + B1`, `B1 = 1`): the single
call `getValue(A1)`, which returns `2`, enters the cell `B1` twice, once for
each operand of the addition, both times with `A1` in progress. -/
theorem C35_counterexample :
    getValue examplePlatform sheetTwice posA1 = .ok (.number (Double.ofNat 2), sheetTwice) ∧
      (getValueTraced examplePlatform sheetTwice posA1).1
        = getValue examplePlatform sheetTwice posA1 ∧
      (getValueTraced examplePlatform sheetTwice posA1).2
        = [(posA1, []), (posB1, [posA1]), (posB1, [posA1])] ∧
      (((getValueTraced examplePlatform sheetTwice posA1).2).filter
        (fun entry => entry.1.same posB1)).length = 2 := by
  refine ⟨by decide, by decide, by decide, by decide⟩

/-! ## C36: index safety -/

theorem program_cloneShift (dr dc : Int) (e : Expr) :
    e.program.map (COperation.cloneShift dr dc) = (e.cloneShift dr dc).program := by
  induction e with
  | num d => rfl
  | str s => rfl
  | ref p => rfl
  | range => rfl
  | func args => simp [Expr.program, Expr.cloneShift, COperation.cloneShift]
  | neg e ih => simp [Expr.program, Expr.cloneShift, COperation.cloneShift, ih]
  | bin op l r ihl ihr =>
    have hop : COperation.cloneShift dr dc op.node = op.node := by cases op <;> rfl
    simp [Expr.program, Expr.cloneShift, ihl, ihr, hop]

theorem Sheet.mem_assign_cell (s : Sheet) (pos : CPos) (c : CCell) (e : CPos × CCell)
    (h : e ∈ Sheet.assign s pos c) : e.2 = c ∨ e ∈ s := by
  induction s with
  | nil =>
    simp only [Sheet.assign, List.mem_singleton] at h
    subst h
    exact Or.inl rfl
  | cons a rest ih =>
    obtain ⟨k, v⟩ := a
    by_cases h1 : pos.less k = true
    · simp only [Sheet.assign, h1, if_true, List.mem_cons] at h
      rcases h with h | h | h
      · subst h; exact Or.inl rfl
      · subst h; exact Or.inr (List.mem_cons_self _ _)
      · exact Or.inr (List.mem_cons_of_mem _ h)
    · by_cases h2 : k.less pos = true
      · simp only [Sheet.assign, h1, h2, if_true, if_false, Bool.false_eq_true,
          List.mem_cons] at h
        rcases h with h | h
        · subst h; exact Or.inr (List.mem_cons_self _ _)
        · rcases ih h with h3 | h3
          · exact Or.inl h3
          · exact Or.inr (List.mem_cons_of_mem _ h3)
      · simp only [Sheet.assign, h1, h2, if_false, Bool.false_eq_true, List.mem_cons] at h
        rcases h with h | h
        · subst h; exact Or.inl rfl
        · exact Or.inr (List.mem_cons_of_mem _ h)

theorem wellFormed_assign {s : Sheet} (h : WellFormed s) (pos : CPos) (c : CCell)
    (hc : c.m_Stack = [] ∨ ∃ pre e, c.m_Stack = pre ++ Expr.program e) :
    WellFormed (Sheet.assign s pos c) := by
  intro entry hmem
  rcases Sheet.mem_assign_cell s pos c entry hmem with h1 | h1
  · rw [h1]; exact hc
  · exact h entry h1

theorem wellFormed_slot {s : Sheet} (h : WellFormed s) (pos : CPos) :
    (s.slot pos).m_Stack = [] ∨ ∃ pre e, (s.slot pos).m_Stack = pre ++ Expr.program e := by
  unfold Sheet.slot
  cases hf : s.find pos with
  | none => exact Or.inl rfl
  | some c =>
    obtain ⟨k, hk⟩ := Sheet.find_mem s pos c hf
    exact h (k, c) hk

theorem wellFormed_setCell (pf : Platform) (parser : ExprParser) (hparser : PostfixParser parser)
    {s : Sheet} (h : WellFormed s) (pos : CPos) (contents : Bytes) :
    WellFormed (setCell pf parser s pos contents).2 := by
  by_cases hc : contents.head? = some 61
  · cases hp : parseProgram parser contents with
    | none =>
      rw [setCell_rejected pf parser s pos contents hc hp]
      exact h
    | some stack =>
      rw [setCell_formula pf parser s pos contents stack hc hp]
      apply wellFormed_assign h
      rcases hparser contents stack hp with h1 | ⟨e, h1⟩
      · exact Or.inl h1
      · exact Or.inr ⟨[], e, by simp [h1]⟩
  · rw [setCell_literal pf parser s pos contents hc]
    apply wellFormed_assign h
    right
    rcases literalNode_leaf pf contents with ⟨d, hd⟩ | ⟨t, ht⟩
    · exact ⟨(s.slot pos).m_Stack, .num d, by rw [hd]; rfl⟩
    · exact ⟨(s.slot pos).m_Stack, .str t, by rw [ht]; rfl⟩

theorem wellFormed_copyStep {m : Sheet} (hm : WellFormed m) (dst src : CPos) {ns : Sheet}
    (hns : WellFormed ns) (x y : Nat) : WellFormed (copyStep m dst src ns x y) := by
  unfold copyStep
  dsimp only
  cases hf : m.find { m_Row := src.m_Row + y, m_Column := src.m_Column + x } with
  | none => exact wellFormed_assign hns _ _ (Or.inl rfl)
  | some cell =>
    apply wellFormed_assign hns
    obtain ⟨k, hk⟩ := Sheet.find_mem m _ cell hf
    rcases hm (k, cell) hk with h1 | ⟨pre, e, h1⟩
    · left
      simp only at h1 ⊢
      rw [h1]; rfl
    · right
      simp only at h1 ⊢
      refine ⟨pre.map (COperation.cloneShift (dst.m_Row - src.m_Row)
        (dst.m_Column - src.m_Column)), e.cloneShift (dst.m_Row - src.m_Row)
        (dst.m_Column - src.m_Column), ?_⟩
      rw [h1, List.map_append, program_cloneShift]

theorem wellFormed_copyRect {m : Sheet} (hm : WellFormed m) (dst src : CPos) (w h : Int) :
    WellFormed (copyRect m dst src w h) := by
  have hstage : WellFormed (copyStage m dst src w h) := by
    unfold copyStage
    have hrow : ∀ (ys : List Nat) (x : Nat) (ns : Sheet), WellFormed ns →
        WellFormed (ys.foldl (fun acc2 y => copyStep m dst src acc2 x y) ns) := by
      intro ys
      induction ys with
      | nil => intro x ns hns; exact hns
      | cons y rest ih =>
        intro x ns hns
        exact ih x _ (wellFormed_copyStep hm dst src hns x y)
    have hrows : ∀ (xs : List Nat) (ns : Sheet), WellFormed ns →
        WellFormed (xs.foldl (fun acc x =>
          (List.range h.toNat).foldl (fun acc2 y => copyStep m dst src acc2 x y) acc) ns) := by
      intro xs
      induction xs with
      | nil => intro ns hns; exact hns
      | cons x rest ih =>
        intro ns hns
        exact ih _ (hrow _ x ns hns)
    exact hrows _ [] (fun e he => by simp at he)
  unfold copyRect mergeInto
  have hmerge : ∀ (ns acc : Sheet), WellFormed ns → WellFormed acc →
      WellFormed (ns.foldl (fun acc e => acc.assign e.1 e.2) acc) := by
    intro ns
    induction ns with
    | nil => intro acc _ hacc; exact hacc
    | cons e rest ih =>
      intro acc hns hacc
      refine ih _ (fun x hx => hns x (List.mem_cons_of_mem _ hx)) ?_
      exact wellFormed_assign hacc e.1 e.2 (hns e (List.mem_cons_self _ _))
  exact hmerge _ m hstage hm

theorem wellFormed_built (pf : Platform) (parser : ExprParser) (hparser : PostfixParser parser)
    (s : Sheet) (h : Built pf parser s) : WellFormed s := by
  induction h with
  | empty => intro e he; simp at he
  | bySetCell s pos contents _ ih => exact wellFormed_setCell pf parser hparser ih pos contents
  | byCopyRect s dst src w h _ ih => exact wellFormed_copyRect ih dst src w h

theorem exampleParser_postfix : PostfixParser exampleParser := by
  intro contents stack hp
  by_cases h1 : contents = textA1plusA2
  · subst h1
    have : parseProgram exampleParser textA1plusA2
        = some (Expr.program (.bin .add (.ref posA1) (.ref posA2))) := by decide
    rw [this] at hp
    exact Or.inr ⟨_, (Option.some.inj hp).symm⟩
  · by_cases h2 : contents = textA1plusA1
    · subst h2
      have : parseProgram exampleParser textA1plusA1
          = some (Expr.program (.bin .add (.ref posA1) (.ref posA1))) := by decide
      rw [this] at hp
      exact Or.inr ⟨_, (Option.some.inj hp).symm⟩
    · by_cases h3 : contents = textBadRef
      · subst h3
        have : parseProgram exampleParser textBadRef = none := by decide
        rw [this] at hp
        cases hp
      · exfalso
        unfold parseProgram exampleParser at hp
        simp [h1, h2, h3, CMyExpressionBuilder.run] at hp

/-- C36. Index safety: in a sheet in which every non-empty program ends with
the postfix form of an expression tree (any nodes may precede it), no
evaluation started by `getValue` computes an index `size - 1 - depth` outside
its program: at every bound on the nesting the outcome is not `outOfRange`,
`getValue` returns a value, and the program of a tree evaluated at its place
in a stack stays in range.  Every sheet built from the empty sheet by
`setCell` and `copyRect` is such a sheet, provided that the parser keeps its
contract and reports the callbacks of an accepted text in postfix order. -/
theorem C36_index_safety (pf : Platform) (sheet : Sheet) (hwf : WellFormed sheet) :
    (∀ pos, getValue pf sheet pos ≠ .outOfRange ∧ ∃ v, getValue pf sheet pos = .ok (v, sheet)) ∧
      (∀ fuel pos, getValueFuel pf fuel sheet pos ≠ .outOfRange) ∧
      (∀ (fuel : Nat) (e : Expr) (pre suf : List COperation),
        operandWith (evaluate pf (fuel + 1)) (pre ++ e.program ++ suf) sheet suf.length
          ≠ .outOfRange) ∧
      (∀ (parser : ExprParser), PostfixParser parser → ∀ s, Built pf parser s →
        WellFormed s ∧ ∀ pos, getValue pf s pos ≠ .outOfRange) := by
  refine ⟨fun pos => ⟨getValueFuel_in_range pf _ sheet hwf pos, getValue_ok pf sheet hwf pos⟩,
    fun fuel pos => getValueFuel_in_range pf fuel sheet hwf pos,
    fun fuel e pre suf => operand_in_range pf e fuel pre suf sheet
      (getValueFuel_in_range pf fuel sheet hwf), ?_⟩
  intro parser hparser s hs
  have h := wellFormed_built pf parser hparser s hs
  exact ⟨h, fun pos => getValueFuel_in_range pf _ s h pos⟩

/-- C36 on `sheetS1`, and on the sheet built by `setCell(A1, "x")`,
`setCell(A2, "2")`, `setCell(B1, "=A1+A2")` and `copyRect(B2, B1, 1, 1)`. -/
theorem C36_index_safety_witness :
    WellFormed sheetS1 ∧
      ((∀ pos, getValue examplePlatform sheetS1 pos ≠ .outOfRange ∧
          ∃ v, getValue examplePlatform sheetS1 pos = .ok (v, sheetS1)) ∧
        (∀ fuel pos, getValueFuel examplePlatform fuel sheetS1 pos ≠ .outOfRange) ∧
        (∀ (fuel : Nat) (e : Expr) (pre suf : List COperation),
          operandWith (evaluate examplePlatform (fuel + 1)) (pre ++ e.program ++ suf) sheetS1
            suf.length ≠ .outOfRange) ∧
        (∀ (parser : ExprParser), PostfixParser parser → ∀ s, Built examplePlatform parser s →
          WellFormed s ∧ ∀ pos, getValue examplePlatform s pos ≠ .outOfRange)) ∧
      PostfixParser exampleParser ∧
      Built examplePlatform exampleParser
        (copyRect (setCell examplePlatform exampleParser sheetXTwo posB1 textA1plusA2).2
          posB2 posB1 1 1) :=
  ⟨sheetS1_wellFormed, C36_index_safety examplePlatform sheetS1 sheetS1_wellFormed,
    exampleParser_postfix,
    Built.byCopyRect _ posB2 posB1 1 1
      (Built.bySetCell _ posB1 textA1plusA2
        (Built.bySetCell _ posA2 text2 (Built.bySetCell _ posA1 textX Built.empty)))⟩

/-! ## C37, C38: what `load` accepts -/

theorem program_root (e : Expr) : ∃ init root, e.program = init ++ [root] ∧
    (init = [] → root ≠ .CAddition) := by
  cases e with
  | num d => exact ⟨[], _, rfl, fun _ => by simp⟩
  | str s => exact ⟨[], _, rfl, fun _ => by simp⟩
  | ref p => exact ⟨[], _, rfl, fun _ => by simp⟩
  | range => exact ⟨[], _, rfl, fun _ => by simp⟩
  | func args => exact ⟨args, _, rfl, fun _ => by simp⟩
  | neg e => exact ⟨e.program, _, rfl, fun _ => by simp⟩
  | bin op l r =>
    refine ⟨l.program ++ r.program, _, rfl, ?_⟩
    intro h
    have := program_ne_nil l
    simp only [List.append_eq_nil] at h
    exact absurd h.1 this

/-- The program `[Add]` is not the postfix form of an expression tree, nor
does it end with one. -/
theorem add_alone_not_wellFormed : ¬ WellFormed sheetAdd := by
  intro h
  have h1 := h (posA1, { m_Stack := [.CAddition] }) (List.mem_singleton_self _)
  rcases h1 with h1 | ⟨pre, e, h1⟩
  · simp at h1
  · obtain ⟨init, root, hp, hroot⟩ := program_root e
    rw [hp, ← List.append_assoc] at h1
    have h2 : ([] : List COperation) ++ [COperation.CAddition] = (pre ++ init) ++ [root] := h1
    have h3 := List.append_inj' h2 rfl
    have h4 : root = .CAddition := by
      have := h3.2
      simp only [List.cons.injEq, and_true] at this
      exact this.symm
    have h5 : init = [] := by
      have := h3.1.symm
      simp only [List.append_eq_nil] at this
      exact this.2
    exact hroot h5 h4

/-- C37. There is a byte string, `addFile`, for which `load` returns true and
installs a cell at `A1` whose program is the single node `Add` (tag 1), which
is not a well-formed postfix program; `getValue` on that cell leaves the
bounds of the program: the operand index `size - 1 - depth` is `1 - 1 - 1`. -/
theorem C37_load_accepts_malformed_program :
    load [] [] { data := addFile } = (true, sheetAdd) ∧
      sheetAdd.find posA1 = some { m_Stack := [.CAddition] } ∧
      ¬ WellFormed sheetAdd ∧
      (∀ (pf : Platform), getValue pf sheetAdd posA1 = .outOfRange) ∧
      (∀ (pf : Platform) (fuel : Nat) (s : Sheet),
        operandWith (evaluate pf fuel) [.CAddition] s 1 = .outOfRange) := by
  refine ⟨by decide, by decide, add_alone_not_wellFormed, ?_, ?_⟩
  · intro pf
    rfl
  · intro pf fuel s
    rfl

/-- C38. There is a well-framed byte string, `stuckFile`, for which `load`
returns true and installs the cell `A1` with the program `[Num 5]` and a set
flag.  On that sheet `getValue(A1)` returns `undefined` and leaves the sheet,
the set flag included, as it is, so every later call returns `undefined` as
well; the flags of a loaded sheet need not be clear. -/
theorem C38_load_trusts_flag_byte :
    load [] [] { data := stuckFile } = (true, sheetStuck) ∧
      sheetStuck.find posA1
        = some { m_Stack := [.CNumber (Double.ofNat 5)], m_IsCalculated := true } ∧
      (∀ (pf : Platform), getValue pf sheetStuck posA1 = .ok (.undefined, sheetStuck)) ∧
      ¬ AllClear sheetStuck := by
  refine ⟨by decide, by decide, ?_, by decide⟩
  intro pf
  exact getValue_flag_set pf sheetStuck posA1
    { m_Stack := [.CNumber (Double.ofNat 5)], m_IsCalculated := true } (by decide) rfl

/-! ## C39: `copyRect` there and back -/

theorem cloneShift_back (dr dc : Int) (op : COperation) :
    COperation.cloneShift (-dr) (-dc) (COperation.cloneShift dr dc op) = op := by
  cases op <;> try rfl
  case CReference p =>
    obtain ⟨r, ar, c, ac⟩ := p
    cases ar <;> cases ac <;> simp [COperation.cloneShift, CPos.shift]

theorem cloneShift_map_back (dr dc : Int) (st : List COperation) :
    (st.map (COperation.cloneShift dr dc)).map (COperation.cloneShift (-dr) (-dc)) = st := by
  induction st with
  | nil => rfl
  | cons op rest ih => simp only [List.map_cons, cloneShift_back, ih]

/-- C39. For every sheet, `dst`, `src`, `w`, `h`: after `copyRect(dst, src, w, h)`
followed by `copyRect(src, dst, w, h)` every position of the source rectangle
holds a cell with the program the sheet held there before both calls, and a
cell with an empty program where the sheet held no cell; shifting the
relative parts of a reference by the offset and then by the opposite offset
gives the reference back.  Overlapping rectangles are included. -/
theorem C39_copy_there_and_back (m : Sheet) (dst src : CPos) (w h : Int) (p : CPos)
    (hp : src.m_Row ≤ p.m_Row ∧ p.m_Row < src.m_Row + h ∧
      src.m_Column ≤ p.m_Column ∧ p.m_Column < src.m_Column + w) :
    (∃ cell, (copyRect (copyRect m dst src w h) src dst w h).find p = some cell ∧
        (∀ c0, m.find p = some c0 → cell.m_Stack = c0.m_Stack) ∧
        (m.find p = none → cell.m_Stack = [])) ∧
      (∀ (op : COperation),
        COperation.cloneShift (src.m_Row - dst.m_Row) (src.m_Column - dst.m_Column)
          (COperation.cloneShift (dst.m_Row - src.m_Row) (dst.m_Column - src.m_Column) op)
          = op) := by
  have hback : ∀ (st : List COperation),
      (st.map (COperation.cloneShift (dst.m_Row - src.m_Row) (dst.m_Column - src.m_Column))).map
        (COperation.cloneShift (src.m_Row - dst.m_Row) (src.m_Column - dst.m_Column)) = st := by
    intro st
    have h1 : src.m_Row - dst.m_Row = -(dst.m_Row - src.m_Row) := by omega
    have h2 : src.m_Column - dst.m_Column = -(dst.m_Column - src.m_Column) := by omega
    rw [h1, h2]
    exact cloneShift_map_back _ _ st
  constructor
  · have hin : inRect src w h p := hp
    rw [(copyRect_find (copyRect m dst src w h) src dst w h p).1 hin]
    refine ⟨_, rfl, ?_⟩
    have hD : inRect dst w h
        ({ m_Row := dst.m_Row + (p.m_Row - src.m_Row),
           m_Column := dst.m_Column + (p.m_Column - src.m_Column) } : CPos) := by
      unfold inRect
      simp only
      omega
    have hsame : CPos.same
        ({ m_Row := src.m_Row + (dst.m_Row + (p.m_Row - src.m_Row) - dst.m_Row),
           m_Column :=
             src.m_Column + (dst.m_Column + (p.m_Column - src.m_Column) - dst.m_Column) } : CPos)
        p = true := by
      simp only [CPos.same, Bool.and_eq_true, decide_eq_true_eq]
      constructor <;> omega
    unfold stagedAt
    rw [(copyRect_find m dst src w h _).1 hD]
    dsimp only
    unfold stagedAt
    dsimp only
    rw [Sheet.find_congr m hsame]
    cases hf : m.find p with
    | none =>
      dsimp only
      exact ⟨fun c0 hc => (by cases hc), fun _ => rfl⟩
    | some c =>
      dsimp only
      refine ⟨fun c0 hc => ?_, fun hn => (by cases hn)⟩
      cases hc
      exact hback c.m_Stack
  · intro op
    have h1 : src.m_Row - dst.m_Row = -(dst.m_Row - src.m_Row) := by omega
    have h2 : src.m_Column - dst.m_Column = -(dst.m_Column - src.m_Column) := by omega
    rw [h1, h2]
    exact cloneShift_back _ _ op

/-- C39 on `sheetOverlap` with the overlapping rectangles `H12..H13` and
`H13..H14`: after `copyRect(H12, H13, 1, 2)` and `copyRect(H13, H12, 1, 2)` the
cell `H13` holds `H14 + 5` again. -/
theorem C39_copy_there_and_back_witness :
    (posH13.m_Row ≤ posH13.m_Row ∧ posH13.m_Row < posH13.m_Row + 2 ∧
        posH13.m_Column ≤ posH13.m_Column ∧ posH13.m_Column < posH13.m_Column + 1) ∧
      (∃ cell, (copyRect (copyRect sheetOverlap posH12 posH13 1 2) posH13 posH12 1 2).find posH13
          = some cell ∧
        (∀ c0, sheetOverlap.find posH13 = some c0 → cell.m_Stack = c0.m_Stack) ∧
        (sheetOverlap.find posH13 = none → cell.m_Stack = [])) ∧
      (copyRect (copyRect sheetOverlap posH12 posH13 1 2) posH13 posH12 1 2).find posH13
        = some { m_Stack := [.CReference posH14, .CNumber (Double.ofNat 5), .CAddition] } :=
  ⟨by decide,
    (C39_copy_there_and_back sheetOverlap posH12 posH13 1 2 posH13 (by decide)).1,
    by decide⟩

end Spreadsheet
